import Mathlib

/-! MiniVSFS image tools: `mkfs_builder` and `mkfs_adder`

A shallow embedding of `Complete_mkfs_builder.c` and `Complete_mkfs_adder.c`.

* A byte is a `Nat` below 256; a file or an image is a `List Nat` of bytes.
* Records (`superblock_t`, `inode_t`, `dirent64_t`) are structures with a packed
  little-endian serialisation (`bytes`) and its inverse (`parse`).
* Machine arithmetic is done on `Nat` with an explicit `% 2 ^ w` wherever the C
  type could wrap.
* A `FILE` is the content of the file together with the stream position.
* `time(NULL)` is a parameter `now : Nat → Nat`: `now k` is what the k-th call
  returns.
-/

namespace Mkfs

/-! ## Constants -/

def BS : Nat := 4096
def INODE_SIZE : Nat := 128
def ROOT_INO : Nat := 1
def DIRECT_MAX : Nat := 12

/-! ## Little-endian fields -/

/-- The `w` bytes of the little-endian representation of `n` (truncated to `w` bytes). -/
def le_bytes (n : Nat) : Nat → List Nat
  | 0 => []
  | w + 1 => (n % 256) :: le_bytes (n / 256) w

/-- The value of a little-endian byte string. -/
def le_value : List Nat → Nat
  | [] => 0
  | b :: bs => b + 256 * le_value bs

/-- The field of `w` bytes at offset `off` of a record. -/
def field (rec : List Nat) (off w : Nat) : Nat := le_value ((rec.drop off).take w)

/-! ## Records -/

structure superblock_t where
  magic : Nat
  version : Nat
  block_size : Nat
  total_blocks : Nat
  inode_count : Nat
  inode_bitmap_start : Nat
  inode_bitmap_blocks : Nat
  data_bitmap_start : Nat
  data_bitmap_blocks : Nat
  inode_table_start : Nat
  inode_table_blocks : Nat
  data_region_start : Nat
  data_region_blocks : Nat
  root_inode : Nat
  mtime_epoch : Nat
  flags : Nat
  checksum : Nat
deriving DecidableEq, Repr

/-- The packed 116-byte record. -/
def superblock_t.bytes (sb : superblock_t) : List Nat :=
  le_bytes sb.magic 4 ++ le_bytes sb.version 4 ++ le_bytes sb.block_size 4 ++
  le_bytes sb.total_blocks 8 ++ le_bytes sb.inode_count 8 ++
  le_bytes sb.inode_bitmap_start 8 ++ le_bytes sb.inode_bitmap_blocks 8 ++
  le_bytes sb.data_bitmap_start 8 ++ le_bytes sb.data_bitmap_blocks 8 ++
  le_bytes sb.inode_table_start 8 ++ le_bytes sb.inode_table_blocks 8 ++
  le_bytes sb.data_region_start 8 ++ le_bytes sb.data_region_blocks 8 ++
  le_bytes sb.root_inode 8 ++ le_bytes sb.mtime_epoch 8 ++
  le_bytes sb.flags 4 ++ le_bytes sb.checksum 4

/-- Reading a `superblock_t` out of 116 bytes. -/
def superblock_t.parse (r : List Nat) : superblock_t :=
  { magic := field r 0 4, version := field r 4 4, block_size := field r 8 4,
    total_blocks := field r 12 8, inode_count := field r 20 8,
    inode_bitmap_start := field r 28 8, inode_bitmap_blocks := field r 36 8,
    data_bitmap_start := field r 44 8, data_bitmap_blocks := field r 52 8,
    inode_table_start := field r 60 8, inode_table_blocks := field r 68 8,
    data_region_start := field r 76 8, data_region_blocks := field r 84 8,
    root_inode := field r 92 8, mtime_epoch := field r 100 8,
    flags := field r 108 4, checksum := field r 112 4 }

structure inode_t where
  mode : Nat
  links : Nat
  uid : Nat
  gid : Nat
  size_bytes : Nat
  atime : Nat
  mtime : Nat
  ctime : Nat
  direct : List Nat
  reserved_0 : Nat
  reserved_1 : Nat
  reserved_2 : Nat
  proj_id : Nat
  uid16_gid16 : Nat
  xattr_ptr : Nat
  inode_crc : Nat
deriving DecidableEq, Repr

/-- The twelve 32-bit direct pointers, 48 bytes. -/
def direct_bytes (d : List Nat) : List Nat :=
  ((List.range 12).map (fun i => le_bytes (d.getD i 0) 4)).flatten

/-- The packed 128-byte record. -/
def inode_t.bytes (ino : inode_t) : List Nat :=
  le_bytes ino.mode 2 ++ le_bytes ino.links 2 ++ le_bytes ino.uid 4 ++ le_bytes ino.gid 4 ++
  le_bytes ino.size_bytes 8 ++ le_bytes ino.atime 8 ++ le_bytes ino.mtime 8 ++
  le_bytes ino.ctime 8 ++ direct_bytes ino.direct ++
  le_bytes ino.reserved_0 4 ++ le_bytes ino.reserved_1 4 ++ le_bytes ino.reserved_2 4 ++
  le_bytes ino.proj_id 4 ++ le_bytes ino.uid16_gid16 4 ++
  le_bytes ino.xattr_ptr 8 ++ le_bytes ino.inode_crc 8

/-- Reading an `inode_t` out of 128 bytes. -/
def inode_t.parse (r : List Nat) : inode_t :=
  { mode := field r 0 2, links := field r 2 2, uid := field r 4 4, gid := field r 8 4,
    size_bytes := field r 12 8, atime := field r 20 8, mtime := field r 28 8,
    ctime := field r 36 8,
    direct := (List.range 12).map (fun i => field r (44 + 4 * i) 4),
    reserved_0 := field r 92 4, reserved_1 := field r 96 4, reserved_2 := field r 100 4,
    proj_id := field r 104 4, uid16_gid16 := field r 108 4,
    xattr_ptr := field r 112 8, inode_crc := field r 120 8 }

structure dirent64_t where
  inode_no : Nat
  type : Nat
  name : List Nat
  checksum : Nat
deriving DecidableEq, Repr

/-- A buffer of exactly `n` bytes holding `l` (cut, or zero-filled behind). -/
def fit (l : List Nat) (n : Nat) : List Nat := l.take n ++ List.replicate (n - l.length) 0

/-- The packed 64-byte record. -/
def dirent64_t.bytes (de : dirent64_t) : List Nat :=
  le_bytes de.inode_no 4 ++ le_bytes de.type 1 ++ fit de.name 58 ++ le_bytes de.checksum 1

/-- Reading a `dirent64_t` out of 64 bytes. -/
def dirent64_t.parse (r : List Nat) : dirent64_t :=
  { inode_no := field r 0 4, type := field r 4 1, name := (r.drop 5).take 58,
    checksum := field r 63 1 }

/-! ## Checksums -/

/-- One round of the inner loop of `crc32_init`. -/
def crc32_round (c : Nat) : Nat :=
  if c &&& 1 ≠ 0 then 0xEDB88320 ^^^ (c >>> 1) else c >>> 1

/-- The table `CRC32_TAB` as filled by `crc32_init`. -/
def crc32_init : List Nat :=
  (List.range 256).map (fun i => crc32_round^[8] i)

/-- The global table, after `crc32_init()` has run (the first thing both programs do). -/
def CRC32_TAB : List Nat := crc32_init

/-- One iteration of the loop of `crc32`. -/
def crc32_update (c b : Nat) : Nat :=
  CRC32_TAB.getD ((c ^^^ b) &&& 0xFF) 0 ^^^ (c >>> 8)

def crc32 (data : List Nat) : Nat :=
  data.foldl crc32_update 0xFFFFFFFF ^^^ 0xFFFFFFFF

/-- The call `crc32((void*)sb, BS - 4)` reads `BS - 4` bytes starting at the record. The
record has 116 bytes; the other 3976 bytes are read from the memory behind it. `adjacent` is
that memory as far as it can be read: when it ends before the 3976th byte the read faults
and the process is killed, which is the result `none`. -/
def superblock_crc_finalize (sb : superblock_t) (adjacent : List Nat) : Option superblock_t :=
  let sb0 := { sb with checksum := 0 }
  if adjacent.length < BS - 4 - 116 then none
  else
    let s := crc32 ((sb0.bytes ++ adjacent).take (BS - 4))
    some { sb0 with checksum := s }

def inode_crc_finalize (ino : inode_t) : inode_t :=
  let tmp := ino.bytes.take 120 ++ List.replicate 8 0
  let c := crc32 (tmp.take 120)
  { ino with inode_crc := c }

/-- The exclusive-or of a list of bytes, as accumulated in a `uint8_t`. -/
def xor_fold (p : List Nat) : Nat := p.foldl (fun x b => (x ^^^ b) % 256) 0

def dirent_checksum_finalize (de : dirent64_t) : dirent64_t :=
  { de with checksum := xor_fold (de.bytes.take 63) }

/-! ## Streams -/

structure FILE where
  data : List Nat
  pos : Nat
deriving DecidableEq, Repr

/-- The call `fseek(f, off, SEEK_SET)`, `off` being the argument before its conversion to
`long`: an argument of 2^63 or more is a negative `long`, the call fails and the position
stays. -/
def fseek (f : FILE) (off : Nat) : FILE :=
  if off < 2 ^ 63 then { f with pos := off } else f

/-- The call `fread(buf, 1, n, f)`: the bytes read (fewer than `n` at the end of the file)
and the stream behind them. -/
def fread (f : FILE) (n : Nat) : List Nat × FILE :=
  let got := (f.data.drop f.pos).take n
  (got, { f with pos := f.pos + got.length })

/-- The call `fwrite(buf, 1, n, f)`: the bytes overwrite the content at the position, the
file growing (zero-filled up to the position) as needed. -/
def fwrite (f : FILE) (buf : List Nat) : FILE :=
  { data := f.data.take f.pos ++ List.replicate (f.pos - f.data.length) 0 ++ buf ++
      f.data.drop (f.pos + buf.length),
    pos := f.pos + buf.length }

/-- A block buffer holding `r` at its start, zero behind (`memset` then `memcpy`). -/
def block_of (r : List Nat) : List Nat := fit r BS

/-- Writing `n` times the same block. -/
def fwrite_n (f : FILE) (blk : List Nat) : Nat → FILE
  | 0 => f
  | n + 1 => fwrite_n (fwrite f blk) blk n

/-! ## The formatter, `Complete_mkfs_builder.c` -/

/-- The layout arithmetic of `main`, in `uint64_t`:
`(total_blocks, inode_table_blocks, data_region_start, data_region_blocks)`. -/
def layout (size_kib inodes : Nat) : Nat × Nat × Nat × Nat :=
  let total_blocks := (size_kib * 1024 % 2 ^ 64) / BS
  let inode_table_blocks := ((inodes * INODE_SIZE + BS - 1) % 2 ^ 64) / BS
  let data_region_start := (3 + inode_table_blocks) % 2 ^ 64
  let data_region_blocks := (total_blocks + 2 ^ 64 - data_region_start) % 2 ^ 64
  (total_blocks, inode_table_blocks, data_region_start, data_region_blocks)

/-- The superblock of `main` before `superblock_crc_finalize`. -/
def builder_sb_init (size_kib inodes : Nat) (now : Nat → Nat) : superblock_t :=
  let (total_blocks, inode_table_blocks, data_region_start, data_region_blocks) :=
    layout size_kib inodes
  { magic := 0x4D565346, version := 1, block_size := BS,
    total_blocks := total_blocks, inode_count := inodes,
    inode_bitmap_start := 1, inode_bitmap_blocks := 1,
    data_bitmap_start := 2, data_bitmap_blocks := 1,
    inode_table_start := 3, inode_table_blocks := inode_table_blocks,
    data_region_start := data_region_start, data_region_blocks := data_region_blocks,
    root_inode := ROOT_INO, mtime_epoch := now 0 % 2 ^ 64, flags := 0, checksum := 0 }

/-- The superblock of `main` as written by a run that `superblock_crc_finalize` does not
end: the record with the checksum over it and the 3976 bytes behind it. -/
def builder_sb (size_kib inodes : Nat) (now : Nat → Nat) (adjacent : List Nat) : superblock_t :=
  let sb0 := { builder_sb_init size_kib inodes now with checksum := 0 }
  let s := crc32 ((sb0.bytes ++ adjacent).take (BS - 4))
  { sb0 with checksum := s }

/-- The root inode of `main` as written. -/
def builder_root_inode (size_kib inodes : Nat) (now : Nat → Nat) : inode_t :=
  inode_crc_finalize
    { mode := 0o040000, links := 2, uid := 0, gid := 0, size_bytes := 2 * 64,
      atime := now 1 % 2 ^ 64, mtime := now 2 % 2 ^ 64, ctime := now 3 % 2 ^ 64,
      direct := ((layout size_kib inodes).2.2.1 % 2 ^ 32) :: List.replicate 11 0,
      reserved_0 := 0, reserved_1 := 0, reserved_2 := 0, proj_id := 13,
      uid16_gid16 := 0, xattr_ptr := 0, inode_crc := 0 }

def dot_entry : dirent64_t :=
  dirent_checksum_finalize
    { inode_no := ROOT_INO, type := 2, name := 46 :: List.replicate 57 0, checksum := 0 }

def dotdot_entry : dirent64_t :=
  dirent_checksum_finalize
    { inode_no := ROOT_INO, type := 2, name := 46 :: 46 :: List.replicate 56 0, checksum := 0 }

/-- The loop writing the inode table: block 0 holds the root inode, the others are zero. -/
def write_inode_table (f : FILE) (root : inode_t) (inode_table_blocks : Nat) : Nat → FILE
  | 0 => f
  | n + 1 =>
    let i := inode_table_blocks - (n + 1)
    let block := if i = 0 then block_of root.bytes else List.replicate BS 0
    write_inode_table (fwrite f block) root inode_table_blocks n

/-- How a run of the formatter ends, with the content of the image file it leaves:
`parse_args` refuses the arguments and no file is opened; the process is killed by the read
behind the superblock record, after `fopen(image_name, "wb")` and before the first `fwrite`;
or `main` returns 0. -/
inductive builder_result where
  | refused : builder_result
  | killed (file : List Nat) : builder_result
  | finished (file : List Nat) : builder_result
deriving DecidableEq, Repr

/-- The program `mkfs_builder --image _ --size-kib size_kib --inodes inodes`; `adjacent` is
the readable memory behind the variable `sb` of `main`. -/
def mkfs_builder (size_kib inodes : Nat) (now : Nat → Nat) (adjacent : List Nat) :
    builder_result :=
  if size_kib < 180 ∨ size_kib > 4096 ∨ size_kib % 4 ≠ 0 then .refused
  else if inodes < 128 ∨ inodes > 512 then .refused
  else
    let (_, inode_table_blocks, data_region_start, data_region_blocks) :=
      layout size_kib inodes
    let img : FILE := { data := [], pos := 0 }
    match superblock_crc_finalize (builder_sb_init size_kib inodes now) adjacent with
    | none => .killed img.data
    | some sb =>
      let img := fwrite img (block_of sb.bytes)
      let img := fwrite img (1 :: List.replicate (BS - 1) 0)
      let img := fwrite img (1 :: List.replicate (BS - 1) 0)
      let root_inode := builder_root_inode size_kib inodes now
      let img := write_inode_table img root_inode inode_table_blocks inode_table_blocks
      let img := fseek img (data_region_start * BS % 2 ^ 64)
      let img := fwrite img (block_of (dot_entry.bytes ++ dotdot_entry.bytes))
      let img := fwrite_n img (List.replicate BS 0) (data_region_blocks - 1)
      .finished img.data

/-! ## The inserter, `Complete_mkfs_adder.c` -/

/-- The bit loop of `find_free_inode` for one byte, from `bit_idx` on, `fuel = 8 - bit_idx`.
`none`: the loop ran to its end. `some (v, none)`: `return v` with nothing written.
`some (v, some b)`: the bitmap `b` is written back, then `return v`. -/
def inode_scan_bits (bitmap : List Nat) (inode_count byte_idx : Nat) :
    Nat → Nat → Option (Nat × Option (List Nat))
  | 0, _ => none
  | fuel + 1, bit_idx =>
    let inode_num := byte_idx * 8 + bit_idx + 1
    if inode_num > inode_count then some (0, none)
    else if bitmap.getD byte_idx 0 &&& (1 <<< bit_idx) = 0 then
      some (inode_num,
        some (bitmap.set byte_idx ((bitmap.getD byte_idx 0 ||| (1 <<< bit_idx)) % 256)))
    else inode_scan_bits bitmap inode_count byte_idx fuel (bit_idx + 1)

/-- The byte loop of `find_free_inode`, from `byte_idx` on, `fuel = BS - byte_idx`. -/
def inode_scan (bitmap : List Nat) (inode_count : Nat) : Nat → Nat → Nat × Option (List Nat)
  | 0, _ => (0, none)
  | fuel + 1, byte_idx =>
    match inode_scan_bits bitmap inode_count byte_idx 8 0 with
    | some r => r
    | none => inode_scan bitmap inode_count fuel (byte_idx + 1)

def find_free_inode (img : FILE) (sb : superblock_t) : Nat × FILE :=
  let img := fseek img (sb.inode_bitmap_start * BS % 2 ^ 64)
  let (bitmap, img) := fread img BS
  if bitmap.length ≠ BS then (0, img)
  else
    match inode_scan bitmap sb.inode_count BS 0 with
    | (v, none) => (v, img)
    | (v, some bitmap) =>
      let img := fseek img (sb.inode_bitmap_start * BS % 2 ^ 64)
      let img := fwrite img bitmap
      (v, img)

/-- The bit loop of `find_free_data_block` for one byte; results as for `inode_scan_bits`. -/
def data_scan_bits (bitmap : List Nat) (sb : superblock_t) (byte_idx : Nat) :
    Nat → Nat → Option (Nat × Option (List Nat))
  | 0, _ => none
  | fuel + 1, bit_idx =>
    let block_num := byte_idx * 8 + bit_idx
    if block_num ≥ sb.data_region_blocks then some (0, none)
    else if bitmap.getD byte_idx 0 &&& (1 <<< bit_idx) = 0 then
      some ((sb.data_region_start + block_num) % 2 ^ 64,
        some (bitmap.set byte_idx ((bitmap.getD byte_idx 0 ||| (1 <<< bit_idx)) % 256)))
    else data_scan_bits bitmap sb byte_idx fuel (bit_idx + 1)

/-- The byte loop of `find_free_data_block`. -/
def data_scan (bitmap : List Nat) (sb : superblock_t) : Nat → Nat → Nat × Option (List Nat)
  | 0, _ => (0, none)
  | fuel + 1, byte_idx =>
    match data_scan_bits bitmap sb byte_idx 8 0 with
    | some r => r
    | none => data_scan bitmap sb fuel (byte_idx + 1)

def find_free_data_block (img : FILE) (sb : superblock_t) : Nat × FILE :=
  let img := fseek img (sb.data_bitmap_start * BS % 2 ^ 64)
  let (bitmap, img) := fread img BS
  if bitmap.length ≠ BS then (0, img)
  else
    match data_scan bitmap sb BS 0 with
    | (v, none) => (v, img)
    | (v, some bitmap) =>
      let img := fseek img (sb.data_bitmap_start * BS % 2 ^ 64)
      let img := fwrite img bitmap
      (v, img)

/-- The C string in a buffer: the bytes before the first NUL (the end of the list counts as
one). -/
def cstr (s : List Nat) : List Nat := s.takeWhile (fun c => c ≠ 0)

/-- The `n` bytes stored by `strncpy(dst, src, n)`. -/
def strncpy (src : List Nat) (n : Nat) : List Nat := fit (cstr src) n

/-- Whether `strncmp(a, b, n) == 0`; a byte behind the end of a list reads as NUL. -/
def strncmp_eq : List Nat → List Nat → Nat → Bool
  | _, _, 0 => true
  | a, b, n + 1 =>
    if a.headD 0 ≠ b.headD 0 then false
    else if a.headD 0 = 0 then true
    else strncmp_eq a.tail b.tail n

/-- The record `entries[i]` of a directory block. -/
def entry_at (dir_block : List Nat) (i : Nat) : dirent64_t :=
  dirent64_t.parse ((dir_block.drop (64 * i)).take 64)

/-- The block with `entries[i]` replaced. -/
def set_entry (dir_block : List Nat) (i : Nat) (de : dirent64_t) : List Nat :=
  dir_block.take (64 * i) ++ de.bytes ++ dir_block.drop (64 * i + 64)

/-- The loop of `file_exists_in_root`, from `i` on, `fuel = max_entries - i`: the inode
number of the first match. -/
def find_name (dir_block filename_sanitized : List Nat) : Nat → Nat → Option Nat
  | 0, _ => none
  | fuel + 1, i =>
    if (entry_at dir_block i).inode_no ≠ 0 ∧
        strncmp_eq (entry_at dir_block i).name filename_sanitized 58 = true then
      some (entry_at dir_block i).inode_no
    else find_name dir_block filename_sanitized fuel (i + 1)

/-- The offset of the slot of inode `ino` in the inode table, in `uint64_t`. -/
def inode_offset (sb : superblock_t) (ino : Nat) : Nat :=
  (sb.inode_table_start * BS % 2 ^ 64 + (ino + 2 ^ 64 - 1) % 2 ^ 64 * INODE_SIZE % 2 ^ 64) % 2 ^ 64

/-- The offset `root_inode.direct[0] * BS`, a product of two 32-bit unsigned values. -/
def dir_offset (root_inode : inode_t) : Nat := root_inode.direct.getD 0 0 * BS % 2 ^ 32

/-- The return value, what is stored through `inode_out_opt` when it is not `NULL`, and the
stream. -/
def file_exists_in_root (img : FILE) (sb : superblock_t) (filename_sanitized : List Nat) :
    Int × Option Nat × FILE :=
  let img := fseek img (inode_offset sb ROOT_INO)
  let (r, img) := fread img INODE_SIZE
  if r.length ≠ INODE_SIZE then (-1, none, img)
  else
    let root_inode := inode_t.parse r
    if root_inode.direct.getD 0 0 = 0 then (-1, none, img)
    else
      let img := fseek img (dir_offset root_inode)
      let (dir_block, img) := fread img BS
      if dir_block.length ≠ BS then (-1, none, img)
      else
        match find_name dir_block filename_sanitized (BS / 64) 0 with
        | some ino => (1, some ino, img)
        | none => (0, none, img)

/-- The search of `add_to_root_directory` for the first slot with `inode_no == 0`, from `i`
on, `fuel = max_entries - i`. -/
def find_empty (dir_block : List Nat) : Nat → Nat → Option Nat
  | 0, _ => none
  | fuel + 1, i =>
    if (entry_at dir_block i).inode_no = 0 then some i
    else find_empty dir_block fuel (i + 1)

/-- The entry `add_to_root_directory` stores in the free slot. -/
def new_entry (filename : List Nat) (inode_num : Nat) : dirent64_t :=
  dirent_checksum_finalize
    { inode_no := inode_num % 2 ^ 32, type := 1, name := strncpy filename 57 ++ [0],
      checksum := 0 }

/-- The root inode `add_to_root_directory` writes back; `t` is what `time(NULL)` returns. -/
def bump_root (root_inode : inode_t) (t : Nat) : inode_t :=
  inode_crc_finalize
    { root_inode with
      size_bytes := (root_inode.size_bytes + 64) % 2 ^ 64,
      links := (root_inode.links + 1) % 2 ^ 16,
      mtime := t % 2 ^ 64 }

/-- The return value and the stream; `t` is what `time(NULL)` returns. -/
def add_to_root_directory (img : FILE) (sb : superblock_t) (filename : List Nat)
    (inode_num t : Nat) : Int × FILE :=
  let img := fseek img (inode_offset sb ROOT_INO)
  let (r, img) := fread img INODE_SIZE
  if r.length ≠ INODE_SIZE then (-1, img)
  else
    let root_inode := inode_t.parse r
    let img := fseek img (dir_offset root_inode)
    let (dir_block, img) := fread img BS
    if dir_block.length ≠ BS then (-1, img)
    else
      match find_empty dir_block (BS / 64) 0 with
      | none => (-1, img)
      | some i =>
        let dir_block := set_entry dir_block i (new_entry filename inode_num)
        let root_inode := bump_root root_inode t
        let img := fseek img (inode_offset sb ROOT_INO)
        let img := fwrite img root_inode.bytes
        let img := fseek img (dir_offset root_inode)
        let img := fwrite img dir_block
        (0, img)

/-- The final path segment: `strrchr(file_name, 0x2f)`, then `base ? base + 1 : file_name`. -/
def basename (file_name : List Nat) : List Nat :=
  ((cstr file_name).reverse.takeWhile (fun c => c ≠ 47)).reverse

/-- The allocation loop of `main`, `fuel = blocks_needed - i`: `none` when an allocation
fails, otherwise the array `data_blocks`; the stream in both cases. -/
def alloc_blocks (output : FILE) (sb : superblock_t) (data_blocks : List Nat) :
    Nat → Nat → Option (List Nat) × FILE
  | 0, _ => (some data_blocks, output)
  | fuel + 1, i =>
    let (block, output) := find_free_data_block output sb
    if block = 0 then (none, output)
    else alloc_blocks output sb (data_blocks.set i (block % 2 ^ 32)) fuel (i + 1)

/-- The copy loop of `main`, `fuel = blocks_needed - i`; `file_to_add` is read
sequentially. -/
def write_blocks (output file_to_add : FILE) (data_blocks : List Nat) : Nat → Nat → FILE
  | 0, _ => output
  | fuel + 1, i =>
    let (r, file_to_add) := fread file_to_add BS
    let file_block := r ++ List.replicate (BS - r.length) 0
    let output := fseek output (data_blocks.getD i 0 * BS)
    let output := fwrite output file_block
    write_blocks output file_to_add data_blocks fuel (i + 1)

/-- The last part of `main`, from the construction of `new_inode` to the end: the inode
record is written to its slot, the content of the file to the allocated blocks, and the
directory entry is added. -/
def adder_commit (output : FILE) (sb : superblock_t) (name_on_disk content : List Nat)
    (st_mtime : Nat) (now : Nat → Nat) (blocks_needed free_inode : Nat)
    (data_blocks : List Nat) : Nat × Option (List Nat) :=
  let new_inode := inode_crc_finalize
    { mode := 0o100000, links := 1, uid := 0, gid := 0,
      size_bytes := content.length % 2 ^ 64,
      atime := now 0 % 2 ^ 64, mtime := st_mtime % 2 ^ 64, ctime := now 1 % 2 ^ 64,
      direct := data_blocks,
      reserved_0 := 0, reserved_1 := 0, reserved_2 := 0, proj_id := 13,
      uid16_gid16 := 0, xattr_ptr := 0, inode_crc := 0 }
  let output := fseek output (inode_offset sb free_inode)
  let output := fwrite output new_inode.bytes
  let output := write_blocks output { data := content, pos := 0 } data_blocks blocks_needed 0
  let (rc, output) := add_to_root_directory output sb name_on_disk free_inode (now 2)
  if rc ≠ 0 then (1, some output.data)
  else (0, some output.data)

/-- The middle part of `main`: the inode number and the data blocks are allocated; a failed
allocation ends the program with what was claimed so far left in the bitmaps. -/
def adder_allocate (output : FILE) (sb : superblock_t) (name_on_disk content : List Nat)
    (st_mtime : Nat) (now : Nat → Nat) (blocks_needed : Nat) : Nat × Option (List Nat) :=
  let (free_inode, output) := find_free_inode output sb
  if free_inode = 0 then (1, some output.data)
  else
    match alloc_blocks output sb (List.replicate DIRECT_MAX 0) blocks_needed 0 with
    | (none, output) => (1, some output.data)
    | (some data_blocks, output) =>
      adder_commit output sb name_on_disk content st_mtime now blocks_needed free_inode
        data_blocks

/-- The program `mkfs_adder --input _ --output _ --file file_name`, both files existing:
`input` is the content of the input image, `content` that of the file to add (`st_size` is
its length), `st_mtime` its modification time. The result is the exit status and the content
of the output file, `none` when the program never opened it. The function is `main`, which
goes on in `adder_allocate` and `adder_commit`. -/
def mkfs_adder (input file_name content : List Nat) (st_mtime : Nat) (now : Nat → Nat) :
    Nat × Option (List Nat) :=
  let st_size := content.length
  let blocks_needed := (st_size + BS - 1) % 2 ^ 64 / BS
  if blocks_needed > DIRECT_MAX then (1, none)
  else
    let output : FILE := { data := input, pos := 0 }
    let output := fseek output 0
    let (r, output) := fread output 116
    if r.length ≠ 116 then (1, some output.data)
    else
      let sb := superblock_t.parse r
      if sb.magic ≠ 0x4D565346 then (1, some output.data)
      else
        let name_on_disk := strncpy (basename file_name) 57 ++ [0]
        let (exists_, _, output) := file_exists_in_root output sb name_on_disk
        if exists_ < 0 then (1, some output.data)
        else if exists_ = 1 then (1, some output.data)
        else adder_allocate output sb name_on_disk content st_mtime now blocks_needed

/-! ## Vocabulary of the statements -/

/-- Block `k` of an image. -/
def block (img : List Nat) (k : Nat) : List Nat := (img.drop (k * BS)).take BS

/-- Bit `p` of a bitmap block, byte-major, least-significant bit first. -/
def get_bit (bitmap : List Nat) (p : Nat) : Bool := (bitmap.getD (p / 8) 0).testBit (p % 8)

/-- Memory behind the variable `sb` of `main` that can be read as far as the checksum reads
it, all of it zero. -/
def zero_stack : List Nat := List.replicate (BS - 4 - 116) 0

/-- The blocks the formatter writes, in the order of the image, when it is not killed. -/
def fresh_blocks (size_kib inodes : Nat) (now : Nat → Nat) (adjacent : List Nat) :
    List (List Nat) :=
  [block_of (builder_sb size_kib inodes now adjacent).bytes,
    1 :: List.replicate (BS - 1) 0, 1 :: List.replicate (BS - 1) 0] ++
  (block_of (builder_root_inode size_kib inodes now).bytes ::
    List.replicate ((layout size_kib inodes).2.1 - 1) (List.replicate BS 0)) ++
  [block_of (dot_entry.bytes ++ dotdot_entry.bytes)] ++
  List.replicate ((layout size_kib inodes).2.2.2 - 1) (List.replicate BS 0)

/-- The check of the superblock checksum in the words of the specification: the stored
checksum (bytes 112..115 of block 0) against the CRC-32 of the first `BS - 4` bytes of the
block with the checksum field zeroed. -/
def superblock_checksum_ok (blk : List Nat) : Bool :=
  field blk 112 4 == crc32 ((blk.take 112 ++ List.replicate 4 0 ++ blk.drop 116).take (BS - 4))

/-- The two bit loops share their shape: a position at or beyond `limit` ends the search
with 0, a clear bit is set and `ret` of its position returned. This is the common shape,
used to prove facts about both (see `inode_scan_bits_eq`, `data_scan_bits_eq`). -/
def scan_bits (bitmap : List Nat) (limit : Nat) (ret : Nat → Nat) (byte_idx : Nat) :
    Nat → Nat → Option (Nat × Option (List Nat))
  | 0, _ => none
  | fuel + 1, bit_idx =>
    if byte_idx * 8 + bit_idx ≥ limit then some (0, none)
    else if bitmap.getD byte_idx 0 &&& (1 <<< bit_idx) = 0 then
      some (ret (byte_idx * 8 + bit_idx),
        some (bitmap.set byte_idx ((bitmap.getD byte_idx 0 ||| (1 <<< bit_idx)) % 256)))
    else scan_bits bitmap limit ret byte_idx fuel (bit_idx + 1)

/-- The common shape of the two byte loops. -/
def scan (bitmap : List Nat) (limit : Nat) (ret : Nat → Nat) :
    Nat → Nat → Nat × Option (List Nat)
  | 0, _ => (0, none)
  | fuel + 1, byte_idx =>
    match scan_bits bitmap limit ret byte_idx 8 0 with
    | some r => r
    | none => scan bitmap limit ret fuel (byte_idx + 1)

/-- The bitmap with bit `p` set, as the allocators store it. -/
def set_bit (bitmap : List Nat) (p : Nat) : List Nat :=
  bitmap.set (p / 8) ((bitmap.getD (p / 8) 0 ||| (1 <<< (p % 8))) % 256)

/-- Slot `i` of a directory block is occupied and `strncmp` finds its name equal to the
queried one: the test in the loop of `file_exists_in_root`. -/
def slot_matches (dir_block filename_sanitized : List Nat) (i : Nat) : Prop :=
  (entry_at dir_block i).inode_no ≠ 0 ∧
    strncmp_eq (entry_at dir_block i).name filename_sanitized 58 = true

/-- A superblock record with every field zero; the inode table then starts at block 0. -/
def zero_sb : superblock_t :=
  { magic := 0, version := 0, block_size := 0, total_blocks := 0, inode_count := 0,
    inode_bitmap_start := 0, inode_bitmap_blocks := 0, data_bitmap_start := 0,
    data_bitmap_blocks := 0, inode_table_start := 0, inode_table_blocks := 0,
    data_region_start := 0, data_region_blocks := 0, root_inode := 0, mtime_epoch := 0,
    flags := 0, checksum := 0 }

/-- An inode record with every field zero but `direct[0]`, `links` and `size_bytes`. -/
def sample_root (direct0 links size_bytes : Nat) : inode_t :=
  { mode := 0, links := links, uid := 0, gid := 0, size_bytes := size_bytes, atime := 0,
    mtime := 0, ctime := 0, direct := direct0 :: List.replicate 11 0, reserved_0 := 0,
    reserved_1 := 0, reserved_2 := 0, proj_id := 0, uid16_gid16 := 0, xattr_ptr := 0,
    inode_crc := 0 }

/-- A two-block image for `zero_sb`: block 0 starts with the root inode `root`, whose
`direct[0]` is to be 1, and block 1 is a directory block holding `first` in slot 0 and
nothing else. -/
def sample_image (root : inode_t) (first : dirent64_t) : List Nat :=
  block_of root.bytes ++ block_of first.bytes

/-- The content of a file after `fseek(f, off, SEEK_SET)` to a valid offset and
`fwrite(buf, 1, n, f)`. -/
def pwrite (data : List Nat) (off : Nat) (buf : List Nat) : List Nat :=
  data.take off ++ List.replicate (off - data.length) 0 ++ buf ++ data.drop (off + buf.length)

/-- The inode record `main` builds for the added file (`new_inode` after
`inode_crc_finalize`). -/
def file_inode (content : List Nat) (st_mtime : Nat) (now : Nat → Nat)
    (data_blocks : List Nat) : inode_t :=
  inode_crc_finalize
    { mode := 0o100000, links := 1, uid := 0, gid := 0,
      size_bytes := content.length % 2 ^ 64,
      atime := now 0 % 2 ^ 64, mtime := st_mtime % 2 ^ 64, ctime := now 1 % 2 ^ 64,
      direct := data_blocks,
      reserved_0 := 0, reserved_1 := 0, reserved_2 := 0, proj_id := 13,
      uid16_gid16 := 0, xattr_ptr := 0, inode_crc := 0 }

/-- One bit step of the checksum in the words of the specification: shift right by one, and
exclusive-or `0xEDB88320` into the result if the bit shifted out was 1. -/
def crc32_spec_step (c : Nat) : Nat :=
  if c % 2 = 1 then (c / 2) ^^^ 0xEDB88320 else c / 2

/-- One byte in the words of the specification: exclusive-or it into the low 8 bits, then 8
bit steps. -/
def crc32_spec_byte (c b : Nat) : Nat := crc32_spec_step^[8] (c ^^^ b)

/-- The standard reflected CRC-32 bit by bit, in the words of the specification: initial
value `0xFFFFFFFF`, final exclusive-or with `0xFFFFFFFF`. -/
def crc32_spec (data : List Nat) : Nat :=
  data.foldl crc32_spec_byte 0xFFFFFFFF ^^^ 0xFFFFFFFF

/-- The number of clear bits among the positions below `limit` of a bitmap block. -/
def clear_count (bitmap : List Nat) (limit : Nat) : Nat :=
  (List.range limit).countP (fun q => !get_bit bitmap q)

/-- An image laid out as the formatter lays it out, which is what the inserter takes for
granted: the magic number, the bitmaps in blocks 1 and 2, the inode table from block 3 up to
the data region, a data region of at most 32768 blocks (one bitmap block) that ends where
the image ends, below 4 GiB, the root directory in the first data block, and the bits of
the root inode and of the root directory block set. -/
structure valid_image (img : List Nat) : Prop where
  magic : (superblock_t.parse (img.take 116)).magic = 0x4D565346
  inode_bitmap : (superblock_t.parse (img.take 116)).inode_bitmap_start = 1
  data_bitmap : (superblock_t.parse (img.take 116)).data_bitmap_start = 2
  inode_table : (superblock_t.parse (img.take 116)).inode_table_start = 3
  inodes : 1 ≤ (superblock_t.parse (img.take 116)).inode_count
  table_fits : 12288 + (superblock_t.parse (img.take 116)).inode_count * 128 ≤
    (superblock_t.parse (img.take 116)).data_region_start * 4096
  blocks : 1 ≤ (superblock_t.parse (img.take 116)).data_region_blocks
  bitmap_covers : (superblock_t.parse (img.take 116)).data_region_blocks ≤ 32768
  small : (superblock_t.parse (img.take 116)).data_region_start +
    (superblock_t.parse (img.take 116)).data_region_blocks ≤ 2 ^ 20
  size : img.length = ((superblock_t.parse (img.take 116)).data_region_start +
    (superblock_t.parse (img.take 116)).data_region_blocks) * 4096
  root_dir : (inode_t.parse ((img.drop 12288).take 128)).direct.getD 0 0 =
    (superblock_t.parse (img.take 116)).data_region_start
  root_used : get_bit (block img 1) 0 = true
  dir_used : get_bit (block img 2) 0 = true

/-- The root directory block of an image: the block `data_region_start`. -/
def root_dir_block (img : List Nat) : List Nat :=
  block img (superblock_t.parse (img.take 116)).data_region_start

/-- The name `main` of the inserter derives from the path: the final segment, cut to 57
bytes, in a zeroed buffer of 58 (`name_on_disk`). -/
def derived_name (file_name : List Nat) : List Nat := strncpy (basename file_name) 57 ++ [0]

/-- Block `k` of a file as the copy loop of the inserter writes it: the bytes `fread` returns
for it, followed by zeros up to the block size. -/
def file_block (content : List Nat) (k : Nat) : List Nat :=
  (content.drop (k * BS)).take BS ++
    List.replicate (BS - ((content.drop (k * BS)).take BS).length) 0

/-- No two occupied slots of a directory block hold the same name, names being compared the
way `file_exists_in_root` compares them (`strncmp` over the 58 bytes of the field). -/
def names_unique (dir_block : List Nat) : Prop :=
  ∀ i j, i < 64 → j < 64 → i ≠ j → (entry_at dir_block i).inode_no ≠ 0 →
    (entry_at dir_block j).inode_no ≠ 0 →
    strncmp_eq (entry_at dir_block i).name (entry_at dir_block j).name 58 = false

/-- The images reachable from a freshly formatted image, left by a run of the formatter that
finishes, by runs of the inserter, successful or aborted; a run that ends before the output
file is opened leaves no image. The size of the file added is a non-negative `off_t`. -/
inductive reachable : List Nat → Prop
  | fresh (size_kib inodes : Nat) (t : Nat → Nat) (adjacent img : List Nat) :
      mkfs_builder size_kib inodes t adjacent = .finished img → reachable img
  | add (img file_name content : List Nat) (st_mtime : Nat) (now : Nat → Nat) (rc : Nat)
      (out : List Nat) :
      reachable img → content.length < 2 ^ 63 →
      mkfs_adder img file_name content st_mtime now = (rc, some out) → reachable out

/-- The stream after the first `k` of a sequence of calls of `add_to_root_directory`, call
number `j` (from 0) inserting the name `name j` with the inode number `num j` at the time
`time j`. -/
def inserts (sb : superblock_t) (name : Nat → List Nat) (num time : Nat → Nat) (f : FILE) :
    Nat → FILE
  | 0 => f
  | k + 1 =>
    (add_to_root_directory (inserts sb name num time f k) sb (name k) (num k) (time k)).2

/-- The superblock of `tiny_image`: 5 blocks, 32 inodes, a data region of one block. -/
def tiny_sb : superblock_t :=
  { magic := 0x4D565346, version := 1, block_size := 4096, total_blocks := 5,
    inode_count := 32, inode_bitmap_start := 1, inode_bitmap_blocks := 1,
    data_bitmap_start := 2, data_bitmap_blocks := 1, inode_table_start := 3,
    inode_table_blocks := 1, data_region_start := 4, data_region_blocks := 1, root_inode := 1,
    mtime_epoch := 0, flags := 0, checksum := 0 }

/-- A valid image of 5 blocks whose data region is the root directory block alone, so that
no data block is free: superblock, the two bitmaps with bit 0 set, an inode table holding
the root inode, and the directory block with `.` and `..`. -/
def tiny_image : List Nat :=
  [block_of tiny_sb.bytes, 1 :: List.replicate (BS - 1) 0, 1 :: List.replicate (BS - 1) 0,
    block_of (sample_root 4 2 128).bytes,
    block_of (dot_entry.bytes ++ dotdot_entry.bytes)].flatten

/-- The superblock record `zero_sb` with the inode table moved to block 1. -/
def alias_sb : superblock_t := { zero_sb with inode_table_start := 1 }

/-- A two-block image for `alias_sb` in which the root directory block is the inode table
block itself: block 1 starts with a root inode whose mode and link count are 0 and whose
`direct[0]` is 1. -/
def alias_image : List Nat := List.replicate BS 0 ++ block_of (sample_root 1 0 0).bytes

/-- The superblock of `small_image`: `4 + drb` blocks, 32 inodes, a data region of `drb`
blocks from block 4 on. -/
def small_sb (drb : Nat) : superblock_t :=
  { tiny_sb with total_blocks := 4 + drb, data_region_blocks := drb }

/-- An image of `4 + drb` blocks in the layout of the formatter: superblock, inode bitmap
with bit 0 set, data bitmap with first byte `dbit`, an inode table of one block holding the
root inode with `direct[0] = direct0`, the directory block with `.` and `..`, and zero
blocks. It is a valid image for `dbit = 1` and `direct0 = 4`; `dbit = 0` leaves the
directory block unclaimed, and `direct0 = 2` makes the data bitmap the directory block. -/
def small_image (drb dbit direct0 : Nat) : List Nat :=
  ([block_of (small_sb drb).bytes, 1 :: List.replicate (BS - 1) 0,
    dbit :: List.replicate (BS - 1) 0, block_of (sample_root direct0 2 128).bytes,
    block_of (dot_entry.bytes ++ dotdot_entry.bytes)] ++
    List.replicate (drb - 1) (List.replicate BS 0)).flatten

/-! ## Range of the checksum -/

theorem crc32_round_lt (c : Nat) (h : c < 2 ^ 32) : crc32_round c < 2 ^ 32 := by
  unfold crc32_round
  have h1 : c >>> 1 < 2 ^ 32 := by
    rw [Nat.shiftRight_eq_div_pow]; omega
  split
  · exact Nat.xor_lt_two_pow (by decide) h1
  · exact h1

theorem crc32_round_iter_lt (n c : Nat) (h : c < 2 ^ 32) : crc32_round^[n] c < 2 ^ 32 := by
  induction n generalizing c with
  | zero => simpa using h
  | succ n ih => rw [Function.iterate_succ_apply]; exact ih _ (crc32_round_lt c h)

theorem crc32_tab_lt (i : Nat) : CRC32_TAB.getD i 0 < 2 ^ 32 := by
  unfold CRC32_TAB crc32_init
  rw [List.getD_eq_getElem?_getD, List.getElem?_map]
  by_cases hi : i < 256
  · rw [List.getElem?_range hi]
    simp only [Option.map_some', Option.getD_some]
    exact crc32_round_iter_lt 8 i (by omega)
  · rw [List.getElem?_eq_none (by simpa using hi)]
    simp

theorem crc32_update_lt (c b : Nat) (h : c < 2 ^ 32) : crc32_update c b < 2 ^ 32 := by
  unfold crc32_update
  refine Nat.xor_lt_two_pow (crc32_tab_lt _) ?_
  rw [Nat.shiftRight_eq_div_pow]; omega

theorem crc32_foldl_lt (data : List Nat) (c : Nat) (h : c < 2 ^ 32) :
    data.foldl crc32_update c < 2 ^ 32 := by
  induction data generalizing c with
  | nil => simpa using h
  | cons b bs ih => exact ih _ (crc32_update_lt c b h)

theorem crc32_lt (data : List Nat) : crc32 data < 2 ^ 32 := by
  unfold crc32
  exact Nat.xor_lt_two_pow (crc32_foldl_lt data _ (by decide)) (by decide)

/-! ## Little-endian fields and records -/

theorem le_bytes_length (n w : Nat) : (le_bytes n w).length = w := by
  induction w generalizing n with
  | zero => rfl
  | succ w ih => simp [le_bytes, ih]

theorem le_value_le_bytes (n w : Nat) : le_value (le_bytes n w) = n % 256 ^ w := by
  induction w generalizing n with
  | zero => simp [le_bytes, le_value, Nat.mod_one]
  | succ w ih =>
    simp only [le_bytes, le_value, ih]
    rw [pow_succ, Nat.mul_comm (256 ^ w) 256, Nat.mod_mul]

theorem field_skip (a rest : List Nat) (off w : Nat) (h : a.length ≤ off) :
    field (a ++ rest) off w = field rest (off - a.length) w := by
  unfold field
  congr 2
  exact List.drop_append_eq_append_drop.trans (by simp [List.drop_eq_nil_of_le h])

theorem field_here (a rest : List Nat) (w : Nat) (h : a.length = w) :
    field (a ++ rest) 0 w = le_value a := by
  unfold field
  rw [List.drop_zero, List.take_append_of_le_length (by omega), List.take_of_length_le (by omega)]

theorem field_le_skip (m k : Nat) (rest : List Nat) (off w : Nat) (h : k ≤ off) :
    field (le_bytes m k ++ rest) off w = field rest (off - k) w := by
  rw [field_skip _ _ _ _ (by simpa [le_bytes_length] using h), le_bytes_length]

theorem field_le_here (n w : Nat) (rest : List Nat) :
    field (le_bytes n w ++ rest) 0 w = n % 256 ^ w := by
  rw [field_here _ _ _ (le_bytes_length n w), le_value_le_bytes]

theorem field_le_end (n w : Nat) : field (le_bytes n w) 0 w = n % 256 ^ w := by
  have := field_le_here n w []
  simpa using this

theorem superblock_bytes_length (sb : superblock_t) : sb.bytes.length = 116 := by
  simp [superblock_t.bytes, le_bytes_length]

theorem superblock_parse_bytes (sb : superblock_t) :
    superblock_t.parse sb.bytes =
      { magic := sb.magic % 2 ^ 32, version := sb.version % 2 ^ 32,
        block_size := sb.block_size % 2 ^ 32,
        total_blocks := sb.total_blocks % 2 ^ 64, inode_count := sb.inode_count % 2 ^ 64,
        inode_bitmap_start := sb.inode_bitmap_start % 2 ^ 64,
        inode_bitmap_blocks := sb.inode_bitmap_blocks % 2 ^ 64,
        data_bitmap_start := sb.data_bitmap_start % 2 ^ 64,
        data_bitmap_blocks := sb.data_bitmap_blocks % 2 ^ 64,
        inode_table_start := sb.inode_table_start % 2 ^ 64,
        inode_table_blocks := sb.inode_table_blocks % 2 ^ 64,
        data_region_start := sb.data_region_start % 2 ^ 64,
        data_region_blocks := sb.data_region_blocks % 2 ^ 64,
        root_inode := sb.root_inode % 2 ^ 64, mtime_epoch := sb.mtime_epoch % 2 ^ 64,
        flags := sb.flags % 2 ^ 32, checksum := sb.checksum % 2 ^ 32 } := by
  simp only [superblock_t.parse, superblock_t.bytes, List.append_assoc]
  simp [field_le_skip, field_le_here, field_le_end]

theorem fit_length (l : List Nat) (n : Nat) : (fit l n).length = n := by
  simp [fit]; omega

theorem block_of_length (r : List Nat) : (block_of r).length = BS := fit_length r BS

/-! ## Sequential writes -/

theorem fwrite_end (f : FILE) (buf : List Nat) (h : f.pos = f.data.length) :
    fwrite f buf = ⟨f.data ++ buf, f.data.length + buf.length⟩ := by
  simp [fwrite, h]

theorem fwrite_n_end (blk : List Nat) (n : Nat) (f : FILE) (h : f.pos = f.data.length) :
    fwrite_n f blk n =
      ⟨f.data ++ (List.replicate n blk).flatten, f.data.length + n * blk.length⟩ := by
  induction n generalizing f with
  | zero => cases f; simp_all [fwrite_n]
  | succ n ih =>
    rw [fwrite_n, ih _ (by simp [fwrite_end f blk h])]
    simp [fwrite_end f blk h, List.replicate_succ]
    ring

theorem write_inode_table_end (root : inode_t) (itb n : Nat) (f : FILE)
    (h : f.pos = f.data.length) (hn : n ≤ itb) :
    write_inode_table f root itb n =
      ⟨f.data ++ ((List.range' (itb - n) n).map
          (fun i => if i = 0 then block_of root.bytes else List.replicate BS 0)).flatten,
        f.data.length + (((List.range' (itb - n) n).map
          (fun i => if i = 0 then block_of root.bytes else List.replicate BS 0)).flatten).length⟩ := by
  induction n generalizing f with
  | zero => cases f; simp_all [write_inode_table]
  | succ n ih =>
    rw [write_inode_table, ih _ (by simp [fwrite_end f _ h]) (by omega)]
    have e : itb - (n + 1) + 1 = itb - n := by omega
    simp [fwrite_end f _ h, List.range'_succ, e, Nat.add_assoc]

theorem map_range'_pos (a b : List Nat) (n : Nat) :
    (List.range' 1 n).map (fun i => if i = 0 then a else b) = List.replicate n b := by
  apply List.ext_getElem
  · simp
  · intro i h1 h2
    simp

/-! ## The image of the formatter -/

theorem layout_eq (size_kib inodes : Nat) (h1 : 180 ≤ size_kib) (h2 : size_kib ≤ 4096)
    (h5 : inodes ≤ 512) :
    layout size_kib inodes =
      (size_kib * 1024 / 4096, (inodes * 128 + 4095) / 4096,
        3 + (inodes * 128 + 4095) / 4096,
        size_kib * 1024 / 4096 - (3 + (inodes * 128 + 4095) / 4096)) ∧
    3 + (inodes * 128 + 4095) / 4096 < size_kib * 1024 / 4096 := by
  unfold layout BS INODE_SIZE
  have a : size_kib * 1024 % 2 ^ 64 = size_kib * 1024 := Nat.mod_eq_of_lt (by omega)
  have b : (inodes * 128 + 4096 - 1) % 2 ^ 64 = inodes * 128 + 4095 := by omega
  simp only [a, b]
  have c : (3 + (inodes * 128 + 4095) / 4096) % 2 ^ 64 = 3 + (inodes * 128 + 4095) / 4096 := by
    omega
  simp only [c]
  have d : (size_kib * 1024 / 4096 + 2 ^ 64 - (3 + (inodes * 128 + 4095) / 4096)) % 2 ^ 64 =
      size_kib * 1024 / 4096 - (3 + (inodes * 128 + 4095) / 4096) := by omega
  simp only [d]
  exact ⟨trivial, by omega⟩

theorem builder_writes (b0 bm dirb : List Nat) (root : inode_t) (itb drs drb : Nat)
    (h0 : b0.length = BS) (hm : bm.length = BS)
    (hitb : 1 ≤ itb) (hdrs : drs = 3 + itb) (hsmall : drs < 2 ^ 32) :
    (fwrite_n (fwrite (fseek (write_inode_table (fwrite (fwrite (fwrite ⟨[], 0⟩ b0) bm) bm)
        root itb itb) (drs * BS % 2 ^ 64)) dirb) (List.replicate BS 0) (drb - 1)).data =
      ([b0, bm, bm] ++ (block_of root.bytes :: List.replicate (itb - 1) (List.replicate BS 0)) ++
        [dirb] ++ List.replicate (drb - 1) (List.replicate BS 0)).flatten := by
  have hBS : BS = 4096 := rfl
  obtain ⟨k, rfl⟩ : ∃ k, itb = k + 1 := ⟨itb - 1, by omega⟩
  have s1 : fwrite ⟨[], 0⟩ b0 = ⟨b0, BS⟩ := by
    rw [fwrite_end ⟨[], 0⟩ _ rfl]; simp [h0]
  have s2 : fwrite ⟨b0, BS⟩ bm = ⟨b0 ++ bm, 2 * BS⟩ := by
    rw [fwrite_end ⟨b0, BS⟩ _ h0.symm]; simp [h0, hm]; omega
  have s3 : fwrite ⟨b0 ++ bm, 2 * BS⟩ bm = ⟨b0 ++ bm ++ bm, 3 * BS⟩ := by
    rw [fwrite_end ⟨b0 ++ bm, 2 * BS⟩ _ (by simp [h0, hm]; omega)]; simp [h0, hm]; omega
  have hmap := map_range'_pos (block_of root.bytes) (List.replicate BS 0) k
  have s4 : write_inode_table ⟨b0 ++ bm ++ bm, 3 * BS⟩ root (k + 1) (k + 1) =
      ⟨b0 ++ bm ++ bm ++ (block_of root.bytes :: List.replicate k (List.replicate BS 0)).flatten,
        3 * BS + (k + 1) * BS⟩ := by
    rw [write_inode_table_end _ _ _ _ (by simp [h0, hm]; omega) (le_refl _)]
    simp only [Nat.sub_self, List.range'_succ, List.map_cons, if_true, Nat.zero_add, hmap]
    simp [h0, hm, block_of_length]
    ring
  have hpos : (drs * BS % 2 ^ 64) = 3 * BS + (k + 1) * BS := by
    rw [hdrs, hBS]; omega
  have s5 : ∀ f : FILE, f.pos = 3 * BS + (k + 1) * BS → fseek f (drs * BS % 2 ^ 64) = f := by
    intro f hf
    rw [fseek, if_pos (by rw [hpos, hBS]; omega), hpos, ← hf]
  rw [s1, s2, s3, s4, s5 _ rfl]
  rw [fwrite_end ⟨_, _⟩ _ (by simp [h0, hm, block_of_length]; ring),
    fwrite_n_end _ _ ⟨_, _⟩ (by simp; omega)]
  simp

theorem zero_stack_length : 3976 ≤ zero_stack.length := by
  unfold zero_stack
  rw [List.length_replicate]
  decide

/-- With the 3976 bytes behind the record readable, `superblock_crc_finalize` stores the
checksum of `builder_sb`; with fewer it ends the run. -/
theorem superblock_crc_finalize_eq (size_kib inodes : Nat) (now : Nat → Nat)
    (adjacent : List Nat) :
    superblock_crc_finalize (builder_sb_init size_kib inodes now) adjacent =
      if adjacent.length < 3976 then none
      else some (builder_sb size_kib inodes now adjacent) := rfl

theorem mkfs_builder_eq (size_kib inodes : Nat) (now : Nat → Nat) (adjacent : List Nat)
    (h1 : 180 ≤ size_kib) (h2 : size_kib ≤ 4096) (h3 : size_kib % 4 = 0)
    (h4 : 128 ≤ inodes) (h5 : inodes ≤ 512) (h6 : 3976 ≤ adjacent.length) :
    mkfs_builder size_kib inodes now adjacent =
      .finished (fresh_blocks size_kib inodes now adjacent).flatten := by
  obtain ⟨hl, hlt⟩ := layout_eq size_kib inodes h1 h2 h5
  have g1 : ¬ (size_kib < 180 ∨ size_kib > 4096 ∨ size_kib % 4 ≠ 0) := by omega
  have g2 : ¬ (inodes < 128 ∨ inodes > 512) := by omega
  have hBS : BS = 4096 := rfl
  unfold mkfs_builder fresh_blocks
  rw [if_neg g1, if_neg g2, hl, superblock_crc_finalize_eq, if_neg (Nat.not_lt.mpr h6)]
  simp only []
  generalize builder_sb size_kib inodes now adjacent = sb
  generalize builder_root_inode size_kib inodes now = root
  generalize dot_entry.bytes ++ dotdot_entry.bytes = des
  rw [builder_writes _ _ _ _ _ _ _ (block_of_length _)
    (by simp only [List.length_cons, List.length_replicate]; omega)
    (by omega) rfl (by omega)]

theorem flatten_length_of (bs : List (List Nat)) (h : ∀ b ∈ bs, b.length = BS) :
    bs.flatten.length = bs.length * BS := by
  induction bs with
  | nil => simp
  | cons b bs ih =>
    simp only [List.flatten_cons, List.length_append, List.length_cons]
    rw [ih (fun x hx => h x (List.mem_cons_of_mem _ hx)), h b (List.mem_cons_self _ _)]
    ring

theorem block_flatten_mid (pre post : List (List Nat)) (d : List Nat)
    (h : ∀ b ∈ pre, b.length = BS) (hd : d.length = BS) :
    block (pre ++ d :: post).flatten pre.length = d := by
  unfold block
  rw [List.flatten_append, List.flatten_cons, ← flatten_length_of pre h, List.drop_left,
    List.take_left' hd]

theorem fresh_blocks_length (size_kib inodes : Nat) (now : Nat → Nat) (adjacent : List Nat)
    (h1 : 180 ≤ size_kib) (h2 : size_kib ≤ 4096) (h5 : inodes ≤ 512) (h4 : 128 ≤ inodes) :
    (fresh_blocks size_kib inodes now adjacent).length = (layout size_kib inodes).1 ∧
    ∀ b ∈ fresh_blocks size_kib inodes now adjacent, b.length = BS := by
  obtain ⟨hl, hlt⟩ := layout_eq size_kib inodes h1 h2 h5
  have hBS : BS = 4096 := rfl
  unfold fresh_blocks
  rw [hl]
  constructor
  · simp only [List.length_append, List.length_cons, List.length_replicate, List.length_nil]
    omega
  · intro b hb
    simp only [List.mem_append, List.mem_cons, List.mem_replicate, List.mem_singleton,
      List.not_mem_nil, or_false] at hb
    have hz : (List.replicate BS 0).length = BS := List.length_replicate _ _
    have hm : (1 :: List.replicate (BS - 1) 0).length = BS := by
      simp only [List.length_cons, List.length_replicate]; omega
    rcases hb with ((((h | h | h) | (h | ⟨_, h⟩)) | h) | ⟨_, h⟩) <;> rw [h]
    · exact block_of_length _
    · exact hm
    · exact hm
    · exact block_of_length _
    · exact hz
    · exact block_of_length _
    · exact hz

theorem take_block_of (r rest : List Nat) (n : Nat) (h : r.length = n) (hn : n ≤ BS) :
    (block_of r ++ rest).take n = r := by
  subst h
  unfold block_of fit
  rw [List.take_of_length_le hn, List.append_assoc, List.take_left]

theorem fresh_take_sb (size_kib inodes : Nat) (now : Nat → Nat) (adjacent : List Nat) :
    (fresh_blocks size_kib inodes now adjacent).flatten.take 116 =
      (builder_sb size_kib inodes now adjacent).bytes := by
  unfold fresh_blocks
  simp only [List.cons_append, List.flatten_cons]
  exact take_block_of _ _ _ (superblock_bytes_length _) (by decide)

theorem block_flatten_get (bs : List (List Nat)) (h : ∀ b ∈ bs, b.length = BS) (k : Nat)
    (hk : k < bs.length) : block bs.flatten k = bs[k] := by
  have e : bs = bs.take k ++ bs[k] :: bs.drop (k + 1) := by
    rw [List.getElem_cons_drop _ _ hk, List.take_append_drop]
  have hl : (bs.take k).length = k := by simp; omega
  have := block_flatten_mid (bs.take k) (bs.drop (k + 1)) bs[k]
    (fun b hb => h b (List.mem_of_mem_take hb)) (h _ (List.getElem_mem _))
  rw [← e, hl] at this
  exact this

theorem bitmap_block_length : (1 :: List.replicate (BS - 1) 0).length = BS := by
  have hBS : BS = 4096 := rfl
  simp only [List.length_cons, List.length_replicate]; omega

theorem fresh_block_1 (size_kib inodes : Nat) (now : Nat → Nat) (adjacent : List Nat) :
    block (fresh_blocks size_kib inodes now adjacent).flatten 1 =
      1 :: List.replicate (BS - 1) 0 :=
  block_flatten_mid [_] _ _ (fun b hb => by
    rw [List.mem_singleton.1 hb]; exact block_of_length _) bitmap_block_length

theorem fresh_block_2 (size_kib inodes : Nat) (now : Nat → Nat) (adjacent : List Nat) :
    block (fresh_blocks size_kib inodes now adjacent).flatten 2 =
      1 :: List.replicate (BS - 1) 0 :=
  block_flatten_mid [_, _] _ _ (fun b hb => by
    simp only [List.mem_cons, List.mem_singleton, List.not_mem_nil, or_false] at hb
    rcases hb with h | h <;> rw [h]
    · exact block_of_length _
    · exact bitmap_block_length) bitmap_block_length

theorem fresh_block_3 (size_kib inodes : Nat) (now : Nat → Nat) (adjacent : List Nat) :
    block (fresh_blocks size_kib inodes now adjacent).flatten 3 =
      block_of (builder_root_inode size_kib inodes now).bytes :=
  block_flatten_mid [_, _, _] _ _ (fun b hb => by
    simp only [List.mem_cons, List.mem_singleton, List.not_mem_nil, or_false] at hb
    rcases hb with h | h | h <;> rw [h]
    · exact block_of_length _
    · exact bitmap_block_length
    · exact bitmap_block_length) (block_of_length _)

theorem fresh_block_dir (size_kib inodes : Nat) (now : Nat → Nat) (adjacent : List Nat)
    (h1 : 180 ≤ size_kib) (h2 : size_kib ≤ 4096) (h4 : 128 ≤ inodes) (h5 : inodes ≤ 512) :
    block (fresh_blocks size_kib inodes now adjacent).flatten (layout size_kib inodes).2.2.1 =
      block_of (dot_entry.bytes ++ dotdot_entry.bytes) := by
  obtain ⟨hl, hlt⟩ := layout_eq size_kib inodes h1 h2 h5
  have key := block_flatten_mid
    ([block_of (builder_sb size_kib inodes now adjacent).bytes,
      1 :: List.replicate (BS - 1) 0, 1 :: List.replicate (BS - 1) 0] ++
      (block_of (builder_root_inode size_kib inodes now).bytes ::
        List.replicate ((layout size_kib inodes).2.1 - 1) (List.replicate BS 0)))
    (List.replicate ((layout size_kib inodes).2.2.2 - 1) (List.replicate BS 0))
    (block_of (dot_entry.bytes ++ dotdot_entry.bytes))
    (fun b hb => by
      simp only [List.mem_append, List.mem_cons, List.mem_replicate, List.mem_singleton,
        List.not_mem_nil, or_false] at hb
      rcases hb with (h | h | h) | (h | ⟨_, h⟩) <;> rw [h]
      · exact block_of_length _
      · exact bitmap_block_length
      · exact bitmap_block_length
      · exact block_of_length _
      · exact List.length_replicate _ _) (block_of_length _)
  have hlen : ([block_of (builder_sb size_kib inodes now adjacent).bytes,
      1 :: List.replicate (BS - 1) 0, 1 :: List.replicate (BS - 1) 0] ++
      (block_of (builder_root_inode size_kib inodes now).bytes ::
        List.replicate ((layout size_kib inodes).2.1 - 1) (List.replicate BS 0))).length =
      (layout size_kib inodes).2.2.1 := by
    simp only [List.length_append, List.length_cons, List.length_replicate, List.length_nil]
    rw [hl]; simp only []; omega
  rw [hlen] at key
  rw [← key]
  unfold fresh_blocks
  simp only [List.append_assoc, List.singleton_append]

set_option maxRecDepth 10000 in
theorem dot_entry_bytes : dot_entry.bytes = [1, 0, 0, 0, 2, 46] ++ List.replicate 57 0 ++ [45] := by
  decide

set_option maxRecDepth 10000 in
theorem dotdot_entry_bytes :
    dotdot_entry.bytes = [1, 0, 0, 0, 2, 46, 46] ++ List.replicate 56 0 ++ [3] := by
  decide

theorem get_bit_first (p n : Nat) : get_bit (1 :: List.replicate n 0) p = decide (p = 0) := by
  unfold get_bit
  rcases Nat.eq_zero_or_pos (p / 8) with h | h
  · rw [h]
    simp only [List.getD_cons_zero]
    rcases Nat.eq_zero_or_pos (p % 8) with h' | h'
    · have : p = 0 := by omega
      subst this; decide
    · have e : (1 : Nat).testBit (p % 8) = false := by
        obtain ⟨k, hk⟩ : ∃ k, p % 8 = k + 1 := ⟨p % 8 - 1, by omega⟩
        rw [hk, Nat.testBit_succ]; simp
      rw [e]; symm; simp; omega
  · obtain ⟨k, hk⟩ : ∃ k, p / 8 = k + 1 := ⟨p / 8 - 1, by omega⟩
    rw [hk, List.getD_cons_succ]
    have : (List.replicate n 0).getD k 0 = 0 := by
      rw [List.getD_eq_getElem?_getD]
      by_cases hkn : k < n
      · simp [List.getElem?_replicate, hkn]
      · simp [List.getElem?_replicate, hkn]
    rw [this]
    simp; omega

/-- With valid arguments and fewer than 3976 readable bytes behind the superblock record, a
run of the formatter is killed and leaves an empty file. -/
theorem mkfs_builder_killed (size_kib inodes : Nat) (now : Nat → Nat) (adjacent : List Nat)
    (h1 : 180 ≤ size_kib) (h2 : size_kib ≤ 4096) (h3 : size_kib % 4 = 0)
    (h4 : 128 ≤ inodes) (h5 : inodes ≤ 512) (h6 : adjacent.length < 3976) :
    mkfs_builder size_kib inodes now adjacent = .killed [] := by
  have g1 : ¬ (size_kib < 180 ∨ size_kib > 4096 ∨ size_kib % 4 ≠ 0) := by omega
  have g2 : ¬ (inodes < 128 ∨ inodes > 512) := by omega
  unfold mkfs_builder
  rw [if_neg g1, if_neg g2, superblock_crc_finalize_eq, if_pos h6]

/-! ## The formatter: claims -/

/-- C1: for valid arguments the formatter, in a run that finishes (the 3976 bytes behind the
variable `sb` can be read), leaves an image whose superblock stores the layout `total_blocks
= size_kib*1024/4096`, `inode_table_blocks = ceil(inodes*128/4096)`, `data_region_start = 3
+ inode_table_blocks`, `data_region_blocks = total_blocks - data_region_start` (no
underflow), with the bitmaps at blocks 1 and 2 and the inode table at block 3; 184 KiB and
128 inodes give 46, 4, 7, 39. -/
theorem builder_superblock_layout (size_kib inodes : Nat) (now : Nat → Nat)
    (adjacent : List Nat)
    (h1 : 180 ≤ size_kib) (h2 : size_kib ≤ 4096) (h3 : size_kib % 4 = 0)
    (h4 : 128 ≤ inodes) (h5 : inodes ≤ 512)
    (h6 : 3976 ≤ adjacent.length) :
    ∃ img, mkfs_builder size_kib inodes now adjacent = .finished img ∧
      layout size_kib inodes =
        ((superblock_t.parse (img.take 116)).total_blocks,
         (superblock_t.parse (img.take 116)).inode_table_blocks,
         (superblock_t.parse (img.take 116)).data_region_start,
         (superblock_t.parse (img.take 116)).data_region_blocks) ∧
      (superblock_t.parse (img.take 116)).total_blocks = size_kib * 1024 / 4096 ∧
      (superblock_t.parse (img.take 116)).inode_table_blocks = (inodes * 128 + 4095) / 4096 ∧
      inodes * 128 ≤ (superblock_t.parse (img.take 116)).inode_table_blocks * 4096 ∧
      ((superblock_t.parse (img.take 116)).inode_table_blocks - 1) * 4096 < inodes * 128 ∧
      (superblock_t.parse (img.take 116)).data_region_start =
        3 + (superblock_t.parse (img.take 116)).inode_table_blocks ∧
      (superblock_t.parse (img.take 116)).data_region_start <
        (superblock_t.parse (img.take 116)).total_blocks ∧
      (superblock_t.parse (img.take 116)).data_region_blocks +
        (superblock_t.parse (img.take 116)).data_region_start =
        (superblock_t.parse (img.take 116)).total_blocks ∧
      (superblock_t.parse (img.take 116)).inode_bitmap_start = 1 ∧
      (superblock_t.parse (img.take 116)).data_bitmap_start = 2 ∧
      (superblock_t.parse (img.take 116)).inode_table_start = 3 ∧
      (size_kib = 184 → inodes = 128 →
        (superblock_t.parse (img.take 116)).total_blocks = 46 ∧
        (superblock_t.parse (img.take 116)).inode_table_blocks = 4 ∧
        (superblock_t.parse (img.take 116)).data_region_start = 7 ∧
        (superblock_t.parse (img.take 116)).data_region_blocks = 39) := by
  refine ⟨_, mkfs_builder_eq size_kib inodes now adjacent h1 h2 h3 h4 h5 h6, ?_⟩
  obtain ⟨hl, hlt⟩ := layout_eq size_kib inodes h1 h2 h5
  rw [fresh_take_sb, superblock_parse_bytes]
  simp only [builder_sb, builder_sb_init, hl]
  have e1 : size_kib * 1024 / 4096 % 2 ^ 64 = size_kib * 1024 / 4096 := by omega
  have e2 : (inodes * 128 + 4095) / 4096 % 2 ^ 64 = (inodes * 128 + 4095) / 4096 := by omega
  have e3 : (3 + (inodes * 128 + 4095) / 4096) % 2 ^ 64 = 3 + (inodes * 128 + 4095) / 4096 := by
    omega
  have e4 : (size_kib * 1024 / 4096 - (3 + (inodes * 128 + 4095) / 4096)) % 2 ^ 64 =
      size_kib * 1024 / 4096 - (3 + (inodes * 128 + 4095) / 4096) := by omega
  simp only [e1, e2, e3, e4]
  refine ⟨trivial, trivial, trivial, by omega, by omega, trivial, hlt, by omega, by decide,
    by decide, by decide, ?_⟩
  intro a b
  subst a b
  decide

theorem builder_superblock_layout_witness :
    ∃ img, mkfs_builder 184 128 (fun _ => 0) zero_stack = .finished img ∧
      (superblock_t.parse (img.take 116)).total_blocks = 46 ∧
      (superblock_t.parse (img.take 116)).inode_table_blocks = 4 ∧
      (superblock_t.parse (img.take 116)).data_region_start = 7 ∧
      (superblock_t.parse (img.take 116)).data_region_blocks = 39 := by
  obtain ⟨img, h, _, _, _, _, _, _, _, _, _, _, _, h'⟩ :=
    builder_superblock_layout 184 128 (fun _ => 0) zero_stack (by decide) (by decide)
      (by decide) (by decide) (by decide) zero_stack_length
  exact ⟨img, h, h' rfl rfl⟩

/-- C2: for valid arguments a run of the formatter ends in one of two ways. When the 3976
bytes behind the variable `sb` can be read, the image has `total_blocks * 4096 =
size_kib * 1024` bytes and is the concatenation of `total_blocks` blocks of 4096 bytes: the
superblock block, the two bitmap blocks, the inode-table blocks, the root-directory block
and zero blocks for the rest of the data region, so that each block index below
`total_blocks` is written once. When they cannot, `superblock_crc_finalize` reads beyond
them and the process is killed after `fopen` and before the first `fwrite`: the file is
left with 0 bytes, not `size_kib * 1024`. -/
theorem builder_image_length (size_kib inodes : Nat) (now : Nat → Nat) (adjacent : List Nat)
    (h1 : 180 ≤ size_kib) (h2 : size_kib ≤ 4096) (h3 : size_kib % 4 = 0)
    (h4 : 128 ≤ inodes) (h5 : inodes ≤ 512) :
    (3976 ≤ adjacent.length →
      ∃ img, mkfs_builder size_kib inodes now adjacent = .finished img ∧
        img.length = (layout size_kib inodes).1 * 4096 ∧
        img.length = size_kib * 1024 ∧
        img = (fresh_blocks size_kib inodes now adjacent).flatten ∧
        (fresh_blocks size_kib inodes now adjacent).length = (layout size_kib inodes).1 ∧
        (∀ b ∈ fresh_blocks size_kib inodes now adjacent, b.length = 4096) ∧
        (∀ k (hk : k < (fresh_blocks size_kib inodes now adjacent).length),
          block img k = (fresh_blocks size_kib inodes now adjacent)[k]) ∧
        1 + 1 + 1 + (layout size_kib inodes).2.1 + 1 + ((layout size_kib inodes).2.2.2 - 1) =
          (layout size_kib inodes).1) ∧
    (adjacent.length < 3976 →
      ∃ file, mkfs_builder size_kib inodes now adjacent = .killed file ∧
        file.length = 0 ∧ file.length ≠ size_kib * 1024) := by
  constructor
  · intro h6
    refine ⟨_, mkfs_builder_eq size_kib inodes now adjacent h1 h2 h3 h4 h5 h6, ?_⟩
    obtain ⟨hl, hlt⟩ := layout_eq size_kib inodes h1 h2 h5
    obtain ⟨hlen, hall⟩ := fresh_blocks_length size_kib inodes now adjacent h1 h2 h5 h4
    have hBS : BS = 4096 := rfl
    have hf := flatten_length_of _ hall
    rw [hlen, hBS] at hf
    refine ⟨hf, ?_, rfl, hlen, hall, fun k hk => block_flatten_get _ hall k hk, ?_⟩
    · rw [hf, hl]; omega
    · rw [hl]; simp only []; omega
  · intro h6
    refine ⟨[], mkfs_builder_killed size_kib inodes now adjacent h1 h2 h3 h4 h5 h6, rfl, ?_⟩
    show 0 ≠ size_kib * 1024
    omega

theorem builder_image_length_witness :
    mkfs_builder 184 128 (fun _ => 0) [] = .killed [] ∧
    ∃ img, mkfs_builder 184 128 (fun _ => 0) zero_stack = .finished img ∧
      img.length = 188416 := by
  obtain ⟨file, k1, k2, _⟩ :=
    (builder_image_length 184 128 (fun _ => 0) [] (by decide) (by decide) (by decide)
      (by decide) (by decide)).2 (by decide)
  obtain ⟨img, h, _, h', _⟩ :=
    (builder_image_length 184 128 (fun _ => 0) zero_stack (by decide) (by decide) (by decide)
      (by decide) (by decide)).1 zero_stack_length
  rw [List.length_eq_zero.mp k2] at k1
  exact ⟨k1, img, h, h'⟩

theorem builder_sb_parse (size_kib inodes : Nat) (now : Nat → Nat) (adjacent : List Nat)
    (h1 : 180 ≤ size_kib) (h2 : size_kib ≤ 4096) (h5 : inodes ≤ 512) :
    superblock_t.parse (builder_sb size_kib inodes now adjacent).bytes =
      builder_sb size_kib inodes now adjacent := by
  obtain ⟨hl, hlt⟩ := layout_eq size_kib inodes h1 h2 h5
  rw [superblock_parse_bytes]
  have hc := crc32_lt (({ builder_sb_init size_kib inodes now with checksum := 0 } :
    superblock_t).bytes ++ adjacent |>.take (BS - 4))
  simp only [builder_sb, builder_sb_init, hl] at hc ⊢
  rw [Nat.mod_eq_of_lt hc]
  have e1 : size_kib * 1024 / 4096 % 2 ^ 64 = size_kib * 1024 / 4096 := by omega
  have e2 : (inodes * 128 + 4095) / 4096 % 2 ^ 64 = (inodes * 128 + 4095) / 4096 := by omega
  have e3 : (3 + (inodes * 128 + 4095) / 4096) % 2 ^ 64 = 3 + (inodes * 128 + 4095) / 4096 := by
    omega
  have e4 : (size_kib * 1024 / 4096 - (3 + (inodes * 128 + 4095) / 4096)) % 2 ^ 64 =
      size_kib * 1024 / 4096 - (3 + (inodes * 128 + 4095) / 4096) := by omega
  have e5 : inodes % 2 ^ 64 = inodes := by omega
  have e6 : now 0 % 2 ^ 64 % 2 ^ 64 = now 0 % 2 ^ 64 := Nat.mod_mod _ _
  simp only [e1, e2, e3, e4, e5, e6]
  rfl

theorem fresh_sb (size_kib inodes : Nat) (now : Nat → Nat) (adjacent : List Nat)
    (h1 : 180 ≤ size_kib) (h2 : size_kib ≤ 4096) (h5 : inodes ≤ 512) :
    superblock_t.parse ((fresh_blocks size_kib inodes now adjacent).flatten.take 116) =
      builder_sb size_kib inodes now adjacent := by
  rw [fresh_take_sb, builder_sb_parse size_kib inodes now adjacent h1 h2 h5]

theorem builder_sb_drs (size_kib inodes : Nat) (now : Nat → Nat) (adjacent : List Nat) :
    (builder_sb size_kib inodes now adjacent).data_region_start =
      (layout size_kib inodes).2.2.1 := rfl

theorem slot_zero (a : List Nat) (n i : Nat) (ha : a.length ≤ 64 * i) (hi : 64 * i + 64 ≤ n) :
    ((fit a n).drop (64 * i)).take 64 = List.replicate 64 0 := by
  unfold fit
  have ht : a.take n = a := List.take_of_length_le (by omega)
  rw [ht, List.drop_append_eq_append_drop,
    List.drop_eq_nil_of_le ha, List.nil_append, List.drop_replicate, List.take_replicate]
  congr 1
  omega

theorem entry_at_zero : dirent64_t.parse (List.replicate 64 0) =
    ⟨0, 0, List.replicate 58 0, 0⟩ := by
  decide

theorem dirent_bytes_length (de : dirent64_t) : de.bytes.length = 64 := by
  simp [dirent64_t.bytes, le_bytes_length, fit_length]

theorem fit_slot_0 (a b : List Nat) (n : Nat) (ha : a.length = 64) (hb : b.length = 64)
    (hn : 128 ≤ n) : ((fit (a ++ b) n).drop (64 * 0)).take 64 = a := by
  unfold fit
  have ht : (a ++ b).take n = a ++ b := List.take_of_length_le (by simp [ha, hb]; omega)
  rw [ht, Nat.mul_zero, List.drop_zero, List.append_assoc, List.take_left' ha]

theorem fit_slot_1 (a b : List Nat) (n : Nat) (ha : a.length = 64) (hb : b.length = 64)
    (hn : 128 ≤ n) : ((fit (a ++ b) n).drop (64 * 1)).take 64 = b := by
  unfold fit
  have ht : (a ++ b).take n = a ++ b := List.take_of_length_le (by simp [ha, hb]; omega)
  rw [ht, Nat.mul_one, List.append_assoc, List.drop_left' ha, List.take_left' hb]

theorem dir_slot_0 : ((block_of (dot_entry.bytes ++ dotdot_entry.bytes)).drop (64 * 0)).take 64 =
    dot_entry.bytes :=
  fit_slot_0 _ _ _ (dirent_bytes_length _) (dirent_bytes_length _) (by decide)

theorem dir_slot_1 : ((block_of (dot_entry.bytes ++ dotdot_entry.bytes)).drop (64 * 1)).take 64 =
    dotdot_entry.bytes :=
  fit_slot_1 _ _ _ (dirent_bytes_length _) (dirent_bytes_length _) (by decide)

/-- C5: in a fresh image (what a run of the formatter that finishes leaves, the 3976 bytes
behind the variable `sb` being readable) bit 0 of the inode bitmap (block 1) and bit 0 of
the data bitmap (block 2) are set and every other bit of the two 4096-byte blocks is clear.
-/
theorem builder_bitmaps (size_kib inodes : Nat) (now : Nat → Nat) (adjacent : List Nat)
    (h1 : 180 ≤ size_kib) (h2 : size_kib ≤ 4096) (h3 : size_kib % 4 = 0)
    (h4 : 128 ≤ inodes) (h5 : inodes ≤ 512)
    (h6 : 3976 ≤ adjacent.length) :
    ∃ img, mkfs_builder size_kib inodes now adjacent = .finished img ∧
      (block img 1).length = 4096 ∧ (block img 2).length = 4096 ∧
      (∀ b ∈ block img 1, b < 256) ∧ (∀ b ∈ block img 2, b < 256) ∧
      ∀ p, get_bit (block img 1) p = decide (p = 0) ∧
        get_bit (block img 2) p = decide (p = 0) := by
  refine ⟨_, mkfs_builder_eq size_kib inodes now adjacent h1 h2 h3 h4 h5 h6, ?_⟩
  rw [fresh_block_1, fresh_block_2]
  have hb : ∀ b ∈ 1 :: List.replicate (BS - 1) 0, b < 256 := by
    intro b hb
    simp only [List.mem_cons, List.mem_replicate] at hb
    rcases hb with h | ⟨_, h⟩ <;> rw [h] <;> decide
  exact ⟨bitmap_block_length, bitmap_block_length, hb, hb,
    fun p => ⟨get_bit_first p _, get_bit_first p _⟩⟩

theorem builder_bitmaps_witness :
    ∃ img, mkfs_builder 184 128 (fun _ => 0) zero_stack = .finished img ∧
      get_bit (block img 1) 0 = true ∧ get_bit (block img 1) 1 = false ∧
      get_bit (block img 2) 0 = true ∧ get_bit (block img 2) 32767 = false := by
  obtain ⟨img, h, _, _, _, _, hb⟩ :=
    builder_bitmaps 184 128 (fun _ => 0) zero_stack (by decide) (by decide)
      (by decide) (by decide) (by decide) zero_stack_length
  exact ⟨img, h, (hb 0).1, (hb 1).1, (hb 0).2, (hb 32767).2⟩

/-- C4: in a fresh image (what a run of the formatter that finishes leaves, the 3976 bytes
behind the variable `sb` being readable) the block at index `data_region_start` holds the
entries `.` and `..` in slots 0 and 1, both with inode number 1 and type 2, each with a
checksum byte equal to the exclusive-or of the first 63 bytes of its slot; the slots 2 to 63
are zero. -/
theorem builder_root_directory (size_kib inodes : Nat) (now : Nat → Nat) (adjacent : List Nat)
    (h1 : 180 ≤ size_kib) (h2 : size_kib ≤ 4096) (h3 : size_kib % 4 = 0)
    (h4 : 128 ≤ inodes) (h5 : inodes ≤ 512)
    (h6 : 3976 ≤ adjacent.length) :
    ∃ img, mkfs_builder size_kib inodes now adjacent = .finished img ∧
      ∃ d, d = block img (superblock_t.parse (img.take 116)).data_region_start ∧
        d.length = 4096 ∧
        (entry_at d 0).inode_no = 1 ∧ (entry_at d 0).type = 2 ∧
        (entry_at d 0).name = 46 :: List.replicate 57 0 ∧
        (entry_at d 0).checksum = xor_fold (((d.drop (64 * 0)).take 64).take 63) ∧
        (entry_at d 1).inode_no = 1 ∧ (entry_at d 1).type = 2 ∧
        (entry_at d 1).name = 46 :: 46 :: List.replicate 56 0 ∧
        (entry_at d 1).checksum = xor_fold (((d.drop (64 * 1)).take 64).take 63) ∧
        ∀ i, 2 ≤ i → i < 64 →
          (d.drop (64 * i)).take 64 = List.replicate 64 0 ∧ (entry_at d i).inode_no = 0 := by
  refine ⟨_, mkfs_builder_eq size_kib inodes now adjacent h1 h2 h3 h4 h5 h6, _, rfl, ?_⟩
  rw [fresh_sb size_kib inodes now adjacent h1 h2 h5, builder_sb_drs,
    fresh_block_dir size_kib inodes now adjacent h1 h2 h4 h5]
  refine ⟨block_of_length _, ?_⟩
  unfold entry_at
  rw [dir_slot_0, dir_slot_1]
  refine ⟨by decide, by decide, by decide, by decide, by decide, by decide, by decide,
    by decide, ?_⟩
  intro i hi hi'
  have hz := slot_zero (dot_entry.bytes ++ dotdot_entry.bytes) BS i
    (by have : (dot_entry.bytes ++ dotdot_entry.bytes).length = 128 := by
          simp [dirent_bytes_length]
        omega)
    (by have : BS = 4096 := rfl
        omega)
  unfold block_of
  rw [hz]
  exact ⟨rfl, by decide⟩

theorem builder_root_directory_witness :
    ∃ img, mkfs_builder 184 128 (fun _ => 0) zero_stack = .finished img ∧
      ∃ d, d = block img (superblock_t.parse (img.take 116)).data_region_start ∧
        (entry_at d 0).inode_no = 1 ∧ (entry_at d 1).inode_no = 1 ∧
        (entry_at d 2).inode_no = 0 := by
  obtain ⟨img, h, d, hd, _, a, _, _, _, b, _, _, _, c⟩ :=
    builder_root_directory 184 128 (fun _ => 0) zero_stack (by decide) (by decide)
      (by decide) (by decide) (by decide) zero_stack_length
  exact ⟨img, h, d, hd, a, b, (c 2 (by decide) (by decide)).2⟩

set_option maxRecDepth 100000 in
theorem crc32_tab_flip (i : Nat) (h : i < 256) :
    CRC32_TAB.getD (i ^^^ 1) 0 ≠ CRC32_TAB.getD i 0 := by
  revert i
  decide

theorem crc32_update_flip (c : Nat) : crc32_update c 1 ≠ crc32_update c 0 := by
  unfold crc32_update
  intro h
  rw [Nat.xor_left_inj, Nat.xor_zero, Nat.and_xor_distrib_right] at h
  have hi : c &&& 0xFF < 256 := Nat.and_lt_two_pow c (by decide : 0xFF < 2 ^ 8)
  exact crc32_tab_flip _ hi h

theorem crc32_last_byte (x : List Nat) : crc32 (x ++ [1]) ≠ crc32 (x ++ [0]) := by
  unfold crc32
  rw [List.foldl_append, List.foldl_append]
  simp only [List.foldl_cons, List.foldl_nil]
  intro h
  rw [Nat.xor_left_inj] at h
  exact crc32_update_flip _ h

/-- The superblock record is its first 112 bytes, which do not depend on the checksum,
followed by the checksum. -/
theorem superblock_bytes_split (sb : superblock_t) (c : Nat) :
    ({ sb with checksum := c } : superblock_t).bytes =
      sb.bytes.take 112 ++ le_bytes c 4 := by
  have h : ∀ s : superblock_t, ∃ p : List Nat, p.length = 112 ∧
      ∀ c, ({ s with checksum := c } : superblock_t).bytes = p ++ le_bytes c 4 := by
    intro s
    refine ⟨le_bytes s.magic 4 ++ le_bytes s.version 4 ++ le_bytes s.block_size 4 ++
      le_bytes s.total_blocks 8 ++ le_bytes s.inode_count 8 ++
      le_bytes s.inode_bitmap_start 8 ++ le_bytes s.inode_bitmap_blocks 8 ++
      le_bytes s.data_bitmap_start 8 ++ le_bytes s.data_bitmap_blocks 8 ++
      le_bytes s.inode_table_start 8 ++ le_bytes s.inode_table_blocks 8 ++
      le_bytes s.data_region_start 8 ++ le_bytes s.data_region_blocks 8 ++
      le_bytes s.root_inode 8 ++ le_bytes s.mtime_epoch 8 ++
      le_bytes s.flags 4, ?_, fun c => rfl⟩
    simp [le_bytes_length]
  obtain ⟨p, hp, hs⟩ := h sb
  have e : sb.bytes = p ++ le_bytes sb.checksum 4 := hs sb.checksum
  rw [hs c, e, List.take_left' hp]

theorem fresh_block_0 (size_kib inodes : Nat) (now : Nat → Nat) (adjacent : List Nat) :
    block (fresh_blocks size_kib inodes now adjacent).flatten 0 =
      block_of (builder_sb size_kib inodes now adjacent).bytes :=
  block_flatten_mid [] _ _ (fun b hb => by simp at hb) (block_of_length _)

/-- What the check of the specification computes on block 0 of a fresh image: the stored
checksum is the CRC-32 over the record followed by the memory behind it, the recomputed one
is over the record followed by zeros. -/
theorem fresh_checksum_ok (size_kib inodes : Nat) (now : Nat → Nat) (adjacent : List Nat) :
    superblock_checksum_ok (block (fresh_blocks size_kib inodes now adjacent).flatten 0) =
      (crc32 ((({ builder_sb_init size_kib inodes now with checksum := 0 } :
          superblock_t).bytes ++ adjacent).take (BS - 4)) ==
        crc32 (({ builder_sb_init size_kib inodes now with checksum := 0 } :
          superblock_t).bytes ++ List.replicate (BS - 4 - 116) 0)) := by
  rw [fresh_block_0]
  unfold superblock_checksum_ok builder_sb
  simp only []
  generalize hc : crc32 ((({ builder_sb_init size_kib inodes now with checksum := 0 } :
          superblock_t).bytes ++ adjacent).take (BS - 4)) = c
  have hlt : c < 2 ^ 32 := hc ▸ crc32_lt _
  rw [superblock_bytes_split _ c, superblock_bytes_split _ 0]
  generalize hp : (builder_sb_init size_kib inodes now).bytes.take 112 = p
  have hpl : p.length = 112 := by
    rw [← hp, List.length_take, superblock_bytes_length]; rfl
  have hBS : BS = 4096 := rfl
  have hblk : block_of (p ++ le_bytes c 4) = p ++ (le_bytes c 4 ++ List.replicate (BS - 116) 0) := by
    unfold block_of fit
    have ht : (p ++ le_bytes c 4).take BS = p ++ le_bytes c 4 :=
      List.take_of_length_le (by simp [hpl, le_bytes_length, hBS])
    rw [ht, List.append_assoc]
    simp [hpl, le_bytes_length]
  rw [hblk]
  have hf : field (p ++ (le_bytes c 4 ++ List.replicate (BS - 116) 0)) 112 4 = c := by
    rw [field_skip _ _ _ _ (by omega), hpl, Nat.sub_self, field_le_here]
    exact Nat.mod_eq_of_lt hlt
  have ht : (p ++ (le_bytes c 4 ++ List.replicate (BS - 116) 0)).take 112 = p :=
    List.take_left' hpl
  have hd : (p ++ (le_bytes c 4 ++ List.replicate (BS - 116) 0)).drop 116 =
      List.replicate (BS - 116) 0 := by
    rw [← List.append_assoc]
    exact List.drop_left' (by simp [hpl, le_bytes_length])
  rw [hf, ht, hd]
  have hz : le_bytes 0 4 = List.replicate 4 0 := by decide
  have hlast : (p ++ List.replicate 4 0 ++ List.replicate (BS - 116) 0).take (BS - 4) =
      p ++ le_bytes 0 4 ++ List.replicate (BS - 4 - 116) 0 := by
    rw [hz, List.take_append_eq_append_take, List.take_of_length_le (by simp [hpl, hBS]),
      List.take_replicate]
    congr 2
    simp [hpl, hBS]
  rw [hlast]

theorem fresh_checksum_flip (size_kib inodes : Nat) (now : Nat → Nat) :
    superblock_checksum_ok
      (block (fresh_blocks size_kib inodes now (List.replicate 3975 0 ++ [1])).flatten 0) =
      false := by
  rw [fresh_checksum_ok]
  have hb := superblock_bytes_length
    ({ builder_sb_init size_kib inodes now with checksum := 0 } : superblock_t)
  generalize ({ builder_sb_init size_kib inodes now with checksum := 0 } :
    superblock_t).bytes = b at *
  have e : BS - 4 - 116 = 3975 + 1 := rfl
  have ht : (b ++ (List.replicate 3975 0 ++ [1])).take (BS - 4) =
      (b ++ List.replicate 3975 0) ++ [1] := by
    rw [List.take_of_length_le, List.append_assoc]
    simp only [List.length_append, List.length_replicate, List.length_singleton, hb]
    decide
  have er : List.replicate (3975 + 1) (0 : Nat) = List.replicate 3975 0 ++ [0] :=
    List.replicate_succ' 3975 0
  rw [ht, e, er, ← List.append_assoc]
  exact beq_false_of_ne (crc32_last_byte _)

theorem fresh_checksum_zero (size_kib inodes : Nat) (now : Nat → Nat) :
    superblock_checksum_ok
      (block (fresh_blocks size_kib inodes now (List.replicate 3976 0)).flatten 0) = true := by
  rw [fresh_checksum_ok]
  have hb := superblock_bytes_length
    ({ builder_sb_init size_kib inodes now with checksum := 0 } : superblock_t)
  generalize ({ builder_sb_init size_kib inodes now with checksum := 0 } :
    superblock_t).bytes = b at *
  have e : BS - 4 - 116 = 3976 := rfl
  have ht : (b ++ List.replicate 3976 0).take (BS - 4) = b ++ List.replicate 3976 0 := by
    rw [List.take_of_length_le]
    simp only [List.length_append, List.length_replicate, hb]
    decide
  rw [ht, e]
  exact beq_self_eq_true _

/-- C3, the code at a failing input: with arguments 184 and 128 and a non-zero byte in the
memory behind the superblock record, the checksum stored in block 0 is not the CRC-32 of the
first 4092 bytes of the block with the checksum field zeroed. -/
theorem superblock_checksum_mismatch :
    ∃ img, mkfs_builder 184 128 (fun _ => 0) (List.replicate 3975 0 ++ [1]) = .finished img ∧
      superblock_checksum_ok (block img 0) = false :=
  ⟨_, mkfs_builder_eq 184 128 _ _ (by decide) (by decide) (by decide) (by decide) (by decide)
      (by rw [List.length_append, List.length_replicate]; decide),
    fresh_checksum_flip 184 128 _⟩

theorem inode_scan_bits_eq (bitmap : List Nat) (inode_count byte_idx fuel bit_idx : Nat) :
    inode_scan_bits bitmap inode_count byte_idx fuel bit_idx =
      scan_bits bitmap inode_count (fun p => p + 1) byte_idx fuel bit_idx := by
  induction fuel generalizing bit_idx with
  | zero => rfl
  | succ n ih =>
    rw [inode_scan_bits, scan_bits, ih]
    by_cases h : byte_idx * 8 + bit_idx + 1 > inode_count
    · have h' : byte_idx * 8 + bit_idx ≥ inode_count := by omega
      simp only [h, h', if_true]
    · have h' : ¬ (byte_idx * 8 + bit_idx ≥ inode_count) := by omega
      simp only [h, h', if_false]

theorem inode_scan_eq (bitmap : List Nat) (inode_count fuel byte_idx : Nat) :
    inode_scan bitmap inode_count fuel byte_idx =
      scan bitmap inode_count (fun p => p + 1) fuel byte_idx := by
  induction fuel generalizing byte_idx with
  | zero => rfl
  | succ n ih =>
    rw [inode_scan, scan, ih, inode_scan_bits_eq]

theorem data_scan_bits_eq (bitmap : List Nat) (sb : superblock_t) (byte_idx fuel bit_idx : Nat) :
    data_scan_bits bitmap sb byte_idx fuel bit_idx =
      scan_bits bitmap sb.data_region_blocks (fun p => (sb.data_region_start + p) % 2 ^ 64)
        byte_idx fuel bit_idx := by
  induction fuel generalizing bit_idx with
  | zero => rfl
  | succ n ih => rw [data_scan_bits, scan_bits, ih]

theorem data_scan_eq (bitmap : List Nat) (sb : superblock_t) (fuel byte_idx : Nat) :
    data_scan bitmap sb fuel byte_idx =
      scan bitmap sb.data_region_blocks (fun p => (sb.data_region_start + p) % 2 ^ 64)
        fuel byte_idx := by
  induction fuel generalizing byte_idx with
  | zero => rfl
  | succ n ih =>
    rw [data_scan, scan, ih, data_scan_bits_eq]

theorem and_shift_eq_zero (x i : Nat) : x &&& (1 <<< i) = 0 ↔ x.testBit i = false := by
  rw [Nat.one_shiftLeft]
  constructor
  · intro h
    have := congrArg (fun y => y.testBit i) h
    simpa [Nat.testBit_and, Nat.testBit_two_pow_self] using this
  · intro h
    apply Nat.eq_of_testBit_eq
    intro j
    rw [Nat.testBit_and, Nat.testBit_two_pow, Nat.zero_testBit]
    by_cases hij : i = j
    · subst hij; simp [h]
    · simp [hij]

theorem clear_iff (bitmap : List Nat) (b j : Nat) (hj : j < 8) :
    bitmap.getD b 0 &&& (1 <<< j) = 0 ↔ get_bit bitmap (b * 8 + j) = false := by
  unfold get_bit
  have e1 : (b * 8 + j) / 8 = b := by omega
  have e2 : (b * 8 + j) % 8 = j := by omega
  rw [e1, e2, and_shift_eq_zero]

theorem set_bit_eq (bitmap : List Nat) (b j : Nat) (hj : j < 8) :
    bitmap.set b ((bitmap.getD b 0 ||| (1 <<< j)) % 256) = set_bit bitmap (b * 8 + j) := by
  unfold set_bit
  have e1 : (b * 8 + j) / 8 = b := by omega
  have e2 : (b * 8 + j) % 8 = j := by omega
  rw [e1, e2]

theorem scan_bits_none (bitmap : List Nat) (limit : Nat) (ret : Nat → Nat) (b fuel j : Nat)
    (hfj : j + fuel ≤ 8)
    (h : ∀ i, j ≤ i → i < j + fuel → b * 8 + i < limit ∧ get_bit bitmap (b * 8 + i) = true) :
    scan_bits bitmap limit ret b fuel j = none := by
  induction fuel generalizing j with
  | zero => rfl
  | succ n ih =>
    obtain ⟨h1, h2⟩ := h j (le_refl _) (by omega)
    rw [scan_bits, if_neg (by omega), if_neg (by rw [clear_iff _ _ _ (by omega), h2]; simp)]
    exact ih (j + 1) (by omega) (fun i hi hi' => h i (by omega) (by omega))

theorem scan_bits_stop (bitmap : List Nat) (limit : Nat) (ret : Nat → Nat) (b fuel j j0 : Nat)
    (hfj : j + fuel ≤ 8) (hj0 : j ≤ j0) (hj0' : j0 < j + fuel)
    (h : ∀ i, j ≤ i → i < j0 → b * 8 + i < limit ∧ get_bit bitmap (b * 8 + i) = true)
    (hstop : limit ≤ b * 8 + j0) :
    scan_bits bitmap limit ret b fuel j = some (0, none) := by
  induction fuel generalizing j with
  | zero => omega
  | succ n ih =>
    rcases Nat.eq_or_lt_of_le hj0 with e | hlt
    · subst e
      rw [scan_bits, if_pos hstop]
    · obtain ⟨h1, h2⟩ := h j (le_refl _) hlt
      rw [scan_bits, if_neg (by omega), if_neg (by rw [clear_iff _ _ _ (by omega), h2]; simp)]
      exact ih (j + 1) (by omega) (by omega) (by omega) (fun i hi hi' => h i (by omega) hi')

theorem scan_bits_found (bitmap : List Nat) (limit : Nat) (ret : Nat → Nat) (b fuel j j0 : Nat)
    (hfj : j + fuel ≤ 8) (hj0 : j ≤ j0) (hj0' : j0 < j + fuel)
    (h : ∀ i, j ≤ i → i < j0 → get_bit bitmap (b * 8 + i) = true)
    (hlim : b * 8 + j0 < limit) (hclr : get_bit bitmap (b * 8 + j0) = false) :
    scan_bits bitmap limit ret b fuel j =
      some (ret (b * 8 + j0), some (set_bit bitmap (b * 8 + j0))) := by
  induction fuel generalizing j with
  | zero => omega
  | succ n ih =>
    rcases Nat.eq_or_lt_of_le hj0 with e | hlt
    · subst e
      rw [scan_bits, if_neg (by omega), if_pos ((clear_iff _ _ _ (by omega)).2 hclr),
        set_bit_eq _ _ _ (by omega)]
    · have h2 := h j (le_refl _) hlt
      rw [scan_bits, if_neg (by omega), if_neg (by rw [clear_iff _ _ _ (by omega), h2]; simp)]
      exact ih (j + 1) (by omega) (by omega) (by omega) (fun i hi hi' => h i (by omega) hi')

theorem scan_found (bitmap : List Nat) (limit : Nat) (ret : Nat → Nat) (fuel b p0 : Nat)
    (hlo : b * 8 ≤ p0) (hhi : p0 < (b + fuel) * 8)
    (h : ∀ p, b * 8 ≤ p → p < p0 → get_bit bitmap p = true)
    (hlim : p0 < limit) (hclr : get_bit bitmap p0 = false) :
    scan bitmap limit ret fuel b = (ret p0, some (set_bit bitmap p0)) := by
  induction fuel generalizing b with
  | zero => omega
  | succ n ih =>
    rw [scan]
    by_cases hb : p0 < (b + 1) * 8
    · obtain ⟨j0, rfl⟩ : ∃ j0, p0 = b * 8 + j0 := ⟨p0 - b * 8, by omega⟩
      rw [scan_bits_found bitmap limit ret b 8 0 j0 (by omega) (by omega) (by omega)
        (fun i _ hi => h _ (by omega) (by omega)) hlim hclr]
    · rw [scan_bits_none bitmap limit ret b 8 0 (by omega)
        (fun i _ hi => ⟨by omega, h _ (by omega) (by omega)⟩)]
      exact ih (b + 1) (by omega) (by omega) (fun p hp hp' => h p (by omega) hp')

theorem scan_zero (bitmap : List Nat) (limit : Nat) (ret : Nat → Nat) (fuel b : Nat)
    (h : ∀ p, b * 8 ≤ p → p < (b + fuel) * 8 → p < limit → get_bit bitmap p = true) :
    scan bitmap limit ret fuel b = (0, none) := by
  induction fuel generalizing b with
  | zero => rfl
  | succ n ih =>
    rw [scan]
    by_cases hb : limit < (b + 1) * 8
    · rw [scan_bits_stop bitmap limit ret b 8 0 (limit - b * 8) (by omega) (by omega) (by omega)
        (fun i _ hi => ⟨by omega, h _ (by omega) (by omega) (by omega)⟩) (by omega)]
    · rw [scan_bits_none bitmap limit ret b 8 0 (by omega)
        (fun i _ hi => ⟨by omega, h _ (by omega) (by omega) (by omega)⟩)]
      exact ih (b + 1) (fun p hp hp' hp'' => h p (by omega) (by omega) hp'')

theorem set_bit_length (bitmap : List Nat) (p : Nat) :
    (set_bit bitmap p).length = bitmap.length := by
  simp [set_bit]

theorem set_bit_getD_ne (bitmap : List Nat) (p i : Nat) (h : i ≠ p / 8) :
    (set_bit bitmap p).getD i 0 = bitmap.getD i 0 := by
  unfold set_bit
  rw [List.getD_eq_getElem?_getD, List.getElem?_set_ne (Ne.symm h), ← List.getD_eq_getElem?_getD]

theorem get_bit_set_bit (bitmap : List Nat) (p q : Nat) (hp : p < 8 * bitmap.length) :
    get_bit (set_bit bitmap p) q = (get_bit bitmap q || decide (q = p)) := by
  unfold get_bit
  by_cases hq : q / 8 = p / 8
  · have hlen : p / 8 < bitmap.length := by omega
    have e : (set_bit bitmap p).getD (q / 8) 0 =
        (bitmap.getD (p / 8) 0 ||| (1 <<< (p % 8))) % 256 := by
      unfold set_bit
      rw [hq, List.getD_eq_getElem?_getD, List.getElem?_set_self hlen]
      rfl
    rw [e, hq, show (256 : Nat) = 2 ^ 8 from rfl, Nat.testBit_mod_two_pow, Nat.testBit_or,
      Nat.one_shiftLeft, Nat.testBit_two_pow]
    have h8 : q % 8 < 8 := Nat.mod_lt _ (by decide)
    have e2 : (q = p) ↔ (p % 8 = q % 8) := by omega
    simp [h8, e2]
  · rw [set_bit_getD_ne _ _ _ hq]
    have : q ≠ p := fun h => hq (by rw [h])
    simp [this]

theorem set_bit_bytes (bitmap : List Nat) (p : Nat) (h : ∀ b ∈ bitmap, b < 256) :
    ∀ b ∈ set_bit bitmap p, b < 256 := by
  intro b hb
  unfold set_bit at hb
  rcases List.mem_or_eq_of_mem_set hb with h' | h'
  · exact h b h'
  · rw [h']; exact Nat.mod_lt _ (by decide)

/-- The two outcomes of a scan from the start of the bitmap. -/
theorem scan_cases (bitmap : List Nat) (limit : Nat) (ret : Nat → Nat) (fuel : Nat) :
    (∃ p, p < limit ∧ p < fuel * 8 ∧ get_bit bitmap p = false ∧
      (∀ q, q < p → get_bit bitmap q = true) ∧
      scan bitmap limit ret fuel 0 = (ret p, some (set_bit bitmap p))) ∨
    ((∀ p, p < limit → p < fuel * 8 → get_bit bitmap p = true) ∧
      scan bitmap limit ret fuel 0 = (0, none)) := by
  by_cases hex : ∃ p, p < limit ∧ p < fuel * 8 ∧ get_bit bitmap p = false
  · left
    classical
    have hp := Nat.find_spec hex
    have hmin : ∀ q, q < Nat.find hex → get_bit bitmap q = true := by
      intro q hq
      have := Nat.find_min hex hq
      by_contra hc
      exact this ⟨by omega, by omega, by simpa using hc⟩
    exact ⟨Nat.find hex, hp.1, hp.2.1, hp.2.2, hmin,
      scan_found bitmap limit ret fuel 0 _ (by omega) (by omega) (fun q _ hq => hmin q hq)
        hp.1 hp.2.2⟩
  · right
    have hall : ∀ p, p < limit → p < fuel * 8 → get_bit bitmap p = true := by
      intro p h1 h2
      by_contra hc
      exact hex ⟨p, h1, h2, by simpa using hc⟩
    exact ⟨hall, scan_zero bitmap limit ret fuel 0 (fun p _ hp hl => hall p hl (by omega))⟩

theorem find_free_inode_cases (img : FILE) (sb : superblock_t)
    (hlen : (fread (fseek img (sb.inode_bitmap_start * BS % 2 ^ 64)) BS).1.length = BS) :
    (∃ p, p < sb.inode_count ∧ p < BS * 8 ∧
      get_bit (fread (fseek img (sb.inode_bitmap_start * BS % 2 ^ 64)) BS).1 p = false ∧
      (∀ q, q < p →
        get_bit (fread (fseek img (sb.inode_bitmap_start * BS % 2 ^ 64)) BS).1 q = true) ∧
      find_free_inode img sb = (p + 1,
        fwrite (fseek (fread (fseek img (sb.inode_bitmap_start * BS % 2 ^ 64)) BS).2
            (sb.inode_bitmap_start * BS % 2 ^ 64))
          (set_bit (fread (fseek img (sb.inode_bitmap_start * BS % 2 ^ 64)) BS).1 p))) ∨
    ((∀ p, p < sb.inode_count → p < BS * 8 →
        get_bit (fread (fseek img (sb.inode_bitmap_start * BS % 2 ^ 64)) BS).1 p = true) ∧
      find_free_inode img sb =
        (0, (fread (fseek img (sb.inode_bitmap_start * BS % 2 ^ 64)) BS).2)) := by
  unfold find_free_inode
  simp only []
  rw [if_neg (by rw [hlen]; simp), inode_scan_eq]
  rcases scan_cases (fread (fseek img (sb.inode_bitmap_start * BS % 2 ^ 64)) BS).1
    sb.inode_count (fun p => p + 1) BS with ⟨p, h1, h2, h3, h4, h5⟩ | ⟨h1, h2⟩
  · left
    exact ⟨p, h1, h2, h3, h4, by rw [h5]⟩
  · right
    exact ⟨h1, by rw [h2]⟩

theorem fread_data (f : FILE) (n : Nat) : (fread f n).2.data = f.data := rfl

theorem fseek_data (f : FILE) (off : Nat) : (fseek f off).data = f.data := by
  unfold fseek; split <;> rfl

theorem fread_whole (d : List Nat) (n : Nat) (h : d.length = n) :
    fread (fseek ⟨d, 0⟩ 0) n = (d, ⟨d, n⟩) := by
  have hs : fseek ⟨d, 0⟩ 0 = ⟨d, 0⟩ := by unfold fseek; simp
  rw [hs]
  unfold fread
  simp [h, List.take_of_length_le (le_of_eq h)]

/-- C7: `find_free_inode` on a bitmap block that was read in full returns `n ≥ 1` exactly
when `n` is the smallest 1-based position of a clear bit and `n ≤ inode_count` (positions run
to 32768); it then writes back the bitmap with that one bit set and no other change. It
returns 0 exactly when every bit at the positions `1..min(inode_count, 32768)` is set, and
then writes nothing, whatever the bits beyond `inode_count` are. -/
theorem find_free_inode_spec (img img' : FILE) (sb : superblock_t) (bitmap : List Nat)
    (hread : fread (fseek img (sb.inode_bitmap_start * BS % 2 ^ 64)) BS = (bitmap, img'))
    (hlen : bitmap.length = BS) :
    (∀ n, 1 ≤ n → ((find_free_inode img sb).1 = n ↔
      (n ≤ sb.inode_count ∧ n ≤ 32768 ∧ get_bit bitmap (n - 1) = false ∧
        ∀ m, 1 ≤ m → m < n → get_bit bitmap (m - 1) = true))) ∧
    (∀ n, 1 ≤ n → (find_free_inode img sb).1 = n →
      ∃ bitmap', (find_free_inode img sb).2 =
          fwrite (fseek img' (sb.inode_bitmap_start * BS % 2 ^ 64)) bitmap' ∧
        bitmap'.length = BS ∧
        (∀ q, get_bit bitmap' q = (get_bit bitmap q || decide (q + 1 = n))) ∧
        (∀ i, i ≠ (n - 1) / 8 → bitmap'.getD i 0 = bitmap.getD i 0)) ∧
    ((find_free_inode img sb).1 = 0 ↔
      ∀ m, 1 ≤ m → m ≤ sb.inode_count → m ≤ 32768 → get_bit bitmap (m - 1) = true) ∧
    ((find_free_inode img sb).1 = 0 →
      find_free_inode img sb = (0, img') ∧ img'.data = img.data) := by
  have hBS : BS = 4096 := rfl
  have h1 : (fread (fseek img (sb.inode_bitmap_start * BS % 2 ^ 64)) BS).1 = bitmap := by
    rw [hread]
  have h2 : (fread (fseek img (sb.inode_bitmap_start * BS % 2 ^ 64)) BS).2 = img' := by
    rw [hread]
  have hd : img'.data = img.data := by rw [← h2, fread_data, fseek_data]
  have hc := find_free_inode_cases img sb (by rw [h1]; exact hlen)
  rw [h1, h2] at hc
  rcases hc with ⟨p, hp1, hp2, hp3, hp4, hp5⟩ | ⟨hall, hres⟩
  · rw [hp5]
    refine ⟨?_, ?_, ?_, ?_⟩
    · intro n hn
      constructor
      · intro h
        simp only [] at h
        subst h
        refine ⟨by omega, by omega, by simpa using hp3, ?_⟩
        intro m hm hm'
        exact hp4 (m - 1) (by omega)
      · rintro ⟨a, b, c, d⟩
        simp only []
        by_contra hne
        rcases Nat.lt_or_gt_of_ne hne with hlt | hgt
        · have := d (p + 1) (by omega) hlt
          simp [hp3] at this
        · have := hp4 (n - 1) (by omega)
          simp [c] at this
    · intro n hn h
      simp only [] at h
      subst h
      refine ⟨set_bit bitmap p, rfl, by rw [set_bit_length, hlen], ?_, ?_⟩
      · intro q
        rw [get_bit_set_bit bitmap p q (by omega)]
        simp
      · intro i hi
        exact set_bit_getD_ne bitmap p i (by simpa using hi)
    · simp only []
      constructor
      · intro h; omega
      · intro h
        have := h (p + 1) (by omega) (by omega) (by omega)
        simp [hp3] at this
    · intro h
      simp only [] at h
      omega
  · rw [hres]
    refine ⟨?_, ?_, ?_, ?_⟩
    · intro n hn
      simp only []
      constructor
      · intro h; omega
      · rintro ⟨a, b, c, d⟩
        have := hall (n - 1) (by omega) (by omega)
        simp [c] at this
    · intro n hn h
      simp only [] at h
      omega
    · simp only [true_iff]
      intro m hm hm' hm''
      exact hall (m - 1) (by omega) (by omega)
    · intro _
      exact ⟨rfl, hd⟩

theorem find_free_inode_spec_witness :
    (find_free_inode ⟨1 :: List.replicate 4095 0, 0⟩
      { magic := 0, version := 0, block_size := 0, total_blocks := 0, inode_count := 128,
        inode_bitmap_start := 0, inode_bitmap_blocks := 0, data_bitmap_start := 0,
        data_bitmap_blocks := 0, inode_table_start := 0, inode_table_blocks := 0,
        data_region_start := 0, data_region_blocks := 0, root_inode := 0, mtime_epoch := 0,
        flags := 0, checksum := 0 }).1 = 2 :=
  ((find_free_inode_spec ⟨1 :: List.replicate 4095 0, 0⟩ ⟨1 :: List.replicate 4095 0, 4096⟩ _
      (1 :: List.replicate 4095 0)
      (fread_whole _ _ (by simp only [List.length_cons, List.length_replicate]; rfl))
      (by simp only [List.length_cons, List.length_replicate]; rfl)).1 2 (by decide)).2
    ⟨by decide, by decide, get_bit_first 1 4095, fun m h1 h2 => by
      have : m = 1 := by omega
      subst this
      exact get_bit_first 0 4095⟩

theorem find_free_data_block_cases (img : FILE) (sb : superblock_t)
    (hlen : (fread (fseek img (sb.data_bitmap_start * BS % 2 ^ 64)) BS).1.length = BS) :
    (∃ p, p < sb.data_region_blocks ∧ p < BS * 8 ∧
      get_bit (fread (fseek img (sb.data_bitmap_start * BS % 2 ^ 64)) BS).1 p = false ∧
      (∀ q, q < p →
        get_bit (fread (fseek img (sb.data_bitmap_start * BS % 2 ^ 64)) BS).1 q = true) ∧
      find_free_data_block img sb = ((sb.data_region_start + p) % 2 ^ 64,
        fwrite (fseek (fread (fseek img (sb.data_bitmap_start * BS % 2 ^ 64)) BS).2
            (sb.data_bitmap_start * BS % 2 ^ 64))
          (set_bit (fread (fseek img (sb.data_bitmap_start * BS % 2 ^ 64)) BS).1 p))) ∨
    ((∀ p, p < sb.data_region_blocks → p < BS * 8 →
        get_bit (fread (fseek img (sb.data_bitmap_start * BS % 2 ^ 64)) BS).1 p = true) ∧
      find_free_data_block img sb =
        (0, (fread (fseek img (sb.data_bitmap_start * BS % 2 ^ 64)) BS).2)) := by
  unfold find_free_data_block
  simp only []
  rw [if_neg (by rw [hlen]; simp), data_scan_eq]
  rcases scan_cases (fread (fseek img (sb.data_bitmap_start * BS % 2 ^ 64)) BS).1
    sb.data_region_blocks (fun p => (sb.data_region_start + p) % 2 ^ 64) BS
    with ⟨p, h1, h2, h3, h4, h5⟩ | ⟨h1, h2⟩
  · left
    exact ⟨p, h1, h2, h3, h4, by rw [h5]⟩
  · right
    exact ⟨h1, by rw [h2]⟩

/-- C8 (amended): for a superblock with `data_region_start ≥ 1` whose data region ends at or
below 2^64, `find_free_data_block` on a bitmap block read in full returns
`data_region_start + k` exactly when `k` is the smallest 0-based position of a clear bit and
`k < data_region_blocks` (positions run to 32767); it then writes back the bitmap with that
one bit set and no other change. It returns 0 exactly when no such `k` exists, and then
writes nothing. A block index returned lies in
`[data_region_start, data_region_start + data_region_blocks)`. -/
theorem find_free_data_block_spec (img img' : FILE) (sb : superblock_t) (bitmap : List Nat)
    (hread : fread (fseek img (sb.data_bitmap_start * BS % 2 ^ 64)) BS = (bitmap, img'))
    (hlen : bitmap.length = BS)
    (hstart : 1 ≤ sb.data_region_start)
    (hfit : sb.data_region_start + sb.data_region_blocks ≤ 2 ^ 64) :
    (∀ k, ((find_free_data_block img sb).1 = sb.data_region_start + k ↔
      (k < sb.data_region_blocks ∧ k < 32768 ∧ get_bit bitmap k = false ∧
        ∀ j, j < k → get_bit bitmap j = true))) ∧
    (∀ k, (find_free_data_block img sb).1 = sb.data_region_start + k →
      ∃ bitmap', (find_free_data_block img sb).2 =
          fwrite (fseek img' (sb.data_bitmap_start * BS % 2 ^ 64)) bitmap' ∧
        bitmap'.length = BS ∧
        (∀ q, get_bit bitmap' q = (get_bit bitmap q || decide (q = k))) ∧
        (∀ i, i ≠ k / 8 → bitmap'.getD i 0 = bitmap.getD i 0)) ∧
    ((find_free_data_block img sb).1 = 0 ↔
      ∀ k, k < sb.data_region_blocks → k < 32768 → get_bit bitmap k = true) ∧
    ((find_free_data_block img sb).1 = 0 →
      find_free_data_block img sb = (0, img') ∧ img'.data = img.data) ∧
    ((find_free_data_block img sb).1 ≠ 0 →
      sb.data_region_start ≤ (find_free_data_block img sb).1 ∧
      (find_free_data_block img sb).1 < sb.data_region_start + sb.data_region_blocks) := by
  have hBS : BS = 4096 := rfl
  have h1 : (fread (fseek img (sb.data_bitmap_start * BS % 2 ^ 64)) BS).1 = bitmap := by
    rw [hread]
  have h2 : (fread (fseek img (sb.data_bitmap_start * BS % 2 ^ 64)) BS).2 = img' := by
    rw [hread]
  have hd : img'.data = img.data := by rw [← h2, fread_data, fseek_data]
  have hc := find_free_data_block_cases img sb (by rw [h1]; exact hlen)
  rw [h1, h2] at hc
  rcases hc with ⟨p, hp1, hp2, hp3, hp4, hp5⟩ | ⟨hall, hres⟩
  · have hmod : (sb.data_region_start + p) % 2 ^ 64 = sb.data_region_start + p :=
      Nat.mod_eq_of_lt (by omega)
    rw [hp5, hmod]
    refine ⟨?_, ?_, ?_, ?_, ?_⟩
    · intro k
      constructor
      · intro h
        simp only [] at h
        have : p = k := by omega
        subst this
        exact ⟨hp1, by omega, hp3, hp4⟩
      · rintro ⟨a, b, c, d⟩
        simp only []
        by_contra hne
        have hne' : p ≠ k := fun h => hne (by rw [h])
        rcases Nat.lt_or_gt_of_ne hne' with hlt | hgt
        · have := d p hlt
          simp [hp3] at this
        · have := hp4 k hgt
          simp [c] at this
    · intro k h
      simp only [] at h
      have : p = k := by omega
      subst this
      refine ⟨set_bit bitmap p, rfl, by rw [set_bit_length, hlen], ?_, ?_⟩
      · intro q
        exact get_bit_set_bit bitmap p q (by omega)
      · intro i hi
        exact set_bit_getD_ne bitmap p i hi
    · simp only []
      constructor
      · intro h; omega
      · intro h
        have := h p hp1 (by omega)
        simp [hp3] at this
    · intro h
      simp only [] at h
      omega
    · intro _
      simp only []
      omega
  · rw [hres]
    refine ⟨?_, ?_, ?_, ?_, ?_⟩
    · intro k
      simp only []
      constructor
      · intro h; omega
      · rintro ⟨a, b, c, d⟩
        have := hall k a (by omega)
        simp [c] at this
    · intro k h
      simp only [] at h
      omega
    · simp only [true_iff]
      intro k hk hk'
      exact hall k hk (by omega)
    · intro _
      exact ⟨rfl, hd⟩
    · intro h
      simp at h

theorem fwrite_whole (d b : List Nat) (n : Nat) (h : d.length = b.length) :
    fwrite (fseek ⟨d, n⟩ 0) b = ⟨b, b.length⟩ := by
  have hs : fseek ⟨d, n⟩ 0 = ⟨d, 0⟩ := by unfold fseek; simp
  rw [hs]
  unfold fwrite
  simp [h]

theorem find_free_data_block_spec_witness :
    (find_free_data_block ⟨1 :: List.replicate 4095 0, 0⟩
      { magic := 0, version := 0, block_size := 0, total_blocks := 0, inode_count := 0,
        inode_bitmap_start := 0, inode_bitmap_blocks := 0, data_bitmap_start := 0,
        data_bitmap_blocks := 0, inode_table_start := 0, inode_table_blocks := 0,
        data_region_start := 7, data_region_blocks := 39, root_inode := 0, mtime_epoch := 0,
        flags := 0, checksum := 0 }).1 = 7 + 1 :=
  ((find_free_data_block_spec ⟨1 :: List.replicate 4095 0, 0⟩
      ⟨1 :: List.replicate 4095 0, 4096⟩ _ (1 :: List.replicate 4095 0)
      (fread_whole _ _ (by simp only [List.length_cons, List.length_replicate]; rfl))
      (by simp only [List.length_cons, List.length_replicate]; rfl)
      (by decide) (by decide)).1 1).2
    ⟨by decide, by decide, get_bit_first 1 4095, fun j hj => by
      have : j = 0 := by omega
      subst this
      exact get_bit_first 0 4095⟩

/-- C8 as stated fails when `data_region_start + k` does not fit in 64 bits: with
`data_region_start = 2^64 - 1`, `data_region_blocks = 2` and a bitmap whose first clear bit is
bit 1, the call claims bit 1 (the bitmap written back starts with the byte 3) and returns
the sum reduced modulo 2^64, which is 0, the value that means no block. -/
theorem find_free_data_block_wraps :
    (find_free_data_block ⟨1 :: List.replicate 4095 0, 0⟩
      { magic := 0, version := 0, block_size := 0, total_blocks := 0, inode_count := 0,
        inode_bitmap_start := 0, inode_bitmap_blocks := 0, data_bitmap_start := 0,
        data_bitmap_blocks := 0, inode_table_start := 0, inode_table_blocks := 0,
        data_region_start := 2 ^ 64 - 1, data_region_blocks := 2, root_inode := 0,
        mtime_epoch := 0, flags := 0, checksum := 0 }) =
      (0, ⟨3 :: List.replicate 4095 0, 4096⟩) ∧
    get_bit (1 :: List.replicate 4095 0) 0 = true ∧
    get_bit (1 :: List.replicate 4095 0) 1 = false := by
  refine ⟨?_, get_bit_first 0 4095, get_bit_first 1 4095⟩
  have hr := fread_whole (1 :: List.replicate 4095 0) BS
    (by simp only [List.length_cons, List.length_replicate]; rfl)
  rcases find_free_data_block_cases ⟨1 :: List.replicate 4095 0, 0⟩
      { magic := 0, version := 0, block_size := 0, total_blocks := 0, inode_count := 0,
        inode_bitmap_start := 0, inode_bitmap_blocks := 0, data_bitmap_start := 0,
        data_bitmap_blocks := 0, inode_table_start := 0, inode_table_blocks := 0,
        data_region_start := 2 ^ 64 - 1, data_region_blocks := 2, root_inode := 0,
        mtime_epoch := 0, flags := 0, checksum := 0 }
      (by rw [show (0 * BS % 2 ^ 64) = 0 from rfl, hr]
          simp only [List.length_cons, List.length_replicate]; rfl)
    with ⟨p, h1, h2, h3, h4, h5⟩ | ⟨h1, h2⟩
  · rw [show (0 * BS % 2 ^ 64) = 0 from rfl, hr] at h3 h4 h5
    simp only [] at h1 h3 h4 h5
    rw [get_bit_first] at h3
    have hp : p = 1 := by
      have : p ≠ 0 := by simpa using h3
      omega
    subst hp
    rw [h5, fwrite_whole _ _ _ (by rw [set_bit_length])]
    have hs : set_bit (1 :: List.replicate 4095 0) 1 = 3 :: List.replicate 4095 0 := by
      unfold set_bit
      rfl
    rw [hs]
    simp only [List.length_cons, List.length_replicate]
    rfl
  · rw [show (0 * BS % 2 ^ 64) = 0 from rfl, hr] at h1
    have := h1 1 (by decide) (by decide)
    rw [get_bit_first] at this
    simp at this

theorem fseek_ok (f : FILE) (off : Nat) (h : off < 2 ^ 63) : fseek f off = ⟨f.data, off⟩ := by
  unfold fseek; rw [if_pos h]

theorem fread_eq (f : FILE) (n : Nat) :
    fread f n = ((f.data.drop f.pos).take n,
      ⟨f.data, f.pos + ((f.data.drop f.pos).take n).length⟩) := rfl

theorem dir_offset_lt (root : inode_t) : dir_offset root < 2 ^ 63 := by
  unfold dir_offset
  have : root.direct.getD 0 0 * BS % 2 ^ 32 < 2 ^ 32 := Nat.mod_lt _ (by decide)
  omega

/-- The outcome of `file_exists_in_root` in terms of the content of the file, when the
offset of the root inode is a valid file offset and its 128 bytes are there. -/
theorem file_exists_in_root_eq (img : FILE) (sb : superblock_t) (name : List Nat)
    (hoff : inode_offset sb ROOT_INO < 2 ^ 63)
    (hr : ((img.data.drop (inode_offset sb ROOT_INO)).take INODE_SIZE).length = INODE_SIZE) :
    ((file_exists_in_root img sb name).1, (file_exists_in_root img sb name).2.1) =
      if (inode_t.parse ((img.data.drop (inode_offset sb ROOT_INO)).take INODE_SIZE)).direct.getD
          0 0 = 0 then (-1, none)
      else if ((img.data.drop (dir_offset (inode_t.parse
          ((img.data.drop (inode_offset sb ROOT_INO)).take INODE_SIZE)))).take BS).length ≠ BS
        then (-1, none)
      else
        match find_name ((img.data.drop (dir_offset (inode_t.parse
            ((img.data.drop (inode_offset sb ROOT_INO)).take INODE_SIZE)))).take BS)
            name (BS / 64) 0 with
        | some ino => (1, some ino)
        | none => (0, none) := by
  unfold file_exists_in_root
  generalize inode_offset sb ROOT_INO = off at *
  rw [fseek_ok img _ hoff]
  simp only [fread_eq]
  rw [if_neg (by rw [hr]; simp)]
  generalize inode_t.parse ((img.data.drop off).take INODE_SIZE) = root
  by_cases h0 : root.direct.getD 0 0 = 0
  · rw [if_pos h0, if_pos h0]
  · rw [if_neg h0, if_neg h0]
    simp only [fseek_ok _ _ (dir_offset_lt root)]
    generalize dir_offset root = doff
    by_cases h1 : ((img.data.drop doff).take BS).length ≠ BS
    · simp only [if_pos h1]
    · simp only [if_neg h1]
      cases find_name ((img.data.drop doff).take BS) name (BS / 64) 0 <;> rfl

theorem fseek_form (f : FILE) (off : Nat) : ∃ p, fseek f off = ⟨f.data, p⟩ := by
  unfold fseek
  split
  · exact ⟨off, rfl⟩
  · exact ⟨f.pos, rfl⟩

theorem file_exists_in_root_data (img : FILE) (sb : superblock_t) (name : List Nat) :
    (file_exists_in_root img sb name).2.2.data = img.data := by
  unfold file_exists_in_root
  generalize inode_offset sb ROOT_INO = off
  obtain ⟨p, hp⟩ := fseek_form img off
  rw [hp]
  simp only [fread_eq]
  split
  · rfl
  · generalize inode_t.parse ((img.data.drop p).take INODE_SIZE) = root
    split
    · rfl
    · simp only [fseek_ok _ _ (dir_offset_lt root)]
      generalize dir_offset root = doff
      split
      · rfl
      · split <;> rfl

theorem find_name_some (d name : List Nat) (fuel i ino : Nat) :
    find_name d name fuel i = some ino ↔
      ∃ k, i ≤ k ∧ k < i + fuel ∧
        ((entry_at d k).inode_no ≠ 0 ∧ strncmp_eq (entry_at d k).name name 58 = true) ∧
        (∀ j, i ≤ j → j < k →
          ¬ ((entry_at d j).inode_no ≠ 0 ∧ strncmp_eq (entry_at d j).name name 58 = true)) ∧
        ino = (entry_at d k).inode_no := by
  induction fuel generalizing i with
  | zero =>
    simp only [find_name]
    constructor
    · intro h; cases h
    · rintro ⟨k, h1, h2, _⟩
      omega
  | succ n ih =>
    rw [find_name]
    by_cases hp : (entry_at d i).inode_no ≠ 0 ∧ strncmp_eq (entry_at d i).name name 58 = true
    · rw [if_pos hp]
      constructor
      · intro h
        refine ⟨i, le_refl _, by omega, hp, fun j h1 h2 => by omega, ?_⟩
        exact (Option.some.inj h).symm
      · rintro ⟨k, h1, h2, h3, h4, h5⟩
        rcases Nat.eq_or_lt_of_le h1 with e | hlt
        · subst e; rw [h5]
        · exact absurd hp (h4 i (le_refl _) hlt)
    · rw [if_neg hp, ih]
      constructor
      · rintro ⟨k, h1, h2, h3, h4, h5⟩
        refine ⟨k, by omega, by omega, h3, ?_, h5⟩
        intro j hj hj'
        rcases Nat.eq_or_lt_of_le hj with e | hlt
        · subst e; exact hp
        · exact h4 j (by omega) hj'
      · rintro ⟨k, h1, h2, h3, h4, h5⟩
        rcases Nat.eq_or_lt_of_le h1 with e | hlt
        · subst e; exact absurd h3 hp
        · exact ⟨k, by omega, by omega, h3, fun j hj hj' => h4 j (by omega) hj', h5⟩

theorem find_name_none (d name : List Nat) (fuel i : Nat) :
    find_name d name fuel i = none ↔
      ∀ k, i ≤ k → k < i + fuel →
        ¬ ((entry_at d k).inode_no ≠ 0 ∧ strncmp_eq (entry_at d k).name name 58 = true) := by
  induction fuel generalizing i with
  | zero =>
    simp only [find_name]
    constructor
    · intro _ k h1 h2
      omega
    · intro _; trivial
  | succ n ih =>
    rw [find_name]
    by_cases hp : (entry_at d i).inode_no ≠ 0 ∧ strncmp_eq (entry_at d i).name name 58 = true
    · rw [if_pos hp]
      constructor
      · intro h; cases h
      · intro h
        exact absurd hp (h i (le_refl _) (by omega))
    · rw [if_neg hp, ih]
      constructor
      · intro h k h1 h2
        rcases Nat.eq_or_lt_of_le h1 with e | hlt
        · subst e; exact hp
        · exact h k (by omega) (by omega)
      · intro h k h1 h2
        exact h k (by omega) (by omega)

theorem strncmp_eq_iff (a b : List Nat) (n : Nat) :
    strncmp_eq a b n = true ↔ (cstr a).take n = (cstr b).take n := by
  induction n generalizing a b with
  | zero => simp [strncmp_eq]
  | succ n ih =>
    rw [strncmp_eq]
    cases a with
    | nil =>
      cases b with
      | nil => simp [cstr]
      | cons y ys =>
        by_cases hy : y = 0
        · subst hy; simp [cstr]
        · have : (0 : Nat) ≠ y := fun h => hy h.symm
          simp [cstr, hy, this]
    | cons x xs =>
      cases b with
      | nil =>
        by_cases hx : x = 0
        · subst hx; simp [cstr]
        · simp [cstr, hx]
      | cons y ys =>
        by_cases hxy : x = y
        · subst hxy
          by_cases hx : x = 0
          · subst hx; simp [cstr]
          · have := ih xs ys
            simp only [cstr] at this
            simp [cstr, hx, this]
        · by_cases hx : x = 0
          · subst hx
            have : y ≠ 0 := fun h => hxy h.symm
            simp [cstr, hxy, this]
          · by_cases hy : y = 0
            · subst hy; simp [cstr, hx]
            · simp [cstr, hxy, hx, hy]

theorem range_12 : List.range 12 = [0, 1, 2, 3, 4, 5, 6, 7, 8, 9, 10, 11] := by decide

theorem inode_bytes_length (ino : inode_t) : ino.bytes.length = 128 := by
  simp [inode_t.bytes, direct_bytes, range_12, le_bytes_length]

/-- Reading back a serialised inode gives every field reduced to its width. -/
theorem inode_parse_bytes (ino : inode_t) :
    inode_t.parse ino.bytes =
      { mode := ino.mode % 2 ^ 16, links := ino.links % 2 ^ 16, uid := ino.uid % 2 ^ 32,
        gid := ino.gid % 2 ^ 32, size_bytes := ino.size_bytes % 2 ^ 64,
        atime := ino.atime % 2 ^ 64, mtime := ino.mtime % 2 ^ 64, ctime := ino.ctime % 2 ^ 64,
        direct := (List.range 12).map (fun i => ino.direct.getD i 0 % 2 ^ 32),
        reserved_0 := ino.reserved_0 % 2 ^ 32, reserved_1 := ino.reserved_1 % 2 ^ 32,
        reserved_2 := ino.reserved_2 % 2 ^ 32, proj_id := ino.proj_id % 2 ^ 32,
        uid16_gid16 := ino.uid16_gid16 % 2 ^ 32, xattr_ptr := ino.xattr_ptr % 2 ^ 64,
        inode_crc := ino.inode_crc % 2 ^ 64 } := by
  simp only [inode_t.parse, inode_t.bytes, direct_bytes, range_12, List.map_cons, List.map_nil,
    List.flatten_cons, List.flatten_nil, List.append_assoc, List.append_nil]
  simp [field_le_skip, field_le_here, field_le_end]

theorem cstr_length_le (a : List Nat) : (cstr a).length ≤ a.length :=
  (List.takeWhile_sublist _).length_le

/-- On two 58-byte buffers that are zero from their first NUL on, `strncmp(a, b, 58) == 0`
is equality of the buffers. -/
theorem strncmp_eq_padded (a b : List Nat) (ha : a.length = 58) (hb : b.length = 58)
    (pa : a = fit (cstr a) 58) (pb : b = fit (cstr b) 58) :
    strncmp_eq a b 58 = true ↔ a = b := by
  rw [strncmp_eq_iff]
  have la := cstr_length_le a
  have lb := cstr_length_le b
  rw [List.take_of_length_le (by omega), List.take_of_length_le (by omega)]
  constructor
  · intro h
    rw [pa, pb, h]
  · intro h
    rw [h]

/-- C9 (amended): when the root inode can be read (its offset is a valid file offset and its
128 bytes are in the file), `file_exists_in_root` fails with -1 if `direct[0]` is 0;
otherwise, for `direct[0] < 2^20` and block `direct[0]` present in full, it scans the 64
slots in increasing order and returns 1 with the inode number of the first occupied slot
whose name `strncmp` finds equal to the queried name over at most 58 bytes (equality as
NUL-terminated strings, which on zero-padded 58-byte buffers is equality of the buffers),
and 0 when no occupied slot matches. The file content is unchanged and a second lookup
returns the same result. -/
theorem file_exists_in_root_spec (img : FILE) (sb : superblock_t) (name : List Nat)
    (root : inode_t) (d : List Nat)
    (hoff : inode_offset sb ROOT_INO < 2 ^ 63)
    (hr : ((img.data.drop (inode_offset sb ROOT_INO)).take 128).length = 128)
    (hroot : root = inode_t.parse ((img.data.drop (inode_offset sb ROOT_INO)).take 128))
    (hd : d = block img.data (root.direct.getD 0 0)) :
    (root.direct.getD 0 0 = 0 → (file_exists_in_root img sb name).1 = -1) ∧
    (root.direct.getD 0 0 ≠ 0 → root.direct.getD 0 0 < 2 ^ 20 → d.length = 4096 →
      (∀ ino, ((file_exists_in_root img sb name).1 = 1 ∧
          (file_exists_in_root img sb name).2.1 = some ino) ↔
        ∃ i, i < 64 ∧ slot_matches d name i ∧ (∀ j, j < i → ¬ slot_matches d name j) ∧
          ino = (entry_at d i).inode_no) ∧
      ((file_exists_in_root img sb name).1 = 0 ↔ ∀ i, i < 64 → ¬ slot_matches d name i) ∧
      ((file_exists_in_root img sb name).1 = 1 ∨ (file_exists_in_root img sb name).1 = 0)) ∧
    (∀ a b : List Nat, strncmp_eq a b 58 = true ↔ (cstr a).take 58 = (cstr b).take 58) ∧
    (∀ a b : List Nat, a.length = 58 → b.length = 58 → a = fit (cstr a) 58 →
      b = fit (cstr b) 58 → (strncmp_eq a b 58 = true ↔ a = b)) ∧
    (file_exists_in_root img sb name).2.2.data = img.data ∧
    (file_exists_in_root (file_exists_in_root img sb name).2.2 sb name).1 =
      (file_exists_in_root img sb name).1 ∧
    (file_exists_in_root (file_exists_in_root img sb name).2.2 sb name).2.1 =
      (file_exists_in_root img sb name).2.1 := by
  have hIS : INODE_SIZE = 128 := rfl
  have hBS : BS = 4096 := rfl
  have key := file_exists_in_root_eq img sb name hoff (by rw [hIS]; exact hr)
  have hdata := file_exists_in_root_data img sb name
  have key2 := file_exists_in_root_eq (file_exists_in_root img sb name).2.2 sb name hoff
    (by rw [hdata, hIS]; exact hr)
  rw [hdata, ← key] at key2
  rw [hIS, ← hroot] at key
  refine ⟨?_, ?_, fun a b => strncmp_eq_iff a b 58, strncmp_eq_padded, hdata,
    (Prod.mk.inj key2).1, (Prod.mk.inj key2).2⟩
  · intro h0
    rw [if_pos h0] at key
    exact congrArg Prod.fst key
  · intro h0 h20 hlen
    have hdo : dir_offset root = root.direct.getD 0 0 * BS := by
      unfold dir_offset
      exact Nat.mod_eq_of_lt (by rw [hBS]; omega)
    have hd' : (img.data.drop (dir_offset root)).take BS = d := by
      rw [hd, hdo]; rfl
    rw [if_neg h0, hd', if_neg (by rw [hlen, hBS]; simp), show BS / 64 = 64 from rfl] at key
    refine ⟨?_, ?_, ?_⟩
    · intro ino
      rcases hf : find_name d name 64 0 with _ | v
      · rw [hf] at key
        have k1 := congrArg Prod.fst key
        simp only [] at k1
        constructor
        · rintro ⟨h1, _⟩
          rw [k1] at h1
          exact absurd h1 (by decide)
        · rintro ⟨i, hi, hm, _, _⟩
          exact absurd hm ((find_name_none d name 64 0).1 hf i (Nat.zero_le _) (by omega))
      · rw [hf] at key
        have k1 := congrArg Prod.fst key
        have k2 := congrArg Prod.snd key
        simp only [] at k1 k2
        rw [k1, k2]
        obtain ⟨k, _, hk2, hk3, hk4, hk5⟩ := (find_name_some d name 64 0 v).1 hf
        constructor
        · rintro ⟨_, h2⟩
          have : v = ino := Option.some.inj h2
          subst this
          exact ⟨k, by omega, hk3, fun j hj => hk4 j (Nat.zero_le _) hj, hk5⟩
        · rintro ⟨i, hi, hm, hmin, hino⟩
          refine ⟨rfl, ?_⟩
          have : i = k := by
            by_contra hne
            rcases Nat.lt_or_gt_of_ne hne with hlt | hgt
            · exact hk4 i (Nat.zero_le _) hlt hm
            · exact hmin k hgt hk3
          rw [hino, this, ← hk5]
    · rcases hf : find_name d name 64 0 with _ | v
      · rw [hf] at key
        have k1 := congrArg Prod.fst key
        simp only [] at k1
        rw [k1]
        simp only [true_iff]
        intro i hi
        exact (find_name_none d name 64 0).1 hf i (Nat.zero_le _) (by omega)
      · rw [hf] at key
        have k1 := congrArg Prod.fst key
        simp only [] at k1
        rw [k1]
        obtain ⟨k, _, hk2, hk3, _, _⟩ := (find_name_some d name 64 0 v).1 hf
        constructor
        · intro h; exact absurd h (by decide)
        · intro h; exact absurd hk3 (h k (by omega))
    · rcases hf : find_name d name 64 0 with _ | v
      · rw [hf] at key
        right
        exact congrArg Prod.fst key
      · rw [hf] at key
        left
        exact congrArg Prod.fst key

theorem block_of_slot_0 (a : List Nat) (h : a.length = 64) :
    ((block_of a).drop (64 * 0)).take 64 = a := by
  unfold block_of fit
  have ht : a.take BS = a := List.take_of_length_le (by rw [h]; decide)
  rw [ht, Nat.mul_zero, List.drop_zero, List.take_left' h]

/-- The reads of `file_exists_in_root` and `add_to_root_directory` on a `sample_image`. -/
theorem sample_image_reads (root : inode_t) (first : dirent64_t) :
    ((sample_image root first).drop (inode_offset zero_sb ROOT_INO)).take INODE_SIZE =
      root.bytes ∧
    ((sample_image root first).drop (1 * BS % 2 ^ 32)).take BS = block_of first.bytes ∧
    block (sample_image root first) 1 = block_of first.bytes ∧
    (∀ i, 1 ≤ i → i < 64 →
      ((block_of first.bytes).drop (64 * i)).take 64 = List.replicate 64 0) ∧
    ((block_of first.bytes).drop (64 * 0)).take 64 = first.bytes := by
  have h0 : inode_offset zero_sb ROOT_INO = 0 := by decide
  have h1 : 1 * BS % 2 ^ 32 = BS := by decide
  have hBS : BS = 4096 := rfl
  have hb : ((sample_image root first).drop BS).take BS = block_of first.bytes := by
    unfold sample_image
    rw [List.drop_left' (block_of_length _), List.take_of_length_le (by rw [block_of_length])]
  refine ⟨?_, by rw [h1]; exact hb, by unfold block; rw [Nat.one_mul]; exact hb, ?_,
    block_of_slot_0 _ (dirent_bytes_length _)⟩
  · rw [h0, List.drop_zero]
    exact take_block_of _ _ _ (inode_bytes_length _) (by decide)
  · intro i hi hi'
    exact slot_zero _ _ _ (by rw [dirent_bytes_length]; omega) (by rw [hBS]; omega)

set_option maxRecDepth 10000 in
/-- C9 as stated fails on a name field with bytes behind its first NUL: the root directory
of this image has one occupied slot, inode 5, whose name field is `a`, NUL, `b`, zeros; no
occupied slot has a name field equal byte for byte to the 58-byte query `a`, zeros, yet the
lookup answers 1 with inode 5. -/
theorem file_exists_in_root_strncmp :
    (file_exists_in_root
      ⟨sample_image (sample_root 1 0 0) ⟨5, 1, 97 :: 0 :: 98 :: List.replicate 55 0, 0⟩, 0⟩
      zero_sb (97 :: List.replicate 57 0)).1 = 1 ∧
    (file_exists_in_root
      ⟨sample_image (sample_root 1 0 0) ⟨5, 1, 97 :: 0 :: 98 :: List.replicate 55 0, 0⟩, 0⟩
      zero_sb (97 :: List.replicate 57 0)).2.1 = some 5 ∧
    (inode_t.parse (((sample_image (sample_root 1 0 0)
      ⟨5, 1, 97 :: 0 :: 98 :: List.replicate 55 0, 0⟩).drop
        (inode_offset zero_sb ROOT_INO)).take 128)).direct.getD 0 0 = 1 ∧
    ∀ i, i < 64 →
      (entry_at (block (sample_image (sample_root 1 0 0)
        ⟨5, 1, 97 :: 0 :: 98 :: List.replicate 55 0, 0⟩) 1) i).inode_no ≠ 0 →
      (entry_at (block (sample_image (sample_root 1 0 0)
        ⟨5, 1, 97 :: 0 :: 98 :: List.replicate 55 0, 0⟩) 1) i).name ≠
        97 :: List.replicate 57 0 := by
  obtain ⟨r1, r2, r3, r4, r5⟩ := sample_image_reads (sample_root 1 0 0)
    ⟨5, 1, 97 :: 0 :: 98 :: List.replicate 55 0, 0⟩
  have hIS : INODE_SIZE = 128 := rfl
  have key := file_exists_in_root_eq
    ⟨sample_image (sample_root 1 0 0) ⟨5, 1, 97 :: 0 :: 98 :: List.replicate 55 0, 0⟩, 0⟩
    zero_sb (97 :: List.replicate 57 0) (by decide) (by rw [r1, inode_bytes_length, hIS])
  simp only [] at key
  rw [r1] at key
  have hp : inode_t.parse (sample_root 1 0 0).bytes = sample_root 1 0 0 := by
    rw [inode_parse_bytes]; decide
  rw [hp] at key
  have hd0 : (sample_root 1 0 0).direct.getD 0 0 = 1 := rfl
  have hdo : dir_offset (sample_root 1 0 0) = 1 * BS % 2 ^ 32 := rfl
  rw [if_neg (by rw [hd0]; decide), hdo, r2, if_neg (by rw [block_of_length]; simp),
    show BS / 64 = 63 + 1 from rfl, find_name] at key
  have he : entry_at (block_of (⟨5, 1, 97 :: 0 :: 98 :: List.replicate 55 0, 0⟩ :
      dirent64_t).bytes) 0 = ⟨5, 1, 97 :: 0 :: 98 :: List.replicate 55 0, 0⟩ := by
    unfold entry_at
    rw [r5]; decide
  rw [he, if_pos (by decide)] at key
  refine ⟨(Prod.mk.inj key).1, (Prod.mk.inj key).2, ?_, ?_⟩
  · rw [← hIS, r1, hp]; rfl
  · intro i hi hne
    rw [r3] at hne ⊢
    rcases Nat.eq_zero_or_pos i with h0 | hpos
    · subst h0
      rw [he]; decide
    · exfalso
      apply hne
      unfold entry_at
      rw [r4 i hpos hi]
      decide

set_option maxRecDepth 10000 in
theorem file_exists_in_root_spec_witness :
    (file_exists_in_root
      ⟨sample_image (sample_root 1 0 0) ⟨5, 1, 97 :: List.replicate 57 0, 0⟩, 0⟩
      zero_sb (97 :: List.replicate 57 0)).1 = 1 ∧
    (file_exists_in_root
      ⟨sample_image (sample_root 1 0 0) ⟨5, 1, 97 :: List.replicate 57 0, 0⟩, 0⟩
      zero_sb (97 :: List.replicate 57 0)).2.1 = some 5 := by
  obtain ⟨r1, r2, r3, r4, r5⟩ := sample_image_reads (sample_root 1 0 0)
    ⟨5, 1, 97 :: List.replicate 57 0, 0⟩
  have hp : inode_t.parse (sample_root 1 0 0).bytes = sample_root 1 0 0 := by
    rw [inode_parse_bytes]; decide
  have he : entry_at (block_of (⟨5, 1, 97 :: List.replicate 57 0, 0⟩ : dirent64_t).bytes) 0 =
      ⟨5, 1, 97 :: List.replicate 57 0, 0⟩ := by
    unfold entry_at
    rw [r5]; decide
  have hIS : INODE_SIZE = 128 := rfl
  rw [hIS] at r1
  exact ((file_exists_in_root_spec
    ⟨sample_image (sample_root 1 0 0) ⟨5, 1, 97 :: List.replicate 57 0, 0⟩, 0⟩
    zero_sb (97 :: List.replicate 57 0) (sample_root 1 0 0)
    (block_of (⟨5, 1, 97 :: List.replicate 57 0, 0⟩ : dirent64_t).bytes)
    (by decide) (by rw [r1, inode_bytes_length]) (by rw [r1, hp]) r3.symm).2.1
    (by decide) (by decide) (block_of_length _)).1 5 |>.2
    ⟨0, by decide, ⟨by rw [he]; decide, by rw [he]; decide⟩, fun j hj => absurd hj (by omega),
      by rw [he]⟩

theorem fwrite_fseek_data (f : FILE) (off : Nat) (buf : List Nat) (h : off < 2 ^ 63) :
    (fwrite (fseek f off) buf).data = pwrite f.data off buf := by
  rw [fseek_ok f off h]; rfl

theorem pwrite_inside (data : List Nat) (off : Nat) (buf : List Nat)
    (h : off + buf.length ≤ data.length) :
    pwrite data off buf = data.take off ++ buf ++ data.drop (off + buf.length) := by
  unfold pwrite
  rw [Nat.sub_eq_zero_of_le (by omega)]
  simp

theorem pwrite_length (data : List Nat) (off : Nat) (buf : List Nat)
    (h : off + buf.length ≤ data.length) : (pwrite data off buf).length = data.length := by
  rw [pwrite_inside data off buf h]
  simp
  omega

theorem read_pwrite_same (data : List Nat) (off : Nat) (buf : List Nat)
    (h : off + buf.length ≤ data.length) :
    ((pwrite data off buf).drop off).take buf.length = buf := by
  rw [pwrite_inside data off buf h, List.append_assoc,
    List.drop_left' (by simp; omega), List.take_left' rfl]

theorem read_pwrite_before (data : List Nat) (off : Nat) (buf : List Nat) (off' n : Nat)
    (h : off + buf.length ≤ data.length) (hb : off' + n ≤ off) :
    ((pwrite data off buf).drop off').take n = (data.drop off').take n := by
  rw [pwrite_inside data off buf h, List.append_assoc]
  have e1 : ((data.take off ++ (buf ++ data.drop (off + buf.length))).drop off').take n =
      ((data.take off).drop off').take n := by
    rw [List.drop_append_of_le_length (by simp; omega)]
    exact List.take_append_of_le_length (by simp; omega)
  rw [e1, List.drop_take, List.take_take]
  congr 1
  omega

theorem read_pwrite_after (data : List Nat) (off : Nat) (buf : List Nat) (off' n : Nat)
    (h : off + buf.length ≤ data.length) (ha : off + buf.length ≤ off') :
    ((pwrite data off buf).drop off').take n = (data.drop off').take n := by
  rw [pwrite_inside data off buf h]
  have hl : (data.take off ++ buf).length = off + buf.length := by simp; omega
  obtain ⟨k, rfl⟩ : ∃ k, off' = (off + buf.length) + k := ⟨off' - (off + buf.length), by omega⟩
  rw [← hl, ← List.drop_drop, List.drop_left, hl, List.drop_drop]

theorem bump_root_direct (root : inode_t) (t : Nat) :
    (bump_root root t).direct = root.direct := rfl

theorem find_empty_some (d : List Nat) (fuel i k : Nat) :
    find_empty d fuel i = some k ↔
      i ≤ k ∧ k < i + fuel ∧ (entry_at d k).inode_no = 0 ∧
        ∀ j, i ≤ j → j < k → (entry_at d j).inode_no ≠ 0 := by
  induction fuel generalizing i with
  | zero =>
    simp only [find_empty]
    constructor
    · intro h; cases h
    · rintro ⟨h1, h2, _⟩; omega
  | succ n ih =>
    rw [find_empty]
    by_cases hp : (entry_at d i).inode_no = 0
    · rw [if_pos hp]
      constructor
      · intro h
        have : i = k := Option.some.inj h
        subst this
        exact ⟨le_refl _, by omega, hp, fun j h1 h2 => by omega⟩
      · rintro ⟨h1, h2, h3, h4⟩
        rcases Nat.eq_or_lt_of_le h1 with e | hlt
        · rw [e]
        · exact absurd hp (h4 i (le_refl _) hlt)
    · rw [if_neg hp, ih]
      constructor
      · rintro ⟨h1, h2, h3, h4⟩
        refine ⟨by omega, by omega, h3, ?_⟩
        intro j hj hj'
        rcases Nat.eq_or_lt_of_le hj with e | hlt
        · subst e; exact hp
        · exact h4 j (by omega) hj'
      · rintro ⟨h1, h2, h3, h4⟩
        rcases Nat.eq_or_lt_of_le h1 with e | hlt
        · subst e; exact absurd h3 hp
        · exact ⟨by omega, by omega, h3, fun j hj hj' => h4 j (by omega) hj'⟩

theorem find_empty_none (d : List Nat) (fuel i : Nat) :
    find_empty d fuel i = none ↔
      ∀ k, i ≤ k → k < i + fuel → (entry_at d k).inode_no ≠ 0 := by
  induction fuel generalizing i with
  | zero =>
    simp only [find_empty]
    constructor
    · intro _ k h1 h2; omega
    · intro _; trivial
  | succ n ih =>
    rw [find_empty]
    by_cases hp : (entry_at d i).inode_no = 0
    · rw [if_pos hp]
      constructor
      · intro h; cases h
      · intro h
        exact absurd hp (h i (le_refl _) (by omega))
    · rw [if_neg hp, ih]
      constructor
      · intro h k h1 h2
        rcases Nat.eq_or_lt_of_le h1 with e | hlt
        · subst e; exact hp
        · exact h k (by omega) (by omega)
      · intro h k h1 h2
        exact h k (by omega) (by omega)

/-- The outcome of `add_to_root_directory` in terms of the content of the file, when the
offset of the root inode is a valid file offset and its 128 bytes are there. -/
theorem add_to_root_directory_eq (img : FILE) (sb : superblock_t) (name : List Nat)
    (n t : Nat) (hoff : inode_offset sb ROOT_INO < 2 ^ 63)
    (hr : ((img.data.drop (inode_offset sb ROOT_INO)).take INODE_SIZE).length = INODE_SIZE) :
    ((add_to_root_directory img sb name n t).1, (add_to_root_directory img sb name n t).2.data) =
      if ((img.data.drop (dir_offset (inode_t.parse
          ((img.data.drop (inode_offset sb ROOT_INO)).take INODE_SIZE)))).take BS).length ≠ BS
        then (-1, img.data)
      else
        match find_empty ((img.data.drop (dir_offset (inode_t.parse
            ((img.data.drop (inode_offset sb ROOT_INO)).take INODE_SIZE)))).take BS)
            (BS / 64) 0 with
        | none => (-1, img.data)
        | some i => (0, pwrite (pwrite img.data (inode_offset sb ROOT_INO)
            (bump_root (inode_t.parse
              ((img.data.drop (inode_offset sb ROOT_INO)).take INODE_SIZE)) t).bytes)
            (dir_offset (inode_t.parse
              ((img.data.drop (inode_offset sb ROOT_INO)).take INODE_SIZE)))
            (set_entry ((img.data.drop (dir_offset (inode_t.parse
              ((img.data.drop (inode_offset sb ROOT_INO)).take INODE_SIZE)))).take BS) i
              (new_entry name n))) := by
  unfold add_to_root_directory
  generalize hoffd : inode_offset sb ROOT_INO = off at *
  rw [fseek_ok img _ hoff]
  simp only [fread_eq]
  rw [if_neg (by rw [hr]; simp)]
  generalize inode_t.parse ((img.data.drop off).take INODE_SIZE) = root
  simp only [fseek_ok _ _ (dir_offset_lt root)]
  have hdo : dir_offset (bump_root root t) = dir_offset root := rfl
  generalize hdoff : dir_offset root = doff at *
  by_cases h1 : ((img.data.drop doff).take BS).length ≠ BS
  · simp only [if_pos h1]
  · simp only [if_neg h1]
    rcases find_empty ((img.data.drop doff).take BS) (BS / 64) 0 with _ | i
    · rfl
    · simp only [fseek_ok _ _ hoff, hdo]
      have hlt : doff < 2 ^ 63 := by rw [← hdoff]; exact dir_offset_lt root
      rw [fwrite_fseek_data _ _ _ hlt]
      rfl

theorem set_entry_eq_pwrite (d : List Nat) (i : Nat) (de : dirent64_t)
    (h : 64 * i + 64 ≤ d.length) : set_entry d i de = pwrite d (64 * i) de.bytes := by
  rw [pwrite_inside _ _ _ (by rw [dirent_bytes_length]; exact h), dirent_bytes_length]
  rfl

theorem xor_fold_lt (p : List Nat) : xor_fold p < 256 := by
  unfold xor_fold
  have : ∀ (l : List Nat) (x : Nat), x < 256 →
      l.foldl (fun x b => (x ^^^ b) % 256) x < 256 := by
    intro l
    induction l with
    | nil => intro x hx; exact hx
    | cons b bs ih => intro x _; exact ih _ (Nat.mod_lt _ (by decide))
  exact this p 0 (by decide)

/-- Reading back a serialised directory entry gives every field reduced to its width. -/
theorem dirent_parse_bytes (de : dirent64_t) :
    dirent64_t.parse de.bytes =
      { inode_no := de.inode_no % 2 ^ 32, type := de.type % 256, name := fit de.name 58,
        checksum := de.checksum % 256 } := by
  have h4 := le_bytes_length de.inode_no 4
  have h1 := le_bytes_length de.type 1
  have hf := fit_length de.name 58
  simp only [dirent64_t.parse, dirent64_t.bytes, List.append_assoc]
  have e1 : field (le_bytes de.inode_no 4 ++ (le_bytes de.type 1 ++ (fit de.name 58 ++
      le_bytes de.checksum 1))) 0 4 = de.inode_no % 2 ^ 32 := by
    rw [field_le_here]; rfl
  have e2 : field (le_bytes de.inode_no 4 ++ (le_bytes de.type 1 ++ (fit de.name 58 ++
      le_bytes de.checksum 1))) 4 1 = de.type % 256 := by
    rw [field_le_skip _ _ _ _ _ (le_refl _), Nat.sub_self, field_le_here]; rfl
  have e3 : field (le_bytes de.inode_no 4 ++ (le_bytes de.type 1 ++ (fit de.name 58 ++
      le_bytes de.checksum 1))) 63 1 = de.checksum % 256 := by
    rw [field_le_skip _ _ _ _ _ (by decide), field_le_skip _ _ _ _ _ (by decide),
      field_skip _ _ _ _ (by rw [hf]), hf, field_le_end]; rfl
  have e4 : ((le_bytes de.inode_no 4 ++ (le_bytes de.type 1 ++ (fit de.name 58 ++
      le_bytes de.checksum 1))).drop 5).take 58 = fit de.name 58 := by
    rw [← List.append_assoc, List.drop_left' (by simp [h4, h1]), List.take_left' hf]
  rw [e1, e2, e3, e4]

/-- The first 63 bytes of a directory entry do not depend on its checksum. -/
theorem dirent_bytes_take (de : dirent64_t) (c : Nat) :
    ({ de with checksum := c } : dirent64_t).bytes.take 63 = de.bytes.take 63 := by
  have h : ∀ x : dirent64_t, x.bytes.take 63 =
      le_bytes x.inode_no 4 ++ le_bytes x.type 1 ++ fit x.name 58 := by
    intro x
    unfold dirent64_t.bytes
    exact List.take_left' (by simp [le_bytes_length, fit_length])
  rw [h, h]

theorem dirent_checksum_finalize_checksum (de : dirent64_t) :
    (dirent_checksum_finalize de).checksum =
      xor_fold ((dirent_checksum_finalize de).bytes.take 63) := by
  exact congrArg xor_fold (dirent_bytes_take de (xor_fold (de.bytes.take 63))).symm

/-- The first 120 bytes of an inode record do not depend on its checksum. -/
theorem inode_bytes_take (ino : inode_t) (c : Nat) :
    ({ ino with inode_crc := c } : inode_t).bytes.take 120 = ino.bytes.take 120 := by
  have h : ∀ x : inode_t, x.bytes.take 120 =
      le_bytes x.mode 2 ++ le_bytes x.links 2 ++ le_bytes x.uid 4 ++ le_bytes x.gid 4 ++
      le_bytes x.size_bytes 8 ++ le_bytes x.atime 8 ++ le_bytes x.mtime 8 ++
      le_bytes x.ctime 8 ++ direct_bytes x.direct ++
      le_bytes x.reserved_0 4 ++ le_bytes x.reserved_1 4 ++ le_bytes x.reserved_2 4 ++
      le_bytes x.proj_id 4 ++ le_bytes x.uid16_gid16 4 ++ le_bytes x.xattr_ptr 8 := by
    intro x
    unfold inode_t.bytes
    exact List.take_left' (by simp [le_bytes_length, direct_bytes, range_12])
  rw [h, h]

theorem inode_crc_finalize_crc (ino : inode_t) :
    (inode_crc_finalize ino).inode_crc = crc32 ((inode_crc_finalize ino).bytes.take 120) := by
  have h1 : (ino.bytes.take 120 ++ List.replicate 8 0).take 120 = ino.bytes.take 120 :=
    List.take_left' (by rw [List.length_take, inode_bytes_length]; rfl)
  have e : inode_crc_finalize ino =
      { ino with inode_crc := crc32 ((ino.bytes.take 120 ++ List.replicate 8 0).take 120) } :=
    rfl
  rw [e]
  simp only []
  rw [h1]
  exact congrArg crc32 (inode_bytes_take ino _).symm

theorem readable_inside (data : List Nat) (off n : Nat) (hn : 0 < n)
    (h : ((data.drop off).take n).length = n) : off + n ≤ data.length := by
  rw [List.length_take, List.length_drop] at h
  omega

theorem new_entry_name (filename : List Nat) :
    strncpy filename 57 ++ [0] =
      (cstr filename).take 57 ++ List.replicate (58 - min (cstr filename).length 57) 0 := by
  unfold strncpy fit
  rw [List.append_assoc]
  congr 1
  have e : 58 - min (cstr filename).length 57 = (57 - (cstr filename).length) + 1 := by omega
  rw [e, List.replicate_succ']

theorem new_entry_parse (filename : List Nat) (n : Nat) (hn : n < 2 ^ 32) :
    dirent64_t.parse (new_entry filename n).bytes =
      { inode_no := n, type := 1,
        name := (cstr filename).take 57 ++
          List.replicate (58 - min (cstr filename).length 57) 0,
        checksum := xor_fold ((new_entry filename n).bytes.take 63) } := by
  rw [dirent_parse_bytes]
  have hc := dirent_checksum_finalize_checksum
    { inode_no := n % 2 ^ 32, type := 1, name := strncpy filename 57 ++ [0], checksum := 0 }
  have hl : (strncpy filename 57 ++ [0]).length = 58 := by
    simp [strncpy, fit_length]
  have hfit : fit (strncpy filename 57 ++ [0]) 58 = strncpy filename 57 ++ [0] := by
    unfold fit
    rw [hl, Nat.sub_self, List.take_of_length_le (by rw [hl])]
    simp
  have e1 : (new_entry filename n).inode_no = n % 2 ^ 32 := rfl
  have e2 : (new_entry filename n).type = 1 := rfl
  have e3 : (new_entry filename n).name = strncpy filename 57 ++ [0] := rfl
  rw [e1, e2, e3, hfit, new_entry_name, Nat.mod_mod, Nat.mod_eq_of_lt hn]
  have e4 : (new_entry filename n).checksum % 256 =
      xor_fold ((new_entry filename n).bytes.take 63) := by
    have : (new_entry filename n).checksum = xor_fold ((new_entry filename n).bytes.take 63) := by
      unfold new_entry
      rw [Nat.mod_eq_of_lt hn]
      exact dirent_checksum_finalize_checksum _
    rw [this]
    exact Nat.mod_eq_of_lt (xor_fold_lt _)
  rw [e4]

/-- The state `add_to_root_directory` leaves when it finds slot `i` free. -/
theorem add_to_root_directory_found (img : FILE) (sb : superblock_t) (filename : List Nat)
    (n t : Nat) (root : inode_t) (d : List Nat) (i : Nat)
    (hoff : inode_offset sb ROOT_INO < 2 ^ 63)
    (hr : ((img.data.drop (inode_offset sb ROOT_INO)).take 128).length = 128)
    (hroot : root = inode_t.parse ((img.data.drop (inode_offset sb ROOT_INO)).take 128))
    (hd : d = (img.data.drop (dir_offset root)).take BS)
    (hlen : d.length = 4096)
    (hi : i < 64) (hempty : (entry_at d i).inode_no = 0)
    (hmin : ∀ j, j < i → (entry_at d j).inode_no ≠ 0) :
    (add_to_root_directory img sb filename n t).1 = 0 ∧
    (add_to_root_directory img sb filename n t).2.data =
      pwrite (pwrite img.data (inode_offset sb ROOT_INO) (bump_root root t).bytes)
        (dir_offset root) (set_entry d i (new_entry filename n)) := by
  have hIS : INODE_SIZE = 128 := rfl
  have hBS : BS = 4096 := rfl
  have key := add_to_root_directory_eq img sb filename n t hoff (by rw [hIS]; exact hr)
  rw [hIS, ← hroot, ← hd, if_neg (by rw [hlen, hBS]; simp), show BS / 64 = 64 from rfl,
    (find_empty_some d 64 0 i).2 ⟨Nat.zero_le _, by omega, hempty,
      fun j _ hj => hmin j hj⟩] at key
  exact ⟨(Prod.mk.inj key).1, (Prod.mk.inj key).2⟩

/-- C10 (amended): if the root inode can be read, its `direct[0]` is below 2^20, the block
`direct[0]` is present in full and has a slot with inode number 0, `i` being the lowest one,
and the counters of the root inode do not wrap (`links < 65535`, `size_bytes + 64 < 2^64`),
then for every name and every `n < 2^32` `add_to_root_directory` returns 0, writes the root
inode and then the directory block, and (i) slot `i` of the block written holds inode number
`n`, type 1, the first `min(len, 57)` bytes of the name followed by zeros up to 58 and a
checksum equal to the exclusive-or of the first 63 bytes of the slot, (ii) every other slot
is as it was, (iii) the root inode written has `size_bytes` 64 larger, `links` 1 larger and
`inode_crc` equal to the CRC-32 of its first 120 bytes. -/
theorem add_to_root_directory_spec (img : FILE) (sb : superblock_t) (filename : List Nat)
    (n t : Nat) (root : inode_t) (d : List Nat) (i : Nat)
    (hoff : inode_offset sb ROOT_INO < 2 ^ 63)
    (hr : ((img.data.drop (inode_offset sb ROOT_INO)).take 128).length = 128)
    (hroot : root = inode_t.parse ((img.data.drop (inode_offset sb ROOT_INO)).take 128))
    (h20 : root.direct.getD 0 0 < 2 ^ 20)
    (hd : d = block img.data (root.direct.getD 0 0))
    (hlen : d.length = 4096)
    (hi : i < 64) (hempty : (entry_at d i).inode_no = 0)
    (hmin : ∀ j, j < i → (entry_at d j).inode_no ≠ 0)
    (hn : n < 2 ^ 32)
    (hlinks : root.links < 65535) (hsize : root.size_bytes + 64 < 2 ^ 64) :
    ∃ root_bytes d',
      (add_to_root_directory img sb filename n t).1 = 0 ∧
      (add_to_root_directory img sb filename n t).2.data =
        pwrite (pwrite img.data (inode_offset sb ROOT_INO) root_bytes)
          (root.direct.getD 0 0 * 4096) d' ∧
      root_bytes.length = 128 ∧ d'.length = 4096 ∧
      block (add_to_root_directory img sb filename n t).2.data (root.direct.getD 0 0) = d' ∧
      (entry_at d' i).inode_no = n ∧ (entry_at d' i).type = 1 ∧
      (entry_at d' i).name = (cstr filename).take 57 ++
        List.replicate (58 - min (cstr filename).length 57) 0 ∧
      (entry_at d' i).checksum = xor_fold (((d'.drop (64 * i)).take 64).take 63) ∧
      (∀ j, j < 64 → j ≠ i → (d'.drop (64 * j)).take 64 = (d.drop (64 * j)).take 64) ∧
      (inode_t.parse root_bytes).size_bytes = root.size_bytes + 64 ∧
      (inode_t.parse root_bytes).links = root.links + 1 ∧
      (inode_t.parse root_bytes).inode_crc = crc32 (root_bytes.take 120) := by
  have hBS : BS = 4096 := rfl
  have hdo : dir_offset root = root.direct.getD 0 0 * 4096 := by
    unfold dir_offset
    rw [hBS]
    exact Nat.mod_eq_of_lt (by omega)
  have hd' : d = (img.data.drop (dir_offset root)).take BS := by
    rw [hd, hdo, hBS]; rfl
  obtain ⟨k1, k2⟩ := add_to_root_directory_found img sb filename n t root d i hoff hr hroot hd'
    hlen hi hempty hmin
  have hin1 := readable_inside img.data _ 128 (by decide) hr
  have hin2 : root.direct.getD 0 0 * 4096 + 4096 ≤ img.data.length := by
    have := readable_inside img.data (dir_offset root) BS (by decide) (by rw [← hd', hlen, hBS])
    rw [hdo, hBS] at this
    exact this
  have hse := set_entry_eq_pwrite d i (new_entry filename n) (by omega)
  have hsl : (set_entry d i (new_entry filename n)).length = 4096 := by
    rw [hse, pwrite_length _ _ _ (by rw [dirent_bytes_length]; omega), hlen]
  have hslot : ((set_entry d i (new_entry filename n)).drop (64 * i)).take 64 =
      (new_entry filename n).bytes := by
    have := read_pwrite_same d (64 * i) (new_entry filename n).bytes
      (by rw [dirent_bytes_length]; omega)
    rw [dirent_bytes_length] at this
    rw [hse]; exact this
  rw [hdo] at k2
  refine ⟨(bump_root root t).bytes, set_entry d i (new_entry filename n), k1, k2,
    inode_bytes_length _, hsl, ?_, ?_, ?_, ?_, ?_, ?_, ?_, ?_, ?_⟩
  · rw [k2]
    unfold block
    have := read_pwrite_same (pwrite img.data (inode_offset sb ROOT_INO) (bump_root root t).bytes)
      (root.direct.getD 0 0 * 4096) (set_entry d i (new_entry filename n))
      (by rw [pwrite_length _ _ _ (by rw [inode_bytes_length]; exact hin1), hsl]; exact hin2)
    rw [hsl] at this
    rw [hBS]; exact this
  · unfold entry_at
    rw [hslot, new_entry_parse filename n hn]
  · unfold entry_at
    rw [hslot, new_entry_parse filename n hn]
  · unfold entry_at
    rw [hslot, new_entry_parse filename n hn]
  · unfold entry_at
    rw [hslot, new_entry_parse filename n hn]
  · intro j hj hne
    rw [hse]
    rcases Nat.lt_or_gt_of_ne hne with hlt | hgt
    · exact read_pwrite_before d (64 * i) _ (64 * j) 64 (by rw [dirent_bytes_length]; omega)
        (by omega)
    · exact read_pwrite_after d (64 * i) _ (64 * j) 64 (by rw [dirent_bytes_length]; omega)
        (by rw [dirent_bytes_length]; omega)
  · rw [inode_parse_bytes]
    show (root.size_bytes + 64) % 2 ^ 64 % 2 ^ 64 = root.size_bytes + 64
    rw [Nat.mod_mod, Nat.mod_eq_of_lt hsize]
  · rw [inode_parse_bytes]
    show (root.links + 1) % 2 ^ 16 % 2 ^ 16 = root.links + 1
    rw [Nat.mod_mod, Nat.mod_eq_of_lt (by omega)]
  · rw [inode_parse_bytes]
    show (bump_root root t).inode_crc % 2 ^ 64 = _
    unfold bump_root
    rw [inode_crc_finalize_crc, Nat.mod_eq_of_lt (by
      have := crc32_lt ((inode_crc_finalize
        { root with size_bytes := (root.size_bytes + 64) % 2 ^ 64,
                    links := (root.links + 1) % 2 ^ 16, mtime := t % 2 ^ 64 }).bytes.take 120)
      omega)]

theorem sample_image_length (root : inode_t) (first : dirent64_t) :
    (sample_image root first).length = 8192 := by
  unfold sample_image
  rw [List.length_append, block_of_length, block_of_length]
  rfl

set_option maxRecDepth 10000 in
/-- The hypotheses of `add_to_root_directory_found` on a `sample_image` whose directory block
is empty. -/
theorem sample_image_empty (links size_bytes : Nat) (hl : links < 2 ^ 16)
    (hs : size_bytes < 2 ^ 64) :
    inode_t.parse (((sample_image (sample_root 1 links size_bytes)
      ⟨0, 0, List.replicate 58 0, 0⟩).drop (inode_offset zero_sb ROOT_INO)).take 128) =
      sample_root 1 links size_bytes ∧
    block_of (⟨0, 0, List.replicate 58 0, 0⟩ : dirent64_t).bytes =
      block (sample_image (sample_root 1 links size_bytes) ⟨0, 0, List.replicate 58 0, 0⟩)
        ((sample_root 1 links size_bytes).direct.getD 0 0) ∧
    (entry_at (block_of (⟨0, 0, List.replicate 58 0, 0⟩ : dirent64_t).bytes) 0).inode_no = 0 := by
  obtain ⟨r1, r2, r3, r4, r5⟩ := sample_image_reads (sample_root 1 links size_bytes)
    ⟨0, 0, List.replicate 58 0, 0⟩
  have hIS : INODE_SIZE = 128 := rfl
  rw [hIS] at r1
  refine ⟨?_, r3.symm, ?_⟩
  · rw [r1, inode_parse_bytes]
    unfold sample_root
    simp only [inode_t.mk.injEq, Nat.zero_mod, true_and, Nat.mod_eq_of_lt hl,
      Nat.mod_eq_of_lt hs]
    decide
  · unfold entry_at
    rw [r5]
    decide

/-- C10 as stated fails when `links` wraps: the root inode of this image has `links = 65535`
and its directory block has a free slot; the call succeeds and the root inode it writes back
has `links = 0`, not 65536. -/
theorem add_to_root_directory_links_wrap :
    (add_to_root_directory
      ⟨sample_image (sample_root 1 65535 128) ⟨0, 0, List.replicate 58 0, 0⟩, 0⟩
      zero_sb [102] 2 0).1 = 0 ∧
    (entry_at (block (sample_image (sample_root 1 65535 128) ⟨0, 0, List.replicate 58 0, 0⟩)
      1) 0).inode_no = 0 ∧
    (inode_t.parse (((sample_image (sample_root 1 65535 128)
      ⟨0, 0, List.replicate 58 0, 0⟩).drop (inode_offset zero_sb ROOT_INO)).take 128)).links =
      65535 ∧
    (inode_t.parse (((add_to_root_directory
      ⟨sample_image (sample_root 1 65535 128) ⟨0, 0, List.replicate 58 0, 0⟩, 0⟩
      zero_sb [102] 2 0).2.data.drop (inode_offset zero_sb ROOT_INO)).take 128)).links = 0 := by
  obtain ⟨s1, s2, s3⟩ := sample_image_empty 65535 128 (by decide) (by decide)
  obtain ⟨r1, r2, r3, r4, r5⟩ := sample_image_reads (sample_root 1 65535 128)
    ⟨0, 0, List.replicate 58 0, 0⟩
  have hIS : INODE_SIZE = 128 := rfl
  have hBS : BS = 4096 := rfl
  rw [hIS] at r1
  have h0 : inode_offset zero_sb ROOT_INO = 0 := by decide
  have hdo : dir_offset (sample_root 1 65535 128) = 4096 := by decide
  obtain ⟨k1, k2⟩ := add_to_root_directory_found
    ⟨sample_image (sample_root 1 65535 128) ⟨0, 0, List.replicate 58 0, 0⟩, 0⟩
    zero_sb [102] 2 0 (sample_root 1 65535 128)
    (block_of (⟨0, 0, List.replicate 58 0, 0⟩ : dirent64_t).bytes) 0
    (by decide) (by rw [r1, inode_bytes_length]) s1.symm
    (by rw [hdo]; exact r2.symm) (block_of_length _) (by decide) s3
    (fun j hj => absurd hj (by omega))
  refine ⟨k1, ?_, ?_, ?_⟩
  · rw [r3]; exact s3
  · rw [s1]; rfl
  · rw [k2, h0, hdo]
    simp only []
    have hlen := sample_image_length (sample_root 1 65535 128) ⟨0, 0, List.replicate 58 0, 0⟩
    have hrb := inode_bytes_length (bump_root (sample_root 1 65535 128) 0)
    have hse : (set_entry (block_of (⟨0, 0, List.replicate 58 0, 0⟩ : dirent64_t).bytes) 0
        (new_entry [102] 2)).length = 4096 := by
      rw [set_entry_eq_pwrite _ _ _ (by rw [block_of_length]; decide),
        pwrite_length _ _ _ (by rw [dirent_bytes_length, block_of_length]; decide),
        block_of_length]
      rfl
    rw [read_pwrite_before _ _ _ 0 128
      (by rw [pwrite_length _ _ _ (by rw [hrb, hlen]; decide), hse, hlen]) (by decide)]
    have := read_pwrite_same (sample_image (sample_root 1 65535 128)
      ⟨0, 0, List.replicate 58 0, 0⟩) 0 (bump_root (sample_root 1 65535 128) 0).bytes
      (by rw [hrb, hlen]; decide)
    rw [hrb] at this
    rw [this, inode_parse_bytes]
    rfl

theorem add_to_root_directory_spec_witness :
    ∃ root_bytes d',
      (add_to_root_directory
        ⟨sample_image (sample_root 1 2 128) ⟨0, 0, List.replicate 58 0, 0⟩, 0⟩
        zero_sb [102] 2 0).1 = 0 ∧
      (add_to_root_directory
        ⟨sample_image (sample_root 1 2 128) ⟨0, 0, List.replicate 58 0, 0⟩, 0⟩
        zero_sb [102] 2 0).2.data =
        pwrite (pwrite (sample_image (sample_root 1 2 128) ⟨0, 0, List.replicate 58 0, 0⟩)
          (inode_offset zero_sb ROOT_INO) root_bytes) (1 * 4096) d' ∧
      (entry_at d' 0).inode_no = 2 ∧
      (inode_t.parse root_bytes).size_bytes = 128 + 64 ∧
      (inode_t.parse root_bytes).links = 2 + 1 := by
  obtain ⟨s1, s2, s3⟩ := sample_image_empty 2 128 (by decide) (by decide)
  obtain ⟨r1, _, _, _, _⟩ := sample_image_reads (sample_root 1 2 128)
    ⟨0, 0, List.replicate 58 0, 0⟩
  have hIS : INODE_SIZE = 128 := rfl
  rw [hIS] at r1
  obtain ⟨rb, d', h1, h2, _, _, _, h3, _, _, _, _, h4, h5, _⟩ :=
    add_to_root_directory_spec
      ⟨sample_image (sample_root 1 2 128) ⟨0, 0, List.replicate 58 0, 0⟩, 0⟩
      zero_sb [102] 2 0 (sample_root 1 2 128)
      (block_of (⟨0, 0, List.replicate 58 0, 0⟩ : dirent64_t).bytes) 0
      (by decide) (by rw [r1, inode_bytes_length]) s1.symm (by decide) s2
      (block_of_length _) (by decide) s3 (fun j hj => absurd hj (by omega)) (by decide)
      (by decide) (by decide)
  exact ⟨rb, d', h1, h2, h3, h4, h5⟩

theorem BS_eq : BS = 4096 := rfl

theorem read_pwrite_disjoint (data : List Nat) (off : Nat) (buf : List Nat) (off' n : Nat)
    (h : off + buf.length ≤ data.length) (hd : off' + n ≤ off ∨ off + buf.length ≤ off') :
    ((pwrite data off buf).drop off').take n = (data.drop off').take n := by
  rcases hd with hb | ha
  · exact read_pwrite_before data off buf off' n h hb
  · exact read_pwrite_after data off buf off' n h ha

theorem fread_fseek (f : FILE) (off n : Nat) (h : off < 2 ^ 63) :
    (fread (fseek f off) n).1 = (f.data.drop off).take n ∧
    (fread (fseek f off) n).2.data = f.data := by
  rw [fseek_ok f off h]
  exact ⟨rfl, rfl⟩

/-- `find_free_inode` when bit `p` is the first clear one and is in range. -/
theorem find_free_inode_found (img : FILE) (sb : superblock_t) (p off : Nat)
    (hoe : sb.inode_bitmap_start * BS % 2 ^ 64 = off) (hoff : off < 2 ^ 63)
    (hlen : ((img.data.drop off).take BS).length = BS)
    (hp1 : p < sb.inode_count) (hp2 : p < BS * 8)
    (hclr : get_bit ((img.data.drop off).take BS) p = false)
    (hset : ∀ q, q < p → get_bit ((img.data.drop off).take BS) q = true) :
    (find_free_inode img sb).1 = p + 1 ∧
    (find_free_inode img sb).2.data =
      pwrite img.data off (set_bit ((img.data.drop off).take BS) p) := by
  subst hoe
  obtain ⟨e1, e2⟩ := fread_fseek img _ BS hoff
  have hc := find_free_inode_cases img sb (by rw [e1]; exact hlen)
  rw [e1] at hc
  rcases hc with ⟨p', h1, h2, h3, h4, h5⟩ | ⟨hall, _⟩
  · have : p' = p := by
      by_contra hne
      rcases Nat.lt_or_gt_of_ne hne with hlt | hgt
      · have := hset p' hlt; rw [h3] at this; cases this
      · have := h4 p hgt; rw [hclr] at this; cases this
    subst this
    rw [h5]
    refine ⟨rfl, ?_⟩
    simp only []
    rw [fwrite_fseek_data _ _ _ hoff, e2]
  · have := hall p hp1 hp2
    rw [hclr] at this; cases this

/-- `find_free_data_block` when bit `p` is the first clear one and is in range. -/
theorem find_free_data_block_found (img : FILE) (sb : superblock_t) (p off : Nat)
    (hoe : sb.data_bitmap_start * BS % 2 ^ 64 = off) (hoff : off < 2 ^ 63)
    (hlen : ((img.data.drop off).take BS).length = BS)
    (hp1 : p < sb.data_region_blocks) (hp2 : p < BS * 8)
    (hclr : get_bit ((img.data.drop off).take BS) p = false)
    (hset : ∀ q, q < p → get_bit ((img.data.drop off).take BS) q = true) :
    (find_free_data_block img sb).1 = (sb.data_region_start + p) % 2 ^ 64 ∧
    (find_free_data_block img sb).2.data =
      pwrite img.data off (set_bit ((img.data.drop off).take BS) p) := by
  subst hoe
  obtain ⟨e1, e2⟩ := fread_fseek img _ BS hoff
  have hc := find_free_data_block_cases img sb (by rw [e1]; exact hlen)
  rw [e1] at hc
  rcases hc with ⟨p', h1, h2, h3, h4, h5⟩ | ⟨hall, _⟩
  · have : p' = p := by
      by_contra hne
      rcases Nat.lt_or_gt_of_ne hne with hlt | hgt
      · have := hset p' hlt; rw [h3] at this; cases this
      · have := h4 p hgt; rw [hclr] at this; cases this
    subst this
    rw [h5]
    refine ⟨rfl, ?_⟩
    simp only []
    rw [fwrite_fseek_data _ _ _ hoff, e2]
  · have := hall p hp1 hp2
    rw [hclr] at this; cases this

theorem getD_set (l : List Nat) (i k v : Nat) (hi : i < l.length) :
    (l.set i v).getD k 0 = if k = i then v else l.getD k 0 := by
  rw [List.getD_eq_getElem?_getD, List.getD_eq_getElem?_getD]
  by_cases h : k = i
  · subst h
    rw [if_pos rfl, List.getElem?_set_self hi]
    rfl
  · rw [if_neg h, List.getElem?_set_ne (fun e => h e.symm)]

/-- The allocation loop of `main` on a data bitmap whose set bits are exactly `0..i`, with
enough room in the data region: `fuel` more blocks are claimed, the blocks
`data_region_start + 1 + k` for `i ≤ k < i + fuel`. -/
theorem alloc_blocks_run (sb : superblock_t) (drs drb : Nat)
    (h1 : sb.data_bitmap_start = 2) (h2 : sb.data_region_start = drs)
    (h3 : sb.data_region_blocks = drb) (hdrs : 1 ≤ drs) (hfit : drs + drb ≤ 2 ^ 32)
    (fuel : Nat) :
    ∀ (i : Nat) (f : FILE) (dbs : List Nat), 3 * 4096 ≤ f.data.length →
      (∀ q, get_bit (block f.data 2) q = decide (q ≤ i)) →
      i + fuel < drb → i + fuel ≤ 12 → dbs.length = 12 →
      ∃ f' dbs', alloc_blocks f sb dbs fuel i = (some dbs', f') ∧
        f'.data.length = f.data.length ∧
        (∀ off n, off + n ≤ 8192 ∨ 12288 ≤ off →
          (f'.data.drop off).take n = (f.data.drop off).take n) ∧
        (∀ q, get_bit (block f'.data 2) q = decide (q ≤ i + fuel)) ∧
        dbs'.length = 12 ∧
        (∀ k, k < 12 → dbs'.getD k 0 =
          if i ≤ k ∧ k < i + fuel then drs + 1 + k else dbs.getD k 0) := by
  induction fuel with
  | zero =>
    intro i f dbs hL hbits hfuel h12 hdl
    refine ⟨f, dbs, rfl, rfl, fun _ _ _ => rfl, hbits, hdl, ?_⟩
    intro k hk
    rw [if_neg (by omega)]
  | succ fuel ih =>
    intro i f dbs hL hbits hfuel h12 hdl
    have hbl : (block f.data 2).length = BS := by
      unfold block
      rw [List.length_take, List.length_drop, BS_eq]
      omega
    have hbm : (f.data.drop 8192).take BS = block f.data 2 := rfl
    obtain ⟨r1, r2⟩ := find_free_data_block_found f sb (i + 1) 8192
      (by rw [h1]; rfl) (by decide) (by rw [hbm]; exact hbl) (by rw [h3]; omega)
      (by rw [BS_eq]; omega)
      (by rw [hbm, hbits]; simp)
      (by intro q hq; rw [hbm, hbits]; simp; omega)
    rw [h2] at r1
    have hmod : (drs + (i + 1)) % 2 ^ 64 = drs + (i + 1) := Nat.mod_eq_of_lt (by omega)
    rw [hmod] at r1
    clear hmod
    rw [hbm] at r2
    rw [alloc_blocks]
    rcases hfd : find_free_data_block f sb with ⟨b, out⟩
    rw [hfd] at r1 r2
    simp only [] at r1 r2 ⊢
    subst r1
    have hmod : (drs + (i + 1)) % 2 ^ 32 = drs + (i + 1) := Nat.mod_eq_of_lt (by omega)
    rw [if_neg (by omega), hmod]
    clear hmod
    have hsl : (set_bit (block f.data 2) (i + 1)).length = 4096 := by
      rw [set_bit_length, hbl, BS_eq]
    have hin : 8192 + (set_bit (block f.data 2) (i + 1)).length ≤ f.data.length := by
      rw [hsl]; omega
    have hol : out.data.length = f.data.length := by
      rw [r2, pwrite_length _ _ _ hin]
    have hob : block out.data 2 = set_bit (block f.data 2) (i + 1) := by
      have := read_pwrite_same f.data 8192 _ hin
      rw [hsl] at this
      rw [r2]; exact this
    obtain ⟨f', dbs', e1, e2, e3, e4, e5, e6⟩ := ih (i + 1) out (dbs.set i (drs + (i + 1)))
      (by rw [hol]; exact hL)
      (by
        intro q
        rw [hob, get_bit_set_bit _ _ _ (by rw [hbl, BS_eq]; omega), hbits]
        by_cases hq : q ≤ i
        · simp [hq]; omega
        · by_cases hq' : q = i + 1
          · simp [hq']
          · have : ¬ q ≤ i + 1 := by omega
            simp [hq, hq', this])
      (by omega) (by omega) (by rw [List.length_set]; exact hdl)
    refine ⟨f', dbs', e1, by rw [e2, hol], ?_, ?_, e5, ?_⟩
    · intro off n hd
      rw [e3 off n hd, r2]
      exact read_pwrite_disjoint _ _ _ _ _ hin (by rw [hsl]; omega)
    · intro q
      rw [e4 q]
      congr 1
      rw [Nat.add_assoc, Nat.add_comm 1 fuel]
    · intro k hk
      rw [e6 k hk, getD_set _ _ _ _ (by omega)]
      by_cases hki : k = i
      · subst hki
        rw [if_neg (by omega), if_pos rfl, if_pos (by omega)]
        omega
      · rw [if_neg hki]
        by_cases hc : i + 1 ≤ k ∧ k < i + 1 + fuel
        · rw [if_pos hc, if_pos (by omega)]
        · rw [if_neg hc, if_neg (by omega)]

theorem block_length (data : List Nat) (k : Nat) (h : (k + 1) * 4096 ≤ data.length) :
    (block data k).length = 4096 := by
  unfold block
  rw [List.length_take, List.length_drop, BS_eq]
  omega

theorem inode_offset_of (sb : superblock_t) (ino : Nat) (h : sb.inode_table_start = 3)
    (h1 : 1 ≤ ino) (h2 : ino ≤ 2 ^ 32) : inode_offset sb ino = 12288 + (ino - 1) * 128 := by
  unfold inode_offset
  rw [h, BS_eq, show INODE_SIZE = 128 from rfl]
  omega

/-- The copy loop of `main` writes only into the blocks it is given. -/
theorem write_blocks_frame (dbs : List Nat) (lo hi : Nat) (fuel : Nat) :
    ∀ (i : Nat) (out file : FILE),
      (∀ k, i ≤ k → k < i + fuel → lo ≤ dbs.getD k 0 ∧ dbs.getD k 0 < hi) →
      hi * 4096 ≤ out.data.length → hi ≤ 2 ^ 32 →
      (write_blocks out file dbs fuel i).data.length = out.data.length ∧
      ∀ off n, off + n ≤ lo * 4096 ∨ hi * 4096 ≤ off →
        ((write_blocks out file dbs fuel i).data.drop off).take n =
          (out.data.drop off).take n := by
  induction fuel with
  | zero =>
    intro i out file _ _ _
    exact ⟨rfl, fun _ _ _ => rfl⟩
  | succ fuel ih =>
    intro i out file hb hlen hhi
    obtain ⟨hb1, hb2⟩ := hb i (le_refl _) (by omega)
    rw [write_blocks]
    simp only [fread_eq]
    have hfl : ((file.data.drop file.pos).take BS ++
        List.replicate (BS - ((file.data.drop file.pos).take BS).length) 0).length = 4096 := by
      rw [List.length_append, List.length_replicate, List.length_take, BS_eq]
      omega
    generalize (file.data.drop file.pos).take BS ++
        List.replicate (BS - ((file.data.drop file.pos).take BS).length) 0 = blk at hfl ⊢
    generalize (⟨file.data, file.pos + ((file.data.drop file.pos).take BS).length⟩ : FILE) =
      file'
    have hdata : (fwrite (fseek out (dbs.getD i 0 * BS)) blk).data =
        pwrite out.data (dbs.getD i 0 * BS) blk :=
      fwrite_fseek_data _ _ _ (by rw [BS_eq]; omega)
    have hin : dbs.getD i 0 * BS + blk.length ≤ out.data.length := by
      rw [hfl, BS_eq]; omega
    obtain ⟨e1, e2⟩ := ih (i + 1) (fwrite (fseek out (dbs.getD i 0 * BS)) blk) file'
      (fun k hk hk' => hb k (by omega) (by omega))
      (by rw [hdata, pwrite_length _ _ _ hin]; exact hlen) hhi
    refine ⟨by rw [e1, hdata, pwrite_length _ _ _ hin], ?_⟩
    intro off n hd
    rw [e2 off n hd, hdata]
    exact read_pwrite_disjoint _ _ _ _ _ hin (by rw [hfl, BS_eq]; omega)

/-- A lookup that finds no occupied slot with the queried name answers 0. -/
theorem lookup_absent (f : FILE) (sb : superblock_t) (name : List Nat) (drs : Nat)
    (h_its : sb.inode_table_start = 3) (hlen : (drs + 1) * 4096 ≤ f.data.length)
    (h4 : 4 ≤ drs) (h20 : drs < 2 ^ 20)
    (h_root : (inode_t.parse ((f.data.drop 12288).take 128)).direct.getD 0 0 = drs)
    (hnone : ∀ i, i < 64 → ¬ slot_matches (block f.data drs) name i) :
    (file_exists_in_root f sb name).1 = 0 := by
  have hio : inode_offset sb ROOT_INO = 12288 := inode_offset_of sb 1 h_its (by decide) (by decide)
  have key := file_exists_in_root_eq f sb name (by rw [hio]; decide)
    (by rw [hio, List.length_take, List.length_drop, show INODE_SIZE = 128 from rfl]; omega)
  rw [hio, show INODE_SIZE = 128 from rfl] at key
  have hdo : dir_offset (inode_t.parse ((f.data.drop 12288).take 128)) = drs * BS := by
    unfold dir_offset
    rw [h_root, BS_eq]
    exact Nat.mod_eq_of_lt (by omega)
  have hblk : (f.data.drop (drs * BS)).take BS = block f.data drs := rfl
  rw [h_root, if_neg (by omega), hdo, hblk,
    if_neg (by rw [block_length _ _ hlen, BS_eq]; simp), show BS / 64 = 64 from rfl,
    (find_name_none _ name 64 0).2 (fun k _ hk => hnone k (by omega))] at key
  exact (Prod.mk.inj key).1

theorem adder_commit_eq (output : FILE) (sb : superblock_t) (name_on_disk content : List Nat)
    (st_mtime : Nat) (now : Nat → Nat) (blocks_needed free_inode : Nat)
    (data_blocks : List Nat) :
    adder_commit output sb name_on_disk content st_mtime now blocks_needed free_inode
        data_blocks =
      if (add_to_root_directory
          (write_blocks (fwrite (fseek output (inode_offset sb free_inode))
            (file_inode content st_mtime now data_blocks).bytes) ⟨content, 0⟩ data_blocks
            blocks_needed 0) sb name_on_disk free_inode (now 2)).1 ≠ 0 then
        (1, some (add_to_root_directory
          (write_blocks (fwrite (fseek output (inode_offset sb free_inode))
            (file_inode content st_mtime now data_blocks).bytes) ⟨content, 0⟩ data_blocks
            blocks_needed 0) sb name_on_disk free_inode (now 2)).2.data)
      else
        (0, some (add_to_root_directory
          (write_blocks (fwrite (fseek output (inode_offset sb free_inode))
            (file_inode content st_mtime now data_blocks).bytes) ⟨content, 0⟩ data_blocks
            blocks_needed 0) sb name_on_disk free_inode (now 2)).2.data) := by
  unfold adder_commit file_inode
  generalize add_to_root_directory = ar
  generalize write_blocks = wb
  generalize inode_crc_finalize = icf
  simp only []

theorem adder_allocate_eq (output : FILE) (sb : superblock_t) (name_on_disk content : List Nat)
    (st_mtime : Nat) (now : Nat → Nat) (blocks_needed : Nat) :
    adder_allocate output sb name_on_disk content st_mtime now blocks_needed =
      if (find_free_inode output sb).1 = 0 then (1, some (find_free_inode output sb).2.data)
      else
        match alloc_blocks (find_free_inode output sb).2 sb (List.replicate DIRECT_MAX 0)
            blocks_needed 0 with
        | (none, out) => (1, some out.data)
        | (some data_blocks, out) =>
          adder_commit out sb name_on_disk content st_mtime now blocks_needed
            (find_free_inode output sb).1 data_blocks := by
  unfold adder_allocate
  generalize find_free_inode = ffi
  generalize alloc_blocks = ab
  generalize adder_commit = ac
  simp only []

theorem mkfs_adder_eq (input file_name content : List Nat) (st_mtime : Nat) (now : Nat → Nat) :
    mkfs_adder input file_name content st_mtime now =
      if (content.length + BS - 1) % 2 ^ 64 / BS > DIRECT_MAX then (1, none)
      else if (input.take 116).length ≠ 116 then (1, some input)
      else if (superblock_t.parse (input.take 116)).magic ≠ 0x4D565346 then (1, some input)
      else if (file_exists_in_root ⟨input, 0 + (input.take 116).length⟩
          (superblock_t.parse (input.take 116))
          (strncpy (basename file_name) 57 ++ [0])).1 < 0 then
        (1, some (file_exists_in_root ⟨input, 0 + (input.take 116).length⟩
          (superblock_t.parse (input.take 116))
          (strncpy (basename file_name) 57 ++ [0])).2.2.data)
      else if (file_exists_in_root ⟨input, 0 + (input.take 116).length⟩
          (superblock_t.parse (input.take 116))
          (strncpy (basename file_name) 57 ++ [0])).1 = 1 then
        (1, some (file_exists_in_root ⟨input, 0 + (input.take 116).length⟩
          (superblock_t.parse (input.take 116))
          (strncpy (basename file_name) 57 ++ [0])).2.2.data)
      else
        adder_allocate (file_exists_in_root ⟨input, 0 + (input.take 116).length⟩
          (superblock_t.parse (input.take 116))
          (strncpy (basename file_name) 57 ++ [0])).2.2
          (superblock_t.parse (input.take 116)) (strncpy (basename file_name) 57 ++ [0])
          content st_mtime now ((content.length + BS - 1) % 2 ^ 64 / BS) := by
  unfold mkfs_adder
  generalize file_exists_in_root = fe
  generalize adder_allocate = aa
  generalize superblock_t.parse = sp
  simp only []
  rw [fseek_ok _ _ (by decide)]
  simp only [fread_eq, List.drop_zero]

/-- A run of `mkfs_adder` on an image laid out as the formatter does (bitmaps at blocks 1 and
2, inode table at block 3, root directory in block `drs`), with only bit 0 set in both
bitmaps, the two first directory slots occupied by other names and the other slots free:
the program succeeds, and this is the image it leaves. -/
theorem adder_run (img file_name content : List Nat) (st_mtime : Nat) (now : Nat → Nat)
    (sb : superblock_t) (drs drb : Nat)
    (hc : content.length ≤ 49152)
    (h_sbl : (img.take 116).length = 116)
    (h_sb : superblock_t.parse (img.take 116) = sb)
    (h_magic : sb.magic = 0x4D565346) (h_cnt : 2 ≤ sb.inode_count)
    (h_ibs : sb.inode_bitmap_start = 1) (h_dbs : sb.data_bitmap_start = 2)
    (h_its : sb.inode_table_start = 3)
    (h_drs : sb.data_region_start = drs) (h_drb : sb.data_region_blocks = drb)
    (h_len : img.length = (drs + drb) * 4096)
    (h_b1 : 4 ≤ drs) (h_b2 : 14 ≤ drb) (h_b3 : drs + drb ≤ 2 ^ 20)
    (h_ibm : ∀ q, get_bit (block img 1) q = decide (q ≤ 0))
    (h_dbm : ∀ q, get_bit (block img 2) q = decide (q ≤ 0))
    (h_root : (inode_t.parse ((img.drop 12288).take 128)).direct.getD 0 0 = drs)
    (h_s0 : (entry_at (block img drs) 0).inode_no ≠ 0)
    (h_s1 : (entry_at (block img drs) 1).inode_no ≠ 0)
    (h_n0 : strncmp_eq (entry_at (block img drs) 0).name
      (strncpy (basename file_name) 57 ++ [0]) 58 = false)
    (h_n1 : strncmp_eq (entry_at (block img drs) 1).name
      (strncpy (basename file_name) 57 ++ [0]) 58 = false)
    (h_rest : ∀ j, 2 ≤ j → j < 64 → (entry_at (block img drs) j).inode_no = 0) :
    ∃ out dbs, mkfs_adder img file_name content st_mtime now = (0, some out) ∧
      out.length = img.length ∧
      dbs.length = 12 ∧
      (∀ k, k < 12 → dbs.getD k 0 =
        if k < (content.length + 4095) / 4096 then drs + 1 + k else 0) ∧
      (out.drop 12416).take 128 = (file_inode content st_mtime now dbs).bytes ∧
      (∀ q, get_bit (block out 1) q = decide (q ≤ 1)) ∧
      (∀ q, get_bit (block out 2) q = decide (q ≤ (content.length + 4095) / 4096)) ∧
      block out drs = set_entry (block img drs) 2
        (new_entry (strncpy (basename file_name) 57 ++ [0]) 2) ∧
      (out.drop 12288).take 128 =
        (bump_root (inode_t.parse ((img.drop 12288).take 128)) (now 2)).bytes := by
  have hbn : (content.length + BS - 1) % 2 ^ 64 / BS = (content.length + 4095) / 4096 := by
    rw [BS_eq]; omega
  have hbn12 : (content.length + 4095) / 4096 ≤ 12 := by omega
  rw [mkfs_adder_eq, hbn, if_neg (by rw [show DIRECT_MAX = 12 from rfl]; omega),
    if_neg (by rw [h_sbl]; simp), h_sb, if_neg (by rw [h_magic]; simp)]
  clear hbn
  generalize hname : strncpy (basename file_name) 57 ++ [0] = name at *
  generalize (content.length + 4095) / 4096 = bn at *
  clear hc
  -- the duplicate check
  have hnone : ∀ i, i < 64 → ¬ slot_matches (block img drs) name i := by
    intro i hi hm
    rcases Nat.lt_or_ge i 2 with h2 | h2
    · rcases Nat.eq_zero_or_pos i with h0 | h0
      · subst h0; rw [hm.2] at h_n0; cases h_n0
      · have : i = 1 := by omega
        subst this; rw [hm.2] at h_n1; cases h_n1
    · exact hm.1 (h_rest i h2 hi)
  have hfe1 := lookup_absent ⟨img, 0 + (img.take 116).length⟩ sb name drs h_its
    (by show (drs + 1) * 4096 ≤ img.length; omega) h_b1 (by omega) h_root hnone
  have hfe2 := file_exists_in_root_data ⟨img, 0 + (img.take 116).length⟩ sb name
  rw [hfe1, if_neg (by decide), if_neg (by decide)]
  generalize (file_exists_in_root ⟨img, 0 + (img.take 116).length⟩ sb name).2.2 = f1 at hfe2 ⊢
  simp only [] at hfe2
  -- the inode number
  have hL1 : 2 * 4096 ≤ img.length := by omega
  have hbl1 := block_length img 1 (by omega)
  obtain ⟨hi1, hi2⟩ := find_free_inode_found f1 sb 1 4096 (by rw [h_ibs]; rfl) (by decide)
    (by rw [hfe2, BS_eq]; exact hbl1) (by omega) (by decide)
    (by rw [hfe2]; show get_bit (block img 1) 1 = false; rw [h_ibm]; rfl)
    (by intro q hq; rw [hfe2]; show get_bit (block img 1) q = true; rw [h_ibm]; simp; omega)
  rw [hfe2] at hi2
  rw [adder_allocate_eq, hi1, if_neg (by decide)]
  generalize (find_free_inode f1 sb).2 = f2 at hi2 ⊢
  have hbm1 : (img.drop 4096).take BS = block img 1 := rfl
  rw [hbm1] at hi2
  have hsl1 : (set_bit (block img 1) 1).length = 4096 := by
    rw [set_bit_length, hbl1]
  have hin1 : 4096 + (set_bit (block img 1) 1).length ≤ img.length := by
    rw [hsl1]; omega
  have hl2 : f2.data.length = img.length := by rw [hi2, pwrite_length _ _ _ hin1]
  -- the data blocks
  obtain ⟨f3, dbs, ha1, ha2, ha3, ha4, ha5, ha6⟩ := alloc_blocks_run sb drs drb h_dbs h_drs
    h_drb (by omega) (by omega) bn 0 f2 (List.replicate DIRECT_MAX 0)
    (by rw [hl2]; omega)
    (by
      intro q
      have : block f2.data 2 = block img 2 := by
        rw [hi2]
        exact read_pwrite_disjoint _ _ _ _ _ hin1 (by rw [hsl1, BS_eq]; omega)
      rw [this, h_dbm])
    (by omega) (by omega) (by rw [List.length_replicate]; rfl)
  rw [ha1]
  simp only []
  have hdb : ∀ k, k < 12 → dbs.getD k 0 = if k < bn then drs + 1 + k else 0 := by
    intro k hk
    rw [ha6 k hk]
    by_cases hkb : k < bn
    · rw [if_pos ⟨Nat.zero_le _, by omega⟩, if_pos hkb]
    · rw [if_neg (by omega), if_neg hkb, List.getD_eq_getElem?_getD,
        List.getElem?_replicate]
      split <;> rfl
  -- the inode record and the content
  rw [adder_commit_eq, inode_offset_of sb 2 h_its (by decide) (by decide)]
  have hio : 12288 + (2 - 1) * 128 = 12416 := rfl
  rw [hio]
  have hinl := inode_bytes_length (file_inode content st_mtime now dbs)
  have hd4 := fwrite_fseek_data f3 12416 (file_inode content st_mtime now dbs).bytes (by decide)
  have hin4 : 12416 + (file_inode content st_mtime now dbs).bytes.length ≤ f3.data.length := by
    rw [hinl, ha2, hl2]; omega
  obtain ⟨hw1, hw2⟩ := write_blocks_frame dbs (drs + 1) (drs + 13) bn 0
    (fwrite (fseek f3 12416) (file_inode content st_mtime now dbs).bytes) ⟨content, 0⟩
    (by
      intro k _ hk
      rw [hdb k (by omega), if_pos (by omega)]
      omega)
    (by rw [hd4, pwrite_length _ _ _ hin4, ha2, hl2]; omega) (by omega)
  generalize write_blocks (fwrite (fseek f3 12416) (file_inode content st_mtime now dbs).bytes)
    ⟨content, 0⟩ dbs bn 0 = f5 at hw1 hw2 ⊢
  rw [hd4] at hw1 hw2
  rw [pwrite_length _ _ _ hin4, ha2, hl2] at hw1
  have rd5 : ∀ off n, (12288 ≤ off ∧ off + n ≤ 12416) ∨
      (12544 ≤ off ∧ off + n ≤ (drs + 1) * 4096) →
      (f5.data.drop off).take n = (img.drop off).take n := by
    intro off n h
    rw [hw2 off n (by omega), read_pwrite_disjoint _ _ _ _ _ hin4 (by rw [hinl]; omega),
      ha3 off n (by omega), hi2]
    exact read_pwrite_disjoint _ _ _ _ _ hin1 (by rw [hsl1]; omega)
  -- the directory entry
  have hro : inode_offset sb ROOT_INO = 12288 :=
    inode_offset_of sb 1 h_its (by decide) (by decide)
  have hrr := rd5 12288 128 (by omega)
  have hdo : dir_offset (inode_t.parse ((img.drop 12288).take 128)) = drs * 4096 := by
    unfold dir_offset
    rw [h_root, BS_eq]
    exact Nat.mod_eq_of_lt (by omega)
  have hrd : (f5.data.drop (drs * 4096)).take BS = block img drs := by
    rw [BS_eq, rd5 (drs * 4096) 4096 (by omega)]
    rfl
  have hbld := block_length img drs (by omega)
  have hr5 : ((img.drop 12288).take 128).length = 128 := by
    rw [List.length_take, List.length_drop]
    clear * - h_len h_b1 h_b2
    omega
  obtain ⟨k1, k2⟩ := add_to_root_directory_found f5 sb name 2 (now 2)
    (inode_t.parse ((img.drop 12288).take 128)) (block img drs) 2
    (by rw [hro]; decide)
    (by rw [hro, hrr]; exact hr5)
    (by rw [hro, hrr])
    (by rw [hdo, hrd])
    hbld (by decide) (h_rest 2 (le_refl _) (by decide))
    (by
      intro j hj
      rcases Nat.eq_zero_or_pos j with h0 | h0
      · subst h0; exact h_s0
      · have : j = 1 := by omega
        subst this; exact h_s1)
  rw [k1, if_neg (by decide), k2, hro, hdo]
  clear k1 k2 hfe1 hnone h_n0 h_n1 h_s0 h_s1 h_rest hname
  have hdl : (set_entry (block img drs) 2 (new_entry name 2)).length = 4096 := by
    rw [set_entry_eq_pwrite _ _ _ (by rw [hbld]; decide),
      pwrite_length _ _ _ (by rw [dirent_bytes_length, hbld]; decide), hbld]
  have hrbl := inode_bytes_length (bump_root (inode_t.parse ((img.drop 12288).take 128)) (now 2))
  generalize (bump_root (inode_t.parse ((img.drop 12288).take 128)) (now 2)).bytes = rb at *
  generalize set_entry (block img drs) 2 (new_entry name 2) = d1 at *
  generalize hfb : (file_inode content st_mtime now dbs).bytes = fb at *
  have hA : 16384 ≤ drs * 4096 := by clear * - h_b1; omega
  have hB : drs * 4096 + 4096 ≤ img.length := by clear * - h_len h_b2; omega
  have hA1 : 12416 + 128 ≤ (drs + 1) * 4096 := by clear * - hA; omega
  have hA2 : 4096 + 4096 ≤ (drs + 1) * 4096 := by clear * - hA; omega
  have hA3 : 8192 + 4096 ≤ (drs + 1) * 4096 := by clear * - hA; omega
  have hin6 : 12288 + rb.length ≤ f5.data.length := by
    rw [hrbl, hw1]; clear * - hA hB; omega
  have hl6 : (pwrite f5.data 12288 rb).length = img.length := by
    rw [pwrite_length _ _ _ hin6, hw1]
  have hin7 : drs * 4096 + d1.length ≤ (pwrite f5.data 12288 rb).length := by
    rw [hl6, hdl]; exact hB
  have rd7 : ∀ off n, off + n ≤ 12288 ∨ (12416 ≤ off ∧ off + n ≤ drs * 4096) →
      ((pwrite (pwrite f5.data 12288 rb) (drs * 4096) d1).drop off).take n =
        (f5.data.drop off).take n := by
    intro off n h
    rw [read_pwrite_before _ _ _ off n hin7 (by clear * - h hA; omega)]
    exact read_pwrite_disjoint _ _ _ _ _ hin6 (by rw [hrbl]; clear * - h; omega)
  have hor : ∀ (a b : Nat), (decide (a ≤ 0) || decide (a = 1)) = decide (a ≤ 1) := by
    intro a _
    rcases a with _ | _ | a <;> simp
  refine ⟨_, dbs, rfl, ?_, ha5, hdb, ?_, ?_, ?_, ?_, ?_⟩
  · rw [pwrite_length _ _ _ hin7, hl6]
  · rw [rd7 12416 128 (Or.inr ⟨le_refl _, by clear * - hA; omega⟩),
      hw2 12416 128 (Or.inl hA1)]
    have := read_pwrite_same f3.data 12416 fb hin4
    rw [hinl] at this
    rw [this, hfb]
  · intro q
    have e : block (pwrite (pwrite f5.data 12288 rb) (drs * 4096) d1) 1 =
        set_bit (block img 1) 1 := by
      unfold block
      rw [BS_eq, Nat.one_mul, rd7 4096 4096 (Or.inl (by decide)), hw2 4096 4096 (Or.inl hA2),
        read_pwrite_before _ _ _ 4096 4096 hin4 (by decide),
        ha3 4096 4096 (Or.inl (by decide)), hi2]
      have := read_pwrite_same img 4096 (set_bit (block img 1) 1) hin1
      rw [hsl1] at this
      rw [this]
      rfl
    rw [e, get_bit_set_bit _ _ _ (by rw [hbl1]; decide), h_ibm q]
    exact hor q 0
  · intro q
    have e : block (pwrite (pwrite f5.data 12288 rb) (drs * 4096) d1) 2 = block f3.data 2 := by
      unfold block
      rw [BS_eq, show 2 * 4096 = 8192 from rfl, rd7 8192 4096 (Or.inl (by decide)),
        hw2 8192 4096 (Or.inl hA3),
        read_pwrite_before _ _ _ 8192 4096 hin4 (by decide)]
    rw [e, ha4 q, Nat.zero_add]
  · unfold block
    have := read_pwrite_same (pwrite f5.data 12288 rb) (drs * 4096) d1 hin7
    rw [hdl] at this
    rw [BS_eq]
    exact this
  · rw [read_pwrite_before _ _ _ 12288 128 hin7 (by clear * - hA; omega)]
    have := read_pwrite_same f5.data 12288 rb hin6
    rw [hrbl] at this
    exact this

theorem cstr_of_nonzero (b : List Nat) (hb : ∀ x ∈ b, x ≠ 0) : cstr b = b := by
  unfold cstr
  rw [List.takeWhile_eq_self_iff]
  intro x hx
  simpa using hb x hx

theorem cstr_append_zero (l rest : List Nat) (hl : ∀ x ∈ l, x ≠ 0) :
    cstr (l ++ 0 :: rest) = l := by
  unfold cstr
  induction l with
  | nil => simp
  | cons a l ih =>
    have ha : a ≠ 0 := hl a (List.mem_cons_self _ _)
    rw [List.cons_append, List.takeWhile_cons_of_pos (by simpa using ha),
      ih (fun x hx => hl x (List.mem_cons_of_mem _ hx))]

theorem basename_nonzero (file_name : List Nat) : ∀ x ∈ basename file_name, x ≠ 0 := by
  intro x hx
  unfold basename at hx
  rw [List.mem_reverse] at hx
  have h1 := (List.takeWhile_sublist _).subset hx
  rw [List.mem_reverse] at h1
  unfold cstr at h1
  simpa using List.mem_takeWhile_imp h1

theorem cstr_name (b : List Nat) (hb : ∀ x ∈ b, x ≠ 0) :
    cstr (strncpy b 57 ++ [0]) = b.take 57 := by
  rw [new_entry_name, cstr_of_nonzero b hb]
  have hk : 58 - min b.length 57 = (57 - min b.length 57) + 1 := by omega
  rw [hk, List.replicate_succ,
    cstr_append_zero _ _ (fun x hx => hb x (List.mem_of_mem_take hx))]

/-- The name bytes stored for a name that went through `strncpy` twice. -/
theorem stored_name (b : List Nat) (hb : ∀ x ∈ b, x ≠ 0) :
    (cstr (strncpy b 57 ++ [0])).take 57 ++
      List.replicate (58 - min (cstr (strncpy b 57 ++ [0])).length 57) 0 =
      b.take 57 ++ List.replicate (58 - min b.length 57) 0 := by
  have e : 58 - min (min 57 b.length) 57 = 58 - min b.length 57 := by omega
  rw [cstr_name b hb, List.take_take, List.length_take, Nat.min_self, e]

/-- A stored name shorter than 57 bytes differs under `strncmp` from the name written for
`b` when it is not `b`. -/
theorem strncmp_eq_strncpy (a b : List Nat) (hb : ∀ x ∈ b, x ≠ 0)
    (ha : (cstr a).length < 57) (hne : cstr a ≠ b) :
    strncmp_eq a (strncpy b 57 ++ [0]) 58 = false := by
  rw [Bool.eq_false_iff]
  intro h
  rw [strncmp_eq_iff, new_entry_name, cstr_of_nonzero b hb] at h
  have hk : 58 - min b.length 57 = (57 - min b.length 57) + 1 := by omega
  rw [hk, List.replicate_succ,
    cstr_append_zero _ _ (fun x hx => hb x (List.mem_of_mem_take hx)),
    List.take_of_length_le (by omega), List.take_take] at h
  have hl := congrArg List.length h
  rw [List.length_take] at hl
  have hb57 : b.length < 57 := by omega
  rw [List.take_of_length_le (by omega)] at h
  exact hne h

theorem fresh_dir (size_kib inodes : Nat) (now : Nat → Nat) (adjacent : List Nat)
    (h1 : 180 ≤ size_kib) (h2 : size_kib ≤ 4096) (h4 : 128 ≤ inodes) (h5 : inodes ≤ 512) :
    (entry_at (block (fresh_blocks size_kib inodes now adjacent).flatten
      (layout size_kib inodes).2.2.1) 0).inode_no = 1 ∧
    (entry_at (block (fresh_blocks size_kib inodes now adjacent).flatten
      (layout size_kib inodes).2.2.1) 0).name = 46 :: List.replicate 57 0 ∧
    (entry_at (block (fresh_blocks size_kib inodes now adjacent).flatten
      (layout size_kib inodes).2.2.1) 1).inode_no = 1 ∧
    (entry_at (block (fresh_blocks size_kib inodes now adjacent).flatten
      (layout size_kib inodes).2.2.1) 1).name = 46 :: 46 :: List.replicate 56 0 ∧
    ∀ i, 2 ≤ i → i < 64 →
      (entry_at (block (fresh_blocks size_kib inodes now adjacent).flatten
        (layout size_kib inodes).2.2.1) i).inode_no = 0 := by
  rw [fresh_block_dir size_kib inodes now adjacent h1 h2 h4 h5]
  unfold entry_at
  rw [dir_slot_0, dir_slot_1]
  refine ⟨by decide, by decide, by decide, by decide, ?_⟩
  intro i hi hi'
  have hz := slot_zero (dot_entry.bytes ++ dotdot_entry.bytes) BS i
    (by have : (dot_entry.bytes ++ dotdot_entry.bytes).length = 128 := by
          simp [dirent_bytes_length]
        omega)
    (by rw [BS_eq]; omega)
  unfold block_of
  rw [hz]
  decide

theorem fresh_root_direct (size_kib inodes : Nat) (now : Nat → Nat) (adjacent : List Nat)
    (h1 : 180 ≤ size_kib) (h2 : size_kib ≤ 4096) (h5 : inodes ≤ 512) :
    (inode_t.parse (((fresh_blocks size_kib inodes now adjacent).flatten.drop 12288).take
      128)).direct.getD 0 0 = (layout size_kib inodes).2.2.1 := by
  have hb := fresh_block_3 size_kib inodes now adjacent
  unfold block at hb
  rw [BS_eq] at hb
  have e : ((fresh_blocks size_kib inodes now adjacent).flatten.drop 12288).take 128 =
      (((fresh_blocks size_kib inodes now adjacent).flatten.drop (3 * 4096)).take 4096).take
        128 := by
    rw [List.take_take]; rfl
  have t := take_block_of (builder_root_inode size_kib inodes now).bytes [] 128
    (inode_bytes_length _) (by rw [BS_eq]; decide)
  rw [List.append_nil] at t
  rw [e, hb, t, inode_parse_bytes]
  obtain ⟨hl, hlt⟩ := layout_eq size_kib inodes h1 h2 h5
  show (List.map (fun i => (builder_root_inode size_kib inodes now).direct.getD i 0 % 2 ^ 32)
    (List.range 12)).getD 0 0 = _
  rw [range_12]
  show ((layout size_kib inodes).2.2.1 % 2 ^ 32) % 2 ^ 32 = _
  rw [Nat.mod_mod, hl]
  show (3 + (inodes * 128 + 4095) / 4096) % 2 ^ 32 = 3 + (inodes * 128 + 4095) / 4096
  exact Nat.mod_eq_of_lt (by omega)

/-- The run of `mkfs_adder` on a fresh image. -/
theorem adder_on_fresh (size_kib inodes : Nat) (t : Nat → Nat) (adjacent : List Nat)
    (file_name content : List Nat) (st_mtime : Nat) (now : Nat → Nat)
    (h1 : 180 ≤ size_kib) (h2 : size_kib ≤ 4096)
    (h4 : 128 ≤ inodes) (h5 : inodes ≤ 512)
    (hc : content.length ≤ 49152)
    (hdot : basename file_name ≠ [46]) (hdotdot : basename file_name ≠ [46, 46]) :
    ∃ out dbs,
      mkfs_adder (fresh_blocks size_kib inodes t adjacent).flatten file_name content st_mtime
        now = (0, some out) ∧
      out.length = (fresh_blocks size_kib inodes t adjacent).flatten.length ∧
      dbs.length = 12 ∧
      (∀ k, k < 12 → dbs.getD k 0 =
        if k < (content.length + 4095) / 4096 then (layout size_kib inodes).2.2.1 + 1 + k
        else 0) ∧
      (out.drop 12416).take 128 = (file_inode content st_mtime now dbs).bytes ∧
      (∀ q, get_bit (block out 1) q = decide (q ≤ 1)) ∧
      (∀ q, get_bit (block out 2) q = decide (q ≤ (content.length + 4095) / 4096)) ∧
      block out (layout size_kib inodes).2.2.1 =
        set_entry (block (fresh_blocks size_kib inodes t adjacent).flatten
          (layout size_kib inodes).2.2.1) 2
          (new_entry (strncpy (basename file_name) 57 ++ [0]) 2) ∧
      (out.drop 12288).take 128 =
        (bump_root (inode_t.parse (((fresh_blocks size_kib inodes t adjacent).flatten.drop
          12288).take 128)) (now 2)).bytes := by
  obtain ⟨hl, hlt⟩ := layout_eq size_kib inodes h1 h2 h5
  obtain ⟨d0, n0, d1, n1, dr⟩ := fresh_dir size_kib inodes t adjacent h1 h2 h4 h5
  have hroot := fresh_root_direct size_kib inodes t adjacent h1 h2 h5
  have hsb := fresh_sb size_kib inodes t adjacent h1 h2 h5
  have hsbl : ((fresh_blocks size_kib inodes t adjacent).flatten.take 116).length = 116 := by
    rw [fresh_take_sb, superblock_bytes_length]
  obtain ⟨fl1, fl2⟩ := fresh_blocks_length size_kib inodes t adjacent h1 h2 h5 h4
  have hlen := flatten_length_of _ fl2
  rw [fl1, BS_eq] at hlen
  have hb1 := fresh_block_1 size_kib inodes t adjacent
  have hb2 := fresh_block_2 size_kib inodes t adjacent
  have hdrs : (layout size_kib inodes).2.2.1 = 3 + (inodes * 128 + 4095) / 4096 := by
    rw [hl]
  have hdrb : (layout size_kib inodes).2.2.2 =
      size_kib * 1024 / 4096 - (3 + (inodes * 128 + 4095) / 4096) := by
    rw [hl]
  have htb : (layout size_kib inodes).1 = size_kib * 1024 / 4096 := by
    rw [hl]
  have hbits : ∀ (n q : Nat), get_bit (1 :: List.replicate n 0) q = decide (q ≤ 0) := by
    intro n q
    rw [get_bit_first]
    simp
  have hnz := basename_nonzero file_name
  exact adder_run _ file_name content st_mtime now
    (builder_sb size_kib inodes t adjacent) (layout size_kib inodes).2.2.1
    (layout size_kib inodes).2.2.2 hc hsbl hsb rfl
    (show 2 ≤ inodes from le_trans (by decide) h4) rfl rfl rfl rfl rfl
    (by rw [hlen, htb, hdrs, hdrb]; clear * - hlt; congr 1; omega)
    (by rw [hdrs]; clear * - h4; omega)
    (by rw [hdrb]; clear * - h1 h5; omega)
    (by rw [hdrs, hdrb]; clear * - h2 hlt; omega)
    (by intro q; rw [hb1]; exact hbits _ q)
    (by intro q; rw [hb2]; exact hbits _ q)
    hroot
    (by rw [d0]; decide) (by rw [d1]; decide)
    (by
      rw [n0]
      exact strncmp_eq_strncpy _ _ hnz (by decide) (fun h => hdot (by rw [← h]; rfl)))
    (by
      rw [n1]
      exact strncmp_eq_strncpy _ _ hnz (by decide) (fun h => hdotdot (by rw [← h]; rfl)))
    dr

theorem getD_map_range (f : Nat → Nat) (k : Nat) (hk : k < 12) :
    ((List.range 12).map f).getD k 0 = f k := by
  rw [List.getD_eq_getElem?_getD, List.getElem?_map, List.getElem?_range hk]
  rfl

/-- Replacing slot `i` of a directory block: the slot then holds the record, the other slots
are as they were. -/
theorem set_entry_slots (d : List Nat) (i : Nat) (de : dirent64_t) (hlen : d.length = 4096)
    (hi : i < 64) :
    ((set_entry d i de).drop (64 * i)).take 64 = de.bytes ∧
    ∀ j, j < 64 → j ≠ i →
      ((set_entry d i de).drop (64 * j)).take 64 = (d.drop (64 * j)).take 64 := by
  have hse := set_entry_eq_pwrite d i de (by omega)
  have hin : 64 * i + de.bytes.length ≤ d.length := by rw [dirent_bytes_length]; omega
  constructor
  · have := read_pwrite_same d (64 * i) de.bytes hin
    rw [dirent_bytes_length] at this
    rw [hse]; exact this
  · intro j hj hne
    rw [hse]
    exact read_pwrite_disjoint d (64 * i) _ (64 * j) 64 hin
      (by rw [dirent_bytes_length]; omega)

/-- C6: for every valid `size_kib` and inode count, every content of at most `12 * 4096`
bytes and every path whose last segment is neither `.` nor `..` (these two name directories,
never a file to add), `mkfs_adder` run on the image a finished run of `mkfs_builder` leaves
(the 3976 bytes behind the variable `sb` being readable) exits with 0 and leaves an image in
which the inode record number 2 has `size_bytes` equal to the content length, its first
`ceil(s / 4096)` direct pointers are the blocks `data_region_start + 1 + k` (inside the data
region, pairwise distinct, their data-bitmap bits clear before and set after), its other
direct pointers are 0 and its `inode_crc` is the CRC-32 of its first 120 bytes; bit 1 of the
inode bitmap is set; slot 2 of the root directory block, free before, holds inode number 2
with type 1 and the name, and the other 63 slots are unchanged. -/
theorem adder_adds_file (size_kib inodes : Nat) (t : Nat → Nat) (adjacent : List Nat)
    (file_name content : List Nat) (st_mtime : Nat) (now : Nat → Nat)
    (h1 : 180 ≤ size_kib) (h2 : size_kib ≤ 4096) (h3 : size_kib % 4 = 0)
    (h4 : 128 ≤ inodes) (h5 : inodes ≤ 512)
    (h6 : 3976 ≤ adjacent.length)
    (hs : content.length ≤ 12 * 4096)
    (hdot : basename file_name ≠ [46]) (hdotdot : basename file_name ≠ [46, 46]) :
    ∃ img out sb ino,
      mkfs_builder size_kib inodes t adjacent = .finished img ∧
      mkfs_adder img file_name content st_mtime now = (0, some out) ∧
      out.length = img.length ∧
      sb = superblock_t.parse (img.take 116) ∧
      ino = inode_t.parse ((out.drop (inode_offset sb 2)).take 128) ∧
      ino.size_bytes = content.length ∧
      (∀ k, k < (content.length + 4095) / 4096 →
        ino.direct.getD k 0 = sb.data_region_start + 1 + k ∧
        sb.data_region_start ≤ ino.direct.getD k 0 ∧
        ino.direct.getD k 0 < sb.data_region_start + sb.data_region_blocks ∧
        get_bit (block img sb.data_bitmap_start)
          (ino.direct.getD k 0 - sb.data_region_start) = false ∧
        get_bit (block out sb.data_bitmap_start)
          (ino.direct.getD k 0 - sb.data_region_start) = true) ∧
      (∀ j k, j < k → k < (content.length + 4095) / 4096 →
        ino.direct.getD j 0 ≠ ino.direct.getD k 0) ∧
      (∀ k, (content.length + 4095) / 4096 ≤ k → k < 12 → ino.direct.getD k 0 = 0) ∧
      ino.inode_crc = crc32 (((out.drop (inode_offset sb 2)).take 128).take 120) ∧
      get_bit (block img sb.inode_bitmap_start) 1 = false ∧
      get_bit (block out sb.inode_bitmap_start) 1 = true ∧
      (entry_at (block img sb.data_region_start) 2).inode_no = 0 ∧
      (entry_at (block out sb.data_region_start) 2).inode_no = 2 ∧
      (entry_at (block out sb.data_region_start) 2).type = 1 ∧
      (entry_at (block out sb.data_region_start) 2).name =
        (basename file_name).take 57 ++
          List.replicate (58 - min (basename file_name).length 57) 0 ∧
      ∀ j, j < 64 → j ≠ 2 →
        ((block out sb.data_region_start).drop (64 * j)).take 64 =
          ((block img sb.data_region_start).drop (64 * j)).take 64 := by
  obtain ⟨out, dbs, r1, r2, r3, r4, r5, r6, r7, r8, _⟩ :=
    adder_on_fresh size_kib inodes t adjacent file_name content st_mtime now h1 h2 h4 h5 hs
      hdot hdotdot
  obtain ⟨hl, hlt⟩ := layout_eq size_kib inodes h1 h2 h5
  obtain ⟨_, _, _, _, dr⟩ := fresh_dir size_kib inodes t adjacent h1 h2 h4 h5
  have hsb := fresh_sb size_kib inodes t adjacent h1 h2 h5
  have hio : inode_offset (builder_sb size_kib inodes t adjacent) 2 = 12416 :=
    inode_offset_of _ 2 rfl (by decide) (by decide)
  have hdrs : (builder_sb size_kib inodes t adjacent).data_region_start =
      (layout size_kib inodes).2.2.1 := rfl
  have hdrb : (builder_sb size_kib inodes t adjacent).data_region_blocks =
      (layout size_kib inodes).2.2.2 := rfl
  have hdbs : (builder_sb size_kib inodes t adjacent).data_bitmap_start = 2 := rfl
  have hibs : (builder_sb size_kib inodes t adjacent).inode_bitmap_start = 1 := rfl
  have hd1 : (layout size_kib inodes).2.2.1 = 3 + (inodes * 128 + 4095) / 4096 := by rw [hl]
  have hd2 : (layout size_kib inodes).2.2.2 =
      size_kib * 1024 / 4096 - (3 + (inodes * 128 + 4095) / 4096) := by rw [hl]
  have hb1 := fresh_block_1 size_kib inodes t adjacent
  have hb2 := fresh_block_2 size_kib inodes t adjacent
  have hn12 : (content.length + 4095) / 4096 ≤ 12 := by clear * - hs; omega
  have hdir : ∀ k, k < 12 →
      (inode_t.parse (file_inode content st_mtime now dbs).bytes).direct.getD k 0 =
        if k < (content.length + 4095) / 4096 then (layout size_kib inodes).2.2.1 + 1 + k
        else 0 := by
    intro k hk
    rw [inode_parse_bytes]
    show ((List.range 12).map (fun i => dbs.getD i 0 % 2 ^ 32)).getD k 0 = _
    rw [getD_map_range _ k hk, r4 k hk]
    apply Nat.mod_eq_of_lt
    split
    · rw [hd1]; clear * - h5 hk; omega
    · decide
  have hbl : (block (fresh_blocks size_kib inodes t adjacent).flatten
      (layout size_kib inodes).2.2.1).length = 4096 := by
    rw [fresh_block_dir size_kib inodes t adjacent h1 h2 h4 h5, block_of_length, BS_eq]
  obtain ⟨s1, s2⟩ := set_entry_slots _ 2
    (new_entry (strncpy (basename file_name) 57 ++ [0]) 2) hbl (by decide)
  have hname := stored_name _ (basename_nonzero file_name)
  refine ⟨_, out, _, _, mkfs_builder_eq size_kib inodes t adjacent h1 h2 h3 h4 h5 h6, r1, r2,
    rfl, rfl, ?_⟩
  rw [hsb, hio, r5, hdrs, hdrb, hdbs, hibs, r8]
  refine ⟨?_, ?_, ?_, ?_, ?_, ?_, ?_, ?_, ?_, ?_, ?_, ?_⟩
  · rw [inode_parse_bytes]
    show content.length % 2 ^ 64 % 2 ^ 64 = content.length
    rw [Nat.mod_mod]
    exact Nat.mod_eq_of_lt (by clear * - hs; omega)
  · intro k hk
    rw [hdir k (by clear * - hk hn12; omega), if_pos hk, r7, hb2, get_bit_first,
      show (layout size_kib inodes).2.2.1 + 1 + k - (layout size_kib inodes).2.2.1 = 1 + k
        by clear * -; omega]
    refine ⟨rfl, by clear * -; omega, ?_, by simp, ?_⟩
    · rw [hd1, hd2]; clear * - hk hn12 h1 h5 hlt; omega
    · rw [decide_eq_true_eq]; clear * - hk; omega
  · intro j k hjk hk
    rw [hdir k (by clear * - hk hn12; omega), if_pos hk,
      hdir j (by clear * - hjk hk hn12; omega), if_pos (by clear * - hjk hk; omega)]
    clear * - hjk; omega
  · intro k hk hk12
    rw [hdir k hk12, if_neg (by clear * - hk; omega)]
  · rw [inode_parse_bytes]
    show (file_inode content st_mtime now dbs).inode_crc % 2 ^ 64 = _
    unfold file_inode
    rw [inode_crc_finalize_crc]
    exact Nat.mod_eq_of_lt (lt_trans (crc32_lt _) (by decide))
  · rw [hb1, get_bit_first]; rfl
  · rw [r6]; rfl
  · exact dr 2 (le_refl _) (by decide)
  · unfold entry_at
    rw [s1, new_entry_parse _ 2 (by decide)]
  · unfold entry_at
    rw [s1, new_entry_parse _ 2 (by decide)]
  · unfold entry_at
    rw [s1, new_entry_parse _ 2 (by decide)]
    exact hname
  · exact s2

theorem adder_adds_file_witness :
    ∃ img out sb ino,
      mkfs_builder 184 128 (fun _ => 0) zero_stack = .finished img ∧
      mkfs_adder img [102] (List.replicate 5000 0) 0 (fun _ => 0) = (0, some out) ∧
      sb = superblock_t.parse (img.take 116) ∧
      ino = inode_t.parse ((out.drop (inode_offset sb 2)).take 128) ∧
      ino.size_bytes = 5000 ∧
      ino.direct.getD 0 0 = sb.data_region_start + 1 + 0 ∧
      ino.direct.getD 1 0 = sb.data_region_start + 1 + 1 ∧
      ino.direct.getD 2 0 = 0 ∧
      (entry_at (block out sb.data_region_start) 2).inode_no = 2 := by
  obtain ⟨img, out, sb, ino, a1, a2, _, a3, a4, a5, a6, _, a7, _, _, _, _, a8, _⟩ :=
    adder_adds_file 184 128 (fun _ => 0) zero_stack [102] (List.replicate 5000 0) 0
      (fun _ => 0) (by decide) (by decide) (by decide) (by decide) (by decide)
      zero_stack_length
      (by rw [List.length_replicate]; decide) (by decide) (by decide)
  rw [List.length_replicate] at a5 a6 a7
  exact ⟨img, out, sb, ino, a1, a2, a3, a4, a5, (a6 0 (by decide)).1, (a6 1 (by decide)).1,
    a7 2 (by decide) (by decide), a8⟩

/-! ## The table against the bit-by-bit checksum -/

theorem crc32_round_eq_spec (c : Nat) : crc32_round c = crc32_spec_step c := by
  unfold crc32_round crc32_spec_step
  rw [Nat.and_one_is_mod, Nat.shiftRight_one]
  rcases Nat.mod_two_eq_zero_or_one c with h | h
  · rw [h]; simp
  · rw [h]; simp [Nat.xor_comm]

theorem shiftRight_xor (x y i : Nat) : (x ^^^ y) >>> i = x >>> i ^^^ y >>> i := by
  apply Nat.eq_of_testBit_eq
  intro j
  simp [Nat.testBit_shiftRight, Nat.testBit_xor]

theorem crc32_round_xor (x y : Nat) :
    crc32_round (x ^^^ y) = crc32_round x ^^^ crc32_round y := by
  unfold crc32_round
  rw [Nat.and_one_is_mod, Nat.and_one_is_mod, Nat.and_one_is_mod, shiftRight_xor]
  have hx : (x ^^^ y) % 2 = (x % 2 + y % 2) % 2 := by
    rw [← Nat.and_one_is_mod, Nat.and_xor_distrib_right, Nat.and_one_is_mod,
      Nat.and_one_is_mod]
    rcases Nat.mod_two_eq_zero_or_one x with h | h <;>
      rcases Nat.mod_two_eq_zero_or_one y with h' | h' <;> rw [h, h'] <;> rfl
  rw [hx]
  generalize x >>> 1 = a
  generalize y >>> 1 = b
  have key : ∀ p q r : Nat, (p ^^^ (q ^^^ r) = q ^^^ (p ^^^ r)) ∧
      (p ^^^ (q ^^^ r) = (p ^^^ q) ^^^ r) ∧ (q ^^^ r = (p ^^^ q) ^^^ (p ^^^ r)) := by
    intro p q r
    refine ⟨?_, ?_, ?_⟩ <;>
    · apply Nat.eq_of_testBit_eq
      intro j
      simp only [Nat.testBit_xor]
      generalize p.testBit j = u
      generalize q.testBit j = v
      generalize r.testBit j = w
      cases u <;> cases v <;> cases w <;> rfl
  rcases Nat.mod_two_eq_zero_or_one x with h | h <;>
    rcases Nat.mod_two_eq_zero_or_one y with h' | h' <;> rw [h, h']
  · rfl
  · exact (key _ _ _).1
  · exact (key _ _ _).2.1
  · exact (key _ _ _).2.2

theorem crc32_round_iter_xor (k x y : Nat) :
    crc32_round^[k] (x ^^^ y) = crc32_round^[k] x ^^^ crc32_round^[k] y := by
  induction k generalizing x y with
  | zero => rfl
  | succ k ih =>
    rw [Function.iterate_succ_apply, Function.iterate_succ_apply, Function.iterate_succ_apply,
      crc32_round_xor, ih]

theorem crc32_round_iter_shift (k y : Nat) (h : y % 2 ^ k = 0) :
    crc32_round^[k] y = y >>> k := by
  induction k generalizing y with
  | zero => rfl
  | succ k ih =>
    have h2 : y % 2 = 0 := by
      have := Nat.mod_mod_of_dvd y (show 2 ∣ 2 ^ (k + 1) from ⟨2 ^ k, by ring⟩)
      rw [h] at this
      exact this.symm
    have hr : crc32_round y = y / 2 := by
      unfold crc32_round
      rw [Nat.and_one_is_mod, h2, Nat.shiftRight_one]
      rfl
    have hd : y / 2 % 2 ^ k = 0 := by
      obtain ⟨m, rfl⟩ := Nat.dvd_of_mod_eq_zero h
      have e : 2 ^ (k + 1) * m = 2 * (2 ^ k * m) := by ring
      rw [e, Nat.mul_div_cancel_left _ (by decide : 0 < 2), Nat.mul_mod_right]
    rw [Function.iterate_succ_apply, hr, ih _ hd, ← Nat.shiftRight_one, ← Nat.shiftRight_add,
      Nat.add_comm]

theorem crc32_tab_getD (i : Nat) (h : i < 256) : CRC32_TAB.getD i 0 = crc32_round^[8] i := by
  unfold CRC32_TAB crc32_init
  rw [List.getD_eq_getElem?_getD, List.getElem?_map, List.getElem?_range h]
  rfl

theorem split_low_byte (x : Nat) : x = (x &&& 0xFF) ^^^ ((x >>> 8) <<< 8) := by
  apply Nat.eq_of_testBit_eq
  intro j
  rw [Nat.testBit_xor, Nat.testBit_and, Nat.testBit_shiftLeft, Nat.testBit_shiftRight,
    show (0xFF : Nat) = 2 ^ 8 - 1 from rfl, Nat.testBit_two_pow_sub_one]
  by_cases hj : j < 8
  · have : ¬ j ≥ 8 := by omega
    simp [hj, this]
  · have : j ≥ 8 := by omega
    simp [hj, this]

/-- One table step is eight bit steps. -/
theorem crc32_update_eq (c b : Nat) (hb : b < 256) :
    crc32_update c b = crc32_round^[8] (c ^^^ b) := by
  unfold crc32_update
  have hi : (c ^^^ b) &&& 0xFF < 256 := Nat.and_lt_two_pow _ (by decide : 0xFF < 2 ^ 8)
  have hs : ((c ^^^ b) >>> 8) <<< 8 % 2 ^ 8 = 0 := by
    rw [Nat.shiftLeft_eq, Nat.mul_mod_left]
  have hb8 : b >>> 8 = 0 := by
    rw [Nat.shiftRight_eq_div_pow]
    exact Nat.div_eq_of_lt hb
  have e : crc32_round^[8] (c ^^^ b) =
      crc32_round^[8] ((c ^^^ b) &&& 0xFF) ^^^ crc32_round^[8] (((c ^^^ b) >>> 8) <<< 8) := by
    rw [← crc32_round_iter_xor, ← split_low_byte]
  rw [e, crc32_round_iter_shift 8 _ hs, crc32_tab_getD _ hi, Nat.shiftLeft_shiftRight,
    shiftRight_xor, hb8, Nat.xor_zero]

theorem crc32_spec_byte_eq (c b : Nat) (hb : b < 256) :
    crc32_update c b = crc32_spec_byte c b := by
  rw [crc32_update_eq c b hb]
  unfold crc32_spec_byte
  congr 1
  funext x
  exact crc32_round_eq_spec x

theorem crc32_foldl_eq (data : List Nat) (h : ∀ b ∈ data, b < 256) (c : Nat) :
    data.foldl crc32_update c = data.foldl crc32_spec_byte c := by
  induction data generalizing c with
  | nil => rfl
  | cons b bs ih =>
    rw [List.foldl_cons, List.foldl_cons, crc32_spec_byte_eq c b (h b (List.mem_cons_self _ _))]
    exact ih (fun x hx => h x (List.mem_cons_of_mem _ hx)) _

set_option maxRecDepth 100000 in
/-- C15: on every sequence of bytes the table-driven `crc32` (table built by `crc32_init`)
is the standard reflected CRC-32 computed bit by bit (`crc32_spec`); the checksum of the
empty sequence is 0 and that of the ASCII bytes `123456789` is `0xCBF43926`. -/
theorem crc32_refines_spec :
    (∀ data : List Nat, (∀ b ∈ data, b < 256) → crc32 data = crc32_spec data) ∧
    crc32 [] = 0 ∧ crc32_spec [] = 0 ∧
    crc32 [49, 50, 51, 52, 53, 54, 55, 56, 57] = 0xCBF43926 ∧
    crc32_spec [49, 50, 51, 52, 53, 54, 55, 56, 57] = 0xCBF43926 := by
  refine ⟨?_, by decide, by decide, by decide, by decide⟩
  intro data h
  unfold crc32 crc32_spec
  rw [crc32_foldl_eq data h]

theorem crc32_refines_spec_witness :
    crc32 [1, 2, 255] = crc32_spec [1, 2, 255] :=
  crc32_refines_spec.1 [1, 2, 255] (by decide)

/-! ## Records as byte strings -/

theorem le_bytes_le_value (l : List Nat) (h : ∀ b ∈ l, b < 256) :
    le_bytes (le_value l) l.length = l := by
  induction l with
  | nil => rfl
  | cons b bs ih =>
    have hb : b < 256 := h b (List.mem_cons_self _ _)
    have e1 : (b + 256 * le_value bs) % 256 = b := by omega
    have e2 : (b + 256 * le_value bs) / 256 = le_value bs := by omega
    show (b + 256 * le_value bs) % 256 :: le_bytes ((b + 256 * le_value bs) / 256) bs.length = _
    rw [e1, e2, ih (fun x hx => h x (List.mem_cons_of_mem _ hx))]

theorem le_bytes_field (r : List Nat) (off w : Nat) (h : ∀ b ∈ r, b < 256)
    (hl : off + w ≤ r.length) : le_bytes (field r off w) w = (r.drop off).take w := by
  unfold field
  have hlen : ((r.drop off).take w).length = w := by
    rw [List.length_take, List.length_drop]; omega
  have := le_bytes_le_value ((r.drop off).take w)
    (fun b hb => h b (List.mem_of_mem_drop (List.mem_of_mem_take hb)))
  rw [hlen] at this
  exact this

theorem chunk_append (r : List Nat) (o w : Nat) :
    (r.drop o).take w ++ r.drop (o + w) = r.drop o := by
  rw [← List.drop_drop, List.take_append_drop]

theorem flatten_chunks (l : List Nat) (n : Nat) :
    ((List.range n).map (fun i => (l.drop (4 * i)).take 4)).flatten = l.take (4 * n) := by
  induction n with
  | zero => rfl
  | succ n ih =>
    rw [List.range_succ, List.map_append, List.flatten_append, ih]
    simp only [List.map_cons, List.map_nil, List.flatten_cons, List.flatten_nil,
      List.append_nil]
    have e : 4 * (n + 1) = 4 * n + 4 := by ring
    rw [e, List.take_add]

theorem direct_bytes_parse (r : List Nat) (hl : r.length = 128) (hb : ∀ b ∈ r, b < 256) :
    direct_bytes ((List.range 12).map (fun i => field r (44 + 4 * i) 4)) =
      (r.drop 44).take 48 := by
  unfold direct_bytes
  have e : (List.range 12).map (fun i =>
      le_bytes (((List.range 12).map (fun i => field r (44 + 4 * i) 4)).getD i 0) 4) =
      (List.range 12).map (fun i => ((r.drop 44).drop (4 * i)).take 4) := by
    apply List.map_congr_left
    intro i hi
    rw [List.mem_range] at hi
    rw [getD_map_range _ i hi, le_bytes_field r _ 4 hb (by omega), List.drop_drop]
  rw [e, flatten_chunks]

/-- A record of 128 bytes is the serialisation of what is read out of it. -/
theorem inode_bytes_parse (r : List Nat) (hl : r.length = 128) (hb : ∀ b ∈ r, b < 256) :
    (inode_t.parse r).bytes = r := by
  unfold inode_t.bytes inode_t.parse
  simp only []
  rw [direct_bytes_parse r hl hb]
  rw [le_bytes_field r 0 2 hb (by omega)]
  rw [le_bytes_field r 2 2 hb (by omega)]
  rw [le_bytes_field r 4 4 hb (by omega)]
  rw [le_bytes_field r 8 4 hb (by omega)]
  rw [le_bytes_field r 12 8 hb (by omega)]
  rw [le_bytes_field r 20 8 hb (by omega)]
  rw [le_bytes_field r 28 8 hb (by omega)]
  rw [le_bytes_field r 36 8 hb (by omega)]
  rw [le_bytes_field r 92 4 hb (by omega)]
  rw [le_bytes_field r 96 4 hb (by omega)]
  rw [le_bytes_field r 100 4 hb (by omega)]
  rw [le_bytes_field r 104 4 hb (by omega)]
  rw [le_bytes_field r 108 4 hb (by omega)]
  rw [le_bytes_field r 112 8 hb (by omega)]
  rw [le_bytes_field r 120 8 hb (by omega)]
  have e16 : (r.drop 120).take 8 = r.drop 120 :=
    List.take_of_length_le (by rw [List.length_drop, hl])
  have e0 : (r.drop 0).take 2 ++ r.drop 2 = r.drop 0 := chunk_append r 0 2
  have e2 : (r.drop 2).take 2 ++ r.drop 4 = r.drop 2 := chunk_append r 2 2
  have e4 : (r.drop 4).take 4 ++ r.drop 8 = r.drop 4 := chunk_append r 4 4
  have e8 : (r.drop 8).take 4 ++ r.drop 12 = r.drop 8 := chunk_append r 8 4
  have e12 : (r.drop 12).take 8 ++ r.drop 20 = r.drop 12 := chunk_append r 12 8
  have e20 : (r.drop 20).take 8 ++ r.drop 28 = r.drop 20 := chunk_append r 20 8
  have e28 : (r.drop 28).take 8 ++ r.drop 36 = r.drop 28 := chunk_append r 28 8
  have e36 : (r.drop 36).take 8 ++ r.drop 44 = r.drop 36 := chunk_append r 36 8
  have e44 : (r.drop 44).take 48 ++ r.drop 92 = r.drop 44 := chunk_append r 44 48
  have e92 : (r.drop 92).take 4 ++ r.drop 96 = r.drop 92 := chunk_append r 92 4
  have e96 : (r.drop 96).take 4 ++ r.drop 100 = r.drop 96 := chunk_append r 96 4
  have e100 : (r.drop 100).take 4 ++ r.drop 104 = r.drop 100 := chunk_append r 100 4
  have e104 : (r.drop 104).take 4 ++ r.drop 108 = r.drop 104 := chunk_append r 104 4
  have e108 : (r.drop 108).take 4 ++ r.drop 112 = r.drop 108 := chunk_append r 108 4
  have e112 : (r.drop 112).take 8 ++ r.drop 120 = r.drop 112 := chunk_append r 112 8
  simp only [List.append_assoc]
  rw [e16, e112, e108, e104, e100, e96, e92, e44, e36, e28, e20, e12, e8, e4, e2, e0]
  rfl

theorem le_bytes_lt (n w : Nat) : ∀ b ∈ le_bytes n w, b < 256 := by
  induction w generalizing n with
  | zero => intro b hb; cases hb
  | succ w ih =>
    intro b hb
    rcases List.mem_cons.mp hb with h | h
    · rw [h]; exact Nat.mod_lt _ (by decide)
    · exact ih _ b h

theorem le_bytes_small (n : Nat) (h : n < 2 ^ 32) :
    le_bytes n 8 = le_bytes n 4 ++ [0, 0, 0, 0] := by
  have e : n / 256 / 256 / 256 / 256 = 0 := by omega
  show n % 256 :: (n / 256 % 256 :: (n / 256 / 256 % 256 :: (n / 256 / 256 / 256 % 256 ::
    le_bytes (n / 256 / 256 / 256 / 256) 4))) = _
  rw [e]
  rfl

theorem inode_bytes_drop (ino : inode_t) : ino.bytes.drop 120 = le_bytes ino.inode_crc 8 := by
  unfold inode_t.bytes
  exact List.drop_left' (by simp [le_bytes_length, direct_bytes, range_12])

/-- The record `inode_crc_finalize` leaves, byte by byte. -/
theorem inode_finalize_bytes (r : List Nat) (hl : r.length = 128) (hb : ∀ b ∈ r, b < 256) :
    (inode_crc_finalize (inode_t.parse r)).bytes =
      r.take 120 ++ le_bytes (crc32 (r.take 120)) 8 := by
  have h1 : ((inode_t.parse r).bytes.take 120 ++ List.replicate 8 0).take 120 =
      (inode_t.parse r).bytes.take 120 :=
    List.take_left' (by rw [List.length_take, inode_bytes_length]; rfl)
  have e : inode_crc_finalize (inode_t.parse r) =
      { inode_t.parse r with
        inode_crc := crc32 (((inode_t.parse r).bytes.take 120 ++ List.replicate 8 0).take 120) } :=
    rfl
  have h2 := inode_bytes_take (inode_t.parse r)
    (crc32 (((inode_t.parse r).bytes.take 120 ++ List.replicate 8 0).take 120))
  have h3 := inode_bytes_drop (inode_crc_finalize (inode_t.parse r))
  rw [← List.take_append_drop 120 (inode_crc_finalize (inode_t.parse r)).bytes, h3]
  rw [e]
  simp only []
  rw [h2, h1, inode_bytes_parse r hl hb]

theorem inode_crc_finalize_idem (ino : inode_t) :
    inode_crc_finalize (inode_crc_finalize ino) = inode_crc_finalize ino := by
  have e : ∀ x : inode_t, inode_crc_finalize x =
      { x with inode_crc := crc32 ((x.bytes.take 120 ++ List.replicate 8 0).take 120) } :=
    fun _ => rfl
  have h2 := inode_bytes_take ino (crc32 ((ino.bytes.take 120 ++ List.replicate 8 0).take 120))
  rw [e (inode_crc_finalize ino)]
  rw [e ino]
  simp only []
  rw [h2]

/-- C16: for every 128-byte inode record `r`, the record `f` that `inode_crc_finalize`
leaves has the bytes 0..119 of `r` and, in its last 8 bytes, the CRC-32 of these 120 bytes
as a 64-bit little-endian value (4 bytes of checksum, then 4 zero bytes); `f` depends on the
first 120 bytes of `r` only; the checksum recomputed over `f` with its checksum field zeroed
is the stored one, and finalizing `f` again gives `f`. -/
theorem inode_crc_finalize_spec (r : List Nat) (hl : r.length = 128)
    (hb : ∀ b ∈ r, b < 256) :
    ∃ f, f = (inode_crc_finalize (inode_t.parse r)).bytes ∧
      f.length = 128 ∧ f.take 120 = r.take 120 ∧
      f.drop 120 = le_bytes (crc32 (r.take 120)) 4 ++ [0, 0, 0, 0] ∧
      field f 120 8 = crc32 (r.take 120) ∧ crc32 (r.take 120) < 2 ^ 32 ∧
      (∀ r' : List Nat, r'.length = 128 → (∀ b ∈ r', b < 256) → r'.take 120 = r.take 120 →
        (inode_crc_finalize (inode_t.parse r')).bytes = f) ∧
      crc32 ((f.take 120 ++ List.replicate 8 0).take 120) = field f 120 8 ∧
      (inode_crc_finalize (inode_t.parse f)).bytes = f ∧
      inode_crc_finalize (inode_crc_finalize (inode_t.parse r)) =
        inode_crc_finalize (inode_t.parse r) := by
  have hf := inode_finalize_bytes r hl hb
  have hc := crc32_lt (r.take 120)
  have h120 : (r.take 120).length = 120 := by rw [List.length_take, hl]; rfl
  have hfl : (r.take 120 ++ le_bytes (crc32 (r.take 120)) 8).length = 128 := by
    rw [List.length_append, h120, le_bytes_length]
  have ht : (r.take 120 ++ le_bytes (crc32 (r.take 120)) 8).take 120 = r.take 120 :=
    List.take_left' h120
  have hd : (r.take 120 ++ le_bytes (crc32 (r.take 120)) 8).drop 120 =
      le_bytes (crc32 (r.take 120)) 8 := List.drop_left' h120
  have hfield : field (r.take 120 ++ le_bytes (crc32 (r.take 120)) 8) 120 8 =
      crc32 (r.take 120) := by
    rw [field_skip _ _ _ _ (by rw [h120]), h120, Nat.sub_self, field_le_end]
    exact Nat.mod_eq_of_lt (lt_trans hc (by decide))
  have hfb : ∀ b ∈ r.take 120 ++ le_bytes (crc32 (r.take 120)) 8, b < 256 := by
    intro b hm
    rcases List.mem_append.mp hm with h | h
    · exact hb b (List.mem_of_mem_take h)
    · exact le_bytes_lt _ _ b h
  refine ⟨_, hf.symm, hfl, ht, ?_, hfield, hc, ?_, ?_, ?_, inode_crc_finalize_idem _⟩
  · rw [hd, le_bytes_small _ hc]
  · intro r' hl' hb' he
    rw [inode_finalize_bytes r' hl' hb', he]
  · rw [hfield, ht]
    exact congrArg crc32 (List.take_left' h120)
  · rw [inode_finalize_bytes _ hfl hfb, ht]

theorem inode_crc_finalize_spec_witness :
    ∃ f, f = (inode_crc_finalize (inode_t.parse (List.replicate 128 7))).bytes ∧
      f.take 120 = (List.replicate 128 7).take 120 ∧
      field f 120 8 = crc32 ((List.replicate 128 7).take 120) := by
  obtain ⟨f, h1, _, h2, _, h3, _⟩ := inode_crc_finalize_spec (List.replicate 128 7)
    (List.length_replicate _ _) (fun b hm => by rw [List.eq_of_mem_replicate hm]; decide)
  exact ⟨f, h1, h2, h3⟩

/-! ## The directory-entry checksum -/

theorem fit_of_length (l : List Nat) (n : Nat) (h : l.length = n) : fit l n = l := by
  unfold fit
  rw [h, Nat.sub_self, List.take_of_length_le (by rw [h])]
  exact List.append_nil _

theorem dirent_bytes_parse (r : List Nat) (hl : r.length = 64) (hb : ∀ b ∈ r, b < 256) :
    (dirent64_t.parse r).bytes = r := by
  unfold dirent64_t.bytes dirent64_t.parse
  simp only []
  rw [le_bytes_field r 0 4 hb (by omega), le_bytes_field r 4 1 hb (by omega),
    le_bytes_field r 63 1 hb (by omega),
    fit_of_length _ 58 (by rw [List.length_take, List.length_drop, hl]; rfl)]
  have e3 : (r.drop 63).take 1 = r.drop 63 :=
    List.take_of_length_le (by rw [List.length_drop, hl])
  have e2 : (r.drop 5).take 58 ++ r.drop 63 = r.drop 5 := chunk_append r 5 58
  have e1 : (r.drop 4).take 1 ++ r.drop 5 = r.drop 4 := chunk_append r 4 1
  have e0 : (r.drop 0).take 4 ++ r.drop 4 = r.drop 0 := chunk_append r 0 4
  simp only [List.append_assoc]
  rw [e3, e2, e1, e0]
  rfl

theorem dirent_bytes_drop (de : dirent64_t) : de.bytes.drop 63 = [de.checksum % 256] := by
  unfold dirent64_t.bytes
  exact List.drop_left' (by simp [le_bytes_length, fit_length])

/-- The record `dirent_checksum_finalize` leaves, byte by byte. -/
theorem dirent_finalize_bytes (r : List Nat) (hl : r.length = 64) (hb : ∀ b ∈ r, b < 256) :
    (dirent_checksum_finalize (dirent64_t.parse r)).bytes =
      r.take 63 ++ [xor_fold (r.take 63)] := by
  have e : dirent_checksum_finalize (dirent64_t.parse r) =
      { dirent64_t.parse r with checksum := xor_fold ((dirent64_t.parse r).bytes.take 63) } :=
    rfl
  have h2 := dirent_bytes_take (dirent64_t.parse r)
    (xor_fold ((dirent64_t.parse r).bytes.take 63))
  have h3 := dirent_bytes_drop (dirent_checksum_finalize (dirent64_t.parse r))
  rw [← List.take_append_drop 63 (dirent_checksum_finalize (dirent64_t.parse r)).bytes, h3]
  rw [e]
  simp only []
  rw [h2, dirent_bytes_parse r hl hb, Nat.mod_eq_of_lt (xor_fold_lt _)]

theorem dirent_checksum_finalize_idem (de : dirent64_t) :
    dirent_checksum_finalize (dirent_checksum_finalize de) = dirent_checksum_finalize de := by
  have e : ∀ x : dirent64_t, dirent_checksum_finalize x =
      { x with checksum := xor_fold (x.bytes.take 63) } := fun _ => rfl
  have h2 := dirent_bytes_take de (xor_fold (de.bytes.take 63))
  rw [e (dirent_checksum_finalize de)]
  rw [e de]
  simp only []
  rw [h2]

theorem xor_fold_append_self (l : List Nat) : xor_fold (l ++ [xor_fold l]) = 0 := by
  unfold xor_fold
  rw [List.foldl_append]
  simp only [List.foldl_cons, List.foldl_nil, Nat.xor_self]

/-- C17: for every 64-byte directory-entry record `r`, the record `f` that
`dirent_checksum_finalize` leaves has the bytes 0..62 of `r` and, as byte 63, the
exclusive-or of these 63 bytes; `f` depends on the first 63 bytes of `r` only; the
exclusive-or of the 64 bytes of `f` is 0, and finalizing `f` again gives `f`. -/
theorem dirent_checksum_finalize_spec (r : List Nat) (hl : r.length = 64)
    (hb : ∀ b ∈ r, b < 256) :
    ∃ f, f = (dirent_checksum_finalize (dirent64_t.parse r)).bytes ∧
      f.length = 64 ∧ f.take 63 = r.take 63 ∧
      f.drop 63 = [xor_fold (r.take 63)] ∧
      (∀ r' : List Nat, r'.length = 64 → (∀ b ∈ r', b < 256) → r'.take 63 = r.take 63 →
        (dirent_checksum_finalize (dirent64_t.parse r')).bytes = f) ∧
      xor_fold f = 0 ∧
      (dirent_checksum_finalize (dirent64_t.parse f)).bytes = f ∧
      dirent_checksum_finalize (dirent_checksum_finalize (dirent64_t.parse r)) =
        dirent_checksum_finalize (dirent64_t.parse r) := by
  have hf := dirent_finalize_bytes r hl hb
  have h63 : (r.take 63).length = 63 := by rw [List.length_take, hl]; rfl
  have hfl : (r.take 63 ++ [xor_fold (r.take 63)]).length = 64 := by
    rw [List.length_append, h63]; rfl
  have ht : (r.take 63 ++ [xor_fold (r.take 63)]).take 63 = r.take 63 := List.take_left' h63
  have hfb : ∀ b ∈ r.take 63 ++ [xor_fold (r.take 63)], b < 256 := by
    intro b hm
    rcases List.mem_append.mp hm with h | h
    · exact hb b (List.mem_of_mem_take h)
    · rw [List.mem_singleton.mp h]; exact xor_fold_lt _
  refine ⟨_, hf.symm, hfl, ht, List.drop_left' h63, ?_, xor_fold_append_self _, ?_,
    dirent_checksum_finalize_idem _⟩
  · intro r' hl' hb' he
    rw [dirent_finalize_bytes r' hl' hb', he]
  · rw [dirent_finalize_bytes _ hfl hfb, ht]

theorem dirent_checksum_finalize_spec_witness :
    ∃ f, f = (dirent_checksum_finalize (dirent64_t.parse (List.replicate 64 7))).bytes ∧
      f.take 63 = (List.replicate 64 7).take 63 ∧
      f.drop 63 = [xor_fold ((List.replicate 64 7).take 63)] ∧ xor_fold f = 0 := by
  obtain ⟨f, h1, _, h2, h3, _, h4, _⟩ := dirent_checksum_finalize_spec (List.replicate 64 7)
    (List.length_replicate _ _) (fun b hm => by rw [List.eq_of_mem_replicate hm]; decide)
  exact ⟨f, h1, h2, h3, h4⟩

/-! ## The inode table of a fresh image -/

theorem fresh_table_block (size_kib inodes : Nat) (now : Nat → Nat) (adjacent : List Nat)
    (h1 : 180 ≤ size_kib) (h2 : size_kib ≤ 4096) (h4 : 128 ≤ inodes) (h5 : inodes ≤ 512)
    (k : Nat) (hk1 : 1 ≤ k) (hk2 : k < (layout size_kib inodes).2.1) :
    block (fresh_blocks size_kib inodes now adjacent).flatten (3 + k) =
      List.replicate BS 0 := by
  obtain ⟨fl1, fl2⟩ := fresh_blocks_length size_kib inodes now adjacent h1 h2 h5 h4
  obtain ⟨hl, hlt⟩ := layout_eq size_kib inodes h1 h2 h5
  have hitb : (layout size_kib inodes).2.1 = (inodes * 128 + 4095) / 4096 := by rw [hl]
  have htb : (layout size_kib inodes).1 = size_kib * 1024 / 4096 := by rw [hl]
  have hlt3 : 3 + k < (fresh_blocks size_kib inodes now adjacent).length := by
    rw [fl1, htb]; rw [hitb] at hk2; omega
  rw [block_flatten_get _ fl2 (3 + k) hlt3]
  have hs : (fresh_blocks size_kib inodes now adjacent)[3 + k]? =
      some (List.replicate BS 0) := by
    obtain ⟨j, rfl⟩ : ∃ j, k = j + 1 := ⟨k - 1, by omega⟩
    unfold fresh_blocks
    rw [List.append_assoc, List.append_assoc,
      List.getElem?_append_right (by simp only [List.length_cons, List.length_nil]; omega)]
    simp only [List.length_cons, List.length_nil]
    have e : 3 + (j + 1) - (0 + 1 + 1 + 1) = j + 1 := by omega
    rw [e, List.getElem?_append_left (by
      simp only [List.length_cons, List.length_replicate]; omega),
      List.getElem?_cons_succ, List.getElem?_replicate, if_pos (by omega)]
  rw [List.getElem?_eq_getElem hlt3] at hs
  exact Option.some.inj hs

theorem block_of_take (rec : List Nat) (n : Nat) (h : rec.length = n) (hn : n ≤ BS) :
    (block_of rec).take n = rec := by
  have := take_block_of rec [] n h hn
  rw [List.append_nil] at this
  exact this

theorem block_of_drop (rec : List Nat) (n : Nat) (h : rec.length = n) (hn : n ≤ BS) :
    (block_of rec).drop n = List.replicate (BS - n) 0 := by
  unfold block_of fit
  rw [List.take_of_length_le (by omega), h]
  exact List.drop_left' h

/-- C19: in a fresh image (what a run of the formatter that finishes leaves, the 3976 bytes
behind the variable `sb` being readable) the inode table starts at block 3 and has
`inode_table_blocks` blocks; the first 128 bytes of block 3 are the root inode, with mode
`0o040000`, 2 links, `size_bytes = 128`, `direct[0] = data_region_start`, the other direct
pointers 0 and an `inode_crc` equal to the CRC-32 of the first 120 bytes of the record;
every other byte of the inode table is zero. -/
theorem builder_inode_table (size_kib inodes : Nat) (now : Nat → Nat) (adjacent : List Nat)
    (h1 : 180 ≤ size_kib) (h2 : size_kib ≤ 4096) (h3 : size_kib % 4 = 0)
    (h4 : 128 ≤ inodes) (h5 : inodes ≤ 512)
    (h6 : 3976 ≤ adjacent.length) :
    ∃ img sb root,
      mkfs_builder size_kib inodes now adjacent = .finished img ∧
      sb = superblock_t.parse (img.take 116) ∧
      root = inode_t.parse ((block img 3).take 128) ∧
      sb.inode_table_start = 3 ∧
      sb.inode_table_blocks = (inodes * 128 + 4095) / 4096 ∧
      sb.data_region_start = 3 + sb.inode_table_blocks ∧
      sb.root_inode = 1 ∧
      root.mode = 0o040000 ∧ root.links = 2 ∧ root.uid = 0 ∧ root.gid = 0 ∧
      root.size_bytes = 128 ∧
      root.direct.getD 0 0 = sb.data_region_start ∧
      (∀ k, 1 ≤ k → k < 12 → root.direct.getD k 0 = 0) ∧
      root.inode_crc = crc32 (((block img 3).take 128).take 120) ∧
      (block img 3).drop 128 = List.replicate (4096 - 128) 0 ∧
      ∀ k, 1 ≤ k → k < sb.inode_table_blocks → block img (3 + k) = List.replicate 4096 0 := by
  obtain ⟨hl, hlt⟩ := layout_eq size_kib inodes h1 h2 h5
  have hitb : (layout size_kib inodes).2.1 = (inodes * 128 + 4095) / 4096 := by rw [hl]
  have hdrs : (layout size_kib inodes).2.2.1 = 3 + (inodes * 128 + 4095) / 4096 := by rw [hl]
  have hsb := fresh_sb size_kib inodes now adjacent h1 h2 h5
  have hb3 := fresh_block_3 size_kib inodes now adjacent
  have hrl := inode_bytes_length (builder_root_inode size_kib inodes now)
  have ht := block_of_take _ 128 hrl (by rw [BS_eq]; decide)
  have hd := block_of_drop _ 128 hrl (by rw [BS_eq]; decide)
  have hsb1 : (builder_sb size_kib inodes now adjacent).inode_table_blocks =
      (layout size_kib inodes).2.1 := rfl
  have hsb2 : (builder_sb size_kib inodes now adjacent).data_region_start =
      (layout size_kib inodes).2.2.1 := rfl
  refine ⟨_, _, _, mkfs_builder_eq size_kib inodes now adjacent h1 h2 h3 h4 h5 h6, rfl, rfl, ?_⟩
  rw [hsb, hb3, ht, hd, hsb1, hsb2, hitb, hdrs]
  refine ⟨rfl, rfl, rfl, rfl, ?_⟩
  rw [inode_parse_bytes]
  refine ⟨rfl, rfl, rfl, rfl, rfl, ?_, ?_, ?_, rfl, ?_⟩
  · show ((List.range 12).map (fun i =>
      (builder_root_inode size_kib inodes now).direct.getD i 0 % 2 ^ 32)).getD 0 0 = _
    rw [getD_map_range _ 0 (by decide)]
    show (layout size_kib inodes).2.2.1 % 2 ^ 32 % 2 ^ 32 = _
    rw [Nat.mod_mod, hdrs]
    exact Nat.mod_eq_of_lt (by omega)
  · intro k hk1 hk2
    show ((List.range 12).map (fun i =>
      (builder_root_inode size_kib inodes now).direct.getD i 0 % 2 ^ 32)).getD k 0 = _
    rw [getD_map_range _ k hk2]
    obtain ⟨j, rfl⟩ : ∃ j, k = j + 1 := ⟨k - 1, by omega⟩
    show (List.replicate 11 0).getD j 0 % 2 ^ 32 = 0
    rw [List.getD_eq_getElem?_getD, List.getElem?_replicate]
    split <;> rfl
  · show (builder_root_inode size_kib inodes now).inode_crc % 2 ^ 64 = _
    unfold builder_root_inode
    rw [inode_crc_finalize_crc]
    exact Nat.mod_eq_of_lt (lt_trans (crc32_lt _) (by decide))
  · intro k hk1 hk2
    rw [fresh_table_block size_kib inodes now adjacent h1 h2 h4 h5 k hk1 (by rw [hitb]; exact hk2)]
    rfl

theorem builder_inode_table_witness :
    ∃ img root,
      mkfs_builder 184 128 (fun _ => 0) zero_stack = .finished img ∧
      root = inode_t.parse ((block img 3).take 128) ∧
      root.mode = 0o040000 ∧ root.links = 2 ∧ root.size_bytes = 128 ∧
      root.direct.getD 1 0 = 0 ∧ block img 4 = List.replicate 4096 0 := by
  obtain ⟨img, sb, root, a1, _, a3, _, a2, _, _, a4, a5, _, _, a6, _, a7, _, _, a8⟩ :=
    builder_inode_table 184 128 (fun _ => 0) zero_stack (by decide) (by decide)
      (by decide) (by decide) (by decide) zero_stack_length
  exact ⟨img, root, a1, a3, a4, a5, a6, a7 1 (by decide) (by decide),
    a8 1 (by decide) (by rw [a2]; decide)⟩

/-! ## The capacity check of the inserter -/

theorem adder_commit_some (output : FILE) (sb : superblock_t) (name_on_disk content : List Nat)
    (st_mtime : Nat) (now : Nat → Nat) (blocks_needed free_inode : Nat)
    (data_blocks : List Nat) :
    ∃ out, (adder_commit output sb name_on_disk content st_mtime now blocks_needed free_inode
      data_blocks).2 = some out := by
  rw [adder_commit_eq]
  split
  · exact ⟨_, rfl⟩
  · exact ⟨_, rfl⟩

theorem adder_allocate_some (output : FILE) (sb : superblock_t)
    (name_on_disk content : List Nat) (st_mtime : Nat) (now : Nat → Nat)
    (blocks_needed : Nat) :
    ∃ out, (adder_allocate output sb name_on_disk content st_mtime now blocks_needed).2 =
      some out := by
  rw [adder_allocate_eq]
  split
  · exact ⟨_, rfl⟩
  · split
    · exact ⟨_, rfl⟩
    · exact adder_commit_some _ _ _ _ _ _ _ _ _

/-- C12: for every file size `s` (a non-negative `off_t`), the check
`blocks_needed > DIRECT_MAX` of the inserter holds exactly when `s > 12 * 4096`; the program
then exits with 1 without having opened the output file, and for `s ≤ 12 * 4096` it goes on
and opens it. -/
theorem adder_capacity_check (input file_name content : List Nat) (st_mtime : Nat)
    (now : Nat → Nat) (hs : content.length < 2 ^ 63) :
    ((content.length + BS - 1) % 2 ^ 64 / BS > DIRECT_MAX ↔ content.length > 12 * 4096) ∧
    (content.length > 12 * 4096 →
      mkfs_adder input file_name content st_mtime now = (1, none)) ∧
    (content.length ≤ 12 * 4096 →
      ∃ out, (mkfs_adder input file_name content st_mtime now).2 = some out) ∧
    (mkfs_adder input file_name content st_mtime now = (1, none) ↔
      content.length > 12 * 4096) := by
  have hiff : (content.length + BS - 1) % 2 ^ 64 / BS > DIRECT_MAX ↔
      content.length > 12 * 4096 := by
    rw [BS_eq, show DIRECT_MAX = 12 from rfl, Nat.mod_eq_of_lt (by omega)]
    omega
  have hbig : content.length > 12 * 4096 →
      mkfs_adder input file_name content st_mtime now = (1, none) := by
    intro h
    rw [mkfs_adder_eq, if_pos (hiff.mpr h)]
  have hsmall : content.length ≤ 12 * 4096 →
      ∃ out, (mkfs_adder input file_name content st_mtime now).2 = some out := by
    intro h
    rw [mkfs_adder_eq, if_neg (fun h' => absurd (hiff.mp h') (by omega))]
    split
    · exact ⟨_, rfl⟩
    · split
      · exact ⟨_, rfl⟩
      · split
        · exact ⟨_, rfl⟩
        · split
          · exact ⟨_, rfl⟩
          · exact adder_allocate_some _ _ _ _ _ _ _
  refine ⟨hiff, hbig, hsmall, ?_, hbig⟩
  intro h
  by_contra hn
  obtain ⟨out, ho⟩ := hsmall (by omega)
  rw [h] at ho
  cases ho

theorem adder_capacity_check_witness :
    mkfs_adder [] [102] (List.replicate 49153 0) 0 (fun _ => 0) = (1, none) :=
  (adder_capacity_check [] [102] (List.replicate 49153 0) 0 (fun _ => 0)
    (by rw [List.length_replicate]; decide)).2.1 (by rw [List.length_replicate]; decide)

/-! ## Counting free bits -/

theorem countP_range_remove (P Q : Nat → Bool) (p : Nat) (hp : P p = true)
    (hQ : ∀ q, Q q = (P q && decide (q ≠ p))) (n : Nat) :
    (List.range n).countP Q + (if p < n then 1 else 0) = (List.range n).countP P := by
  induction n with
  | zero => rfl
  | succ n ih =>
    rw [List.range_succ, List.countP_append, List.countP_append, ← ih]
    simp only [List.countP_cons, List.countP_nil, hQ n]
    by_cases hn : n = p
    · subst hn
      simp [hp]
    · have h1 : (p < n + 1) = (p < n) := by
        apply propext
        constructor <;> intro h <;> omega
      simp only [h1, hn, ne_eq, not_false_eq_true, decide_True, Bool.and_true]
      omega

theorem clear_count_set_bit (bitmap : List Nat) (limit p : Nat) (hp : p < limit)
    (hlen : p < 8 * bitmap.length) (hclr : get_bit bitmap p = false) :
    clear_count (set_bit bitmap p) limit + 1 = clear_count bitmap limit := by
  unfold clear_count
  have := countP_range_remove (fun q => !get_bit bitmap q)
    (fun q => !get_bit (set_bit bitmap p) q) p (by simp [hclr])
    (by
      intro q
      simp only []
      rw [get_bit_set_bit _ _ _ hlen]
      by_cases hq : q = p <;> simp [hq])
    limit
  rw [if_pos hp] at this
  exact this

theorem clear_count_eq_zero (bitmap : List Nat) (limit : Nat) :
    clear_count bitmap limit = 0 ↔ ∀ q, q < limit → get_bit bitmap q = true := by
  unfold clear_count
  rw [List.countP_eq_zero]
  constructor
  · intro h q hq
    have := h q (List.mem_range.mpr hq)
    simpa using this
  · intro h q hq
    rw [List.mem_range] at hq
    simp [h q hq]

theorem clear_count_pos (bitmap : List Nat) (limit p : Nat) (hp : p < limit)
    (hclr : get_bit bitmap p = false) : 0 < clear_count bitmap limit := by
  rcases Nat.eq_zero_or_pos (clear_count bitmap limit) with h | h
  · rw [clear_count_eq_zero] at h
    rw [h p hp] at hclr
    cases hclr
  · exact h

/-! ## The allocators on an image with its bitmaps in blocks 1 and 2 -/

theorem find_free_data_block_valid (f : FILE) (sb : superblock_t)
    (h1 : sb.data_bitmap_start = 2) (hL : 12288 ≤ f.data.length) :
    (∃ p, p < sb.data_region_blocks ∧ p < 32768 ∧ get_bit (block f.data 2) p = false ∧
      (∀ q, q < p → get_bit (block f.data 2) q = true) ∧
      (find_free_data_block f sb).1 = (sb.data_region_start + p) % 2 ^ 64 ∧
      (find_free_data_block f sb).2.data = pwrite f.data 8192 (set_bit (block f.data 2) p)) ∨
    ((∀ p, p < sb.data_region_blocks → p < 32768 → get_bit (block f.data 2) p = true) ∧
      (find_free_data_block f sb).1 = 0 ∧ (find_free_data_block f sb).2.data = f.data) := by
  have hoff : sb.data_bitmap_start * BS % 2 ^ 64 = 8192 := by rw [h1]; rfl
  have hs : fseek f (sb.data_bitmap_start * BS % 2 ^ 64) = ⟨f.data, 8192⟩ := by
    rw [hoff]; exact fseek_ok f 8192 (by decide)
  have hr : (fread (fseek f (sb.data_bitmap_start * BS % 2 ^ 64)) BS).1 = block f.data 2 := by
    rw [hs]; rfl
  have hbl : (block f.data 2).length = BS := by
    rw [block_length f.data 2 (by omega), BS_eq]
  have h8 : BS * 8 = 32768 := rfl
  rcases find_free_data_block_cases f sb (by rw [hr]; exact hbl) with
    ⟨p, hp1, hp2, hc, hset, he⟩ | ⟨hall, he⟩
  · left
    rw [hr] at hc hset he
    rw [h8] at hp2
    refine ⟨p, hp1, hp2, hc, hset, by rw [he], ?_⟩
    rw [he]
    show (fwrite (fseek _ _) _).data = _
    rw [hoff, fwrite_fseek_data _ _ _ (by decide), fread_data, fseek_data]
  · right
    rw [hr] at hall
    rw [h8] at hall
    refine ⟨hall, by rw [he], ?_⟩
    rw [he, fread_data, fseek_data]

theorem find_free_inode_valid (f : FILE) (sb : superblock_t)
    (h1 : sb.inode_bitmap_start = 1) (hL : 8192 ≤ f.data.length) :
    (∃ p, p < sb.inode_count ∧ p < 32768 ∧ get_bit (block f.data 1) p = false ∧
      (∀ q, q < p → get_bit (block f.data 1) q = true) ∧
      (find_free_inode f sb).1 = p + 1 ∧
      (find_free_inode f sb).2.data = pwrite f.data 4096 (set_bit (block f.data 1) p)) ∨
    ((∀ p, p < sb.inode_count → p < 32768 → get_bit (block f.data 1) p = true) ∧
      (find_free_inode f sb).1 = 0 ∧ (find_free_inode f sb).2.data = f.data) := by
  have hoff : sb.inode_bitmap_start * BS % 2 ^ 64 = 4096 := by rw [h1]; rfl
  have hs : fseek f (sb.inode_bitmap_start * BS % 2 ^ 64) = ⟨f.data, 4096⟩ := by
    rw [hoff]; exact fseek_ok f 4096 (by decide)
  have hr : (fread (fseek f (sb.inode_bitmap_start * BS % 2 ^ 64)) BS).1 = block f.data 1 := by
    rw [hs]; rfl
  have hbl : (block f.data 1).length = BS := by
    rw [block_length f.data 1 (by omega), BS_eq]
  have h8 : BS * 8 = 32768 := rfl
  rcases find_free_inode_cases f sb (by rw [hr]; exact hbl) with
    ⟨p, hp1, hp2, hc, hset, he⟩ | ⟨hall, he⟩
  · left
    rw [hr] at hc hset he
    rw [h8] at hp2
    refine ⟨p, hp1, hp2, hc, hset, by rw [he], ?_⟩
    rw [he]
    show (fwrite (fseek _ _) _).data = _
    rw [hoff, fwrite_fseek_data _ _ _ (by decide), fread_data, fseek_data]
  · right
    rw [hr] at hall
    rw [h8] at hall
    refine ⟨hall, by rw [he], ?_⟩
    rw [he, fread_data, fseek_data]

/-- The allocation loop of `main` on any bitmap: it claims the clear in-range bits in
increasing order, and fails exactly when fewer than `fuel` of them are clear, leaving the
claimed ones set. -/
theorem alloc_blocks_valid (sb : superblock_t) (drs drb : Nat)
    (h1 : sb.data_bitmap_start = 2) (h2 : sb.data_region_start = drs)
    (h3 : sb.data_region_blocks = drb) (hdrs : 1 ≤ drs) (hfit : drs + drb ≤ 2 ^ 32)
    (hdrb : drb ≤ 32768) (fuel : Nat) :
    ∀ (i : Nat) (f : FILE) (dbs : List Nat), 12288 ≤ f.data.length → i + fuel ≤ dbs.length →
      ∃ res f', alloc_blocks f sb dbs fuel i = (res, f') ∧
        f'.data.length = f.data.length ∧
        (∀ off n, off + n ≤ 8192 ∨ 12288 ≤ off →
          (f'.data.drop off).take n = (f.data.drop off).take n) ∧
        (∀ q, get_bit (block f.data 2) q = true → get_bit (block f'.data 2) q = true) ∧
        (∀ q, drb ≤ q → get_bit (block f'.data 2) q = get_bit (block f.data 2) q) ∧
        (res = none → clear_count (block f.data 2) drb < fuel ∧
          ∀ q, q < drb → get_bit (block f'.data 2) q = true) ∧
        (∀ dbs', res = some dbs' →
          fuel ≤ clear_count (block f.data 2) drb ∧ dbs'.length = dbs.length ∧
          (∀ k, k < i ∨ i + fuel ≤ k → dbs'.getD k 0 = dbs.getD k 0) ∧
          (∀ k, i ≤ k → k < i + fuel → ∃ p, p < drb ∧ dbs'.getD k 0 = drs + p ∧
            get_bit (block f.data 2) p = false ∧ get_bit (block f'.data 2) p = true) ∧
          (∀ j k, i ≤ j → j < k → k < i + fuel → dbs'.getD j 0 < dbs'.getD k 0) ∧
          (∀ q, get_bit (block f'.data 2) q = true → get_bit (block f.data 2) q = true ∨
            ∃ k, i ≤ k ∧ k < i + fuel ∧ dbs'.getD k 0 = drs + q)) := by
  induction fuel with
  | zero =>
    intro i f dbs _ _
    refine ⟨some dbs, f, rfl, rfl, fun _ _ _ => rfl, fun _ h => h, fun _ _ => rfl, ?_, ?_⟩
    · intro h; cases h
    · intro dbs' h
      cases h
      refine ⟨Nat.zero_le _, rfl, fun _ _ => rfl, ?_, ?_, fun _ h => Or.inl h⟩
      · intro k hk hk'; omega
      · intro j k hj hjk hk; omega
  | succ fuel ih =>
    intro i f dbs hL hdl
    have hbl : (block f.data 2).length = 4096 := block_length f.data 2 (by omega)
    rw [alloc_blocks]
    rcases find_free_data_block_valid f sb h1 hL with
      ⟨p, hp1, hp2, hc, hset, e1, e2⟩ | ⟨hall, e1, e2⟩
    · rw [h2] at e1
      rw [h3] at hp1
      have hmod : (drs + p) % 2 ^ 64 = drs + p := Nat.mod_eq_of_lt (by omega)
      rw [hmod] at e1
      clear hmod
      rcases hfd : find_free_data_block f sb with ⟨b, out⟩
      rw [hfd] at e1 e2
      simp only [] at e1 e2 ⊢
      subst e1
      have hmod : (drs + p) % 2 ^ 32 = drs + p := Nat.mod_eq_of_lt (by omega)
      rw [if_neg (by omega), hmod]
      clear hmod hfd
      have hsl : (set_bit (block f.data 2) p).length = 4096 := by
        rw [set_bit_length, hbl]
      have hin : 8192 + (set_bit (block f.data 2) p).length ≤ f.data.length := by
        rw [hsl]; omega
      have hol : out.data.length = f.data.length := by
        rw [e2, pwrite_length _ _ _ hin]
      have hob : block out.data 2 = set_bit (block f.data 2) p := by
        have := read_pwrite_same f.data 8192 _ hin
        rw [hsl] at this
        rw [e2]; exact this
      have hgb : ∀ q, get_bit (block out.data 2) q =
          (get_bit (block f.data 2) q || decide (q = p)) := by
        intro q
        rw [hob, get_bit_set_bit _ _ _ (by rw [hbl]; omega)]
      have hcc : clear_count (block out.data 2) drb + 1 = clear_count (block f.data 2) drb := by
        rw [hob]
        exact clear_count_set_bit _ _ _ hp1 (by rw [hbl]; omega) hc
      obtain ⟨res, f', r0, r1, r2, r3, r4, r5, r6⟩ := ih (i + 1) out (dbs.set i (drs + p))
        (by rw [hol]; exact hL) (by rw [List.length_set]; omega)
      refine ⟨res, f', r0, by rw [r1, hol], ?_, ?_, ?_, ?_, ?_⟩
      · intro off n hd
        rw [r2 off n hd, e2]
        exact read_pwrite_disjoint _ _ _ _ _ hin (by rw [hsl]; omega)
      · intro q hq
        exact r3 q (by rw [hgb, hq]; rfl)
      · intro q hq
        rw [r4 q hq, hgb]
        have : q ≠ p := by omega
        simp [this]
      · intro hn
        obtain ⟨a, b⟩ := r5 hn
        exact ⟨by omega, b⟩
      · intro dbs' hs
        obtain ⟨a1, a2, a3, a4, a5, a6⟩ := r6 dbs' hs
        have hdi : dbs'.getD i 0 = drs + p := by
          rw [a3 i (Or.inl (by omega)), getD_set _ _ _ _ (by omega), if_pos rfl]
        have hgt : ∀ k, i + 1 ≤ k → k < i + 1 + fuel → drs + p < dbs'.getD k 0 := by
          intro k hk hk'
          obtain ⟨p', b1, b2, b3, b4⟩ := a4 k hk hk'
          rw [hgb] at b3
          have hne : p' ≠ p := by
            intro he
            rw [he] at b3
            simp at b3
          have hge : ¬ p' < p := by
            intro hlt
            rw [hset p' hlt] at b3
            simp at b3
          rw [b2]
          omega
        refine ⟨by omega, by rw [a2, List.length_set], ?_, ?_, ?_, ?_⟩
        · intro k hk
          rw [a3 k (by omega), getD_set _ _ _ _ (by omega), if_neg (by omega)]
        · intro k hk hk'
          by_cases hki : k = i
          · subst hki
            exact ⟨p, hp1, hdi, hc, r3 p (by rw [hgb]; simp)⟩
          · obtain ⟨p', b1, b2, b3, b4⟩ := a4 k (by omega) (by omega)
            refine ⟨p', b1, b2, ?_, b4⟩
            rw [hgb] at b3
            cases hb : get_bit (block f.data 2) p'
            · rfl
            · rw [hb] at b3; simp at b3
        · intro j k hj hjk hk
          by_cases hji : j = i
          · subst hji
            rw [hdi]
            exact hgt k (by omega) (by omega)
          · exact a5 j k (by omega) hjk (by omega)
        · intro q hq
          rcases a6 q hq with h | ⟨k, k1, k2, k3⟩
          · rw [hgb] at h
            cases hb : get_bit (block f.data 2) q
            · rw [hb] at h
              simp at h
              right
              exact ⟨i, le_refl _, by omega, by rw [hdi, h]⟩
            · left; rfl
          · right
            exact ⟨k, by omega, by omega, k3⟩
    · rw [h3] at hall
      rcases hfd : find_free_data_block f sb with ⟨b, out⟩
      rw [hfd] at e1 e2
      simp only [] at e1 e2 ⊢
      subst e1
      rw [if_pos rfl]
      have hz : clear_count (block f.data 2) drb = 0 :=
        (clear_count_eq_zero _ _).mpr (fun q hq => hall q hq (by omega))
      refine ⟨none, out, rfl, by rw [e2], fun _ _ _ => by rw [e2],
        fun q h => by rw [e2]; exact h, fun _ _ => by rw [e2], ?_, ?_⟩
      · intro _
        refine ⟨by rw [hz]; omega, ?_⟩
        intro q hq
        rw [e2]
        exact hall q hq (by omega)
      · intro dbs' h
        cases h

/-! ## The inserter on a valid image -/

/-- A lookup that finds an occupied slot with the queried name answers 1. -/
theorem lookup_present (f : FILE) (sb : superblock_t) (name : List Nat) (drs : Nat)
    (h_its : sb.inode_table_start = 3) (hlen : (drs + 1) * 4096 ≤ f.data.length)
    (h4 : 4 ≤ drs) (h20 : drs < 2 ^ 20)
    (h_root : (inode_t.parse ((f.data.drop 12288).take 128)).direct.getD 0 0 = drs)
    (hsome : ∃ i, i < 64 ∧ slot_matches (block f.data drs) name i) :
    (file_exists_in_root f sb name).1 = 1 := by
  have hio : inode_offset sb ROOT_INO = 12288 := inode_offset_of sb 1 h_its (by decide) (by decide)
  have key := file_exists_in_root_eq f sb name (by rw [hio]; decide)
    (by rw [hio, List.length_take, List.length_drop, show INODE_SIZE = 128 from rfl]; omega)
  rw [hio, show INODE_SIZE = 128 from rfl] at key
  have hdo : dir_offset (inode_t.parse ((f.data.drop 12288).take 128)) = drs * BS := by
    unfold dir_offset
    rw [h_root, BS_eq]
    exact Nat.mod_eq_of_lt (by omega)
  have hblk : (f.data.drop (drs * BS)).take BS = block f.data drs := rfl
  rw [h_root, if_neg (by omega), hdo, hblk,
    if_neg (by rw [block_length _ _ hlen, BS_eq]; simp), show BS / 64 = 64 from rfl] at key
  cases hf : find_name (block f.data drs) name 64 0 with
  | none =>
    obtain ⟨i, hi, hm⟩ := hsome
    exact absurd hm ((find_name_none _ name 64 0).1 hf i (Nat.zero_le _) (by omega))
  | some ino =>
    rw [hf] at key
    exact (Prod.mk.inj key).1

/-- The numbers a valid image fixes. -/
theorem valid_image_facts (img : List Nat) (h : valid_image img) :
    ∃ sb drs drb ic, superblock_t.parse (img.take 116) = sb ∧
      sb.magic = 0x4D565346 ∧ sb.inode_bitmap_start = 1 ∧ sb.data_bitmap_start = 2 ∧
      sb.inode_table_start = 3 ∧ sb.inode_count = ic ∧ sb.data_region_start = drs ∧
      sb.data_region_blocks = drb ∧ 1 ≤ ic ∧ 12288 + ic * 128 ≤ drs * 4096 ∧ 4 ≤ drs ∧
      1 ≤ drb ∧ drb ≤ 32768 ∧ drs + drb ≤ 2 ^ 20 ∧ img.length = (drs + drb) * 4096 ∧
      (img.take 116).length = 116 ∧
      (inode_t.parse ((img.drop 12288).take 128)).direct.getD 0 0 = drs ∧
      get_bit (block img 1) 0 = true ∧ get_bit (block img 2) 0 = true ∧
      root_dir_block img = block img drs := by
  obtain ⟨a1, a2, a3, a4, a5, a6, a7, a8, a9, a10, a11, a12, a13⟩ := h
  refine ⟨_, _, _, _, rfl, a1, a2, a3, a4, rfl, rfl, rfl, a5, a6, ?_, a7, a8, a9, a10, ?_,
    a11, a12, a13, rfl⟩
  · generalize (superblock_t.parse (img.take 116)).data_region_start = drs at *
    generalize (superblock_t.parse (img.take 116)).inode_count = ic at *
    clear * - a5 a6
    omega
  · rw [List.length_take, a10]
    generalize (superblock_t.parse (img.take 116)).data_region_start = drs at *
    generalize (superblock_t.parse (img.take 116)).data_region_blocks = drb at *
    generalize (superblock_t.parse (img.take 116)).inode_count = ic at *
    clear * - a5 a6 a7
    omega

/-- The first part of `main` on a valid image, up to the duplicate check. -/
theorem adder_lookup_stage (img file_name content : List Nat) (st_mtime : Nat)
    (now : Nat → Nat) (hv : valid_image img)
    (hbn : (content.length + BS - 1) % 2 ^ 64 / BS ≤ DIRECT_MAX) :
    ((∃ i, i < 64 ∧ slot_matches (root_dir_block img) (derived_name file_name) i) →
      mkfs_adder img file_name content st_mtime now = (1, some img)) ∧
    ((∀ i, i < 64 → ¬ slot_matches (root_dir_block img) (derived_name file_name) i) →
      ∃ f1 : FILE, f1.data = img ∧
        mkfs_adder img file_name content st_mtime now =
          adder_allocate f1 (superblock_t.parse (img.take 116)) (derived_name file_name)
            content st_mtime now ((content.length + BS - 1) % 2 ^ 64 / BS)) := by
  obtain ⟨sb, drs, drb, ic, hsb, h_magic, h_ibs, h_dbs, h_its, h_ic, h_drs, h_drb, b1, b2, b3,
    b4, b5, b6, h_len, h_sbl, h_root, hu1, hu2, hrd⟩ := valid_image_facts img hv
  have hL : (drs + 1) * 4096 ≤ img.length := by rw [h_len]; clear * - b4; omega
  have hfe2 := file_exists_in_root_data ⟨img, 0 + (img.take 116).length⟩ sb
    (derived_name file_name)
  rw [mkfs_adder_eq, if_neg (Nat.not_lt.mpr hbn),
    if_neg (by rw [h_sbl]; simp), hsb, if_neg (by rw [h_magic]; simp), hrd]
  unfold derived_name
  unfold derived_name at hfe2
  generalize strncpy (basename file_name) 57 ++ [0] = name at *
  generalize (content.length + BS - 1) % 2 ^ 64 / BS = bn at *
  constructor
  · intro hdup
    have hfe1 := lookup_present ⟨img, 0 + (img.take 116).length⟩ sb name drs h_its hL b3
      (by clear * - b6 b4; omega) h_root hdup
    rw [hfe1, if_neg (by decide), if_pos rfl]
    exact congrArg (fun x => (1, some x)) hfe2
  · intro hnone
    have hfe1 := lookup_absent ⟨img, 0 + (img.take 116).length⟩ sb name drs h_its hL b3
      (by clear * - b6 b4; omega) h_root hnone
    rw [hfe1, if_neg (by decide), if_neg (by decide)]
    exact ⟨_, hfe2, rfl⟩

theorem blocks_needed_eq (s : Nat) (h : s ≤ 49152) :
    (s + BS - 1) % 2 ^ 64 / BS = (s + 4095) / 4096 ∧ (s + 4095) / 4096 ≤ 12 := by
  rw [BS_eq]
  omega

theorem slot_matches_of_name (d : List Nat) (file_name : List Nat) (i : Nat)
    (hocc : (entry_at d i).inode_no ≠ 0)
    (hname : cstr (entry_at d i).name = (basename file_name).take 57) :
    slot_matches d (derived_name file_name) i := by
  refine ⟨hocc, ?_⟩
  unfold derived_name
  rw [strncmp_eq_iff, cstr_name _ (basename_nonzero file_name), hname]

/-- C13: on every valid image, if a slot of the root directory is occupied and the name in
it is the derived name of the file (the final path segment cut to 57 bytes), the inserter
exits with 1, and the output file, if the program got as far as opening it (it does when
the file has at most `12 * 4096` bytes), is byte for byte the input image. -/
theorem adder_rejects_duplicate (img file_name content : List Nat) (st_mtime : Nat)
    (now : Nat → Nat) (hv : valid_image img) (i : Nat) (hi : i < 64)
    (hocc : (entry_at (root_dir_block img) i).inode_no ≠ 0)
    (hname : cstr (entry_at (root_dir_block img) i).name = (basename file_name).take 57) :
    (mkfs_adder img file_name content st_mtime now).1 = 1 ∧
    (∀ out, (mkfs_adder img file_name content st_mtime now).2 = some out → out = img) ∧
    (content.length ≤ 12 * 4096 →
      mkfs_adder img file_name content st_mtime now = (1, some img)) := by
  have hm := slot_matches_of_name _ file_name i hocc hname
  have key : (content.length + BS - 1) % 2 ^ 64 / BS ≤ DIRECT_MAX →
      mkfs_adder img file_name content st_mtime now = (1, some img) := fun hbn =>
    (adder_lookup_stage img file_name content st_mtime now hv hbn).1 ⟨i, hi, hm⟩
  refine ⟨?_, ?_, ?_⟩
  · by_cases hbn : (content.length + BS - 1) % 2 ^ 64 / BS ≤ DIRECT_MAX
    · rw [key hbn]
    · rw [mkfs_adder_eq, if_pos (Nat.not_le.mp hbn)]
  · intro out ho
    by_cases hbn : (content.length + BS - 1) % 2 ^ 64 / BS ≤ DIRECT_MAX
    · rw [key hbn] at ho
      exact (Option.some.inj ho).symm
    · rw [mkfs_adder_eq, if_pos (Nat.not_le.mp hbn)] at ho
      cases ho
  · intro hs
    exact key (by rw [(blocks_needed_eq _ hs).1]; exact (blocks_needed_eq _ hs).2)

/-- The image the formatter leaves is valid. -/
theorem fresh_valid (size_kib inodes : Nat) (t : Nat → Nat) (adjacent : List Nat)
    (h1 : 180 ≤ size_kib) (h2 : size_kib ≤ 4096) (h4 : 128 ≤ inodes) (h5 : inodes ≤ 512) :
    valid_image (fresh_blocks size_kib inodes t adjacent).flatten := by
  obtain ⟨hl, hlt⟩ := layout_eq size_kib inodes h1 h2 h5
  have hroot := fresh_root_direct size_kib inodes t adjacent h1 h2 h5
  have hsb := fresh_sb size_kib inodes t adjacent h1 h2 h5
  obtain ⟨fl1, fl2⟩ := fresh_blocks_length size_kib inodes t adjacent h1 h2 h5 h4
  have hlen := flatten_length_of _ fl2
  rw [fl1, BS_eq] at hlen
  have hb1 := fresh_block_1 size_kib inodes t adjacent
  have hb2 := fresh_block_2 size_kib inodes t adjacent
  have hdrs : (layout size_kib inodes).2.2.1 = 3 + (inodes * 128 + 4095) / 4096 := by
    rw [hl]
  have hdrb : (layout size_kib inodes).2.2.2 =
      size_kib * 1024 / 4096 - (3 + (inodes * 128 + 4095) / 4096) := by
    rw [hl]
  have htb : (layout size_kib inodes).1 = size_kib * 1024 / 4096 := by
    rw [hl]
  have e1 : (builder_sb size_kib inodes t adjacent).data_region_start =
      (layout size_kib inodes).2.2.1 := rfl
  have e2 : (builder_sb size_kib inodes t adjacent).data_region_blocks =
      (layout size_kib inodes).2.2.2 := rfl
  have e3 : (builder_sb size_kib inodes t adjacent).inode_count = inodes := rfl
  constructor
  · rw [hsb]; rfl
  · rw [hsb]; rfl
  · rw [hsb]; rfl
  · rw [hsb]; rfl
  · rw [hsb, e3]; omega
  · rw [hsb, e3, e1, hdrs]; clear * - h5; omega
  · rw [hsb, e2, hdrb]; clear * - hlt; omega
  · rw [hsb, e2, hdrb]; clear * - h2; omega
  · rw [hsb, e1, e2, hdrs, hdrb]; clear * - h2 hlt; omega
  · rw [hsb, e1, e2, hlen, htb, hdrs, hdrb]; clear * - hlt; congr 1; omega
  · rw [hsb, e1]; exact hroot
  · rw [hb1, get_bit_first]; rfl
  · rw [hb2, get_bit_first]; rfl

/-- The middle part of `main` on an image with the bitmaps in blocks 1 and 2: either no inode
is free and nothing is written, or the first clear bit `p` of the inode bitmap is claimed
and the allocation loop runs; `res` is its result and `f3` the stream behind it. -/
theorem adder_allocate_stage (f1 : FILE) (sb : superblock_t) (name content : List Nat)
    (st_mtime : Nat) (now : Nat → Nat) (bn drs drb ic : Nat)
    (h_ibs : sb.inode_bitmap_start = 1) (h_dbs : sb.data_bitmap_start = 2)
    (h_ic : sb.inode_count = ic) (h_drs : sb.data_region_start = drs)
    (h_drb : sb.data_region_blocks = drb) (b3 : 4 ≤ drs) (b5 : drb ≤ 32768)
    (b6 : drs + drb ≤ 2 ^ 20) (h_len : f1.data.length = (drs + drb) * 4096)
    (hbn : bn ≤ 12) :
    ((∀ p, p < ic → p < 32768 → get_bit (block f1.data 1) p = true) ∧
      adder_allocate f1 sb name content st_mtime now bn = (1, some f1.data)) ∨
    (∃ p res f3, p < ic ∧ p < 32768 ∧ get_bit (block f1.data 1) p = false ∧
      (∀ q, q < p → get_bit (block f1.data 1) q = true) ∧
      f3.data.length = f1.data.length ∧
      (∀ off n, off + n ≤ 4096 ∨ 12288 ≤ off →
        (f3.data.drop off).take n = (f1.data.drop off).take n) ∧
      block f3.data 1 = set_bit (block f1.data 1) p ∧
      (∀ q, get_bit (block f1.data 2) q = true → get_bit (block f3.data 2) q = true) ∧
      (∀ q, drb ≤ q → get_bit (block f3.data 2) q = get_bit (block f1.data 2) q) ∧
      (res = none → clear_count (block f1.data 2) drb < bn ∧
        (∀ q, q < drb → get_bit (block f3.data 2) q = true) ∧
        adder_allocate f1 sb name content st_mtime now bn = (1, some f3.data)) ∧
      (∀ dbs, res = some dbs →
        bn ≤ clear_count (block f1.data 2) drb ∧ dbs.length = 12 ∧
        (∀ k, bn ≤ k → dbs.getD k 0 = 0) ∧
        (∀ k, k < bn → ∃ q, q < drb ∧ dbs.getD k 0 = drs + q ∧
          get_bit (block f1.data 2) q = false ∧ get_bit (block f3.data 2) q = true) ∧
        (∀ j k, j < k → k < bn → dbs.getD j 0 < dbs.getD k 0) ∧
        (∀ q, get_bit (block f3.data 2) q = true → get_bit (block f1.data 2) q = true ∨
          ∃ k, k < bn ∧ dbs.getD k 0 = drs + q) ∧
        adder_allocate f1 sb name content st_mtime now bn =
          adder_commit f3 sb name content st_mtime now bn (p + 1) dbs)) := by
  have hL : 12288 ≤ f1.data.length := by rw [h_len]; clear * - b3; omega
  have hbl1 : (block f1.data 1).length = 4096 := block_length f1.data 1 (by omega)
  rw [adder_allocate_eq]
  rcases find_free_inode_valid f1 sb h_ibs (by omega) with
    ⟨p, hp1, hp2, hc, hset, e1, e2⟩ | ⟨hall, e1, e2⟩
  · right
    rw [h_ic] at hp1
    rw [e1, if_neg (by omega)]
    generalize (find_free_inode f1 sb).2 = f2 at e2 ⊢
    have hsl : (set_bit (block f1.data 1) p).length = 4096 := by rw [set_bit_length, hbl1]
    have hin : 4096 + (set_bit (block f1.data 1) p).length ≤ f1.data.length := by
      rw [hsl]; omega
    have hl2 : f2.data.length = f1.data.length := by rw [e2, pwrite_length _ _ _ hin]
    have hb21 : block f2.data 1 = set_bit (block f1.data 1) p := by
      have := read_pwrite_same f1.data 4096 _ hin
      rw [hsl] at this
      rw [e2]; exact this
    have hrd2 : ∀ off n, off + n ≤ 4096 ∨ 8192 ≤ off →
        (f2.data.drop off).take n = (f1.data.drop off).take n := by
      intro off n h
      rw [e2]
      exact read_pwrite_disjoint _ _ _ _ _ hin (by rw [hsl]; omega)
    have hb22 : block f2.data 2 = block f1.data 2 := hrd2 8192 4096 (Or.inr (le_refl _))
    obtain ⟨res, f3, r0, r1, r2, r3, r4, r5, r6⟩ := alloc_blocks_valid sb drs drb h_dbs h_drs
      h_drb (by omega) (by omega) b5 bn 0 f2 (List.replicate DIRECT_MAX 0)
      (by rw [hl2]; exact hL) (by rw [List.length_replicate, Nat.zero_add]; exact hbn)
    rw [hb22] at r3 r4 r5 r6
    rw [r0]
    refine ⟨p, res, f3, hp1, hp2, hc, hset, by rw [r1, hl2], ?_, ?_, r3, r4, ?_, ?_⟩
    · intro off n h
      rw [r2 off n (by omega), hrd2 off n (by omega)]
    · have := r2 4096 4096 (Or.inl (le_refl _))
      exact this.trans hb21
    · intro hn
      subst hn
      obtain ⟨a, b⟩ := r5 rfl
      exact ⟨a, b, rfl⟩
    · intro dbs hs
      subst hs
      obtain ⟨a1, a2, a3, a4, a5, a6⟩ := r6 dbs rfl
      refine ⟨a1, by rw [a2, List.length_replicate]; rfl, ?_, ?_, ?_, ?_, rfl⟩
      · intro k hk
        rw [a3 k (Or.inr (by omega)), List.getD_eq_getElem?_getD, List.getElem?_replicate]
        split <;> rfl
      · intro k hk
        exact a4 k (Nat.zero_le _) (by omega)
      · intro j k hjk hk
        exact a5 j k (Nat.zero_le _) hjk (by omega)
      · intro q hq
        rcases a6 q hq with h | ⟨k, _, k2, k3⟩
        · exact Or.inl h
        · exact Or.inr ⟨k, by omega, k3⟩
  · left
    rw [h_ic] at hall
    rw [e1, if_pos rfl, e2]
    exact ⟨hall, rfl⟩

/-! ## The copy loop -/

theorem file_block_length (content : List Nat) (k : Nat) :
    (file_block content k).length = 4096 := by
  unfold file_block
  rw [List.length_append, List.length_replicate, List.length_take, BS_eq]
  omega

theorem drop_min (l : List Nat) (n : Nat) : l.drop (min n l.length) = l.drop n := by
  rcases Nat.le_total n l.length with h | h
  · rw [Nat.min_eq_left h]
  · rw [Nat.min_eq_right h, List.drop_length, List.drop_eq_nil_of_le h]

theorem block_pwrite_other (data : List Nat) (a b : Nat) (blk : List Nat)
    (hl : blk.length = 4096) (hin : a * 4096 + 4096 ≤ data.length) (hne : a ≠ b) :
    block (pwrite data (a * BS) blk) b = block data b := by
  unfold block
  rw [BS_eq]
  exact read_pwrite_disjoint _ _ _ _ _ (by rw [hl]; exact hin) (by rw [hl]; omega)

theorem block_pwrite_same (data : List Nat) (a : Nat) (blk : List Nat)
    (hl : blk.length = 4096) (hin : a * 4096 + 4096 ≤ data.length) :
    block (pwrite data (a * BS) blk) a = blk := by
  unfold block
  rw [BS_eq]
  have := read_pwrite_same data (a * 4096) blk (by rw [hl]; exact hin)
  rw [hl] at this
  exact this

/-- The copy loop of `main` puts block `k` of the file into the block `data_blocks[k]`, and
leaves every block that is not in `data_blocks` as it was. -/
theorem write_blocks_content (content dbs : List Nat) (hi : Nat) (fuel : Nat) :
    ∀ (i : Nat) (out file : FILE), file.data = content →
      file.pos = min (i * 4096) content.length →
      (∀ k, i ≤ k → k < i + fuel → dbs.getD k 0 < hi) →
      (∀ j k, i ≤ j → j < k → k < i + fuel → dbs.getD j 0 ≠ dbs.getD k 0) →
      hi * 4096 ≤ out.data.length → hi ≤ 2 ^ 32 →
      (write_blocks out file dbs fuel i).data.length = out.data.length ∧
      (∀ b, (∀ k, i ≤ k → k < i + fuel → dbs.getD k 0 ≠ b) →
        block (write_blocks out file dbs fuel i).data b = block out.data b) ∧
      (∀ k, i ≤ k → k < i + fuel →
        block (write_blocks out file dbs fuel i).data (dbs.getD k 0) = file_block content k) := by
  induction fuel with
  | zero =>
    intro i out file _ _ _ _ _ _
    refine ⟨rfl, fun _ _ => rfl, ?_⟩
    intro k hk hk'
    omega
  | succ fuel ih =>
    intro i out file hdata hpos hb hdist hlen hhi
    have hbi := hb i (le_refl _) (by omega)
    rw [write_blocks]
    simp only [fread_eq]
    have hblk : (file.data.drop file.pos).take BS ++
        List.replicate (BS - ((file.data.drop file.pos).take BS).length) 0 =
        file_block content i := by
      rw [hdata, hpos, drop_min, BS_eq]
      unfold file_block
      rw [BS_eq]
    have hpos' : file.pos + ((file.data.drop file.pos).take BS).length =
        min ((i + 1) * 4096) content.length := by
      rw [List.length_take, List.length_drop, hdata, hpos, BS_eq]
      omega
    rw [hblk, hpos']
    have hfl := file_block_length content i
    generalize hbe : file_block content i = blk at hfl ⊢
    have hfd : (⟨file.data, min ((i + 1) * 4096) content.length⟩ : FILE).data = content :=
      hdata
    have hfp : (⟨file.data, min ((i + 1) * 4096) content.length⟩ : FILE).pos =
        min ((i + 1) * 4096) content.length := rfl
    generalize (⟨file.data, min ((i + 1) * 4096) content.length⟩ : FILE) = file' at hfd hfp
    have hd1 : (fwrite (fseek out (dbs.getD i 0 * BS)) blk).data =
        pwrite out.data (dbs.getD i 0 * BS) blk :=
      fwrite_fseek_data _ _ _ (by rw [BS_eq]; omega)
    have hin : dbs.getD i 0 * 4096 + 4096 ≤ out.data.length := by omega
    have hl1 : (fwrite (fseek out (dbs.getD i 0 * BS)) blk).data.length = out.data.length := by
      rw [hd1, pwrite_length _ _ _ (by rw [hfl, BS_eq]; exact hin)]
    obtain ⟨e1, e2, e3⟩ := ih (i + 1) (fwrite (fseek out (dbs.getD i 0 * BS)) blk) file' hfd hfp
      (fun k hk hk' => hb k (by omega) (by omega))
      (fun j k hj hjk hk => hdist j k (by omega) hjk (by omega))
      (by rw [hl1]; exact hlen) hhi
    refine ⟨by rw [e1, hl1], ?_, ?_⟩
    · intro b hne
      rw [e2 b (fun k hk hk' => hne k (by omega) (by omega)), hd1]
      exact block_pwrite_other _ _ _ _ hfl hin (hne i (le_refl _) (by omega))
    · intro k hk hk'
      by_cases hki : k = i
      · subst hki
        rw [e2 _ (fun j hj hj' => (hdist k j (le_refl _) (by omega) (by omega)).symm), hd1]
        rw [hbe]
        exact block_pwrite_same _ _ _ hfl hin
      · exact e3 k (by omega) (by omega)

theorem flatten_blocks (l : List Nat) (m : Nat) :
    ((List.range m).map (fun k => (l.drop (k * 4096)).take 4096)).flatten =
      l.take (m * 4096) := by
  induction m with
  | zero => rfl
  | succ m ih =>
    rw [List.range_succ, List.map_append, List.flatten_append, ih]
    simp only [List.map_cons, List.map_nil, List.flatten_cons, List.flatten_nil,
      List.append_nil]
    have e : (m + 1) * 4096 = m * 4096 + 4096 := by ring
    rw [e, List.take_add]

theorem file_block_padded (content : List Nat) (n k : Nat) (hk : k < n) :
    file_block content k =
      ((content ++ List.replicate (n * 4096 - content.length) 0).drop (k * 4096)).take 4096 := by
  unfold file_block
  rw [BS_eq, List.drop_append_eq_append_drop, List.drop_replicate,
    List.take_append_eq_append_take, List.take_replicate, List.length_take,
    List.length_drop]
  congr 2
  omega

/-- The blocks of a file as the copy loop writes them, one after the other, are the file
followed by zeros up to the end of the last block. -/
theorem file_blocks_flatten (content : List Nat) (n : Nat) (h : content.length ≤ n * 4096) :
    ((List.range n).map (file_block content)).flatten =
      content ++ List.replicate (n * 4096 - content.length) 0 := by
  have e : (List.range n).map (file_block content) =
      (List.range n).map (fun k =>
        ((content ++ List.replicate (n * 4096 - content.length) 0).drop (k * 4096)).take
          4096) := by
    apply List.map_congr_left
    intro k hk
    exact file_block_padded content n k (List.mem_range.mp hk)
  rw [e, flatten_blocks]
  exact List.take_of_length_le (by rw [List.length_append, List.length_replicate]; omega)

/-- With every slot of the directory block occupied `add_to_root_directory` returns -1 and
writes nothing. -/
theorem add_to_root_directory_full (img : FILE) (sb : superblock_t) (filename : List Nat)
    (n t : Nat) (root : inode_t) (d : List Nat)
    (hoff : inode_offset sb ROOT_INO < 2 ^ 63)
    (hr : ((img.data.drop (inode_offset sb ROOT_INO)).take 128).length = 128)
    (hroot : root = inode_t.parse ((img.data.drop (inode_offset sb ROOT_INO)).take 128))
    (hd : d = (img.data.drop (dir_offset root)).take BS)
    (hfull : ∀ j, j < 64 → (entry_at d j).inode_no ≠ 0) :
    (add_to_root_directory img sb filename n t).1 = -1 ∧
    (add_to_root_directory img sb filename n t).2.data = img.data := by
  have key := add_to_root_directory_eq img sb filename n t hoff hr
  rw [show INODE_SIZE = 128 from rfl, ← hroot, ← hd] at key
  have hn : find_empty d (BS / 64) 0 = none :=
    (find_empty_none d _ 0).2 (fun k _ hk => hfull k (by
      rw [show BS / 64 = 64 from rfl] at hk; omega))
  rw [hn] at key
  by_cases hl : d.length ≠ BS
  · rw [if_pos hl] at key
    exact ⟨(Prod.mk.inj key).1, (Prod.mk.inj key).2⟩
  · rw [if_neg hl] at key
    exact ⟨(Prod.mk.inj key).1, (Prod.mk.inj key).2⟩

/-- The last part of `main` on a stream `f3` in which the inode `p + 1` and the blocks
`dbs` were allocated: the inode record and the file blocks are written, which gives the image
`d5`, and then the directory entry is added if a slot is free. -/
theorem adder_commit_stage (f3 : FILE) (sb : superblock_t) (name content : List Nat)
    (st_mtime : Nat) (now : Nat → Nat) (bn drs drb ic p : Nat) (dbs : List Nat)
    (h_its : sb.inode_table_start = 3)
    (b2 : 12288 + ic * 128 ≤ drs * 4096) (b4 : 1 ≤ drb) (b6 : drs + drb ≤ 2 ^ 20)
    (h_len : f3.data.length = (drs + drb) * 4096)
    (h_root : (inode_t.parse ((f3.data.drop 12288).take 128)).direct.getD 0 0 = drs)
    (hp1 : 1 ≤ p) (hp2 : p < ic)
    (hdbs : ∀ k, k < bn → ∃ q, 1 ≤ q ∧ q < drb ∧ dbs.getD k 0 = drs + q)
    (hinc : ∀ j k, j < k → k < bn → dbs.getD j 0 < dbs.getD k 0) :
    ∃ d5 : List Nat,
      d5.length = f3.data.length ∧
      (d5.drop (12288 + p * 128)).take 128 = (file_inode content st_mtime now dbs).bytes ∧
      (∀ k, k < bn → block d5 (dbs.getD k 0) = file_block content k) ∧
      (∀ off n, off + n ≤ 12288 + p * 128 ∨
          (12288 + p * 128 + 128 ≤ off ∧ off + n ≤ (drs + 1) * 4096) →
        (d5.drop off).take n = (f3.data.drop off).take n) ∧
      (∀ b, drs < b → (∀ k, k < bn → dbs.getD k 0 ≠ b) → block d5 b = block f3.data b) ∧
      (((∀ j, j < 64 → (entry_at (block f3.data drs) j).inode_no ≠ 0) ∧
          adder_commit f3 sb name content st_mtime now bn (p + 1) dbs = (1, some d5)) ∨
        (∃ i, i < 64 ∧ (entry_at (block f3.data drs) i).inode_no = 0 ∧
          (∀ j, j < i → (entry_at (block f3.data drs) j).inode_no ≠ 0) ∧
          adder_commit f3 sb name content st_mtime now bn (p + 1) dbs =
            (0, some (pwrite (pwrite d5 12288
              (bump_root (inode_t.parse ((f3.data.drop 12288).take 128)) (now 2)).bytes)
              (drs * 4096) (set_entry (block f3.data drs) i (new_entry name (p + 1))))))) := by
  have hio : inode_offset sb (p + 1) = 12288 + p * 128 :=
    inode_offset_of sb (p + 1) h_its (by omega) (by omega)
  have hro : inode_offset sb ROOT_INO = 12288 :=
    inode_offset_of sb 1 h_its (by decide) (by decide)
  have hinl := inode_bytes_length (file_inode content st_mtime now dbs)
  rw [adder_commit_eq, hio]
  have hd4 := fwrite_fseek_data f3 (12288 + p * 128)
    (file_inode content st_mtime now dbs).bytes (by omega)
  generalize (file_inode content st_mtime now dbs).bytes = fb at hinl hd4 ⊢
  have hin4 : 12288 + p * 128 + fb.length ≤ f3.data.length := by
    rw [hinl, h_len]; omega
  have hl4 : (fwrite (fseek f3 (12288 + p * 128)) fb).data.length = f3.data.length := by
    rw [hd4, pwrite_length _ _ _ hin4]
  have hrange : ∀ k, 0 ≤ k → k < 0 + bn →
      drs + 1 ≤ dbs.getD k 0 ∧ dbs.getD k 0 < drs + drb := by
    intro k _ hk
    obtain ⟨q, q1, q2, q3⟩ := hdbs k (by omega)
    rw [q3]; omega
  obtain ⟨w1, w2⟩ := write_blocks_frame dbs (drs + 1) (drs + drb) bn 0
    (fwrite (fseek f3 (12288 + p * 128)) fb) ⟨content, 0⟩ hrange
    (by rw [hl4, h_len]) (by omega)
  obtain ⟨_, c2, c3⟩ := write_blocks_content content dbs (drs + drb) bn 0
    (fwrite (fseek f3 (12288 + p * 128)) fb) ⟨content, 0⟩ rfl
    (by show 0 = min (0 * 4096) content.length; omega)
    (fun k hk hk' => (hrange k hk hk').2)
    (fun j k _ hjk hk => Nat.ne_of_lt (hinc j k hjk (by omega)))
    (by rw [hl4, h_len]) (by omega)
  generalize write_blocks (fwrite (fseek f3 (12288 + p * 128)) fb) ⟨content, 0⟩ dbs bn 0 = f5
    at w1 w2 c2 c3 ⊢
  rw [hl4] at w1
  have rd5 : ∀ off n, off + n ≤ 12288 + p * 128 ∨
      (12288 + p * 128 + 128 ≤ off ∧ off + n ≤ (drs + 1) * 4096) →
      (f5.data.drop off).take n = (f3.data.drop off).take n := by
    intro off n h
    rw [w2 off n (Or.inl (by omega)), hd4]
    exact read_pwrite_disjoint _ _ _ _ _ hin4 (by rw [hinl]; omega)
  have hrr : (f5.data.drop 12288).take 128 = (f3.data.drop 12288).take 128 :=
    rd5 12288 128 (Or.inl (by omega))
  have hdo : dir_offset (inode_t.parse ((f3.data.drop 12288).take 128)) = drs * 4096 := by
    unfold dir_offset
    rw [h_root, BS_eq]
    exact Nat.mod_eq_of_lt (by omega)
  have hrd : (f5.data.drop (drs * 4096)).take BS = block f3.data drs := by
    rw [BS_eq, rd5 (drs * 4096) 4096 (Or.inr ⟨by omega, by omega⟩)]
    rfl
  have hbld := block_length f3.data drs (by rw [h_len]; omega)
  have hr5 : ((f3.data.drop 12288).take 128).length = 128 := by
    rw [List.length_take, List.length_drop]
    clear * - h_len b2 hp1 hp2
    omega
  refine ⟨f5.data, w1, ?_, ?_, rd5, ?_, ?_⟩
  · rw [w2 _ _ (Or.inl (by omega)), hd4]
    have := read_pwrite_same f3.data (12288 + p * 128) fb hin4
    rw [hinl] at this
    exact this
  · intro k hk
    exact c3 k (Nat.zero_le _) (by omega)
  · intro b hb hne
    rw [c2 b (fun k _ hk => hne k (by omega)), hd4]
    unfold block
    rw [BS_eq]
    exact read_pwrite_disjoint _ _ _ _ _ hin4 (by rw [hinl]; omega)
  · cases hfe : find_empty (block f3.data drs) 64 0 with
    | none =>
      left
      have hfull : ∀ j, j < 64 → (entry_at (block f3.data drs) j).inode_no ≠ 0 :=
        fun j hj => (find_empty_none _ 64 0).1 hfe j (Nat.zero_le _) (by omega)
      obtain ⟨k1, k2⟩ := add_to_root_directory_full f5 sb name (p + 1) (now 2)
        (inode_t.parse ((f3.data.drop 12288).take 128)) (block f3.data drs)
        (by rw [hro]; decide) (by rw [hro, hrr]; exact hr5) (by rw [hro, hrr])
        (by rw [hdo, hrd]) hfull
      rw [k1, if_pos (by decide), k2]
      exact ⟨hfull, rfl⟩
    | some i =>
      right
      obtain ⟨_, i2, i3, i4⟩ := (find_empty_some _ 64 0 i).1 hfe
      obtain ⟨k1, k2⟩ := add_to_root_directory_found f5 sb name (p + 1) (now 2)
        (inode_t.parse ((f3.data.drop 12288).take 128)) (block f3.data drs) i
        (by rw [hro]; decide) (by rw [hro, hrr]; exact hr5) (by rw [hro, hrr])
        (by rw [hdo, hrd]) hbld (by omega) i3 (fun j hj => i4 j (Nat.zero_le _) hj)
      rw [k1, if_neg (by decide), k2, hro, hdo]
      exact ⟨i, by omega, i3, fun j hj => i4 j (Nat.zero_le _) hj, rfl⟩

/-- Every run of the inserter on a valid image, for a file of at most `12 * 4096` bytes: the
duplicate check stops it, or no inode is free, or the allocation loop runs out of blocks, or
the inode record and the file blocks are written (image `d5`) and then the directory is full
or the entry is added. -/
theorem adder_run_valid (img file_name content : List Nat) (st_mtime : Nat)
    (now : Nat → Nat) (sb : superblock_t) (drs drb ic : Nat)
    (hv : valid_image img) (hs : content.length ≤ 49152)
    (h_sb : superblock_t.parse (img.take 116) = sb) (h_ic : sb.inode_count = ic)
    (h_drs : sb.data_region_start = drs) (h_drb : sb.data_region_blocks = drb) :
    ((∃ i, i < 64 ∧ slot_matches (block img drs) (derived_name file_name) i) ∧
      mkfs_adder img file_name content st_mtime now = (1, some img)) ∨
    ((∀ i, i < 64 → ¬ slot_matches (block img drs) (derived_name file_name) i) ∧
      (((∀ p, p < ic → p < 32768 → get_bit (block img 1) p = true) ∧
        mkfs_adder img file_name content st_mtime now = (1, some img)) ∨
      (∃ p, 1 ≤ p ∧ p < ic ∧ p < 32768 ∧ get_bit (block img 1) p = false ∧
        (∀ q, q < p → get_bit (block img 1) q = true) ∧
        ((∃ out, clear_count (block img 2) drb < (content.length + 4095) / 4096 ∧
          mkfs_adder img file_name content st_mtime now = (1, some out) ∧
          out.length = img.length ∧
          (∀ off n, off + n ≤ 4096 ∨ 12288 ≤ off →
            (out.drop off).take n = (img.drop off).take n) ∧
          block out 1 = set_bit (block img 1) p ∧
          (∀ q, q < drb → get_bit (block out 2) q = true) ∧
          (∀ q, drb ≤ q → get_bit (block out 2) q = get_bit (block img 2) q)) ∨
        (∃ dbs d5, (content.length + 4095) / 4096 ≤ clear_count (block img 2) drb ∧
          dbs.length = 12 ∧
          (∀ k, (content.length + 4095) / 4096 ≤ k → dbs.getD k 0 = 0) ∧
          (∀ k, k < (content.length + 4095) / 4096 → ∃ q, 1 ≤ q ∧ q < drb ∧
            dbs.getD k 0 = drs + q ∧ get_bit (block img 2) q = false) ∧
          (∀ j k, j < k → k < (content.length + 4095) / 4096 →
            dbs.getD j 0 < dbs.getD k 0) ∧
          d5.length = img.length ∧
          (∀ off n, off + n ≤ 4096 ∨ (12288 ≤ off ∧ off + n ≤ (drs + 1) * 4096 ∧
              (off + n ≤ 12288 + p * 128 ∨ 12288 + p * 128 + 128 ≤ off)) →
            (d5.drop off).take n = (img.drop off).take n) ∧
          block d5 1 = set_bit (block img 1) p ∧
          (∀ q, get_bit (block d5 2) q = true ↔ (get_bit (block img 2) q = true ∨
            ∃ k, k < (content.length + 4095) / 4096 ∧ dbs.getD k 0 = drs + q)) ∧
          (d5.drop (12288 + p * 128)).take 128 =
            (file_inode content st_mtime now dbs).bytes ∧
          (∀ k, k < (content.length + 4095) / 4096 →
            block d5 (dbs.getD k 0) = file_block content k) ∧
          (∀ b, drs < b → (∀ k, k < (content.length + 4095) / 4096 → dbs.getD k 0 ≠ b) →
            block d5 b = block img b) ∧
          (((∀ j, j < 64 → (entry_at (block img drs) j).inode_no ≠ 0) ∧
            mkfs_adder img file_name content st_mtime now = (1, some d5)) ∨
          (∃ i, i < 64 ∧ (entry_at (block img drs) i).inode_no = 0 ∧
            (∀ j, j < i → (entry_at (block img drs) j).inode_no ≠ 0) ∧
            mkfs_adder img file_name content st_mtime now =
              (0, some (pwrite (pwrite d5 12288
                (bump_root (inode_t.parse ((img.drop 12288).take 128)) (now 2)).bytes)
                (drs * 4096)
                (set_entry (block img drs) i
                  (new_entry (derived_name file_name) (p + 1)))))))))))) := by
  obtain ⟨sb', drs', drb', ic', hsb, h_magic, h_ibs, h_dbs, h_its, h_ic', h_drs', h_drb', b1,
    b2, b3, b4, b5, b6, h_len, h_sbl, h_root, hu1, hu2, hrd⟩ := valid_image_facts img hv
  rw [h_sb] at hsb
  subst hsb
  rw [h_ic] at h_ic'
  rw [h_drs] at h_drs'
  rw [h_drb] at h_drb'
  subst h_ic' h_drs' h_drb'
  obtain ⟨hbe, hbn12⟩ := blocks_needed_eq content.length hs
  obtain ⟨st1, st2⟩ := adder_lookup_stage img file_name content st_mtime now hv
    (by rw [hbe]; exact hbn12)
  rw [hrd] at st1 st2
  rw [h_sb, hbe] at st2
  generalize derived_name file_name = name at *
  generalize (content.length + 4095) / 4096 = bn at *
  clear hbe hs
  by_cases hdup : ∃ i, i < 64 ∧ slot_matches (block img drs) name i
  · exact Or.inl ⟨hdup, st1 hdup⟩
  right
  have hnone : ∀ i, i < 64 → ¬ slot_matches (block img drs) name i :=
    fun i hi hm => hdup ⟨i, hi, hm⟩
  refine ⟨hnone, ?_⟩
  obtain ⟨f1, hf1, e1⟩ := st2 hnone
  rw [e1]
  clear e1 st1 st2 hdup
  have hstage := adder_allocate_stage f1 sb name content st_mtime now bn drs drb ic h_ibs h_dbs
    h_ic h_drs h_drb b3 b5 b6 (by rw [hf1]; exact h_len) hbn12
  rw [hf1] at hstage
  rcases hstage with ⟨a1, a2⟩ | ⟨p, res, f3, p1, p2, p3, p4, s1, s2, s3, s4, s5, s6, s7⟩
  · exact Or.inl ⟨a1, a2⟩
  right
  have hp0 : 1 ≤ p := by
    rcases Nat.eq_zero_or_pos p with h | h
    · rw [h, hu1] at p3; cases p3
    · exact h
  refine ⟨p, hp0, p1, p2, p3, p4, ?_⟩
  cases res with
  | none =>
    left
    obtain ⟨c1, c2, c3⟩ := s6 rfl
    exact ⟨f3.data, c1, c3, s1, s2, s3, c2, s5⟩
  | some dbs =>
    right
    obtain ⟨c1, c2, c3, c4, c5, c6, c7⟩ := s7 dbs rfl
    rw [c7]
    clear s6 s7 c7
    have hq1 : ∀ k, k < bn → ∃ q, 1 ≤ q ∧ q < drb ∧ dbs.getD k 0 = drs + q ∧
        get_bit (block img 2) q = false := by
      intro k hk
      obtain ⟨q, q1, q2, q3, _⟩ := c4 k hk
      refine ⟨q, ?_, q1, q2, q3⟩
      rcases Nat.eq_zero_or_pos q with h | h
      · rw [h, hu2] at q3; cases q3
      · exact h
    have hroot3 : (f3.data.drop 12288).take 128 = (img.drop 12288).take 128 :=
      s2 12288 128 (Or.inr (le_refl _))
    have hdir3 : block f3.data drs = block img drs := by
      unfold block
      rw [BS_eq]
      exact s2 (drs * 4096) 4096 (Or.inr (by clear * - b3; omega))
    obtain ⟨d5, t1, t2, t3, t4, t5, t6⟩ := adder_commit_stage f3 sb name content st_mtime now
      bn drs drb ic p dbs h_its b2 b4 b6 (by rw [s1]; exact h_len)
      (by rw [hroot3]; exact h_root) hp0 p1
      (fun k hk => by
        obtain ⟨q, q1, q2, q3, _⟩ := hq1 k hk
        exact ⟨q, q1, q2, q3⟩) c5
    rw [hroot3, hdir3] at t6
    refine ⟨dbs, d5, c1, c2, c3, hq1, c5, by rw [t1, s1], ?_, ?_, ?_, t2, t3, ?_, t6⟩
    · intro off n h
      rcases h with h | ⟨h1, h2, h3⟩
      · rw [t4 off n (Or.inl (by clear * - h; omega)), s2 off n (Or.inl h)]
      · have : off + n ≤ 12288 + p * 128 ∨
            (12288 + p * 128 + 128 ≤ off ∧ off + n ≤ (drs + 1) * 4096) := by
          clear * - h2 h3; omega
        rw [t4 off n this, s2 off n (Or.inr h1)]
    · have e : block d5 1 = block f3.data 1 := by
        unfold block
        rw [BS_eq]
        exact t4 4096 4096 (Or.inl (by clear * - hp0; omega))
      rw [e, s3]
    · have e : block d5 2 = block f3.data 2 := by
        unfold block
        rw [BS_eq]
        exact t4 8192 4096 (Or.inl (by clear * - hp0; omega))
      intro q
      rw [e]
      constructor
      · intro h
        exact c6 q h
      · intro h
        rcases h with h | ⟨k, k1, k2⟩
        · exact s4 q h
        · obtain ⟨q', _, q2, _, q4⟩ := c4 k k1
          have : q' = q := by rw [k2] at q2; clear * - q2; omega
          rw [← this]; exact q4
    · intro b hb hne
      rw [t5 b hb hne]
      unfold block
      rw [BS_eq]
      exact s2 (b * 4096) 4096 (Or.inr (by clear * - hb b3; omega))

/-- What is needed of an image for it to be valid, in terms of another valid image. -/
theorem valid_of_same (img out : List Nat) (hv : valid_image img)
    (hlen : out.length = img.length)
    (h0 : out.take 116 = img.take 116)
    (hroot : (inode_t.parse ((out.drop 12288).take 128)).direct.getD 0 0 =
      (inode_t.parse ((img.drop 12288).take 128)).direct.getD 0 0)
    (hb1 : get_bit (block out 1) 0 = true) (hb2 : get_bit (block out 2) 0 = true) :
    valid_image out := by
  obtain ⟨a1, a2, a3, a4, a5, a6, a7, a8, a9, a10, a11, a12, a13⟩ := hv
  constructor
  · rw [h0]; exact a1
  · rw [h0]; exact a2
  · rw [h0]; exact a3
  · rw [h0]; exact a4
  · rw [h0]; exact a5
  · rw [h0]; exact a6
  · rw [h0]; exact a7
  · rw [h0]; exact a8
  · rw [h0]; exact a9
  · rw [h0, hlen]; exact a10
  · rw [h0, hroot]; exact a11
  · exact hb1
  · exact hb2

theorem bump_root_parse_direct (root : inode_t) (t : Nat)
    (h : root.direct.getD 0 0 < 2 ^ 32) :
    (inode_t.parse (bump_root root t).bytes).direct.getD 0 0 = root.direct.getD 0 0 := by
  rw [inode_parse_bytes]
  show ((List.range 12).map (fun i => (bump_root root t).direct.getD i 0 % 2 ^ 32)).getD 0 0 = _
  rw [getD_map_range _ 0 (by decide), bump_root_direct]
  exact Nat.mod_eq_of_lt h

/-- The image after the two writes of `add_to_root_directory`. -/
theorem commit_reads (d5 rb d1 : List Nat) (dirb : Nat) (hrb : rb.length = 128)
    (hd1 : d1.length = 4096) (h1 : 12288 + 128 ≤ dirb * 4096)
    (h2 : (dirb + 1) * 4096 ≤ d5.length) :
    (pwrite (pwrite d5 12288 rb) (dirb * 4096) d1).length = d5.length ∧
    (∀ off n, off + n ≤ 12288 ∨ (12416 ≤ off ∧ off + n ≤ dirb * 4096) ∨
        (dirb + 1) * 4096 ≤ off →
      ((pwrite (pwrite d5 12288 rb) (dirb * 4096) d1).drop off).take n =
        (d5.drop off).take n) ∧
    ((pwrite (pwrite d5 12288 rb) (dirb * 4096) d1).drop 12288).take 128 = rb ∧
    block (pwrite (pwrite d5 12288 rb) (dirb * 4096) d1) dirb = d1 := by
  have hin6 : 12288 + rb.length ≤ d5.length := by rw [hrb]; omega
  have hl6 : (pwrite d5 12288 rb).length = d5.length := pwrite_length _ _ _ hin6
  have hin7 : dirb * 4096 + d1.length ≤ (pwrite d5 12288 rb).length := by
    rw [hl6, hd1]; omega
  refine ⟨by rw [pwrite_length _ _ _ hin7, hl6], ?_, ?_, ?_⟩
  · intro off n h
    rw [read_pwrite_disjoint _ _ _ off n hin7 (by rw [hd1]; omega)]
    exact read_pwrite_disjoint _ _ _ _ _ hin6 (by rw [hrb]; omega)
  · rw [read_pwrite_before _ _ _ 12288 128 hin7 (by omega)]
    have := read_pwrite_same d5 12288 rb hin6
    rw [hrb] at this
    exact this
  · unfold block
    have := read_pwrite_same (pwrite d5 12288 rb) (dirb * 4096) d1 hin7
    rw [hd1] at this
    rw [BS_eq]
    exact this

theorem set_entry_length (d : List Nat) (i : Nat) (de : dirent64_t) (hlen : d.length = 4096)
    (hi : i < 64) : (set_entry d i de).length = 4096 := by
  rw [set_entry_eq_pwrite _ _ _ (by omega),
    pwrite_length _ _ _ (by rw [dirent_bytes_length]; omega), hlen]

theorem adder_too_large (img file_name content : List Nat) (st_mtime : Nat)
    (now : Nat → Nat) (h1 : 49152 < content.length) (h2 : content.length < 2 ^ 63) :
    mkfs_adder img file_name content st_mtime now = (1, none) := by
  rw [mkfs_adder_eq, if_pos]
  rw [BS_eq, show DIRECT_MAX = 12 from rfl, Nat.mod_eq_of_lt (by omega)]
  omega

/-- One run of the inserter on a valid image that got as far as opening the output: the
output is a valid image with the same superblock, and its root directory block is the one of
the input, or (exit status 0) the one of the input with the entry for the derived name put
into its first free slot, no occupied slot having matched the name. -/
theorem adder_step (img file_name content : List Nat) (st_mtime : Nat) (now : Nat → Nat)
    (rc : Nat) (out : List Nat) (hv : valid_image img) (hs : content.length < 2 ^ 63)
    (hrun : mkfs_adder img file_name content st_mtime now = (rc, some out)) :
    valid_image out ∧ out.take 116 = img.take 116 ∧ out.length = img.length ∧
    ((rc = 1 ∧ root_dir_block out = root_dir_block img) ∨
      (rc = 0 ∧ ∃ i n, i < 64 ∧ 2 ≤ n ∧ n < 2 ^ 32 ∧
        (entry_at (root_dir_block img) i).inode_no = 0 ∧
        (∀ j, j < i → (entry_at (root_dir_block img) j).inode_no ≠ 0) ∧
        (∀ j, j < 64 → ¬ slot_matches (root_dir_block img) (derived_name file_name) j) ∧
        root_dir_block out =
          set_entry (root_dir_block img) i (new_entry (derived_name file_name) n))) := by
  have hs2 : content.length ≤ 49152 := by
    by_contra h
    rw [adder_too_large img file_name content st_mtime now (by omega) hs] at hrun
    cases (Prod.mk.inj hrun).2
  obtain ⟨sb, drs, drb, ic, hsb, h_magic, h_ibs, h_dbs, h_its, h_ic, h_drs, h_drb, b1,
    b2, b3, b4, b5, b6, h_len, h_sbl, h_root, hu1, hu2, hrd⟩ := valid_image_facts img hv
  have hbl1 : (block img 1).length = 4096 :=
    block_length img 1 (by rw [h_len]; clear * - b3; omega)
  have hbld : (block img drs).length = 4096 :=
    block_length img drs (by rw [h_len]; clear * - b4; omega)
  have hset1 : ∀ p, 1 ≤ p → p < 32768 → get_bit (set_bit (block img 1) p) 0 = true := by
    intro p _ hp
    rw [get_bit_set_bit _ _ _ (by rw [hbl1]; omega), hu1]
    rfl
  -- what is left to show once the reads of the output are known
  have fin : ∀ o : List Nat, o.length = img.length →
      (∀ off n, off + n ≤ 4096 → (o.drop off).take n = (img.drop off).take n) →
      (inode_t.parse ((o.drop 12288).take 128)).direct.getD 0 0 = drs →
      get_bit (block o 1) 0 = true → get_bit (block o 2) 0 = true →
      valid_image o ∧ o.take 116 = img.take 116 ∧ o.length = img.length ∧
        root_dir_block o = block o drs := by
    intro o h1 h2 h3 h4 h5
    have h0 : o.take 116 = img.take 116 := h2 0 116 (by decide)
    refine ⟨valid_of_same img o hv h1 h0 (by rw [h3, h_root]) h4 h5, h0, h1, ?_⟩
    unfold root_dir_block
    rw [h0, hsb, h_drs]
  have same : valid_image img ∧ img.take 116 = img.take 116 ∧ img.length = img.length ∧
      ((1 = 1 ∧ root_dir_block img = root_dir_block img) ∨
      (1 = 0 ∧ ∃ i n, i < 64 ∧ 2 ≤ n ∧ n < 2 ^ 32 ∧
        (entry_at (root_dir_block img) i).inode_no = 0 ∧
        (∀ j, j < i → (entry_at (root_dir_block img) j).inode_no ≠ 0) ∧
        (∀ j, j < 64 → ¬ slot_matches (root_dir_block img) (derived_name file_name) j) ∧
        root_dir_block img =
          set_entry (root_dir_block img) i (new_entry (derived_name file_name) n))) :=
    ⟨hv, rfl, rfl, Or.inl ⟨rfl, rfl⟩⟩
  rcases adder_run_valid img file_name content st_mtime now sb drs drb ic hv hs2 hsb h_ic
    h_drs h_drb with ⟨_, e⟩ | ⟨hnone, ⟨_, e⟩ | ⟨p, p0, p1, p2, p3, p4, hcase⟩⟩
  · rw [e] at hrun
    obtain ⟨r1, r2⟩ := Prod.mk.inj hrun
    rw [← r1, ← Option.some.inj r2]
    exact same
  · rw [e] at hrun
    obtain ⟨r1, r2⟩ := Prod.mk.inj hrun
    rw [← r1, ← Option.some.inj r2]
    exact same
  · rcases hcase with ⟨o, _, e, o1, o2, o3, o4, _⟩ |
      ⟨dbs, d5, _, _, _, _, _, t1, t2, t3, t4, _, _, _, hlast⟩
    · rw [e] at hrun
      obtain ⟨r1, r2⟩ := Prod.mk.inj hrun
      rw [← r1, ← Option.some.inj r2]
      obtain ⟨f1, f2, f3, f4⟩ := fin o o1 (fun off n h => o2 off n (Or.inl h))
        (by rw [o2 12288 128 (Or.inr (le_refl _))]; exact h_root)
        (by rw [o3]; exact hset1 p p0 p2) (o4 0 (by omega))
      refine ⟨f1, f2, f3, Or.inl ⟨rfl, ?_⟩⟩
      rw [f4, hrd]
      unfold block
      rw [BS_eq]
      exact o2 _ _ (Or.inr (by clear * - b3; omega))
    · have hr5 : (d5.drop 12288).take 128 = (img.drop 12288).take 128 :=
        t2 12288 128 (Or.inr ⟨le_refl _, by clear * - b3; omega, Or.inl (by
          clear * - p0; omega)⟩)
      have hd5 : block d5 drs = block img drs := by
        unfold block
        rw [BS_eq]
        exact t2 _ _ (Or.inr ⟨by clear * - b3; omega, by clear * -; omega, Or.inr (by
          clear * - p1 b2; omega)⟩)
      have hb52 : get_bit (block d5 2) 0 = true := (t4 0).2 (Or.inl hu2)
      rcases hlast with ⟨_, e⟩ | ⟨i, i1, i2, i3, e⟩
      · rw [e] at hrun
        obtain ⟨r1, r2⟩ := Prod.mk.inj hrun
        rw [← r1, ← Option.some.inj r2]
        obtain ⟨f1, f2, f3, f4⟩ := fin d5 t1 (fun off n h => t2 off n (Or.inl h))
          (by rw [hr5]; exact h_root) (by rw [t3]; exact hset1 p p0 p2) hb52
        refine ⟨f1, f2, f3, Or.inl ⟨rfl, ?_⟩⟩
        rw [f4, hrd, hd5]
      · rw [e] at hrun
        obtain ⟨r1, r2⟩ := Prod.mk.inj hrun
        rw [← r1, ← Option.some.inj r2]
        have hsl := set_entry_length (block img drs) i
          (new_entry (derived_name file_name) (p + 1)) hbld i1
        obtain ⟨c1, c2, c3, c4⟩ := commit_reads d5
          (bump_root (inode_t.parse ((img.drop 12288).take 128)) (now 2)).bytes
          (set_entry (block img drs) i (new_entry (derived_name file_name) (p + 1))) drs
          (inode_bytes_length _) hsl (by clear * - b2 b1; omega)
          (by rw [t1, h_len]; clear * - b4; omega)
        generalize pwrite (pwrite d5 12288
          (bump_root (inode_t.parse ((img.drop 12288).take 128)) (now 2)).bytes)
          (drs * 4096) (set_entry (block img drs) i
            (new_entry (derived_name file_name) (p + 1))) = o at *
        have hob1 : block o 1 = block d5 1 := by
          unfold block
          rw [BS_eq]
          exact c2 _ _ (Or.inl (by decide))
        have hob2 : block o 2 = block d5 2 := by
          unfold block
          rw [BS_eq]
          exact c2 _ _ (Or.inl (by decide))
        obtain ⟨f1, f2, f3, f4⟩ := fin o (by rw [c1, t1])
          (fun off n h => by
            rw [c2 off n (Or.inl (by clear * - h; omega)), t2 off n (Or.inl h)])
          (by
            rw [c3, bump_root_parse_direct _ _ (by rw [h_root]; clear * - b6; omega)]
            exact h_root)
          (by rw [hob1, t3]; exact hset1 p p0 p2) (by rw [hob2]; exact hb52)
        refine ⟨f1, f2, f3, Or.inr ⟨rfl, i, p + 1, i1, by clear * - p0; omega,
          by clear * - p2; omega, ?_, ?_, ?_, ?_⟩⟩
        · rw [hrd]; exact i2
        · rw [hrd]; exact i3
        · rw [hrd]; exact hnone
        · rw [f4, hrd, c4]

/-! ## Images reachable from a fresh one -/

theorem mkfs_builder_some (size_kib inodes : Nat) (t : Nat → Nat) (adjacent img : List Nat)
    (h : mkfs_builder size_kib inodes t adjacent = .finished img) :
    180 ≤ size_kib ∧ size_kib ≤ 4096 ∧ size_kib % 4 = 0 ∧ 128 ≤ inodes ∧ inodes ≤ 512 ∧
      img = (fresh_blocks size_kib inodes t adjacent).flatten := by
  by_cases g1 : size_kib < 180 ∨ size_kib > 4096 ∨ size_kib % 4 ≠ 0
  · unfold mkfs_builder at h
    rw [if_pos g1] at h
    cases h
  · by_cases g2 : inodes < 128 ∨ inodes > 512
    · unfold mkfs_builder at h
      rw [if_neg g1, if_pos g2] at h
      cases h
    · have h1 : 180 ≤ size_kib := by omega
      have h2 : size_kib ≤ 4096 := by omega
      have h3 : size_kib % 4 = 0 := by omega
      have h4 : 128 ≤ inodes := by omega
      have h5 : inodes ≤ 512 := by omega
      rcases Nat.lt_or_ge adjacent.length 3976 with h6 | h6
      · rw [mkfs_builder_killed size_kib inodes t adjacent h1 h2 h3 h4 h5 h6] at h
        cases h
      · rw [mkfs_builder_eq size_kib inodes t adjacent h1 h2 h3 h4 h5 h6] at h
        exact ⟨h1, h2, h3, h4, h5, (builder_result.finished.inj h).symm⟩

theorem strncmp_eq_symm (a b : List Nat) (n : Nat) : strncmp_eq a b n = strncmp_eq b a n := by
  cases h : strncmp_eq b a n
  · cases h' : strncmp_eq a b n
    · rfl
    · rw [strncmp_eq_iff] at h'
      have := (strncmp_eq_iff b a n).2 h'.symm
      rw [this] at h
      cases h
  · rw [strncmp_eq_iff] at h ⊢
    exact h.symm

theorem reachable_valid (img : List Nat) (h : reachable img) : valid_image img := by
  induction h with
  | fresh size_kib inodes t adjacent img hb =>
    obtain ⟨h1, h2, _, h4, h5, e⟩ := mkfs_builder_some _ _ _ _ _ hb
    rw [e]
    exact fresh_valid size_kib inodes t adjacent h1 h2 h4 h5
  | add img file_name content st_mtime now rc out _ hs hrun ih =>
    exact (adder_step img file_name content st_mtime now rc out ih hs hrun).1

theorem fresh_root_dir_block (size_kib inodes : Nat) (t : Nat → Nat) (adjacent : List Nat)
    (h1 : 180 ≤ size_kib) (h2 : size_kib ≤ 4096) (h5 : inodes ≤ 512) :
    root_dir_block (fresh_blocks size_kib inodes t adjacent).flatten =
      block (fresh_blocks size_kib inodes t adjacent).flatten (layout size_kib inodes).2.2.1 := by
  unfold root_dir_block
  rw [fresh_sb size_kib inodes t adjacent h1 h2 h5, builder_sb_drs]

theorem fresh_names_unique (size_kib inodes : Nat) (t : Nat → Nat) (adjacent : List Nat)
    (h1 : 180 ≤ size_kib) (h2 : size_kib ≤ 4096) (h4 : 128 ≤ inodes) (h5 : inodes ≤ 512) :
    names_unique (root_dir_block (fresh_blocks size_kib inodes t adjacent).flatten) := by
  rw [fresh_root_dir_block size_kib inodes t adjacent h1 h2 h5]
  obtain ⟨_, n0, _, n1, dr⟩ := fresh_dir size_kib inodes t adjacent h1 h2 h4 h5
  intro i j hi hj hne oi oj
  have hi2 : i < 2 := by
    by_contra h
    exact oi (dr i (by omega) hi)
  have hj2 : j < 2 := by
    by_contra h
    exact oj (dr j (by omega) hj)
  have hcases : (i = 0 ∧ j = 1) ∨ (i = 1 ∧ j = 0) := by omega
  rcases hcases with ⟨rfl, rfl⟩ | ⟨rfl, rfl⟩
  · rw [n0, n1]; decide
  · rw [n0, n1]; decide

theorem derived_name_stored (file_name : List Nat) (n : Nat) (hn : n < 2 ^ 32) :
    dirent64_t.parse (new_entry (derived_name file_name) n).bytes =
      { inode_no := n, type := 1, name := derived_name file_name,
        checksum := xor_fold ((new_entry (derived_name file_name) n).bytes.take 63) } := by
  rw [new_entry_parse _ n hn]
  have e : (cstr (derived_name file_name)).take 57 ++
      List.replicate (58 - min (cstr (derived_name file_name)).length 57) 0 =
      derived_name file_name := by
    unfold derived_name
    rw [stored_name _ (basename_nonzero file_name), new_entry_name,
      cstr_of_nonzero _ (basename_nonzero file_name)]
  rw [e]

/-- Putting the derived name into a free slot after a lookup that found no occupied slot
with this name keeps the names of the occupied slots distinct. -/
theorem names_unique_set_entry (d : List Nat) (file_name : List Nat) (i n : Nat)
    (hu : names_unique d) (hlen : d.length = 4096) (hi : i < 64) (hn : n < 2 ^ 32)
    (hnone : ∀ j, j < 64 → ¬ slot_matches d (derived_name file_name) j) :
    names_unique (set_entry d i (new_entry (derived_name file_name) n)) := by
  obtain ⟨s1, s2⟩ := set_entry_slots d i (new_entry (derived_name file_name) n) hlen hi
  have hnew : entry_at (set_entry d i (new_entry (derived_name file_name) n)) i =
      { inode_no := n, type := 1, name := derived_name file_name,
        checksum := xor_fold ((new_entry (derived_name file_name) n).bytes.take 63) } := by
    unfold entry_at
    rw [s1, derived_name_stored file_name n hn]
  have hold : ∀ j, j < 64 → j ≠ i →
      entry_at (set_entry d i (new_entry (derived_name file_name) n)) j = entry_at d j := by
    intro j hj hne
    unfold entry_at
    rw [s2 j hj hne]
  have hdiff : ∀ j, j < 64 → (entry_at d j).inode_no ≠ 0 →
      strncmp_eq (entry_at d j).name (derived_name file_name) 58 = false := by
    intro j hj ho
    cases hc : strncmp_eq (entry_at d j).name (derived_name file_name) 58
    · rfl
    · exact absurd ⟨ho, hc⟩ (hnone j hj)
  intro a c ha hc hne oa oc
  by_cases hai : a = i
  · subst hai
    have hci : c ≠ a := fun h => hne h.symm
    rw [hold c hc hci] at oc ⊢
    rw [hnew, strncmp_eq_symm]
    exact hdiff c hc oc
  · rw [hold a ha hai] at oa ⊢
    by_cases hci : c = i
    · subst hci
      rw [hnew]
      exact hdiff a ha oa
    · rw [hold c hc hci] at oc ⊢
      exact hu a c ha hc hne oa oc

theorem reachable_unique (img : List Nat) (h : reachable img) :
    names_unique (root_dir_block img) := by
  induction h with
  | fresh size_kib inodes t adjacent img hb =>
    obtain ⟨h1, h2, _, h4, h5, e⟩ := mkfs_builder_some _ _ _ _ _ hb
    rw [e]
    exact fresh_names_unique size_kib inodes t adjacent h1 h2 h4 h5
  | add img file_name content st_mtime now rc out hr hs hrun ih =>
    have hv := reachable_valid img hr
    obtain ⟨_, _, _, hd⟩ := adder_step img file_name content st_mtime now rc out hv hs hrun
    rcases hd with ⟨_, e⟩ | ⟨_, i, n, i1, _, n2, _, _, hnone, e⟩
    · rw [e]; exact ih
    · rw [e]
      obtain ⟨sb, drs, drb, ic, hsb, _, _, _, _, _, _, _, _, _, _, b4, _, _, h_len, _, _, _, _,
        hrd⟩ := valid_image_facts img hv
      exact names_unique_set_entry _ file_name i n ih
        (by rw [hrd]; exact block_length img drs (by rw [h_len]; clear * - b4; omega))
        i1 n2 hnone

/-- C18: in every image reachable from a freshly formatted image by runs of the inserter
(each run looks the derived name up, allocates, inserts; successful or aborted), no two
occupied slots of the root directory block hold the same name: `strncmp` over the 58 bytes
of the name field tells them apart, and so the name fields differ. -/
theorem reachable_names_unique (img : List Nat) (h : reachable img) :
    names_unique (root_dir_block img) ∧
    ∀ i j, i < 64 → j < 64 → i ≠ j → (entry_at (root_dir_block img) i).inode_no ≠ 0 →
      (entry_at (root_dir_block img) j).inode_no ≠ 0 →
      (entry_at (root_dir_block img) i).name ≠ (entry_at (root_dir_block img) j).name := by
  have hu := reachable_unique img h
  refine ⟨hu, ?_⟩
  intro i j hi hj hne oi oj he
  have h1 := hu i j hi hj hne oi oj
  rw [he] at h1
  have h2 : strncmp_eq (entry_at (root_dir_block img) j).name
      (entry_at (root_dir_block img) j).name 58 = true := (strncmp_eq_iff _ _ _).2 rfl
  rw [h2] at h1
  cases h1

/-- C14 (amended): when the inserter succeeds on a valid image with a file of `s ≤ 12 *
4096` bytes, the new inode `n` (first clear bit of the inode bitmap, referenced by the new
directory entry) has `size_bytes = s`, its first `ceil(s / 4096)` direct pointers name
blocks of the data region behind the root directory block and the others are 0, and these
blocks of the output, one after the other in the order of the pointers, are the content of
the file followed by zeros up to the end of the last block. -/
theorem adder_content_roundtrip (img file_name content : List Nat) (st_mtime : Nat)
    (now : Nat → Nat) (out : List Nat) (hv : valid_image img)
    (hs : content.length ≤ 12 * 4096)
    (hrun : mkfs_adder img file_name content st_mtime now = (0, some out)) :
    ∃ n ino sb, sb = superblock_t.parse (img.take 116) ∧
      ino = inode_t.parse ((out.drop (inode_offset sb n)).take 128) ∧
      2 ≤ n ∧ n ≤ sb.inode_count ∧
      get_bit (block img 1) (n - 1) = false ∧ get_bit (block out 1) (n - 1) = true ∧
      (∃ i, i < 64 ∧ (entry_at (root_dir_block img) i).inode_no = 0 ∧
        (entry_at (root_dir_block out) i).inode_no = n ∧
        (entry_at (root_dir_block out) i).name = derived_name file_name) ∧
      ino.size_bytes = content.length ∧
      (∀ k, k < (content.length + 4095) / 4096 →
        sb.data_region_start < ino.direct.getD k 0 ∧
        ino.direct.getD k 0 < sb.data_region_start + sb.data_region_blocks ∧
        block out (ino.direct.getD k 0) = file_block content k) ∧
      (∀ j k, j < k → k < (content.length + 4095) / 4096 →
        ino.direct.getD j 0 ≠ ino.direct.getD k 0) ∧
      (∀ k, (content.length + 4095) / 4096 ≤ k → k < 12 → ino.direct.getD k 0 = 0) ∧
      ((List.range ((content.length + 4095) / 4096)).map
          (fun k => block out (ino.direct.getD k 0))).flatten =
        content ++ List.replicate ((content.length + 4095) / 4096 * 4096 - content.length) 0 ∧
      (((List.range ((content.length + 4095) / 4096)).map
          (fun k => block out (ino.direct.getD k 0))).flatten).take content.length = content ∧
      (((List.range ((content.length + 4095) / 4096)).map
          (fun k => block out (ino.direct.getD k 0))).flatten).drop content.length =
        List.replicate ((content.length + 4095) / 4096 * 4096 - content.length) 0 := by
  obtain ⟨sb, drs, drb, ic, hsb, h_magic, h_ibs, h_dbs, h_its, h_ic, h_drs, h_drb, b1,
    b2, b3, b4, b5, b6, h_len, h_sbl, h_root, hu1, hu2, hrd⟩ := valid_image_facts img hv
  have hbl1 : (block img 1).length = 4096 :=
    block_length img 1 (by rw [h_len]; clear * - b3; omega)
  have hbld : (block img drs).length = 4096 :=
    block_length img drs (by rw [h_len]; clear * - b4; omega)
  have hbn12 : (content.length + 4095) / 4096 ≤ 12 := by clear * - hs; omega
  have hcov : content.length ≤ (content.length + 4095) / 4096 * 4096 := by clear * -; omega
  have hmod : content.length % 2 ^ 64 % 2 ^ 64 = content.length := by
    rw [Nat.mod_mod]
    exact Nat.mod_eq_of_lt (by clear * - hs; omega)
  rcases adder_run_valid img file_name content st_mtime now sb drs drb ic hv hs hsb h_ic
    h_drs h_drb with ⟨_, e⟩ | ⟨hnone, ⟨_, e⟩ | ⟨p, p0, p1, p2, p3, p4, hcase⟩⟩
  · rw [e] at hrun; cases (Prod.mk.inj hrun).1
  · rw [e] at hrun; cases (Prod.mk.inj hrun).1
  rcases hcase with ⟨o, _, e, _⟩ |
    ⟨dbs, d5, _, a2, a3, a4, a5, t1, t2, t3, t4, t5, t6, t7, hlast⟩
  · rw [e] at hrun; cases (Prod.mk.inj hrun).1
  rcases hlast with ⟨_, e⟩ | ⟨i, i1, i2, i3, e⟩
  · rw [e] at hrun; cases (Prod.mk.inj hrun).1
  rw [e] at hrun
  have hout := Option.some.inj (Prod.mk.inj hrun).2
  clear hrun e
  have hsl := set_entry_length (block img drs) i
    (new_entry (derived_name file_name) (p + 1)) hbld i1
  obtain ⟨c1, c2, c3, c4⟩ := commit_reads d5
    (bump_root (inode_t.parse ((img.drop 12288).take 128)) (now 2)).bytes
    (set_entry (block img drs) i (new_entry (derived_name file_name) (p + 1))) drs
    (inode_bytes_length _) hsl (by clear * - b2 b1; omega)
    (by rw [t1, h_len]; clear * - b4; omega)
  rw [hout] at c1 c2 c3 c4
  clear hout
  generalize (content.length + 4095) / 4096 = bn at *
  have hio : inode_offset sb (p + 1) = 12288 + p * 128 :=
    inode_offset_of sb (p + 1) h_its (by clear * -; omega) (by clear * - p2; omega)
  have hslot : (out.drop (12288 + p * 128)).take 128 =
      (file_inode content st_mtime now dbs).bytes := by
    rw [c2 _ _ (Or.inr (Or.inl ⟨by clear * - p0; omega, by clear * - p1 b2; omega⟩)), t5]
  have hdir : ∀ k, k < 12 →
      (inode_t.parse (file_inode content st_mtime now dbs).bytes).direct.getD k 0 =
        dbs.getD k 0 := by
    intro k hk
    rw [inode_parse_bytes]
    show ((List.range 12).map (fun i => dbs.getD i 0 % 2 ^ 32)).getD k 0 = _
    rw [getD_map_range _ k hk]
    apply Nat.mod_eq_of_lt
    rcases Nat.lt_or_ge k bn with h | h
    · obtain ⟨q, _, q2, q3, _⟩ := a4 k h
      rw [q3]; clear * - q2 b6; omega
    · rw [a3 k h]; decide
  have hblk : ∀ k, k < bn → block out (dbs.getD k 0) = file_block content k := by
    intro k hk
    obtain ⟨q, q1, q2, q3, _⟩ := a4 k hk
    rw [← t6 k hk]
    unfold block
    rw [BS_eq]
    exact c2 _ _ (Or.inr (Or.inr (by rw [q3]; clear * - q1; omega)))
  have hrdo : root_dir_block out = block out drs := by
    unfold root_dir_block
    have h0 : out.take 116 = img.take 116 := by
      have := c2 0 116 (Or.inl (by decide))
      rw [t2 0 116 (Or.inl (by decide))] at this
      exact this
    rw [h0, hsb, h_drs]
  have hob1 : block out 1 = block d5 1 := by
    unfold block
    rw [BS_eq]
    exact c2 _ _ (Or.inl (by decide))
  have hflat : ((List.range bn).map (fun k => block out
      ((inode_t.parse (file_inode content st_mtime now dbs).bytes).direct.getD k 0))).flatten =
      content ++ List.replicate (bn * 4096 - content.length) 0 := by
    have e : (List.range bn).map (fun k => block out
        ((inode_t.parse (file_inode content st_mtime now dbs).bytes).direct.getD k 0)) =
        (List.range bn).map (file_block content) := by
      apply List.map_congr_left
      intro k hk
      rw [List.mem_range] at hk
      rw [hdir k (by clear * - hk hbn12; omega)]
      exact hblk k hk
    rw [e]
    exact file_blocks_flatten content bn hcov
  refine ⟨p + 1, _, _, hsb.symm, rfl, by clear * - p0; omega, by rw [h_ic]; exact p1, ?_, ?_,
    ?_, ?_⟩
  · exact p3
  · rw [hob1, t3, Nat.add_sub_cancel, get_bit_set_bit _ _ _ (by rw [hbl1]; clear * - p2; omega)]
    simp
  · refine ⟨i, i1, by rw [hrd]; exact i2, ?_, ?_⟩
    · rw [hrdo, c4]
      unfold entry_at
      rw [(set_entry_slots _ i _ hbld i1).1,
        derived_name_stored _ _ (by clear * - p2; omega)]
    · rw [hrdo, c4]
      unfold entry_at
      rw [(set_entry_slots _ i _ hbld i1).1,
        derived_name_stored _ _ (by clear * - p2; omega)]
  rw [hio, hslot, h_drs, h_drb]
  refine ⟨?_, ?_, ?_, ?_, hflat, ?_, ?_⟩
  · rw [inode_parse_bytes]
    exact hmod
  · intro k hk
    rw [hdir k (by clear * - hk hbn12; omega)]
    obtain ⟨q, q1, q2, q3, _⟩ := a4 k hk
    refine ⟨by rw [q3]; clear * - q1; omega, by rw [q3]; clear * - q2; omega, hblk k hk⟩
  · intro j k hjk hk
    rw [hdir k (by clear * - hk hbn12; omega), hdir j (by clear * - hjk hk hbn12; omega)]
    exact Nat.ne_of_lt (a5 j k hjk hk)
  · intro k hk hk12
    rw [hdir k hk12]
    exact a3 k hk
  · rw [hflat]
    exact List.take_left' rfl
  · rw [hflat]
    exact List.drop_left' rfl

/-- C20 (amended): on a valid image on which the duplicate check passes and an inode is free, if only
`k` of the bits of the data bitmap below `data_region_blocks` are clear and the file needs
more than `k` blocks, the inserter exits with 1 and leaves an image in which the bit of the
inode it claimed (the first clear one, `p`) and every bit of the data bitmap below
`data_region_blocks`, so the `k` it claimed, are set; nothing else differs from the input:
block 0 and everything from the inode table on (no inode record written, root inode and
root directory block unchanged). -/
theorem adder_no_rollback (img file_name content : List Nat) (st_mtime : Nat)
    (now : Nat → Nat) (k : Nat) (hv : valid_image img) (hs : content.length ≤ 12 * 4096)
    (hnodup : ∀ i, i < 64 → ¬ slot_matches (root_dir_block img) (derived_name file_name) i)
    (hino : ∃ p, p < (superblock_t.parse (img.take 116)).inode_count ∧ p < 32768 ∧
      get_bit (block img 1) p = false)
    (hk : clear_count (block img 2) (superblock_t.parse (img.take 116)).data_region_blocks = k)
    (hlt : k < (content.length + 4095) / 4096) :
    ∃ out p, mkfs_adder img file_name content st_mtime now = (1, some out) ∧
      out.length = img.length ∧
      p < (superblock_t.parse (img.take 116)).inode_count ∧
      get_bit (block img 1) p = false ∧ (∀ q, q < p → get_bit (block img 1) q = true) ∧
      (∀ q, get_bit (block out 1) q = (get_bit (block img 1) q || decide (q = p))) ∧
      (∀ q, q < (superblock_t.parse (img.take 116)).data_region_blocks →
        get_bit (block out 2) q = true) ∧
      (∀ q, (superblock_t.parse (img.take 116)).data_region_blocks ≤ q →
        get_bit (block out 2) q = get_bit (block img 2) q) ∧
      clear_count (block out 2) (superblock_t.parse (img.take 116)).data_region_blocks = 0 ∧
      block out 0 = block img 0 ∧
      (∀ off n, 12288 ≤ off → (out.drop off).take n = (img.drop off).take n) ∧
      (out.drop 12288).take 128 = (img.drop 12288).take 128 ∧
      root_dir_block out = root_dir_block img := by
  obtain ⟨sb, drs, drb, ic, hsb, h_magic, h_ibs, h_dbs, h_its, h_ic, h_drs, h_drb, b1,
    b2, b3, b4, b5, b6, h_len, h_sbl, h_root, hu1, hu2, hrd⟩ := valid_image_facts img hv
  rw [hsb, h_ic] at hino
  rw [hsb, h_drb] at hk
  rw [hsb, h_ic, h_drb]
  have hbl1 : (block img 1).length = 4096 :=
    block_length img 1 (by rw [h_len]; clear * - b3; omega)
  rw [hrd] at hnodup
  rcases adder_run_valid img file_name content st_mtime now sb drs drb ic hv hs hsb h_ic
    h_drs h_drb with ⟨⟨i, i1, i2⟩, _⟩ | ⟨_, ⟨hall, _⟩ | ⟨p, p0, p1, p2, p3, p4, hcase⟩⟩
  · exact absurd i2 (hnodup i i1)
  · obtain ⟨p, q1, q2, q3⟩ := hino
    rw [hall p q1 q2] at q3
    cases q3
  rcases hcase with ⟨o, _, e, o1, o2, o3, o4, o5⟩ | ⟨dbs, d5, hc, _⟩
  · refine ⟨o, p, e, o1, p1, p3, p4, ?_, o4, o5, (clear_count_eq_zero _ _).2 o4, ?_,
      fun off n h => o2 off n (Or.inr h), o2 _ _ (Or.inr (le_refl _)), ?_⟩
    · intro q
      rw [o3, get_bit_set_bit _ _ _ (by rw [hbl1]; clear * - p2; omega)]
    · unfold block
      rw [BS_eq]
      exact o2 _ _ (Or.inl (by decide))
    · have h0 : o.take 116 = img.take 116 := o2 0 116 (Or.inl (by decide))
      unfold root_dir_block
      rw [h0, hsb, h_drs]
      unfold block
      rw [BS_eq]
      exact o2 _ _ (Or.inr (by clear * - b3; omega))
  · rw [hk] at hc
    exact absurd hlt (Nat.not_lt.mpr hc)

/-! ## The capacity of the root directory -/

/-- `add_to_root_directory` on a stream whose root inode and directory block can be read:
-1 and nothing written when every slot is occupied, 0 otherwise. -/
theorem add_to_root_directory_cases (img : FILE) (sb : superblock_t) (filename : List Nat)
    (n t : Nat) (root : inode_t) (d : List Nat)
    (hoff : inode_offset sb ROOT_INO < 2 ^ 63)
    (hr : ((img.data.drop (inode_offset sb ROOT_INO)).take 128).length = 128)
    (hroot : root = inode_t.parse ((img.data.drop (inode_offset sb ROOT_INO)).take 128))
    (hd : d = (img.data.drop (dir_offset root)).take BS)
    (hlen : d.length = 4096) :
    ((∀ j, j < 64 → (entry_at d j).inode_no ≠ 0) ∧
      (add_to_root_directory img sb filename n t).1 = -1 ∧
      (add_to_root_directory img sb filename n t).2.data = img.data) ∨
    (∃ i, i < 64 ∧ (entry_at d i).inode_no = 0 ∧ (∀ j, j < i → (entry_at d j).inode_no ≠ 0) ∧
      (add_to_root_directory img sb filename n t).1 = 0 ∧
      (add_to_root_directory img sb filename n t).2.data =
        pwrite (pwrite img.data (inode_offset sb ROOT_INO) (bump_root root t).bytes)
          (dir_offset root) (set_entry d i (new_entry filename n))) := by
  cases hfe : find_empty d 64 0 with
  | none =>
    left
    have hfull : ∀ j, j < 64 → (entry_at d j).inode_no ≠ 0 :=
      fun j hj => (find_empty_none _ 64 0).1 hfe j (Nat.zero_le _) (by omega)
    exact ⟨hfull, add_to_root_directory_full img sb filename n t root d hoff hr hroot hd hfull⟩
  | some i =>
    right
    obtain ⟨_, i2, i3, i4⟩ := (find_empty_some _ 64 0 i).1 hfe
    obtain ⟨k1, k2⟩ := add_to_root_directory_found img sb filename n t root d i hoff hr hroot
      hd hlen (by omega) i3 (fun j hj => i4 j (Nat.zero_le _) hj)
    exact ⟨i, by omega, i3, fun j hj => i4 j (Nat.zero_le _) hj, k1, k2⟩

/-- The entry written depends on the inode number modulo 2^32 only (`(uint32_t)inode_num`). -/
theorem new_entry_mod (filename : List Nat) (n : Nat) :
    new_entry filename n = new_entry filename (n % 2 ^ 32) := by
  unfold new_entry
  rw [Nat.mod_mod]

/-- One insert into a directory block whose first free slot is `m`. -/
theorem insert_step (f : FILE) (sb : superblock_t) (name : List Nat) (n t drs m : Nat)
    (h_its : sb.inode_table_start = 3) (hL : (drs + 1) * 4096 ≤ f.data.length)
    (h4 : 4 ≤ drs) (h20 : drs < 2 ^ 20)
    (h_root : (inode_t.parse ((f.data.drop 12288).take 128)).direct.getD 0 0 = drs)
    (hm : m < 64) (hocc : ∀ j, j < m → (entry_at (block f.data drs) j).inode_no ≠ 0)
    (hemp : (entry_at (block f.data drs) m).inode_no = 0) :
    (add_to_root_directory f sb name n t).1 = 0 ∧
    (add_to_root_directory f sb name n t).2.data.length = f.data.length ∧
    (inode_t.parse (((add_to_root_directory f sb name n t).2.data.drop 12288).take
      128)).direct.getD 0 0 = drs ∧
    block (add_to_root_directory f sb name n t).2.data drs =
      set_entry (block f.data drs) m (new_entry name n) ∧
    (entry_at (block (add_to_root_directory f sb name n t).2.data drs) m).inode_no =
      n % 2 ^ 32 ∧
    (∀ j, j < 64 → j ≠ m →
      entry_at (block (add_to_root_directory f sb name n t).2.data drs) j =
        entry_at (block f.data drs) j) := by
  have hro : inode_offset sb ROOT_INO = 12288 :=
    inode_offset_of sb 1 h_its (by decide) (by decide)
  have hdo : dir_offset (inode_t.parse ((f.data.drop 12288).take 128)) = drs * 4096 := by
    unfold dir_offset
    rw [h_root, BS_eq]
    exact Nat.mod_eq_of_lt (by omega)
  have hbld := block_length f.data drs hL
  have hr5 : ((f.data.drop 12288).take 128).length = 128 := by
    rw [List.length_take, List.length_drop]
    clear * - hL h4
    omega
  obtain ⟨k1, k2⟩ := add_to_root_directory_found f sb name n t
    (inode_t.parse ((f.data.drop 12288).take 128)) (block f.data drs) m
    (by rw [hro]; decide) (by rw [hro]; exact hr5) (by rw [hro])
    (by rw [hdo, BS_eq]; rfl) hbld hm hemp hocc
  rw [hro, hdo] at k2
  have hsl := set_entry_length (block f.data drs) m (new_entry name n) hbld hm
  obtain ⟨c1, c2, c3, c4⟩ := commit_reads f.data
    (bump_root (inode_t.parse ((f.data.drop 12288).take 128)) t).bytes
    (set_entry (block f.data drs) m (new_entry name n)) drs
    (inode_bytes_length _) hsl (by clear * - h4; omega) hL
  rw [← k2] at c1 c2 c3 c4
  obtain ⟨s1, s2⟩ := set_entry_slots (block f.data drs) m (new_entry name n) hbld hm
  refine ⟨k1, c1, ?_, c4, ?_, ?_⟩
  · rw [c3, bump_root_parse_direct _ _ (by rw [h_root]; clear * - h20; omega)]
    exact h_root
  · rw [c4]
    unfold entry_at
    rw [s1, new_entry_mod, new_entry_parse _ _ (Nat.mod_lt _ (by decide))]
  · intro j hj hne
    rw [c4]
    unfold entry_at
    rw [s2 j hj hne]

/-- The state after `k ≤ 62` inserts, of inode numbers that are not 0 modulo 2^32, into a
directory block in which exactly the slots 0 and 1 are occupied: every insert returned 0, the
slots below `2 + k` are occupied, slot `2 + j` holding the inode number of insert `j`
(modulo 2^32), and the slots from `2 + k` on are free. -/
theorem inserts_inv (f : FILE) (sb : superblock_t) (name : Nat → List Nat)
    (num time : Nat → Nat) (drs : Nat)
    (h_its : sb.inode_table_start = 3) (hL : (drs + 1) * 4096 ≤ f.data.length)
    (h4 : 4 ≤ drs) (h20 : drs < 2 ^ 20)
    (h_root : (inode_t.parse ((f.data.drop 12288).take 128)).direct.getD 0 0 = drs)
    (h0 : (entry_at (block f.data drs) 0).inode_no ≠ 0)
    (h1 : (entry_at (block f.data drs) 1).inode_no ≠ 0)
    (hrest : ∀ j, 2 ≤ j → j < 64 → (entry_at (block f.data drs) j).inode_no = 0)
    (hnum : ∀ j, num j % 2 ^ 32 ≠ 0) (k : Nat) (hk : k ≤ 62) :
    (inserts sb name num time f k).data.length = f.data.length ∧
    (inode_t.parse (((inserts sb name num time f k).data.drop 12288).take
      128)).direct.getD 0 0 = drs ∧
    (∀ j, j < k → (add_to_root_directory (inserts sb name num time f j) sb (name j) (num j)
      (time j)).1 = 0) ∧
    (∀ j, j < k →
      (entry_at (block (inserts sb name num time f k).data drs) (2 + j)).inode_no =
        num j % 2 ^ 32) ∧
    (∀ j, j < 2 + k →
      (entry_at (block (inserts sb name num time f k).data drs) j).inode_no ≠ 0) ∧
    (∀ j, 2 + k ≤ j → j < 64 →
      (entry_at (block (inserts sb name num time f k).data drs) j).inode_no = 0) := by
  induction k with
  | zero =>
    refine ⟨rfl, h_root, ?_, ?_, ?_, hrest⟩
    · intro j hj; omega
    · intro j hj; omega
    · intro j hj
      rcases Nat.eq_zero_or_pos j with h | h
      · rw [h]; exact h0
      · have : j = 1 := by omega
        rw [this]; exact h1
  | succ k ih =>
    obtain ⟨a1, a2, a3, a4, a5, a6⟩ := ih (by omega)
    obtain ⟨b1, b2, b3, _, b5, b6⟩ := insert_step (inserts sb name num time f k) sb (name k)
      (num k) (time k) drs (2 + k) h_its (by rw [a1]; exact hL) h4 h20 a2 (by omega) a5
      (a6 (2 + k) (le_refl _) (by omega))
    show (add_to_root_directory (inserts sb name num time f k) sb (name k) (num k)
        (time k)).2.data.length = _ ∧ _
    refine ⟨by rw [b2, a1], b3, ?_, ?_, ?_, ?_⟩
    · intro j hj
      rcases Nat.lt_or_ge j k with h | h
      · exact a3 j h
      · have : j = k := by omega
        rw [this]; exact b1
    · intro j hj
      show (entry_at (block (add_to_root_directory (inserts sb name num time f k) sb (name k)
        (num k) (time k)).2.data drs) (2 + j)).inode_no = _
      rcases Nat.lt_or_ge j k with h | h
      · rw [b6 (2 + j) (by omega) (by omega)]
        exact a4 j h
      · have : j = k := by omega
        rw [this]; exact b5
    · intro j hj
      show (entry_at (block (add_to_root_directory (inserts sb name num time f k) sb (name k)
        (num k) (time k)).2.data drs) j).inode_no ≠ 0
      by_cases hjk : j = 2 + k
      · rw [hjk, b5]
        exact hnum k
      · rw [b6 j (by omega) hjk]
        exact a5 j (by omega)
    · intro j hj hj'
      show (entry_at (block (add_to_root_directory (inserts sb name num time f k) sb (name k)
        (num k) (time k)).2.data drs) j).inode_no = 0
      rw [b6 j hj' (by omega)]
      exact a6 j (by omega) hj'

/-- C11: (i) on a stream whose root inode and directory block `d` (the block the function
reads through `direct[0]`, which is block `direct[0]` of the image when `direct[0] < 2^20`)
can be read, `add_to_root_directory` returns -1 exactly when all 64 slots of `d` are
occupied, it then writes nothing, and it returns 0 otherwise; (ii) from a freshly formatted
image (left by a run of the formatter that finishes), in any sequence of inserts of inode
numbers that are not 0 modulo 2^32 (the entry stores the number modulo 2^32, and 0 marks a
free slot), the first 62 return 0, insert `k` filling slot `2 + k`, and the 63rd returns -1
and leaves the image as it is. -/
theorem add_to_root_directory_capacity :
    (∀ (img : FILE) (sb : superblock_t) (filename : List Nat) (n t : Nat) (root : inode_t)
      (d : List Nat),
      inode_offset sb ROOT_INO < 2 ^ 63 →
      ((img.data.drop (inode_offset sb ROOT_INO)).take 128).length = 128 →
      root = inode_t.parse ((img.data.drop (inode_offset sb ROOT_INO)).take 128) →
      d = (img.data.drop (dir_offset root)).take BS → d.length = 4096 →
      ((add_to_root_directory img sb filename n t).1 = -1 ↔
        ∀ j, j < 64 → (entry_at d j).inode_no ≠ 0) ∧
      ((add_to_root_directory img sb filename n t).1 = -1 →
        (add_to_root_directory img sb filename n t).2.data = img.data) ∧
      ((add_to_root_directory img sb filename n t).1 ≠ -1 →
        (add_to_root_directory img sb filename n t).1 = 0) ∧
      (root.direct.getD 0 0 < 2 ^ 20 → d = block img.data (root.direct.getD 0 0))) ∧
    (∀ (size_kib inodes : Nat) (now : Nat → Nat) (adjacent : List Nat)
      (name : Nat → List Nat) (num time : Nat → Nat),
      180 ≤ size_kib → size_kib ≤ 4096 → size_kib % 4 = 0 → 128 ≤ inodes → inodes ≤ 512 →
      3976 ≤ adjacent.length → (∀ j, num j % 2 ^ 32 ≠ 0) →
      ∃ img sb, mkfs_builder size_kib inodes now adjacent = .finished img ∧
        sb = superblock_t.parse (img.take 116) ∧
        (∀ k, k < 62 →
          (add_to_root_directory (inserts sb name num time ⟨img, 0⟩ k) sb (name k) (num k)
            (time k)).1 = 0 ∧
          (entry_at (block (inserts sb name num time ⟨img, 0⟩ (k + 1)).data
            sb.data_region_start) (2 + k)).inode_no = num k % 2 ^ 32 ∧
          (entry_at (block (inserts sb name num time ⟨img, 0⟩ 62).data
            sb.data_region_start) (2 + k)).inode_no = num k % 2 ^ 32) ∧
        (∀ j, j < 64 → (entry_at (block (inserts sb name num time ⟨img, 0⟩ 62).data
          sb.data_region_start) j).inode_no ≠ 0) ∧
        (add_to_root_directory (inserts sb name num time ⟨img, 0⟩ 62) sb (name 62) (num 62)
          (time 62)).1 = -1 ∧
        (inserts sb name num time ⟨img, 0⟩ 63).data =
          (inserts sb name num time ⟨img, 0⟩ 62).data) := by
  constructor
  · intro img sb filename n t root d hoff hr hroot hd hlen
    have hblk : root.direct.getD 0 0 < 2 ^ 20 → d = block img.data (root.direct.getD 0 0) := by
      intro h20
      have hdo : dir_offset root = root.direct.getD 0 0 * BS := by
        unfold dir_offset
        rw [BS_eq]
        exact Nat.mod_eq_of_lt (by omega)
      rw [hd, hdo]
      rfl
    rcases add_to_root_directory_cases img sb filename n t root d hoff hr hroot hd hlen with
      ⟨hfull, e1, e2⟩ | ⟨i, i1, i2, _, e1, _⟩
    · exact ⟨⟨fun _ => hfull, fun _ => e1⟩, fun _ => e2, fun h => absurd e1 h, hblk⟩
    · refine ⟨⟨?_, ?_⟩, ?_, fun _ => e1, hblk⟩
      · intro h; rw [e1] at h; cases h
      · intro h; exact absurd i2 (h i i1)
      · intro h; rw [e1] at h; cases h
  · intro size_kib inodes now adjacent name num time h1 h2 h3 h4 h5 h6 hnum
    have hv := fresh_valid size_kib inodes now adjacent h1 h2 h4 h5
    obtain ⟨sb, drs, drb, ic, hsb, _, _, _, h_its, _, h_drs, _, _, _, b3, b4, _, b6, h_len, _,
      h_root, _, _, hrd⟩ := valid_image_facts _ hv
    have hrd2 := fresh_root_dir_block size_kib inodes now adjacent h1 h2 h5
    rw [hrd] at hrd2
    obtain ⟨d0, _, d1, _, dr⟩ := fresh_dir size_kib inodes now adjacent h1 h2 h4 h5
    rw [← hrd2] at d0 d1 dr
    have hL : (drs + 1) * 4096 ≤
        (⟨(fresh_blocks size_kib inodes now adjacent).flatten, 0⟩ : FILE).data.length := by
      show (drs + 1) * 4096 ≤ (fresh_blocks size_kib inodes now adjacent).flatten.length
      rw [h_len]; clear * - b4; omega
    have inv := inserts_inv ⟨(fresh_blocks size_kib inodes now adjacent).flatten, 0⟩ sb name
      num time drs h_its hL b3 (by clear * - b4 b6; omega) h_root
      (by rw [d0]; decide) (by rw [d1]; decide) dr hnum
    refine ⟨_, _, mkfs_builder_eq size_kib inodes now adjacent h1 h2 h3 h4 h5 h6, rfl, ?_⟩
    rw [hsb, h_drs]
    obtain ⟨a1, a2, a3, a4, a5, _⟩ := inv 62 (le_refl _)
    have hfull : ∀ j, j < 64 → (entry_at (block (inserts sb name num time
        ⟨(fresh_blocks size_kib inodes now adjacent).flatten, 0⟩ 62).data drs) j).inode_no ≠
        0 := fun j hj => a5 j (by omega)
    have hro : inode_offset sb ROOT_INO = 12288 :=
      inode_offset_of sb 1 h_its (by decide) (by decide)
    have hdo : dir_offset (inode_t.parse (((inserts sb name num time
        ⟨(fresh_blocks size_kib inodes now adjacent).flatten, 0⟩ 62).data.drop 12288).take
        128)) = drs * 4096 := by
      unfold dir_offset
      rw [a2, BS_eq]
      exact Nat.mod_eq_of_lt (by clear * - b4 b6; omega)
    have hr5 : (((inserts sb name num time
        ⟨(fresh_blocks size_kib inodes now adjacent).flatten, 0⟩ 62).data.drop 12288).take
        128).length = 128 := by
      rw [List.length_take, List.length_drop, a1]
      clear * - hL b3
      omega
    obtain ⟨f1, f2⟩ := add_to_root_directory_full (inserts sb name num time
      ⟨(fresh_blocks size_kib inodes now adjacent).flatten, 0⟩ 62) sb (name 62) (num 62)
      (time 62) _ _ (by rw [hro]; decide) (by rw [hro]; exact hr5) (by rw [hro])
      (by rw [hdo, BS_eq]; rfl) hfull
    refine ⟨?_, hfull, f1, f2⟩
    intro k hk
    refine ⟨a3 k hk, ?_, a4 k hk⟩
    exact (inv (k + 1) (by omega)).2.2.2.1 k (by omega)

theorem add_to_root_directory_capacity_witness :
    ∃ img sb, mkfs_builder 184 128 (fun _ => 0) zero_stack = .finished img ∧
      sb = superblock_t.parse (img.take 116) ∧
      (add_to_root_directory (inserts sb (fun _ => [102]) (fun j => j % 64 + 2) (fun _ => 0)
        ⟨img, 0⟩ 61) sb [102] 63 0).1 = 0 ∧
      (add_to_root_directory (inserts sb (fun _ => [102]) (fun j => j % 64 + 2) (fun _ => 0)
        ⟨img, 0⟩ 62) sb [102] 64 0).1 = -1 := by
  obtain ⟨img, sb, a1, a2, a3, _, a4, _⟩ := add_to_root_directory_capacity.2 184 128
    (fun _ => 0) zero_stack (fun _ => [102]) (fun j => j % 64 + 2) (fun _ => 0) (by decide)
    (by decide) (by decide) (by decide) (by decide) zero_stack_length (fun j => by
      show (j % 64 + 2) % 2 ^ 32 ≠ 0
      omega)
  exact ⟨img, sb, a1, a2, (a3 61 (by decide)).1, a4⟩

/-! ## An image without a free data block -/

theorem tiny_blocks : ∀ b ∈ [block_of tiny_sb.bytes, 1 :: List.replicate (BS - 1) 0,
    1 :: List.replicate (BS - 1) 0, block_of (sample_root 4 2 128).bytes,
    block_of (dot_entry.bytes ++ dotdot_entry.bytes)], b.length = BS := by
  intro b hb
  simp only [List.mem_cons, List.mem_singleton, List.not_mem_nil, or_false] at hb
  rcases hb with h | h | h | h | h <;> rw [h]
  · exact block_of_length _
  · exact bitmap_block_length
  · exact bitmap_block_length
  · exact block_of_length _
  · exact block_of_length _

theorem tiny_block_1 : block tiny_image 1 = 1 :: List.replicate (BS - 1) 0 := by
  unfold tiny_image
  rw [block_flatten_get _ tiny_blocks 1 (by decide)]
  rfl

theorem tiny_block_2 : block tiny_image 2 = 1 :: List.replicate (BS - 1) 0 := by
  unfold tiny_image
  rw [block_flatten_get _ tiny_blocks 2 (by decide)]
  rfl

theorem tiny_block_3 : block tiny_image 3 = block_of (sample_root 4 2 128).bytes := by
  unfold tiny_image
  rw [block_flatten_get _ tiny_blocks 3 (by decide)]
  rfl

theorem tiny_block_4 : block tiny_image 4 = block_of (dot_entry.bytes ++ dotdot_entry.bytes) := by
  unfold tiny_image
  rw [block_flatten_get _ tiny_blocks 4 (by decide)]
  rfl

theorem tiny_length : tiny_image.length = 5 * 4096 := by
  unfold tiny_image
  rw [flatten_length_of _ tiny_blocks, BS_eq]
  rfl

theorem tiny_sb_parse : superblock_t.parse (tiny_image.take 116) = tiny_sb := by
  have e : tiny_image.take 116 = tiny_sb.bytes := by
    unfold tiny_image
    rw [List.flatten_cons]
    exact take_block_of _ _ 116 (superblock_bytes_length _) (by rw [BS_eq]; decide)
  rw [e, superblock_parse_bytes]
  rfl

theorem tiny_root : (tiny_image.drop 12288).take 128 = (sample_root 4 2 128).bytes := by
  have hb := tiny_block_3
  unfold block at hb
  rw [BS_eq] at hb
  have e : (tiny_image.drop 12288).take 128 =
      ((tiny_image.drop (3 * 4096)).take 4096).take 128 := by
    rw [List.take_take]; rfl
  rw [e, hb]
  exact block_of_take _ 128 (inode_bytes_length _) (by rw [BS_eq]; decide)

theorem tiny_valid : valid_image tiny_image := by
  have h1 := tiny_block_1
  have h2 := tiny_block_2
  constructor
  · rw [tiny_sb_parse]; rfl
  · rw [tiny_sb_parse]; rfl
  · rw [tiny_sb_parse]; rfl
  · rw [tiny_sb_parse]; rfl
  · rw [tiny_sb_parse]; decide
  · rw [tiny_sb_parse]; decide
  · rw [tiny_sb_parse]; decide
  · rw [tiny_sb_parse]; decide
  · rw [tiny_sb_parse]; decide
  · rw [tiny_sb_parse, tiny_length]; rfl
  · rw [tiny_sb_parse, tiny_root, inode_parse_bytes]
    rfl
  · rw [h1, get_bit_first]; rfl
  · rw [h2, get_bit_first]; rfl

/-- The directory block the formatter writes: `.` and `..`, then free slots. -/
theorem dot_dir :
    (entry_at (block_of (dot_entry.bytes ++ dotdot_entry.bytes)) 0).inode_no = 1 ∧
    (entry_at (block_of (dot_entry.bytes ++ dotdot_entry.bytes)) 0).name =
      46 :: List.replicate 57 0 ∧
    (entry_at (block_of (dot_entry.bytes ++ dotdot_entry.bytes)) 1).inode_no = 1 ∧
    (entry_at (block_of (dot_entry.bytes ++ dotdot_entry.bytes)) 1).name =
      46 :: 46 :: List.replicate 56 0 ∧
    ∀ i, 2 ≤ i → i < 64 →
      (entry_at (block_of (dot_entry.bytes ++ dotdot_entry.bytes)) i).inode_no = 0 := by
  unfold entry_at
  rw [dir_slot_0, dir_slot_1]
  refine ⟨by decide, by decide, by decide, by decide, ?_⟩
  intro i hi hi'
  have hz := slot_zero (dot_entry.bytes ++ dotdot_entry.bytes) BS i
    (by have : (dot_entry.bytes ++ dotdot_entry.bytes).length = 128 := by
          simp [dirent_bytes_length]
        omega)
    (by rw [BS_eq]; omega)
  unfold block_of
  rw [hz]
  decide

/-- In the directory block the formatter writes no slot matches a name whose final segment
is neither `.` nor `..`. -/
theorem dot_dir_no_match (file_name : List Nat) (hdot : basename file_name ≠ [46])
    (hdotdot : basename file_name ≠ [46, 46]) (i : Nat) (hi : i < 64) :
    ¬ slot_matches (block_of (dot_entry.bytes ++ dotdot_entry.bytes))
      (derived_name file_name) i := by
  obtain ⟨_, n0, _, n1, dr⟩ := dot_dir
  have hnz := basename_nonzero file_name
  intro hm
  rcases Nat.lt_or_ge i 2 with h2 | h2
  · rcases Nat.eq_zero_or_pos i with h0 | h0
    · subst h0
      have := hm.2
      rw [n0] at this
      unfold derived_name at this
      rw [strncmp_eq_strncpy _ _ hnz (by decide) (fun h => hdot (by rw [← h]; rfl))] at this
      cases this
    · have : i = 1 := by omega
      subst this
      have := hm.2
      rw [n1] at this
      unfold derived_name at this
      rw [strncmp_eq_strncpy _ _ hnz (by decide) (fun h => hdotdot (by rw [← h]; rfl))] at this
      cases this
  · exact hm.1 (dr i h2 hi)

theorem tiny_root_dir : root_dir_block tiny_image =
    block_of (dot_entry.bytes ++ dotdot_entry.bytes) := by
  unfold root_dir_block
  rw [tiny_sb_parse]
  exact tiny_block_4

theorem adder_rejects_duplicate_witness :
    ∃ img, mkfs_builder 184 128 (fun _ => 0) zero_stack = .finished img ∧
      mkfs_adder img [46] [7] 0 (fun _ => 0) = (1, some img) := by
  obtain ⟨d0, n0, _⟩ := fresh_dir 184 128 (fun _ => 0) zero_stack (by decide) (by decide)
    (by decide) (by decide)
  have hrd := fresh_root_dir_block 184 128 (fun _ => 0) zero_stack (by decide) (by decide)
    (by decide)
  exact ⟨_, mkfs_builder_eq 184 128 (fun _ => 0) zero_stack (by decide) (by decide)
      (by decide) (by decide) (by decide) zero_stack_length,
    (adder_rejects_duplicate _ [46] [7] 0 (fun _ => 0)
      (fresh_valid 184 128 (fun _ => 0) zero_stack (by decide) (by decide) (by decide)
        (by decide))
      0 (by decide) (by rw [hrd, d0]; decide) (by rw [hrd, n0]; decide)).2.2 (by decide)⟩

theorem adder_content_roundtrip_witness :
    ∃ img out n ino, mkfs_builder 184 128 (fun _ => 0) zero_stack = .finished img ∧
      mkfs_adder img [102] (List.replicate 5000 7) 0 (fun _ => 0) = (0, some out) ∧
      ino = inode_t.parse
        ((out.drop (inode_offset (superblock_t.parse (img.take 116)) n)).take 128) ∧
      ino.size_bytes = 5000 ∧
      (((List.range 2).map (fun k => block out (ino.direct.getD k 0))).flatten).take 5000 =
        List.replicate 5000 7 := by
  obtain ⟨out, _, r1, _⟩ := adder_on_fresh 184 128 (fun _ => 0) zero_stack [102]
    (List.replicate 5000 7) 0 (fun _ => 0) (by decide) (by decide) (by decide) (by decide)
    (by rw [List.length_replicate]; decide) (by decide) (by decide)
  obtain ⟨n, ino, sb, hsb, hino, _, _, _, _, _, a1, _, _, _, _, a2, _⟩ :=
    adder_content_roundtrip _ [102] (List.replicate 5000 7) 0 (fun _ => 0) out
      (fresh_valid 184 128 (fun _ => 0) zero_stack (by decide) (by decide) (by decide)
        (by decide))
      (by rw [List.length_replicate]; decide) r1
  rw [List.length_replicate] at a1 a2
  rw [hsb] at hino
  exact ⟨_, out, n, ino, mkfs_builder_eq 184 128 (fun _ => 0) zero_stack (by decide) (by decide)
      (by decide) (by decide) (by decide) zero_stack_length, r1, hino, a1, a2⟩

theorem reachable_names_unique_witness :
    ∃ img out, mkfs_builder 184 128 (fun _ => 0) zero_stack = .finished img ∧
      mkfs_adder img [102] (List.replicate 5000 7) 0 (fun _ => 0) = (0, some out) ∧
      names_unique (root_dir_block out) := by
  obtain ⟨out, _, r1, _⟩ := adder_on_fresh 184 128 (fun _ => 0) zero_stack [102]
    (List.replicate 5000 7) 0 (fun _ => 0) (by decide) (by decide) (by decide) (by decide)
    (by rw [List.length_replicate]; decide) (by decide) (by decide)
  have hb := mkfs_builder_eq 184 128 (fun _ => 0) zero_stack (by decide) (by decide)
      (by decide) (by decide) (by decide) zero_stack_length
  exact ⟨_, out, hb, r1, (reachable_names_unique out
    (reachable.add _ [102] (List.replicate 5000 7) 0 (fun _ => 0) 0 out
      (reachable.fresh 184 128 (fun _ => 0) zero_stack _ hb)
      (by rw [List.length_replicate]; decide) r1)).1⟩

/-! ## The frame of a successful run -/

theorem getD_of_read (a b : List Nat) (off n i : Nat)
    (h : (a.drop off).take n = (b.drop off).take n) (h1 : off ≤ i) (h2 : i < off + n) :
    a.getD i 0 = b.getD i 0 := by
  have key : ∀ l : List Nat, l.getD i 0 = ((l.drop off).take n).getD (i - off) 0 := by
    intro l
    rw [List.getD_eq_getElem?_getD, List.getD_eq_getElem?_getD, List.getElem?_take,
      if_pos (by omega), List.getElem?_drop]
    congr 2
    omega
  rw [key a, key b, h]

/-- What a successful run of the inserter on a valid image leaves as it was: block 0, the
inode table but the slots of the root inode and of the inode it claimed, and every block
behind the root directory block whose bit in the data bitmap it did not set. -/
theorem adder_success_frame (img file_name content : List Nat) (st_mtime : Nat)
    (now : Nat → Nat) (out : List Nat) (sb : superblock_t) (drs drb ic : Nat)
    (hv : valid_image img) (hs : content.length ≤ 49152)
    (h_sb : superblock_t.parse (img.take 116) = sb) (h_ic : sb.inode_count = ic)
    (h_drs : sb.data_region_start = drs) (h_drb : sb.data_region_blocks = drb)
    (hrun : mkfs_adder img file_name content st_mtime now = (0, some out)) :
    ∃ p, 1 ≤ p ∧ p < ic ∧ p < 32768 ∧ get_bit (block img 1) p = false ∧
      block out 1 = set_bit (block img 1) p ∧
      out.length = img.length ∧
      (∀ off n, off + n ≤ 4096 ∨ (12416 ≤ off ∧ off + n ≤ drs * 4096 ∧
          (off + n ≤ 12288 + p * 128 ∨ 12288 + p * 128 + 128 ≤ off)) →
        (out.drop off).take n = (img.drop off).take n) ∧
      (∀ b, drs < b →
        (∀ q, get_bit (block img 2) q = false → get_bit (block out 2) q = true →
          b ≠ drs + q) →
        block out b = block img b) := by
  obtain ⟨sb', drs', drb', ic', hsb, h_magic, h_ibs, h_dbs, h_its, h_ic', h_drs', h_drb', b1,
    b2, b3, b4, b5, b6, h_len, h_sbl, h_root, hu1, hu2, hrd⟩ := valid_image_facts img hv
  rw [h_sb] at hsb
  subst hsb
  rw [h_ic] at h_ic'
  rw [h_drs] at h_drs'
  rw [h_drb] at h_drb'
  subst h_ic' h_drs' h_drb'
  have hbld : (block img drs).length = 4096 :=
    block_length img drs (by rw [h_len]; clear * - b4; omega)
  rcases adder_run_valid img file_name content st_mtime now sb drs drb ic hv hs h_sb h_ic
    h_drs h_drb with ⟨_, e⟩ | ⟨hnone, ⟨_, e⟩ | ⟨p, p0, p1, p2, p3, p4, hcase⟩⟩
  · rw [e] at hrun; cases (Prod.mk.inj hrun).1
  · rw [e] at hrun; cases (Prod.mk.inj hrun).1
  rcases hcase with ⟨o, _, e, _⟩ |
    ⟨dbs, d5, _, a2, a3, a4, a5, t1, t2, t3, t4, t5, t6, t7, hlast⟩
  · rw [e] at hrun; cases (Prod.mk.inj hrun).1
  rcases hlast with ⟨_, e⟩ | ⟨i, i1, i2, i3, e⟩
  · rw [e] at hrun; cases (Prod.mk.inj hrun).1
  rw [e] at hrun
  have hout := Option.some.inj (Prod.mk.inj hrun).2
  clear hrun e
  have hsl := set_entry_length (block img drs) i
    (new_entry (derived_name file_name) (p + 1)) hbld i1
  obtain ⟨c1, c2, c3, c4⟩ := commit_reads d5
    (bump_root (inode_t.parse ((img.drop 12288).take 128)) (now 2)).bytes
    (set_entry (block img drs) i (new_entry (derived_name file_name) (p + 1))) drs
    (inode_bytes_length _) hsl (by clear * - b2 b1; omega)
    (by rw [t1, h_len]; clear * - b4; omega)
  rw [hout] at c1 c2 c3 c4
  clear hout
  generalize (content.length + 4095) / 4096 = bn at *
  have hob1 : block out 1 = block d5 1 := by
    unfold block
    rw [BS_eq]
    exact c2 _ _ (Or.inl (by decide))
  have hob2 : block out 2 = block d5 2 := by
    unfold block
    rw [BS_eq]
    exact c2 _ _ (Or.inl (by decide))
  refine ⟨p, p0, p1, p2, p3, by rw [hob1, t3], by rw [c1, t1], ?_, ?_⟩
  · intro off n h
    rcases h with h | ⟨h1, h2, h3⟩
    · rw [c2 off n (Or.inl (by clear * - h; omega)), t2 off n (Or.inl h)]
    · rw [c2 off n (Or.inr (Or.inl ⟨h1, h2⟩)),
        t2 off n (Or.inr ⟨by clear * - h1; omega, by clear * - h2; omega, h3⟩)]
  · intro b hb hnew
    have h1 : block out b = block d5 b := by
      unfold block
      rw [BS_eq]
      exact c2 _ _ (Or.inr (Or.inr (by clear * - hb; omega)))
    rw [h1]
    apply t7 b hb
    intro k hk hkb
    obtain ⟨q, q1, q2, q3, q4⟩ := a4 k hk
    refine hnew q q4 ?_ (by rw [← hkb, q3])
    rw [hob2]
    exact (t4 q).mpr (Or.inr ⟨k, hk, q3⟩)

/-- C21: a successful run of the inserter on an image reachable from a freshly formatted one
(the file added having a size in the range of `off_t`) leaves an image of the same length,
in which exactly one bit of the inode bitmap is newly set, that of the new inode `n`, and
in which a byte differs from the input only if it lies in the inode bitmap block, in the
data bitmap block, in the slot of the root inode or of the inode `n` in the inode table, in
a data block whose bit in the data bitmap is newly set, or in the root directory block (the
block `data_region_start`, to which `direct[0]` of the root inode points). In particular
block 0, the slot of every inode other than the root inode and `n`, and every data block
other than the root directory block whose bit was set in the input are unchanged. -/
theorem adder_frame (img file_name content : List Nat) (st_mtime : Nat) (now : Nat → Nat)
    (out : List Nat) (h : reachable img) (hs : content.length < 2 ^ 63)
    (hrun : mkfs_adder img file_name content st_mtime now = (0, some out)) :
    ∃ sb n, sb = superblock_t.parse (img.take 116) ∧
      out.length = img.length ∧
      2 ≤ n ∧ n ≤ sb.inode_count ∧
      (∀ q, (get_bit (block img sb.inode_bitmap_start) q = false ∧
        get_bit (block out sb.inode_bitmap_start) q = true) ↔ q + 1 = n) ∧
      (inode_t.parse ((img.drop (inode_offset sb ROOT_INO)).take INODE_SIZE)).direct.getD 0 0 =
        sb.data_region_start ∧
      (∀ i, i / BS ≠ sb.inode_bitmap_start → i / BS ≠ sb.data_bitmap_start →
        ¬ (inode_offset sb ROOT_INO ≤ i ∧ i < inode_offset sb ROOT_INO + INODE_SIZE) →
        ¬ (inode_offset sb n ≤ i ∧ i < inode_offset sb n + INODE_SIZE) →
        (∀ q, get_bit (block img sb.data_bitmap_start) q = false →
          get_bit (block out sb.data_bitmap_start) q = true →
          i / BS ≠ sb.data_region_start + q) →
        i / BS ≠ sb.data_region_start →
        out.getD i 0 = img.getD i 0) ∧
      block out 0 = block img 0 ∧
      (∀ m, 1 ≤ m → m ≤ sb.inode_count → m ≠ ROOT_INO → m ≠ n →
        (out.drop (inode_offset sb m)).take INODE_SIZE =
          (img.drop (inode_offset sb m)).take INODE_SIZE) ∧
      (∀ q, q ≠ 0 → get_bit (block img sb.data_bitmap_start) q = true →
        block out (sb.data_region_start + q) = block img (sb.data_region_start + q)) := by
  have hv := reachable_valid img h
  obtain ⟨sb, drs, drb, ic, hsb, h_magic, h_ibs, h_dbs, h_its, h_ic, h_drs, h_drb, b1,
    b2, b3, b4, b5, b6, h_len, h_sbl, h_root, hu1, hu2, hrd⟩ := valid_image_facts img hv
  have hs' : content.length ≤ 49152 := by
    rcases Nat.lt_or_ge 49152 content.length with hgt | hle
    · rw [adder_too_large img file_name content st_mtime now hgt hs] at hrun
      cases (Prod.mk.inj hrun).1
    · exact hle
  obtain ⟨p, p0, p1, p2, p3, f1, f2, f3, f4⟩ := adder_success_frame img file_name content
    st_mtime now out sb drs drb ic hv hs' hsb h_ic h_drs h_drb hrun
  have hbl1 : (block img 1).length = 4096 :=
    block_length img 1 (by rw [h_len]; clear * - b3; omega)
  have hic32 : ic < 2 ^ 32 := by clear * - b2 b6; omega
  have hio : ∀ m, 1 ≤ m → m ≤ ic → inode_offset sb m = 12288 + (m - 1) * 128 :=
    fun m h1 h2 => inode_offset_of sb m h_its h1 (by clear * - h2 hic32; omega)
  have hro : inode_offset sb ROOT_INO = 12288 := hio 1 (Nat.le_refl 1) b1
  have hno : inode_offset sb (p + 1) = 12288 + p * 128 := by
    rw [hio (p + 1) (by clear * -; omega) (by clear * - p1; omega), Nat.add_sub_cancel]
  have hIS : INODE_SIZE = 128 := rfl
  refine ⟨sb, p + 1, hsb.symm, f2, by clear * - p0; omega, by rw [h_ic]; clear * - p1; omega,
    ?_, ?_, ?_, ?_, ?_, ?_⟩
  · intro q
    rw [h_ibs, f1, get_bit_set_bit _ _ _ (by rw [hbl1]; clear * - p2; omega)]
    constructor
    · rintro ⟨q1, q2⟩
      rw [q1] at q2
      simp at q2
      rw [q2]
    · intro hq
      have hq' : q = p := by clear * - hq; omega
      subst hq'
      exact ⟨p3, by simp⟩
  · rw [hro, hIS, h_drs]
    exact h_root
  · intro i e1 e2 e3 e4 e5 e6
    rw [h_ibs, BS_eq] at e1
    rw [h_dbs, BS_eq] at e2
    rw [hro, hIS] at e3
    rw [hno, hIS] at e4
    rw [h_dbs, h_drs, BS_eq] at e5
    rw [h_drs, BS_eq] at e6
    rcases Nat.lt_or_ge i 4096 with c0 | c0
    · exact getD_of_read out img i 1 i (f3 i 1 (Or.inl (by clear * - c0; omega)))
        (Nat.le_refl i) (by clear * -; omega)
    rcases Nat.lt_or_ge i 12288 with c1 | c1
    · exfalso
      clear * - c0 c1 e1 e2
      omega
    rcases Nat.lt_or_ge i (drs * 4096) with c2 | c2
    · exact getD_of_read out img i 1 i
        (f3 i 1 (Or.inr ⟨by clear * - c1 e3; omega, by clear * - c2; omega,
          by clear * - e4; omega⟩))
        (Nat.le_refl i) (by clear * -; omega)
    rcases Nat.lt_or_ge i ((drs + 1) * 4096) with c3 | c3
    · exfalso
      clear * - c2 c3 e6
      omega
    have hb : drs < i / 4096 := by clear * - c3; omega
    have hblk := f4 (i / 4096) hb (fun q q1 q2 => e5 q q1 q2)
    unfold block at hblk
    rw [BS_eq] at hblk
    exact getD_of_read out img (i / 4096 * 4096) 4096 i hblk (by clear * -; omega)
      (by clear * -; omega)
  · unfold block
    rw [BS_eq]
    exact f3 _ _ (Or.inl (by decide))
  · intro m m1 m2 m3 m4
    rw [h_ic] at m2
    rw [hio m m1 m2, hIS]
    have m3' : m ≠ 1 := m3
    exact f3 _ _ (Or.inr ⟨by clear * - m1 m3'; omega, by clear * - m1 m2 b2; omega,
      by clear * - m1 m4; omega⟩)
  · intro q q0 q1
    rw [h_dbs] at q1
    rw [h_drs]
    apply f4 _ (by clear * - q0; omega)
    intro q' h1 h2 he
    have : q' = q := by clear * - he; omega
    rw [this, q1] at h1
    cases h1

theorem adder_frame_witness :
    ∃ img out, mkfs_builder 184 128 (fun _ => 0) zero_stack = .finished img ∧
      mkfs_adder img [102] (List.replicate 5000 7) 0 (fun _ => 0) = (0, some out) ∧
      out.length = img.length ∧ block out 0 = block img 0 := by
  obtain ⟨out, _, r1, _⟩ := adder_on_fresh 184 128 (fun _ => 0) zero_stack [102]
    (List.replicate 5000 7) 0 (fun _ => 0) (by decide) (by decide) (by decide) (by decide)
    (by rw [List.length_replicate]; decide) (by decide) (by decide)
  have hb := mkfs_builder_eq 184 128 (fun _ => 0) zero_stack (by decide) (by decide)
      (by decide) (by decide) (by decide) zero_stack_length
  obtain ⟨_, _, _, a1, _, _, _, _, _, a2, _⟩ := adder_frame _ [102] (List.replicate 5000 7) 0
    (fun _ => 0) out (reachable.fresh 184 128 (fun _ => 0) zero_stack _ hb)
    (by rw [List.length_replicate]; decide) r1
  exact ⟨_, out, hb, r1, a1, a2⟩

/-! ## Lookup after insert -/

theorem le_value_lt (l : List Nat) (h : ∀ b ∈ l, b < 256) : le_value l < 256 ^ l.length := by
  induction l with
  | nil => exact Nat.lt_of_lt_of_le (by decide) (Nat.le_refl 1)
  | cons b bs ih =>
    have hb := h b (List.mem_cons_self _ _)
    have hv := ih (fun x hx => h x (List.mem_cons_of_mem _ hx))
    rw [le_value, List.length_cons, Nat.pow_succ]
    generalize 256 ^ bs.length = K at hv ⊢
    generalize le_value bs = v at hv ⊢
    omega

theorem parse_direct_lt (r : List Nat) (h : ∀ b ∈ r, b < 256) :
    (inode_t.parse r).direct.getD 0 0 < 2 ^ 32 := by
  show ((List.range 12).map (fun i => field r (44 + 4 * i) 4)).getD 0 0 < _
  rw [getD_map_range _ 0 (by decide)]
  unfold field
  have hv := le_value_lt ((r.drop (44 + 4 * 0)).take 4)
    (fun b hb => h b (List.mem_of_mem_drop (List.mem_of_mem_take hb)))
  have hl : ((r.drop (44 + 4 * 0)).take 4).length ≤ 4 := by
    rw [List.length_take]; omega
  exact Nat.lt_of_lt_of_le hv (Nat.pow_le_pow_right (by decide) hl)

theorem inode_offset_root (sb : superblock_t) :
    inode_offset sb ROOT_INO = sb.inode_table_start * 4096 % 2 ^ 64 := by
  unfold inode_offset
  rw [BS_eq]
  show (_ + 0) % 2 ^ 64 = _
  rw [Nat.add_zero, Nat.mod_mod]

theorem file_exists_in_root_short (img : FILE) (sb : superblock_t) (name : List Nat)
    (hoff : inode_offset sb ROOT_INO < 2 ^ 63)
    (hr : ((img.data.drop (inode_offset sb ROOT_INO)).take INODE_SIZE).length ≠ INODE_SIZE) :
    (file_exists_in_root img sb name).1 = -1 := by
  unfold file_exists_in_root
  generalize inode_offset sb ROOT_INO = off at *
  rw [fseek_ok img _ hoff]
  simp only [fread_eq]
  rw [if_pos hr]

theorem file_exists_in_root_find (img : FILE) (sb : superblock_t) (name : List Nat)
    (root : inode_t) (blk : List Nat)
    (hoff : inode_offset sb ROOT_INO < 2 ^ 63)
    (hr : ((img.data.drop (inode_offset sb ROOT_INO)).take INODE_SIZE).length = INODE_SIZE)
    (hroot : root = inode_t.parse ((img.data.drop (inode_offset sb ROOT_INO)).take INODE_SIZE))
    (h0 : root.direct.getD 0 0 ≠ 0)
    (hblk : blk = (img.data.drop (dir_offset root)).take BS) (hlen : blk.length = BS) :
    ((file_exists_in_root img sb name).1, (file_exists_in_root img sb name).2.1) =
      match find_name blk name (BS / 64) 0 with
      | some ino => (1, some ino)
      | none => (0, none) := by
  subst hroot
  subst hblk
  have key := file_exists_in_root_eq img sb name hoff hr
  rw [if_neg h0, if_neg (not_not.mpr hlen)] at key
  exact key

/-- The lookup loop gives the same result on two directory blocks whose slots agree on the
match test and, where it holds, on the inode number. -/
theorem find_name_congr (d d' name : List Nat) (fuel : Nat) :
    ∀ i, (∀ j, i ≤ j → j < i + fuel →
        (((entry_at d' j).inode_no ≠ 0 ∧ strncmp_eq (entry_at d' j).name name 58 = true) ↔
          ((entry_at d j).inode_no ≠ 0 ∧ strncmp_eq (entry_at d j).name name 58 = true)) ∧
        (((entry_at d j).inode_no ≠ 0 ∧ strncmp_eq (entry_at d j).name name 58 = true) →
          (entry_at d' j).inode_no = (entry_at d j).inode_no)) →
      find_name d' name fuel i = find_name d name fuel i := by
  induction fuel with
  | zero => intro i _; rfl
  | succ fuel ih =>
    intro i h
    obtain ⟨h1, h2⟩ := h i (Nat.le_refl i) (by omega)
    rw [find_name, find_name]
    by_cases hm : (entry_at d i).inode_no ≠ 0 ∧ strncmp_eq (entry_at d i).name name 58 = true
    · rw [if_pos hm, if_pos (h1.mpr hm), h2 hm]
    · rw [if_neg hm, if_neg (fun h' => hm (h1.mp h'))]
      exact ih (i + 1) (fun j hj hj' => h j (by omega) (by omega))

/-- The name field `add_to_root_directory` stores for a name of at most 57 non-zero bytes
matches exactly that name among the names of at most 57 non-zero bytes. -/
theorem stored_name_matches (name other : List Nat) (hlen : name.length ≤ 57)
    (hnz : ∀ b ∈ name, b ≠ 0) (holen : other.length ≤ 57) (honz : ∀ b ∈ other, b ≠ 0) :
    strncmp_eq (strncpy name 57 ++ [0]) other 58 = true ↔ name = other := by
  rw [strncmp_eq_iff, cstr_name name hnz, cstr_of_nonzero other honz,
    List.take_of_length_le hlen, List.take_of_length_le (by omega),
    List.take_of_length_le (by omega)]

/-- The image `add_to_root_directory` leaves when the slot of the root inode lies outside
the directory block: the root inode and the directory block read back as written. -/
theorem insert_reads (d rb nd : List Nat) (io doff : Nat) (hrb : rb.length = 128)
    (hnd : nd.length = 4096) (hio : io % 4096 = 0) (hdo : doff % 4096 = 0) (hne : doff ≠ io)
    (h1 : io + 128 ≤ d.length) (h2 : doff + 4096 ≤ d.length) :
    (pwrite (pwrite d io rb) doff nd).length = d.length ∧
    ((pwrite (pwrite d io rb) doff nd).drop io).take 128 = rb ∧
    ((pwrite (pwrite d io rb) doff nd).drop doff).take 4096 = nd := by
  have hl1 : (pwrite d io rb).length = d.length := pwrite_length _ _ _ (by rw [hrb]; exact h1)
  have hin : doff + nd.length ≤ (pwrite d io rb).length := by rw [hl1, hnd]; exact h2
  refine ⟨by rw [pwrite_length _ _ _ hin, hl1], ?_, ?_⟩
  · rw [read_pwrite_disjoint _ _ _ _ _ hin (by rw [hnd]; omega)]
    have := read_pwrite_same d io rb (by rw [hrb]; exact h1)
    rw [hrb] at this
    exact this
  · have := read_pwrite_same (pwrite d io rb) doff nd hin
    rw [hnd] at this
    exact this

/-- On a valid image the slot of the root inode can be sought and lies outside the root
directory block. -/
theorem valid_image_apart (img : List Nat) (hv : valid_image img) :
    inode_offset (superblock_t.parse (img.take 116)) ROOT_INO < 2 ^ 63 ∧
    dir_offset (inode_t.parse ((img.drop
      (inode_offset (superblock_t.parse (img.take 116)) ROOT_INO)).take INODE_SIZE)) ≠
      inode_offset (superblock_t.parse (img.take 116)) ROOT_INO := by
  obtain ⟨sb, drs, drb, ic, hsb, h_magic, h_ibs, h_dbs, h_its, h_ic, h_drs, h_drb, b1,
    b2, b3, b4, b5, b6, h_len, h_sbl, h_root, hu1, hu2, hrd⟩ := valid_image_facts img hv
  have hro : inode_offset sb ROOT_INO = 12288 :=
    inode_offset_of sb 1 h_its (by decide) (by decide)
  have hIS : INODE_SIZE = 128 := rfl
  rw [hsb, hro, hIS]
  refine ⟨by decide, ?_⟩
  unfold dir_offset
  rw [h_root, BS_eq]
  clear * - b3 b4 b6
  omega

/-- C22 (amended): take an image of bytes in which the slot of the root inode is at an
offset below 2^63 (so that `fseek` reaches it) and is not where the root directory block
starts (`direct[0] * BS` as the 32-bit product the functions compute), a name of at most 57
non-zero bytes for which `file_exists_in_root` returns 0 (which implies that the root inode
and the block are read and `direct[0]` is not 0), an empty slot in the directory block, and
`1 ≤ n < 2^32`. Then `add_to_root_directory` returns 0, after it `file_exists_in_root`
returns 1 for the name and stores `n`, and for every other name of at most 57 non-zero
bytes it returns and stores what it did before. The positions of the streams do not
matter. -/
theorem lookup_after_insert (d : List Nat) (sb : superblock_t) (name : List Nat)
    (n t p0 p1 p2 p3 : Nat)
    (hbytes : ∀ b ∈ d, b < 256)
    (hoff : inode_offset sb ROOT_INO < 2 ^ 63)
    (hapart : dir_offset (inode_t.parse
      ((d.drop (inode_offset sb ROOT_INO)).take INODE_SIZE)) ≠ inode_offset sb ROOT_INO)
    (hlen : name.length ≤ 57) (hnz : ∀ b ∈ name, b ≠ 0)
    (hn1 : 1 ≤ n) (hn2 : n < 2 ^ 32)
    (hlook : (file_exists_in_root ⟨d, p0⟩ sb name).1 = 0)
    (hempty : ∃ i, i < 64 ∧ (entry_at ((d.drop (dir_offset (inode_t.parse
      ((d.drop (inode_offset sb ROOT_INO)).take INODE_SIZE)))).take BS) i).inode_no = 0) :
    (add_to_root_directory ⟨d, p1⟩ sb name n t).1 = 0 ∧
    (file_exists_in_root ⟨(add_to_root_directory ⟨d, p1⟩ sb name n t).2.data, p2⟩ sb
      name).1 = 1 ∧
    (file_exists_in_root ⟨(add_to_root_directory ⟨d, p1⟩ sb name n t).2.data, p2⟩ sb
      name).2.1 = some n ∧
    ∀ other : List Nat, other.length ≤ 57 → (∀ b ∈ other, b ≠ 0) → other ≠ name →
      (file_exists_in_root ⟨(add_to_root_directory ⟨d, p1⟩ sb name n t).2.data, p2⟩ sb
        other).1 = (file_exists_in_root ⟨d, p3⟩ sb other).1 ∧
      (file_exists_in_root ⟨(add_to_root_directory ⟨d, p1⟩ sb name n t).2.data, p2⟩ sb
        other).2.1 = (file_exists_in_root ⟨d, p3⟩ sb other).2.1 := by
  have hIS : INODE_SIZE = 128 := rfl
  have hio4 : inode_offset sb ROOT_INO % 4096 = 0 := by
    rw [inode_offset_root]; omega
  generalize hio : inode_offset sb ROOT_INO = io at *
  have hr : ((d.drop io).take INODE_SIZE).length = INODE_SIZE := by
    apply Classical.byContradiction
    intro hne
    have := file_exists_in_root_short ⟨d, p0⟩ sb name (by rw [hio]; exact hoff)
      (by rw [hio]; exact hne)
    rw [hlook] at this
    exact absurd this (by decide)
  have hrootlt : (inode_t.parse ((d.drop io).take INODE_SIZE)).direct.getD 0 0 < 2 ^ 32 :=
    parse_direct_lt _ (fun b hb => hbytes b (List.mem_of_mem_drop (List.mem_of_mem_take hb)))
  have key := file_exists_in_root_eq ⟨d, p0⟩ sb name (by rw [hio]; exact hoff)
    (by rw [hio]; exact hr)
  rw [hio] at key
  simp only [] at key
  generalize hroot : inode_t.parse ((d.drop io).take INODE_SIZE) = root at *
  by_cases h0 : root.direct.getD 0 0 = 0
  · rw [if_pos h0] at key
    have := (Prod.mk.inj key).1
    rw [hlook] at this
    exact absurd this (by decide)
  rw [if_neg h0] at key
  have hdo4 : dir_offset root % 4096 = 0 := by
    unfold dir_offset
    rw [BS_eq]
    omega
  generalize hdo : dir_offset root = doff at *
  by_cases h1 : ((d.drop doff).take BS).length ≠ BS
  · rw [if_pos h1] at key
    have := (Prod.mk.inj key).1
    rw [hlook] at this
    exact absurd this (by decide)
  rw [if_neg h1] at key
  have hdl : ((d.drop doff).take BS).length = 4096 := not_not.mp h1
  clear h1
  generalize hblk : (d.drop doff).take BS = blk at *
  have hnone : find_name blk name (BS / 64) 0 = none := by
    cases hf : find_name blk name (BS / 64) 0 with
    | none => rfl
    | some ino =>
      rw [hf] at key
      have := (Prod.mk.inj key).1
      rw [hlook] at this
      exact absurd this (by decide)
  clear key
  have hnone' := (find_name_none blk name (BS / 64) 0).mp hnone
  have h64 : 0 + BS / 64 = 64 := rfl
  rw [h64] at hnone'
  have hin1 : io + 128 ≤ d.length := readable_inside d io 128 (by decide) hr
  have hin2 : doff + 4096 ≤ d.length := by
    have := readable_inside d doff 4096 (by decide) (by rw [← BS_eq, hblk, BS_eq]; exact hdl)
    exact this
  obtain ⟨i0, hi0, he0⟩ := hempty
  rcases add_to_root_directory_cases ⟨d, p1⟩ sb name n t root blk (by rw [hio]; exact hoff)
    (by rw [hio]; exact hr) (by rw [hio]; exact hroot.symm) (by rw [hdo]; exact hblk.symm)
    hdl with ⟨hall, _⟩ | ⟨i, i1, i2, i3, e1, e2⟩
  · exact absurd he0 (hall i0 hi0)
  rw [hio, hdo] at e2
  simp only [] at e2
  rw [e1, e2]
  clear e1 e2 i0 hi0 he0
  have hndl : (set_entry blk i (new_entry name n)).length = 4096 :=
    set_entry_length blk i _ hdl i1
  obtain ⟨w1, w2, w3⟩ := insert_reads d (bump_root root t).bytes
    (set_entry blk i (new_entry name n)) io doff (inode_bytes_length _) hndl hio4 hdo4
    hapart hin1 hin2
  have hslot_i : entry_at (set_entry blk i (new_entry name n)) i =
      { inode_no := n, type := 1, name := strncpy name 57 ++ [0],
        checksum := xor_fold ((new_entry name n).bytes.take 63) } := by
    unfold entry_at
    rw [(set_entry_slots blk i _ hdl i1).1, new_entry_parse name n hn2, ← new_entry_name]
  have hslot_j : ∀ j, j < 64 → j ≠ i →
      entry_at (set_entry blk i (new_entry name n)) j = entry_at blk j := by
    intro j hj hne
    unfold entry_at
    rw [(set_entry_slots blk i _ hdl i1).2 j hj hne]
  generalize set_entry blk i (new_entry name n) = nd at *
  have hdir : (inode_t.parse (bump_root root t).bytes).direct.getD 0 0 =
      root.direct.getD 0 0 := bump_root_parse_direct root t hrootlt
  have hdo' : dir_offset (inode_t.parse (bump_root root t).bytes) = doff := by
    rw [← hdo]
    unfold dir_offset
    rw [hdir]
  have hrb := inode_bytes_length (bump_root root t)
  generalize (bump_root root t).bytes = rb at *
  generalize pwrite (pwrite d io rb) doff nd = d' at *
  have after : ∀ (nm : List Nat) (p : Nat),
      ((file_exists_in_root ⟨d', p⟩ sb nm).1, (file_exists_in_root ⟨d', p⟩ sb nm).2.1) =
        match find_name nd nm (BS / 64) 0 with
        | some ino => (1, some ino)
        | none => (0, none) :=
    fun nm p => file_exists_in_root_find ⟨d', p⟩ sb nm (inode_t.parse rb) nd
      (by rw [hio]; exact hoff) (by rw [hio, hIS, w2]; exact hrb)
      (by rw [hio, hIS, w2]) (by rw [hdir]; exact h0) (by rw [hdo', BS_eq, w3])
      (by rw [BS_eq]; exact hndl)
  have before : ∀ (nm : List Nat) (p : Nat),
      ((file_exists_in_root ⟨d, p⟩ sb nm).1, (file_exists_in_root ⟨d, p⟩ sb nm).2.1) =
        match find_name blk nm (BS / 64) 0 with
        | some ino => (1, some ino)
        | none => (0, none) :=
    fun nm p => file_exists_in_root_find ⟨d, p⟩ sb nm root blk
      (by rw [hio]; exact hoff) (by rw [hio]; exact hr)
      (by rw [hio]; exact hroot.symm) h0 (by rw [hdo]; exact hblk.symm)
      (by rw [BS_eq]; exact hdl)
  have hfound : find_name nd name (BS / 64) 0 = some n := by
    rw [find_name_some]
    refine ⟨i, Nat.zero_le _, by rw [h64]; exact i1, ⟨?_, ?_⟩, ?_, ?_⟩
    · rw [hslot_i]
      exact Nat.ne_of_gt hn1
    · rw [hslot_i]
      exact (stored_name_matches name name hlen hnz hlen hnz).mpr rfl
    · intro j _ hj
      rw [hslot_j j (by omega) (Nat.ne_of_lt hj)]
      exact hnone' j (Nat.zero_le _) (by omega)
    · rw [hslot_i]
  have hname := after name p2
  rw [hfound] at hname
  refine ⟨rfl, (Prod.mk.inj hname).1, (Prod.mk.inj hname).2, ?_⟩
  intro other holen honz hne
  have hsame : find_name nd other (BS / 64) 0 = find_name blk other (BS / 64) 0 := by
    apply find_name_congr
    intro j _ hj
    rw [h64] at hj
    by_cases hji : j = i
    · subst hji
      rw [hslot_i]
      constructor
      · constructor
        · rintro ⟨_, hm⟩
          exact absurd ((stored_name_matches name other hlen hnz holen honz).mp hm).symm hne
        · rintro ⟨hocc, _⟩
          exact absurd i2 hocc
      · rintro ⟨hocc, _⟩
        exact absurd i2 hocc
    · rw [hslot_j j hj hji]
      exact ⟨Iff.rfl, fun _ => rfl⟩
  have ha := after other p2
  have hb := before other p3
  rw [hsame] at ha
  rw [← hb] at ha
  exact ⟨(Prod.mk.inj ha).1, (Prod.mk.inj ha).2⟩

theorem alias_offsets : inode_offset alias_sb ROOT_INO = 4096 ∧
    dir_offset (sample_root 1 0 0) = 4096 ∧
    inode_t.parse (sample_root 1 0 0).bytes = sample_root 1 0 0 := by
  refine ⟨by decide, by decide, ?_⟩
  rw [inode_parse_bytes]; decide

theorem alias_image_reads : alias_image.length = 8192 ∧
    (alias_image.drop 4096).take 128 = (sample_root 1 0 0).bytes ∧
    (alias_image.drop 4096).take 4096 = block_of (sample_root 1 0 0).bytes := by
  have hl : (List.replicate BS 0).length = 4096 := List.length_replicate _ _
  refine ⟨?_, ?_, ?_⟩
  · unfold alias_image
    rw [List.length_append, block_of_length, hl]
    rfl
  · unfold alias_image
    rw [List.drop_left' hl]
    have := take_block_of (sample_root 1 0 0).bytes [] 128 (inode_bytes_length _) (by decide)
    rw [List.append_nil] at this
    exact this
  · unfold alias_image
    rw [List.drop_left' hl]
    exact List.take_of_length_le (by rw [block_of_length]; exact Nat.le_refl _)

theorem alias_slots (i : Nat) (hi : i < 64) :
    (entry_at (block_of (sample_root 1 0 0).bytes) i).inode_no = 0 := by
  rcases Nat.lt_or_ge i 2 with h | h
  · have : i = 0 ∨ i = 1 := by omega
    rcases this with h | h <;> subst h <;> decide
  · unfold entry_at block_of
    rw [slot_zero _ _ _ (by rw [inode_bytes_length]; omega) (by rw [BS_eq]; omega),
      entry_at_zero]

/-- On `alias_image` the root inode has `direct[0] = 1`, the block it points to is the inode
table block, so the slot of the root inode is slot 0 and 1 of the directory; slot 0 is
empty and the name `a` is not found. `add_to_root_directory` succeeds, writes the root
inode and then the directory block over it, so that `direct[0]` now reads bytes 39..42 of
the name field, which are 0: the lookup of `a` fails with -1 instead of finding it. -/
theorem lookup_after_insert_alias :
    (inode_t.parse ((alias_image.drop (inode_offset alias_sb ROOT_INO)).take
      INODE_SIZE)).direct.getD 0 0 = 1 ∧
    dir_offset (inode_t.parse ((alias_image.drop (inode_offset alias_sb ROOT_INO)).take
      INODE_SIZE)) = inode_offset alias_sb ROOT_INO ∧
    (entry_at (block alias_image 1) 0).inode_no = 0 ∧
    (file_exists_in_root ⟨alias_image, 0⟩ alias_sb [97]).1 = 0 ∧
    (add_to_root_directory ⟨alias_image, 0⟩ alias_sb [97] 2 0).1 = 0 ∧
    (file_exists_in_root (add_to_root_directory ⟨alias_image, 0⟩ alias_sb [97] 2 0).2
      alias_sb [97]).1 = -1 := by
  obtain ⟨o1, o2, o3⟩ := alias_offsets
  obtain ⟨hl, r1, r2⟩ := alias_image_reads
  have hIS : INODE_SIZE = 128 := rfl
  have hroot : inode_t.parse ((alias_image.drop (inode_offset alias_sb ROOT_INO)).take
      INODE_SIZE) = sample_root 1 0 0 := by
    rw [o1, hIS, r1, o3]
  have hblk : block alias_image 1 = block_of (sample_root 1 0 0).bytes := r2
  have hbl : (block_of (sample_root 1 0 0).bytes).length = 4096 := block_of_length _
  obtain ⟨k1, k2⟩ := add_to_root_directory_found ⟨alias_image, 0⟩ alias_sb [97] 2 0
    (sample_root 1 0 0) (block_of (sample_root 1 0 0).bytes) 0
    (by rw [o1]; decide) (by rw [o1, r1, inode_bytes_length]) (by rw [← hIS, hroot])
    (by rw [o2, BS_eq]; exact r2.symm) hbl (by decide) (alias_slots 0 (by decide))
    (fun j hj => absurd hj (Nat.not_lt_zero j))
  refine ⟨by rw [hroot]; rfl, by rw [hroot, o1, o2], by rw [hblk]; exact alias_slots 0 (by decide),
    ?_, k1, ?_⟩
  · have key := file_exists_in_root_find ⟨alias_image, 0⟩ alias_sb [97] (sample_root 1 0 0)
      (block_of (sample_root 1 0 0).bytes) (by rw [o1]; decide)
      (by rw [o1, hIS, r1, inode_bytes_length]) hroot.symm (by decide)
      (by rw [o2, BS_eq]; exact r2.symm) hbl
    rw [(find_name_none _ _ _ _).mpr (fun k _ hk h => h.1 (alias_slots k hk))] at key
    exact (Prod.mk.inj key).1
  · rw [o1, o2] at k2
    simp only [] at k2
    have hrb := inode_bytes_length (bump_root (sample_root 1 0 0) 0)
    have hndl : (set_entry (block_of (sample_root 1 0 0).bytes) 0 (new_entry [97] 2)).length =
        4096 := set_entry_length _ 0 _ hbl (by decide)
    have hl1 : (pwrite alias_image 4096 (bump_root (sample_root 1 0 0) 0).bytes).length =
        8192 := by
      rw [pwrite_length _ _ _ (by rw [hrb, hl]; decide), hl]
    have hrd := read_pwrite_same
      (pwrite alias_image 4096 (bump_root (sample_root 1 0 0) 0).bytes) 4096
      (set_entry (block_of (sample_root 1 0 0).bytes) 0 (new_entry [97] 2))
      (by rw [hndl, hl1])
    rw [hndl, ← k2] at hrd
    have hrd' : (((add_to_root_directory ⟨alias_image, 0⟩ alias_sb [97] 2 0).2.data.drop
        (inode_offset alias_sb ROOT_INO)).take INODE_SIZE) =
        (set_entry (block_of (sample_root 1 0 0).bytes) 0 (new_entry [97] 2)).take 128 := by
      rw [← hrd, List.take_take, o1]
      rfl
    have key := file_exists_in_root_eq (add_to_root_directory ⟨alias_image, 0⟩ alias_sb [97] 2
      0).2 alias_sb [97] (by rw [o1]; decide)
      (by rw [hrd', List.length_take, hndl]; rfl)
    rw [hrd', if_pos (by decide)] at key
    exact (Prod.mk.inj key).1

theorem block_of_bytes (r : List Nat) (h : ∀ b ∈ r, b < 256) : ∀ b ∈ block_of r, b < 256 := by
  unfold block_of fit
  intro b hb
  rcases List.mem_append.mp hb with h1 | h1
  · exact h b (List.mem_of_mem_take h1)
  · rw [List.eq_of_mem_replicate h1]
    decide

set_option maxRecDepth 100000 in
theorem sample_records_bytes : (∀ b ∈ (sample_root 1 0 0).bytes, b < 256) ∧
    (∀ b ∈ (⟨0, 0, List.replicate 58 0, 0⟩ : dirent64_t).bytes, b < 256) :=
  ⟨by decide, by decide⟩

/-- The two-block sample image with an empty directory block: it consists of bytes, the
slot of its root inode lies outside its directory block, and no name is found in it. -/
theorem sample_image_lookup (name : List Nat) (p : Nat) :
    (∀ b ∈ sample_image (sample_root 1 0 0) ⟨0, 0, List.replicate 58 0, 0⟩, b < 256) ∧
    dir_offset (inode_t.parse (((sample_image (sample_root 1 0 0)
      ⟨0, 0, List.replicate 58 0, 0⟩).drop (inode_offset zero_sb ROOT_INO)).take INODE_SIZE)) ≠
      inode_offset zero_sb ROOT_INO ∧
    (file_exists_in_root ⟨sample_image (sample_root 1 0 0) ⟨0, 0, List.replicate 58 0, 0⟩, p⟩
      zero_sb name).1 = 0 ∧
    (entry_at (((sample_image (sample_root 1 0 0) ⟨0, 0, List.replicate 58 0, 0⟩).drop
      (dir_offset (inode_t.parse (((sample_image (sample_root 1 0 0)
        ⟨0, 0, List.replicate 58 0, 0⟩).drop (inode_offset zero_sb ROOT_INO)).take
        INODE_SIZE)))).take BS) 0).inode_no = 0 := by
  obtain ⟨s1, s2, s3⟩ := sample_image_empty 0 0 (by decide) (by decide)
  obtain ⟨r1, r2, r3, r4, r5⟩ := sample_image_reads (sample_root 1 0 0)
    ⟨0, 0, List.replicate 58 0, 0⟩
  have hIS : INODE_SIZE = 128 := rfl
  have hdo : dir_offset (sample_root 1 0 0) = 1 * BS % 2 ^ 32 := rfl
  have hslots : ∀ k, k < 64 →
      (entry_at (block_of (⟨0, 0, List.replicate 58 0, 0⟩ : dirent64_t).bytes) k).inode_no =
        0 := by
    intro k hk
    rcases Nat.eq_zero_or_pos k with h | h
    · rw [h]; exact s3
    · unfold entry_at
      rw [r4 k h hk, entry_at_zero]
  refine ⟨?_, ?_, ?_, ?_⟩
  · unfold sample_image
    intro b hb
    rcases List.mem_append.mp hb with h | h
    · exact block_of_bytes _ sample_records_bytes.1 b h
    · exact block_of_bytes _ sample_records_bytes.2 b h
  · rw [hIS, s1]
    decide
  · have key := file_exists_in_root_find
      ⟨sample_image (sample_root 1 0 0) ⟨0, 0, List.replicate 58 0, 0⟩, p⟩ zero_sb name
      (sample_root 1 0 0) (block_of (⟨0, 0, List.replicate 58 0, 0⟩ : dirent64_t).bytes)
      (by decide) (by rw [r1, inode_bytes_length]; rfl) (by rw [hIS]; exact s1.symm)
      (by decide)
      (by rw [hdo]; exact r2.symm) (block_of_length _)
    rw [(find_name_none _ _ _ _).mpr (fun k _ hk h => h.1 (hslots k hk))] at key
    exact (Prod.mk.inj key).1
  · rw [hIS, s1, hdo, r2]
    exact s3

theorem lookup_after_insert_witness :
    (file_exists_in_root ⟨sample_image (sample_root 1 0 0) ⟨0, 0, List.replicate 58 0, 0⟩, 0⟩
      zero_sb [102]).1 = 0 ∧
    (file_exists_in_root ⟨(add_to_root_directory
      ⟨sample_image (sample_root 1 0 0) ⟨0, 0, List.replicate 58 0, 0⟩, 0⟩ zero_sb [102] 2
        0).2.data, 0⟩ zero_sb [102]).2.1 = some 2 := by
  obtain ⟨h1, h2, h3, h4⟩ := sample_image_lookup [102] 0
  exact ⟨h3, (lookup_after_insert _ zero_sb [102] 2 0 0 0 0 0 h1 (by decide) h2 (by decide)
    (by decide) (by decide) (by decide) h3 ⟨0, by decide, h4⟩).2.2.1⟩

/-! ## Small images, valid and not -/

theorem small_blocks (drb dbit direct0 : Nat) :
    ∀ b ∈ [block_of (small_sb drb).bytes, 1 :: List.replicate (BS - 1) 0,
      dbit :: List.replicate (BS - 1) 0, block_of (sample_root direct0 2 128).bytes,
      block_of (dot_entry.bytes ++ dotdot_entry.bytes)] ++
      List.replicate (drb - 1) (List.replicate BS 0), b.length = BS := by
  intro b hb
  rcases List.mem_append.mp hb with h | h
  · simp only [List.mem_cons, List.mem_singleton, List.not_mem_nil, or_false] at h
    rcases h with h | h | h | h | h <;> rw [h]
    · exact block_of_length _
    · exact bitmap_block_length
    · rw [List.length_cons, List.length_replicate, BS_eq]
    · exact block_of_length _
    · exact block_of_length _
  · rw [List.eq_of_mem_replicate h, List.length_replicate]

theorem small_length (drb dbit direct0 : Nat) (hd : 1 ≤ drb) :
    (small_image drb dbit direct0).length = (4 + drb) * 4096 := by
  unfold small_image
  rw [flatten_length_of _ (small_blocks drb dbit direct0), BS_eq, List.length_append,
    List.length_replicate]
  show (5 + (drb - 1)) * 4096 = _
  congr 1
  omega

theorem small_block (drb dbit direct0 : Nat) :
    block (small_image drb dbit direct0) 1 = 1 :: List.replicate (BS - 1) 0 ∧
    block (small_image drb dbit direct0) 2 = dbit :: List.replicate (BS - 1) 0 ∧
    block (small_image drb dbit direct0) 3 = block_of (sample_root direct0 2 128).bytes ∧
    block (small_image drb dbit direct0) 4 =
      block_of (dot_entry.bytes ++ dotdot_entry.bytes) := by
  have hl : ∀ k, k < 5 → k < ([block_of (small_sb drb).bytes, 1 :: List.replicate (BS - 1) 0,
      dbit :: List.replicate (BS - 1) 0, block_of (sample_root direct0 2 128).bytes,
      block_of (dot_entry.bytes ++ dotdot_entry.bytes)] ++
      List.replicate (drb - 1) (List.replicate BS 0)).length := by
    intro k hk
    rw [List.length_append]
    exact Nat.lt_of_lt_of_le hk (Nat.le_add_right 5 _)
  unfold small_image
  refine ⟨?_, ?_, ?_, ?_⟩
  · rw [block_flatten_get _ (small_blocks drb dbit direct0) 1 (hl 1 (by decide))]; rfl
  · rw [block_flatten_get _ (small_blocks drb dbit direct0) 2 (hl 2 (by decide))]; rfl
  · rw [block_flatten_get _ (small_blocks drb dbit direct0) 3 (hl 3 (by decide))]; rfl
  · rw [block_flatten_get _ (small_blocks drb dbit direct0) 4 (hl 4 (by decide))]; rfl

theorem small_take (drb dbit direct0 : Nat) :
    (small_image drb dbit direct0).take 116 = (small_sb drb).bytes := by
  unfold small_image
  rw [List.cons_append, List.flatten_cons]
  exact take_block_of _ _ 116 (superblock_bytes_length _) (by rw [BS_eq]; decide)

theorem small_root (drb dbit direct0 : Nat) :
    ((small_image drb dbit direct0).drop 12288).take 128 =
      (sample_root direct0 2 128).bytes := by
  have hb := (small_block drb dbit direct0).2.2.1
  unfold block at hb
  rw [BS_eq] at hb
  have e : ((small_image drb dbit direct0).drop 12288).take 128 =
      (((small_image drb dbit direct0).drop (3 * 4096)).take 4096).take 128 := by
    rw [List.take_take]; rfl
  rw [e, hb]
  exact block_of_take _ 128 (inode_bytes_length _) (by rw [BS_eq]; decide)

/-- The first part of `main` on any image with a superblock that carries the magic number,
when the lookup of the name returns 0. -/
theorem adder_lookup_run (img file_name content : List Nat) (st_mtime : Nat)
    (now : Nat → Nat) (sb : superblock_t) (h116 : (img.take 116).length = 116)
    (hsb : superblock_t.parse (img.take 116) = sb) (hmagic : sb.magic = 0x4D565346)
    (hbn : (content.length + BS - 1) % 2 ^ 64 / BS ≤ DIRECT_MAX)
    (hlook : (file_exists_in_root ⟨img, 0 + (img.take 116).length⟩ sb
      (derived_name file_name)).1 = 0) :
    ∃ f1 : FILE, f1.data = img ∧
      mkfs_adder img file_name content st_mtime now =
        adder_allocate f1 sb (derived_name file_name) content st_mtime now
          ((content.length + BS - 1) % 2 ^ 64 / BS) := by
  have hfe2 := file_exists_in_root_data ⟨img, 0 + (img.take 116).length⟩ sb
    (derived_name file_name)
  rw [mkfs_adder_eq, if_neg (Nat.not_lt.mpr hbn), if_neg (by rw [h116]; simp), hsb,
    if_neg (by rw [hmagic]; simp)]
  unfold derived_name at hfe2 hlook ⊢
  generalize strncpy (basename file_name) 57 ++ [0] = name at *
  generalize (content.length + BS - 1) % 2 ^ 64 / BS = bn at *
  rw [hlook, if_neg (by decide), if_neg (by decide)]
  exact ⟨_, hfe2, rfl⟩

theorem small_sb_parse_1 (dbit direct0 : Nat) :
    superblock_t.parse ((small_image 1 dbit direct0).take 116) = small_sb 1 := by
  rw [small_take, superblock_parse_bytes]
  rfl

theorem small_sb_parse_3 (dbit direct0 : Nat) :
    superblock_t.parse ((small_image 3 dbit direct0).take 116) = small_sb 3 := by
  rw [small_take, superblock_parse_bytes]
  rfl

theorem small_root_parse (drb dbit : Nat) :
    inode_t.parse (((small_image drb dbit 4).drop 12288).take 128) = sample_root 4 2 128 ∧
    inode_t.parse (((small_image drb dbit 2).drop 12288).take 128) = sample_root 2 2 128 := by
  rw [small_root, small_root, inode_parse_bytes, inode_parse_bytes]
  exact ⟨by decide, by decide⟩

theorem small_valid : valid_image (small_image 3 1 4) := by
  obtain ⟨h1, h2, _, _⟩ := small_block 3 1 4
  constructor
  · rw [small_sb_parse_3]; rfl
  · rw [small_sb_parse_3]; rfl
  · rw [small_sb_parse_3]; rfl
  · rw [small_sb_parse_3]; rfl
  · rw [small_sb_parse_3]; decide
  · rw [small_sb_parse_3]; decide
  · rw [small_sb_parse_3]; decide
  · rw [small_sb_parse_3]; decide
  · rw [small_sb_parse_3]; decide
  · rw [small_sb_parse_3, small_length 3 1 4 (by decide)]; rfl
  · rw [small_sb_parse_3, (small_root_parse 3 1).1]
    rfl
  · rw [h1, get_bit_first]; rfl
  · rw [h2, get_bit_first]; rfl

theorem small_root_dir : root_dir_block (small_image 3 1 4) =
    block_of (dot_entry.bytes ++ dotdot_entry.bytes) := by
  unfold root_dir_block
  rw [small_sb_parse_3]
  exact (small_block 3 1 4).2.2.2

theorem zero_block_slots (i : Nat) (hi : i < 64) :
    (entry_at (0 :: List.replicate (BS - 1) 0) i).inode_no = 0 := by
  have e : (0 :: List.replicate (BS - 1) 0 : List Nat) = fit [] BS := rfl
  unfold entry_at
  rw [e, slot_zero [] BS i (Nat.zero_le _) (by rw [BS_eq]; omega), entry_at_zero]

/-- The lookup and the allocation of the inode on `small_image 1 0 direct0`, an image of 5
blocks whose data bitmap is all zero: when the lookup returns 0 the run goes on in
`adder_allocate` on a stream with the content of the image. -/
theorem small_lookup (direct0 : Nat) (content : List Nat) (hc : content.length ≤ 49152)
    (hlook : ∀ p, (file_exists_in_root ⟨small_image 1 0 direct0, p⟩ (small_sb 1)
      (derived_name [102])).1 = 0) :
    ∃ f1 : FILE, f1.data = small_image 1 0 direct0 ∧
      mkfs_adder (small_image 1 0 direct0) [102] content 0 (fun _ => 0) =
        adder_allocate f1 (small_sb 1) (derived_name [102]) content 0 (fun _ => 0)
          ((content.length + 4095) / 4096) := by
  obtain ⟨hbe, hbn12⟩ := blocks_needed_eq content.length hc
  have h := adder_lookup_run (small_image 1 0 direct0) [102] content 0 (fun _ => 0)
    (small_sb 1) (by rw [small_take, superblock_bytes_length]) (small_sb_parse_1 0 direct0) rfl
    (by rw [hbe]; exact hbn12) (hlook _)
  rw [hbe] at h
  exact h

/-- C20 as stated fails on an image whose root inode points at the data bitmap: on
`small_image 1 0 2` the root inode has `direct[0] = 2`, inode 2 is free, one bit of the data
bitmap is clear in range and the file needs 2 blocks. The run claims inode 2 and the one
block, fails on the second and exits with 1; the block `direct[0]` points to, which the
code reads as the root directory, is the data bitmap and has changed. -/
theorem adder_no_rollback_alias :
    (inode_t.parse (((small_image 1 0 2).drop 12288).take 128)).direct.getD 0 0 = 2 ∧
    get_bit (block (small_image 1 0 2) 1) 1 = false ∧
    clear_count (block (small_image 1 0 2) 2)
      (superblock_t.parse ((small_image 1 0 2).take 116)).data_region_blocks = 1 ∧
    ((List.replicate 4097 7).length + 4095) / 4096 = 2 ∧
    ∃ out, mkfs_adder (small_image 1 0 2) [102] (List.replicate 4097 7) 0 (fun _ => 0) =
        (1, some out) ∧
      get_bit (block out 1) 1 = true ∧
      get_bit (block (small_image 1 0 2) 2) 0 = false ∧ get_bit (block out 2) 0 = true ∧
      block out 2 ≠ block (small_image 1 0 2) 2 := by
  obtain ⟨hk1, hk2, _, _⟩ := small_block 1 0 2
  have hroot := (small_root_parse 1 0).2
  have hlen := small_length 1 0 2 (by decide)
  have hb1 : get_bit (block (small_image 1 0 2) 1) 1 = false := by
    rw [hk1, get_bit_first]; rfl
  have hb2 : get_bit (block (small_image 1 0 2) 2) 0 = false := by
    rw [hk2]; decide
  have hcc : clear_count (block (small_image 1 0 2) 2) 1 = 1 := by
    rw [hk2]; decide
  have hIS : INODE_SIZE = 128 := rfl
  have hio : inode_offset (small_sb 1) ROOT_INO = 12288 :=
    inode_offset_of (small_sb 1) 1 rfl (by decide) (by decide)
  have hlook : ∀ p, (file_exists_in_root ⟨small_image 1 0 2, p⟩ (small_sb 1)
      (derived_name [102])).1 = 0 := by
    intro p
    have key := file_exists_in_root_find ⟨small_image 1 0 2, p⟩ (small_sb 1)
      (derived_name [102]) (sample_root 2 2 128) (0 :: List.replicate (BS - 1) 0)
      (by rw [hio]; decide) (by rw [hio, hIS, small_root, inode_bytes_length])
      (by rw [hio, hIS]; exact hroot.symm) (by decide)
      (by
        show _ = ((small_image 1 0 2).drop (2 * BS % 2 ^ 32)).take BS
        exact hk2.symm)
      (by rw [List.length_cons, List.length_replicate, BS_eq])
    rw [(find_name_none _ _ _ _).mpr (fun k _ hk h => h.1 (zero_block_slots k hk))] at key
    exact (Prod.mk.inj key).1
  obtain ⟨f1, hf1, hrun⟩ := small_lookup 2 (List.replicate 4097 7)
    (by rw [List.length_replicate]; decide) hlook
  rw [List.length_replicate] at hrun
  have hbn : (4097 + 4095) / 4096 = 2 := rfl
  rw [hbn] at hrun
  refine ⟨by rw [hroot]; rfl, hb1, by rw [small_sb_parse_1]; exact hcc,
    by rw [List.length_replicate], ?_⟩
  rw [hrun]
  rcases adder_allocate_stage f1 (small_sb 1) (derived_name [102]) (List.replicate 4097 7) 0
    (fun _ => 0) 2 4 1 32 rfl rfl rfl rfl rfl (by decide) (by decide) (by decide)
    (by rw [hf1, hlen]) (by decide) with
    ⟨hall, _⟩ | ⟨p, res, f3, c1, c2, c3, c4, c5, c6, c7, c8, c9, c10, c11⟩
  · rw [hf1] at hall
    rw [hall 1 (by decide) (by decide)] at hb1
    cases hb1
  rw [hf1] at c3 c4 c7 c10 c11
  have hp : p = 1 := by
    rcases Nat.lt_or_ge p 1 with h | h
    · have h0 : p = 0 := by omega
      rw [h0, hk1, get_bit_first] at c3
      cases c3
    · rcases Nat.lt_or_ge 1 p with h' | h'
      · rw [c4 1 h'] at hb1
        cases hb1
      · omega
  cases res with
  | some dbs =>
    have := (c11 dbs rfl).1
    rw [hcc] at this
    exact absurd this (by decide)
  | none =>
    obtain ⟨_, d2, d3⟩ := c10 rfl
    have ho2 : get_bit (block f3.data 2) 0 = true := d2 0 (by decide)
    refine ⟨f3.data, d3, ?_, hb2, ho2, ?_⟩
    · rw [c7, hp, get_bit_set_bit _ _ _ (by rw [hk1, bitmap_block_length, BS_eq]; decide)]
      simp
    · intro h
      rw [h, hb2] at ho2
      cases ho2

/-- C14 as stated fails on an image in which the bit of the root directory block is clear
in the data bitmap: on `small_image 1 0 4` the inserter succeeds for a file of 100 bytes
(a byte 7, then zeros), claims inode 2 and, for the content, block 4, the root directory
block itself; it writes the content there and then the directory entry into slot 1 of the
same block, so that the first 100 bytes of the block named by `direct[0]` are not the
content of the file. -/
theorem adder_content_roundtrip_alias :
    ∃ out, mkfs_adder (small_image 1 0 4) [102] (7 :: List.replicate 99 0) 0 (fun _ => 0) =
        (0, some out) ∧
      get_bit (block (small_image 1 0 4) 1) 1 = false ∧ get_bit (block out 1) 1 = true ∧
      (inode_t.parse ((out.drop (inode_offset
        (superblock_t.parse ((small_image 1 0 4).take 116)) 2)).take 128)).direct.getD 0 0 =
        4 ∧
      (block out 4).take 100 ≠ 7 :: List.replicate 99 0 := by
  obtain ⟨hk1, hk2, _, hk4⟩ := small_block 1 0 4
  have hroot := (small_root_parse 1 0).1
  have hlen := small_length 1 0 4 (by decide)
  have hb1 : get_bit (block (small_image 1 0 4) 1) 1 = false := by
    rw [hk1, get_bit_first]; rfl
  have hcc : clear_count (block (small_image 1 0 4) 2) 1 = 1 := by
    rw [hk2]; decide
  have hIS : INODE_SIZE = 128 := rfl
  have hio : inode_offset (small_sb 1) ROOT_INO = 12288 :=
    inode_offset_of (small_sb 1) 1 rfl (by decide) (by decide)
  have hio2 : inode_offset (small_sb 1) (1 + 1) = 12416 :=
    inode_offset_of (small_sb 1) 2 rfl (by decide) (by decide)
  have hlook : ∀ p, (file_exists_in_root ⟨small_image 1 0 4, p⟩ (small_sb 1)
      (derived_name [102])).1 = 0 := by
    intro p
    refine lookup_absent ⟨small_image 1 0 4, p⟩ (small_sb 1) (derived_name [102]) 4 rfl
      (by rw [hlen]) (by decide) (by decide) (by rw [hroot]; rfl) ?_
    intro i hi
    rw [hk4]
    exact dot_dir_no_match [102] (by decide) (by decide) i hi
  have hclen : (7 :: List.replicate 99 0 : List Nat).length = 100 := by
    rw [List.length_cons, List.length_replicate]
  obtain ⟨f1, hf1, hrun⟩ := small_lookup 4 (7 :: List.replicate 99 0)
    (by rw [hclen]; decide) hlook
  rw [hclen] at hrun
  have hbn : (100 + 4095) / 4096 = 1 := rfl
  rw [hbn] at hrun
  rw [small_sb_parse_1, hrun]
  generalize hc : (7 :: List.replicate 99 0 : List Nat) = c at *
  rcases adder_allocate_stage f1 (small_sb 1) (derived_name [102]) c 0
    (fun _ => 0) 1 4 1 32 rfl rfl rfl rfl rfl (by decide) (by decide) (by decide)
    (by rw [hf1, hlen]) (by decide) with
    ⟨hall, _⟩ | ⟨p, res, f3, c1, c2, c3, c4, c5, c6, c7, c8, c9, c10, c11⟩
  · rw [hf1] at hall
    rw [hall 1 (by decide) (by decide)] at hb1
    cases hb1
  rw [hf1] at c3 c4 c5 c6 c7 c10 c11
  have hp : p = 1 := by
    rcases Nat.lt_or_ge p 1 with h | h
    · have h0 : p = 0 := by omega
      rw [h0, hk1, get_bit_first] at c3
      cases c3
    · rcases Nat.lt_or_ge 1 p with h' | h'
      · rw [c4 1 h'] at hb1
        cases hb1
      · omega
  subst hp
  cases res with
  | none =>
    have := (c10 rfl).1
    rw [hcc] at this
    exact absurd this (by decide)
  | some dbs =>
    obtain ⟨_, d2, d3, d4, _, _, d7⟩ := c11 dbs rfl
    have hd0 : dbs.getD 0 0 = 4 := by
      obtain ⟨q, q1, q2, _⟩ := d4 0 (by decide)
      rw [q2]
      omega
    rw [d7, adder_commit_eq, hio2]
    have hfbl := inode_bytes_length (file_inode c 0 (fun _ => 0) dbs)
    have hdir : (inode_t.parse (file_inode c 0 (fun _ => 0) dbs).bytes).direct.getD 0 0 =
        4 := by
      rw [inode_parse_bytes]
      show ((List.range 12).map (fun i => dbs.getD i 0 % 2 ^ 32)).getD 0 0 = _
      rw [getD_map_range _ 0 (by decide), hd0]
      rfl
    generalize (file_inode c 0 (fun _ => 0) dbs).bytes = fb at hfbl hdir ⊢
    have hl3 : f3.data.length = 20480 := by rw [c5, hlen]
    have hd4 := fwrite_fseek_data f3 12416 fb (by decide)
    have hl4 : (fwrite (fseek f3 12416) fb).data.length = 20480 := by
      rw [hd4, pwrite_length _ _ _ (by rw [hfbl, hl3]; decide), hl3]
    have hrange : ∀ k, 0 ≤ k → k < 0 + 1 → 4 ≤ dbs.getD k 0 ∧ dbs.getD k 0 < 5 := by
      intro k _ hk
      have : k = 0 := by omega
      rw [this, hd0]
      exact ⟨by decide, by decide⟩
    obtain ⟨w1, w2⟩ := write_blocks_frame dbs 4 5 1 0 (fwrite (fseek f3 12416) fb) ⟨c, 0⟩
      hrange (by rw [hl4]) (by decide)
    obtain ⟨_, _, w3⟩ := write_blocks_content c dbs 5 1 0 (fwrite (fseek f3 12416) fb) ⟨c, 0⟩
      rfl (by simp) (fun k h1 h2 => (hrange k h1 h2).2)
      (fun j k _ hjk hk => absurd hjk (by omega)) (by rw [hl4]) (by decide)
    have w3' := w3 0 (Nat.le_refl 0) (by decide)
    rw [hd0] at w3'
    generalize write_blocks (fwrite (fseek f3 12416) fb) ⟨c, 0⟩ dbs 1 0 = W at *
    have hlW : W.data.length = 20480 := by rw [w1, hl4]
    have hrW : (W.data.drop 12288).take 128 = (sample_root 4 2 128).bytes := by
      rw [w2 12288 128 (Or.inl (by decide)), hd4,
        read_pwrite_before _ _ _ 12288 128 (by rw [hfbl, hl3]; decide) (by decide),
        c6 12288 128 (Or.inr (Nat.le_refl _)), small_root]
    have hsW : (W.data.drop 12416).take 128 = fb := by
      rw [w2 12416 128 (Or.inl (by decide)), hd4]
      have := read_pwrite_same f3.data 12416 fb (by rw [hfbl, hl3]; decide)
      rw [hfbl] at this
      exact this
    have hbW : block W.data 1 = set_bit (block (small_image 1 0 4) 1) 1 := by
      rw [← c7]
      unfold block
      rw [BS_eq, w2 (1 * 4096) 4096 (Or.inl (by decide)), hd4]
      exact read_pwrite_before _ _ _ (1 * 4096) 4096 (by rw [hfbl, hl3]; decide) (by decide)
    have hparse : inode_t.parse (sample_root 4 2 128).bytes = sample_root 4 2 128 := by
      rw [inode_parse_bytes]; decide
    have hfl := file_block_length c 0
    obtain ⟨k1, k2⟩ := add_to_root_directory_found W (small_sb 1) (derived_name [102]) (1 + 1)
      0 (sample_root 4 2 128) (file_block c 0) 1 (by rw [hio]; decide)
      (by rw [hio, hrW, inode_bytes_length]) (by rw [hio, hrW, hparse])
      (by
        show _ = (W.data.drop (4 * BS % 2 ^ 32)).take BS
        exact w3'.symm)
      hfl (by decide) (by rw [← hc]; decide)
      (fun j hj => by
        have : j = 0 := by omega
        rw [this, ← hc]
        decide)
    rw [if_neg (by rw [k1]; decide), k2, hio]
    have hdo : dir_offset (sample_root 4 2 128) = 4 * 4096 := rfl
    rw [hdo]
    have hnd := set_entry_length (file_block c 0) 1 (new_entry (derived_name [102]) (1 + 1))
      hfl (by decide)
    obtain ⟨e1, e2, e3, e4⟩ := commit_reads W.data (bump_root (sample_root 4 2 128) 0).bytes
      (set_entry (file_block c 0) 1 (new_entry (derived_name [102]) (1 + 1))) 4
      (inode_bytes_length _) hnd (by decide) (by rw [hlW])
    refine ⟨_, rfl, hb1, ?_, ?_, ?_⟩
    · have : block (pwrite (pwrite W.data 12288 (bump_root (sample_root 4 2 128) 0).bytes)
          (4 * 4096) (set_entry (file_block c 0) 1 (new_entry (derived_name [102]) (1 + 1))))
          1 = block W.data 1 := by
        unfold block
        rw [BS_eq]
        exact e2 _ _ (Or.inl (by decide))
      rw [this, hbW, get_bit_set_bit _ _ _ (by rw [hk1, bitmap_block_length, BS_eq]; decide)]
      simp
    · rw [e2 12416 128 (Or.inr (Or.inl ⟨Nat.le_refl _, by decide⟩)), hsW]
      exact hdir
    · rw [e4, ← hc]
      decide

theorem adder_no_rollback_witness :
    ∃ out, mkfs_adder (small_image 3 1 4) [102] (List.replicate 8193 7) 0 (fun _ => 0) =
        (1, some out) ∧
      get_bit (block (small_image 3 1 4) 1) 1 = false ∧ get_bit (block out 1) 1 = true ∧
      get_bit (block (small_image 3 1 4) 2) 1 = false ∧
      get_bit (block (small_image 3 1 4) 2) 2 = false ∧
      get_bit (block out 2) 1 = true ∧ get_bit (block out 2) 2 = true ∧
      (out.drop 12288).take 128 = ((small_image 3 1 4).drop 12288).take 128 ∧
      root_dir_block out = root_dir_block (small_image 3 1 4) := by
  obtain ⟨hk1, hk2, _, _⟩ := small_block 3 1 4
  have hb1 : get_bit (block (small_image 3 1 4) 1) 1 = false := by
    rw [hk1, get_bit_first]; rfl
  obtain ⟨out, p, a1, _, a2, a3, a4, a5, a6, _, _, _, _, a7, a8⟩ :=
    adder_no_rollback (small_image 3 1 4) [102] (List.replicate 8193 7) 0 (fun _ => 0) 2
      small_valid (by rw [List.length_replicate]; decide)
      (by
        rw [small_root_dir]
        exact dot_dir_no_match [102] (by decide) (by decide))
      ⟨1, by rw [small_sb_parse_3]; decide, by decide, hb1⟩
      (by rw [small_sb_parse_3, hk2]; decide)
      (by rw [List.length_replicate]; decide)
  have hp : p = 1 := by
    rcases Nat.lt_or_ge p 1 with h | h
    · have h0 : p = 0 := by omega
      rw [h0, hk1, get_bit_first] at a3
      cases a3
    · rcases Nat.lt_or_ge 1 p with h' | h'
      · rw [a4 1 h'] at hb1
        cases hb1
      · omega
  refine ⟨out, a1, hb1, ?_, by rw [hk2, get_bit_first]; rfl, by rw [hk2, get_bit_first]; rfl,
    a6 1 (by rw [small_sb_parse_3]; decide), a6 2 (by rw [small_sb_parse_3]; decide), a7, a8⟩
  rw [a5 1, hp]
  simp

end Mkfs
